import Mathlib

/-!
# Parameter substitution for task specifications

A verification development for
`pkg/reconciler/v1alpha1/taskrun/resources/apply.go`: the construction of the
replacement map (`ApplyParameters`, `ApplyResources`) and the traversal that
applies it to every template field of a `TaskSpec` (`ApplyReplacements`).

Conventions of the embedding.
* A Go `string` is a Lean `String`; `fmt.Sprintf` with `%s` verbs is string
  concatenation.
* A Go `map[string]string` is an association list with pairwise distinct keys;
  `m[k] = v` is `GoMap.assign`, a read is `GoMap.index`.
* Ranging over a slice visits its indices in increasing order; ranging over a map
  is a left fold over an enumeration of its entries (Go leaves that order open,
  so every enumeration is a possible run).
* The functions are embedded twice. In the value view (`resources`) a slice is the
  list of its elements, a pointer is an `Option`, and the traversal passes the
  copy it rewrites as a value. In the memory view (`resources.mem`) structs behind
  pointers and backing arrays are cells of a heap, the traversal reads and writes
  cells, and sharing between the input and the result can be stated. The two views
  agree: on a heap that holds a specification and a map, the run of
  `mem.ApplyReplacements` returns and leaves, at the address returned, the
  specification that `resources.ApplyReplacements` computes
  (`mem.ApplyReplacements_refines`). The pointer to the TaskRun and the interface
  values of the resolved resources are nil or a value in the memory view, and a
  run that reads through nil does not return.
* `templating.ApplyReplacements` and `TaskSpec.DeepCopy` are called by `apply.go`
  and defined elsewhere. The traversal takes the former as a parameter; where a
  statement is about what the placeholder engine or the copy does, they are
  modelled from the specification, and their doc comments say so.
-/

/-! ## Go maps from strings to strings -/

/-- A Go `map[string]string`, as the list of its entries. -/
abbrev GoMap := List (String × String)

/-- The read `m[k]` together with its presence flag. -/
def GoMap.index (m : GoMap) (k : String) : Option String :=
  List.lookup k m

/-- The write `m[k] = v`: the entry for `k` is replaced, or added when absent. -/
def GoMap.assign (m : GoMap) (k v : String) : GoMap :=
  (k, v) :: m.filter (fun e => e.1 != k)


/-! ## The placeholder engine

The package `pkg/templating` is imported by `apply.go` and is not among the
sources. Its function is modelled from the contract the specification gives for
it; the delimiters, which the specification leaves to the implementer, are `$`
followed by an opening brace, and a closing brace. -/

namespace templating

/-- A piece of a template: one literal character, or one well-formed placeholder
with the key it delimits. -/
inductive Token where
  | lit (c : Char)
  | ph (key : List Char)
  deriving DecidableEq, Repr

/-- The state of the scan: in plain text, just after a `$`, or inside a
placeholder, after its opening delimiter, with the characters of the key read so
far (last one first). -/
inductive State where
  | text
  | dollar
  | key (acc : List Char)
  deriving DecidableEq, Repr

/-- Modelled from the spec: the scan of `templating.ApplyReplacements` (package
`pkg/templating`, not among the sources) for placeholder tokens. One pass, left to
right; a placeholder runs from its opening delimiter to the first closing brace;
an opening delimiter that is never closed is malformed and stays literal text. -/
def tokenize : State → List Char → List Token
  | State.text, [] => []
  | State.text, c :: cs =>
    if c = '$' then tokenize State.dollar cs else Token.lit c :: tokenize State.text cs
  | State.dollar, [] => [Token.lit '$']
  | State.dollar, c :: cs =>
    if c = '\x7b' then tokenize (State.key []) cs
    else if c = '$' then Token.lit '$' :: tokenize State.dollar cs
    else Token.lit '$' :: Token.lit c :: tokenize State.text cs
  | State.key acc, [] => Token.lit '$' :: Token.lit '\x7b' :: acc.reverse.map Token.lit
  | State.key acc, c :: cs =>
    if c = '\x7d' then Token.ph acc.reverse :: tokenize State.text cs
    else tokenize (State.key (c :: acc)) cs

/-- The text the scan has consumed and not yet turned into a token. -/
def State.pending : State → List Char
  | State.text => []
  | State.dollar => ['$']
  | State.key acc => '$' :: '\x7b' :: acc.reverse

/-- The text a token was read from. -/
def Token.text : Token → List Char
  | Token.lit c => [c]
  | Token.ph key => '$' :: '\x7b' :: (key ++ ['\x7d'])

/-- Modelled from the spec: what `templating.ApplyReplacements` (package
`pkg/templating`, not among the sources) emits for one token. A placeholder whose
key is in the map becomes the value of the key, inserted as it is; every other
token is left verbatim. -/
def render (replacements : GoMap) (t : Token) : List Char :=
  match t with
  | Token.lit c => [c]
  | Token.ph key =>
    match GoMap.index replacements (String.mk key) with
    | some v => v.data
    | none => t.text

/-- Modelled from the spec: `templating.ApplyReplacements` (package
`pkg/templating`, not among the sources), the contract `substitute(text, map)` of
the placeholder engine: the text is scanned once for placeholder tokens, every
well-formed placeholder whose key is in the map is replaced by the value of the
key, and unresolved or malformed placeholders are left as literal text. -/
def ApplyReplacements (text : String) (replacements : GoMap) : String :=
  String.mk ((tokenize State.text text.data).flatMap (render replacements))

/-- The keys of the well-formed placeholders of a text, in order. -/
def placeholders (text : String) : List String :=
  (tokenize State.text text.data).filterMap (fun t =>
    match t with
    | Token.lit _ => none
    | Token.ph key => some (String.mk key))

end templating

namespace resources

/-! ## Parameters -/

/-- A `v1alpha1.TaskParam`: a declared parameter with its default. -/
structure TaskParam where
  Name : String
  Default : String
  deriving DecidableEq, Repr

/-- A `v1alpha1.Param`: a parameter binding of a TaskRun. -/
structure Param where
  Name : String
  Value : String
  deriving DecidableEq, Repr

/-- The `Inputs` of a TaskRun, as far as `ApplyParameters` reads them. -/
structure TaskRunInputs where
  Params : List Param
  deriving DecidableEq, Repr

/-- A `v1alpha1.TaskRunSpec`. -/
structure TaskRunSpec where
  Inputs : TaskRunInputs
  deriving DecidableEq, Repr

/-- A `v1alpha1.TaskRun`. -/
structure TaskRun where
  Spec : TaskRunSpec
  deriving DecidableEq, Repr

/-- The first loop of `ApplyParameters`: every non-empty default is entered. -/
def ApplyParameters.setDefaults (replacements : GoMap) (defaults : List TaskParam) : GoMap :=
  defaults.foldl
    (fun m p => if p.Default ≠ "" then GoMap.assign m ("inputs.params." ++ p.Name) p.Default else m)
    replacements

/-- The second loop of `ApplyParameters`: every binding of the TaskRun is entered. -/
def ApplyParameters.setParams (replacements : GoMap) (params : List Param) : GoMap :=
  params.foldl (fun m p => GoMap.assign m ("inputs.params." ++ p.Name) p.Value) replacements

/-- The value of the local variable `replacements` of `ApplyParameters` when it
is handed to `ApplyReplacements`. -/
def ApplyParameters.replacements (tr : TaskRun) (defaults : List TaskParam) : GoMap :=
  ApplyParameters.setParams (ApplyParameters.setDefaults [] defaults) tr.Spec.Inputs.Params

/-! ## Resolved resources -/

/-- A `v1alpha1.PipelineResourceInterface`, as far as `ApplyResources` uses it: the
map returned by its method `Replacements()`. -/
structure PipelineResourceInterface where
  Replacements : GoMap
  deriving DecidableEq, Repr

/-- The inner loop of `ApplyResources`, over the exports of the resource bound to
`name`. -/
def ApplyResources.setExports (replacementStr name : String) (replacements : GoMap)
    (exports : GoMap) : GoMap :=
  exports.foldl
    (fun m kv => GoMap.assign m (replacementStr ++ ".resources." ++ name ++ "." ++ kv.1) kv.2)
    replacements

/-- The value of the local variable `replacements` of `ApplyResources` when it is
handed to `ApplyReplacements`; `resolvedResources` lists the entries of the Go map
in the order the run enumerates them. -/
def ApplyResources.replacements (resolvedResources : List (String × PipelineResourceInterface))
    (replacementStr : String) : GoMap :=
  resolvedResources.foldl
    (fun m nr => ApplyResources.setExports replacementStr nr.1 m nr.2.Replacements)
    []

/-! ## Task specifications

The Kubernetes and pipeline types are declared outside `apply.go`. Each structure
below has the fields `apply.go` names, under their Go names, and one field `Other`
that stands for all the remaining fields of the Go type. -/

/-- The fields of a Go struct that `apply.go` never names. -/
abbrev Untouched := String

/-- A `corev1.LocalObjectReference`. -/
structure LocalObjectReference where
  Name : String
  deriving DecidableEq, Repr

/-- A `corev1.SecretKeySelector`. -/
structure SecretKeySelector where
  LocalObjectReference : LocalObjectReference
  Key : String
  Other : Untouched
  deriving DecidableEq, Repr

/-- A `corev1.ConfigMapKeySelector`. -/
structure ConfigMapKeySelector where
  LocalObjectReference : LocalObjectReference
  Key : String
  Other : Untouched
  deriving DecidableEq, Repr

/-- A `corev1.EnvVarSource`. -/
structure EnvVarSource where
  ConfigMapKeyRef : Option ConfigMapKeySelector
  SecretKeyRef : Option SecretKeySelector
  Other : Untouched
  deriving DecidableEq, Repr

/-- A `corev1.EnvVar`. -/
structure EnvVar where
  Name : String
  Value : String
  ValueFrom : Option EnvVarSource
  deriving DecidableEq, Repr

/-- A `corev1.ConfigMapEnvSource`. -/
structure ConfigMapEnvSource where
  LocalObjectReference : LocalObjectReference
  Other : Untouched
  deriving DecidableEq, Repr

/-- A `corev1.SecretEnvSource`. -/
structure SecretEnvSource where
  LocalObjectReference : LocalObjectReference
  Other : Untouched
  deriving DecidableEq, Repr

/-- A `corev1.EnvFromSource`. -/
structure EnvFromSource where
  Prefix : String
  ConfigMapRef : Option ConfigMapEnvSource
  SecretRef : Option SecretEnvSource
  deriving DecidableEq, Repr

/-- A `corev1.VolumeMount`. -/
structure VolumeMount where
  Name : String
  MountPath : String
  SubPath : String
  Other : Untouched
  deriving DecidableEq, Repr

/-- A `corev1.Container`, the type of a step. -/
structure Container where
  Name : String
  Image : String
  Command : List String
  Args : List String
  WorkingDir : String
  EnvFrom : List EnvFromSource
  Env : List EnvVar
  VolumeMounts : List VolumeMount
  Other : Untouched
  deriving DecidableEq, Repr

/-- A `corev1.ConfigMapVolumeSource`. -/
structure ConfigMapVolumeSource where
  LocalObjectReference : LocalObjectReference
  Other : Untouched
  deriving DecidableEq, Repr

/-- A `corev1.SecretVolumeSource`. -/
structure SecretVolumeSource where
  SecretName : String
  Other : Untouched
  deriving DecidableEq, Repr

/-- A `corev1.PersistentVolumeClaimVolumeSource`. -/
structure PersistentVolumeClaimVolumeSource where
  ClaimName : String
  Other : Untouched
  deriving DecidableEq, Repr

/-- A `corev1.VolumeSource`; `Other` holds every source that is none of the three
named ones (host path, empty dir and so on). -/
structure VolumeSource where
  ConfigMap : Option ConfigMapVolumeSource
  Secret : Option SecretVolumeSource
  PersistentVolumeClaim : Option PersistentVolumeClaimVolumeSource
  Other : Untouched
  deriving DecidableEq, Repr

/-- A `corev1.Volume`. -/
structure Volume where
  Name : String
  VolumeSource : VolumeSource
  deriving DecidableEq, Repr

/-- A `v1alpha1.TaskSpec`. -/
structure TaskSpec where
  Steps : List Container
  Volumes : List Volume
  Other : Untouched
  deriving DecidableEq, Repr

/-- Modelled from the spec: `TaskSpec.DeepCopy`, generated code that `apply.go`
calls and does not define. The spec has it return a structural clone of the
specification; on values that is the specification itself. -/
def TaskSpec.DeepCopy (spec : TaskSpec) : TaskSpec := spec

/-- The loop `for i, x := range xs { xs[i] = body x }` over a slice: the indices
are visited in increasing order, the element is read when its index is visited
and the result of the body is stored back at that index. -/
def rangeStore {α : Type} (body : α → α) (xs : List α) : List α :=
  (List.range xs.length).foldl
    (fun acc i => match acc[i]? with
      | some x => acc.set i (body x)
      | none => acc)
    xs

section Traversal

/- The function `templating.ApplyReplacements` of the package `pkg/templating`,
which `apply.go` imports, is a parameter of the traversal. -/
variable (subst : String → GoMap → String)

/-- The writes of `ApplyReplacements` to the entry `steps[i].Env[ie]`. -/
def ApplyReplacements.env (replacements : GoMap) (e : EnvVar) : EnvVar :=
  let cur : EnvVar := { e with Value := subst e.Value replacements }
  match cur.ValueFrom with
  | none => cur
  | some vf =>
    let vf : EnvVarSource :=
      match vf.SecretKeyRef with
      | none => vf
      | some r =>
        let r : SecretKeySelector :=
          { r with LocalObjectReference :=
              { r.LocalObjectReference with
                Name := subst r.LocalObjectReference.Name replacements } }
        let r : SecretKeySelector := { r with Key := subst r.Key replacements }
        { vf with SecretKeyRef := some r }
    let vf : EnvVarSource :=
      match vf.ConfigMapKeyRef with
      | none => vf
      | some r =>
        let r : ConfigMapKeySelector :=
          { r with LocalObjectReference :=
              { r.LocalObjectReference with
                Name := subst r.LocalObjectReference.Name replacements } }
        let r : ConfigMapKeySelector := { r with Key := subst r.Key replacements }
        { vf with ConfigMapKeyRef := some r }
    { cur with ValueFrom := some vf }

/-- The writes of `ApplyReplacements` to the entry `steps[i].EnvFrom[ie]`. -/
def ApplyReplacements.envFrom (replacements : GoMap) (e : EnvFromSource) : EnvFromSource :=
  let cur : EnvFromSource := { e with Prefix := subst e.Prefix replacements }
  let cur : EnvFromSource :=
    match cur.ConfigMapRef with
    | none => cur
    | some r =>
      let r : ConfigMapEnvSource :=
        { r with LocalObjectReference :=
            { r.LocalObjectReference with
              Name := subst r.LocalObjectReference.Name replacements } }
      { cur with ConfigMapRef := some r }
  match cur.SecretRef with
  | none => cur
  | some r =>
    let r : SecretEnvSource :=
      { r with LocalObjectReference :=
          { r.LocalObjectReference with
            Name := subst r.LocalObjectReference.Name replacements } }
    { cur with SecretRef := some r }

/-- The writes of `ApplyReplacements` to the entry `steps[i].VolumeMounts[iv]`. -/
def ApplyReplacements.volumeMount (replacements : GoMap) (v : VolumeMount) : VolumeMount :=
  let cur : VolumeMount := { v with Name := subst v.Name replacements }
  let cur : VolumeMount := { cur with MountPath := subst v.MountPath replacements }
  { cur with SubPath := subst v.SubPath replacements }

/-- The body of the loop of `ApplyReplacements` over the steps: the writes to
`steps[i]`, in the order of the source. -/
def ApplyReplacements.step (replacements : GoMap) (c : Container) : Container :=
  let c : Container := { c with Name := subst c.Name replacements }
  let c : Container := { c with Image := subst c.Image replacements }
  let c : Container := { c with Args := rangeStore (fun a => subst a replacements) c.Args }
  let c : Container := { c with Env := rangeStore (ApplyReplacements.env subst replacements) c.Env }
  let c : Container :=
    { c with EnvFrom := rangeStore (ApplyReplacements.envFrom subst replacements) c.EnvFrom }
  let c : Container := { c with WorkingDir := subst c.WorkingDir replacements }
  let c : Container :=
    { c with Command := rangeStore (fun a => subst a replacements) c.Command }
  { c with VolumeMounts :=
      rangeStore (ApplyReplacements.volumeMount subst replacements) c.VolumeMounts }

/-- The body of the loop of `ApplyReplacements` over the volumes: the writes to
`spec.Volumes[i]`. -/
def ApplyReplacements.volume (replacements : GoMap) (v : Volume) : Volume :=
  let cur : Volume := { v with Name := subst v.Name replacements }
  let cur : Volume :=
    match cur.VolumeSource.ConfigMap with
    | none => cur
    | some r =>
      let r : ConfigMapVolumeSource :=
        { r with LocalObjectReference :=
            { r.LocalObjectReference with
              Name := subst r.LocalObjectReference.Name replacements } }
      { cur with VolumeSource := { cur.VolumeSource with ConfigMap := some r } }
  let cur : Volume :=
    match cur.VolumeSource.Secret with
    | none => cur
    | some r =>
      let r : SecretVolumeSource := { r with SecretName := subst r.SecretName replacements }
      { cur with VolumeSource := { cur.VolumeSource with Secret := some r } }
  match cur.VolumeSource.PersistentVolumeClaim with
  | none => cur
  | some r =>
    let r : PersistentVolumeClaimVolumeSource :=
      { r with ClaimName := subst r.ClaimName replacements }
    { cur with VolumeSource := { cur.VolumeSource with PersistentVolumeClaim := some r } }

/-- `ApplyReplacements`: the specification is copied, then every step and every
volume of the copy is rewritten in place. -/
def ApplyReplacements (spec : TaskSpec) (replacements : GoMap) : TaskSpec :=
  let spec := spec.DeepCopy
  let spec : TaskSpec :=
    { spec with Steps := rangeStore (ApplyReplacements.step subst replacements) spec.Steps }
  { spec with Volumes := rangeStore (ApplyReplacements.volume subst replacements) spec.Volumes }

/-- `ApplyParameters`: the map of defaults and bindings is applied to the
specification. -/
def ApplyParameters (spec : TaskSpec) (tr : TaskRun) (defaults : List TaskParam) : TaskSpec :=
  ApplyReplacements subst spec (ApplyParameters.replacements tr defaults)

/-- `ApplyResources`: the map of the exports of the resolved resources is applied
to the specification. -/
def ApplyResources (spec : TaskSpec)
    (resolvedResources : List (String × PipelineResourceInterface)) (replacementStr : String) :
    TaskSpec :=
  ApplyReplacements subst spec (ApplyResources.replacements resolvedResources replacementStr)

end Traversal

/-! ## Devices of the statements -/

/-- The writes of `ApplyResources`, in the order they are made. -/
def ApplyResources.writes (resolvedResources : List (String × PipelineResourceInterface))
    (replacementStr : String) : List (String × String) :=
  resolvedResources.flatMap (fun nr =>
    nr.2.Replacements.map (fun kv =>
      (replacementStr ++ ".resources." ++ nr.1 ++ "." ++ kv.1, kv.2)))


/-- The frame of a specification: the specification with every template field
named by the traversal contract (steps: `Name`, `Image`, `WorkingDir`, `Args`,
`Command` entries, `Env` values and key references, `EnvFrom` prefixes and
references, `VolumeMounts` names and paths; volumes: `Name` and the name of a
config map, secret or claim source) blanked. What is left is everything that is
not a template: keys such as `EnvVar.Name`, the `Other` fields, the lengths of all
sequences and the presence of all references. -/
def EnvVar.frame (e : EnvVar) : EnvVar :=
  { Name := e.Name
    Value := ""
    ValueFrom := e.ValueFrom.map (fun vf =>
      { ConfigMapKeyRef := vf.ConfigMapKeyRef.map (fun r =>
          { LocalObjectReference := ⟨""⟩, Key := "", Other := r.Other })
        SecretKeyRef := vf.SecretKeyRef.map (fun r =>
          { LocalObjectReference := ⟨""⟩, Key := "", Other := r.Other })
        Other := vf.Other }) }

/-- The frame of an `EnvFromSource`. -/
def EnvFromSource.frame (e : EnvFromSource) : EnvFromSource :=
  { Prefix := ""
    ConfigMapRef := e.ConfigMapRef.map (fun r => { LocalObjectReference := ⟨""⟩, Other := r.Other })
    SecretRef := e.SecretRef.map (fun r => { LocalObjectReference := ⟨""⟩, Other := r.Other }) }

/-- The frame of a `VolumeMount`. -/
def VolumeMount.frame (v : VolumeMount) : VolumeMount :=
  { Name := "", MountPath := "", SubPath := "", Other := v.Other }

/-- The frame of a step. -/
def Container.frame (c : Container) : Container :=
  { Name := ""
    Image := ""
    Command := c.Command.map (fun _ => "")
    Args := c.Args.map (fun _ => "")
    WorkingDir := ""
    EnvFrom := c.EnvFrom.map EnvFromSource.frame
    Env := c.Env.map EnvVar.frame
    VolumeMounts := c.VolumeMounts.map VolumeMount.frame
    Other := c.Other }

/-- The frame of a volume. -/
def Volume.frame (v : Volume) : Volume :=
  { Name := ""
    VolumeSource :=
      { ConfigMap := v.VolumeSource.ConfigMap.map (fun r =>
          { LocalObjectReference := ⟨""⟩, Other := r.Other })
        Secret := v.VolumeSource.Secret.map (fun r => { SecretName := "", Other := r.Other })
        PersistentVolumeClaim := v.VolumeSource.PersistentVolumeClaim.map (fun r =>
          { ClaimName := "", Other := r.Other })
        Other := v.VolumeSource.Other } }

/-- The frame of a specification. -/
def TaskSpec.frame (spec : TaskSpec) : TaskSpec :=
  { Steps := spec.Steps.map Container.frame
    Volumes := spec.Volumes.map Volume.frame
    Other := spec.Other }

/-- The template fields of an `EnvVar`, in the order the traversal writes them. -/
def EnvVar.templates (e : EnvVar) : List String :=
  e.Value ::
    (match e.ValueFrom with
     | none => []
     | some vf =>
       (match vf.SecretKeyRef with
        | none => []
        | some r => [r.LocalObjectReference.Name, r.Key]) ++
       (match vf.ConfigMapKeyRef with
        | none => []
        | some r => [r.LocalObjectReference.Name, r.Key]))

/-- The template fields of an `EnvFromSource`. -/
def EnvFromSource.templates (e : EnvFromSource) : List String :=
  e.Prefix ::
    ((match e.ConfigMapRef with
      | none => []
      | some r => [r.LocalObjectReference.Name]) ++
     (match e.SecretRef with
      | none => []
      | some r => [r.LocalObjectReference.Name]))

/-- The template fields of a `VolumeMount`. -/
def VolumeMount.templates (v : VolumeMount) : List String :=
  [v.Name, v.MountPath, v.SubPath]

/-- The template fields of a step, in the order the traversal writes them. -/
def Container.templates (c : Container) : List String :=
  c.Name :: c.Image :: (c.Args ++ c.Env.flatMap EnvVar.templates ++
    c.EnvFrom.flatMap EnvFromSource.templates ++ c.WorkingDir :: (c.Command ++
    c.VolumeMounts.flatMap VolumeMount.templates))

/-- The template fields of a volume. -/
def Volume.templates (v : Volume) : List String :=
  v.Name ::
    ((match v.VolumeSource.ConfigMap with
      | none => []
      | some r => [r.LocalObjectReference.Name]) ++
     (match v.VolumeSource.Secret with
      | none => []
      | some r => [r.SecretName]) ++
     (match v.VolumeSource.PersistentVolumeClaim with
      | none => []
      | some r => [r.ClaimName]))

/-- The template fields of a specification: those of its steps, then those of its
volumes. -/
def TaskSpec.templates (spec : TaskSpec) : List String :=
  spec.Steps.flatMap Container.templates ++ spec.Volumes.flatMap Volume.templates

/-! ### Shapes -/

/-- The references of an `EnvVar` that are present. -/
structure EnvVarShape where
  ValueFrom : Bool
  SecretKeyRef : Bool
  ConfigMapKeyRef : Bool
  deriving DecidableEq, Repr

/-- The references of an `EnvFromSource` that are present. -/
structure EnvFromShape where
  ConfigMapRef : Bool
  SecretRef : Bool
  deriving DecidableEq, Repr

/-- The lengths of the sequences of a step, and the references present in each
entry of `Env` and `EnvFrom`, in order. -/
structure ContainerShape where
  Args : Nat
  Command : Nat
  Env : List EnvVarShape
  EnvFrom : List EnvFromShape
  VolumeMounts : Nat
  deriving DecidableEq, Repr

/-- The sources of a volume that are present. -/
structure VolumeShape where
  ConfigMap : Bool
  Secret : Bool
  PersistentVolumeClaim : Bool
  deriving DecidableEq, Repr

/-- The shape of a specification: the shapes of its steps and of its volumes, in
order. -/
structure TaskSpecShape where
  Steps : List ContainerShape
  Volumes : List VolumeShape
  deriving DecidableEq, Repr

/-- The shape of an `EnvVar`. -/
def EnvVar.shape (e : EnvVar) : EnvVarShape :=
  { ValueFrom := e.ValueFrom.isSome
    SecretKeyRef := (e.ValueFrom.bind (fun vf => vf.SecretKeyRef)).isSome
    ConfigMapKeyRef := (e.ValueFrom.bind (fun vf => vf.ConfigMapKeyRef)).isSome }

/-- The shape of an `EnvFromSource`. -/
def EnvFromSource.shape (e : EnvFromSource) : EnvFromShape :=
  { ConfigMapRef := e.ConfigMapRef.isSome, SecretRef := e.SecretRef.isSome }

/-- The shape of a step. -/
def Container.shape (c : Container) : ContainerShape :=
  { Args := c.Args.length
    Command := c.Command.length
    Env := c.Env.map EnvVar.shape
    EnvFrom := c.EnvFrom.map EnvFromSource.shape
    VolumeMounts := c.VolumeMounts.length }

/-- The shape of a volume. -/
def Volume.shape (v : Volume) : VolumeShape :=
  { ConfigMap := v.VolumeSource.ConfigMap.isSome
    Secret := v.VolumeSource.Secret.isSome
    PersistentVolumeClaim := v.VolumeSource.PersistentVolumeClaim.isSome }

/-- The shape of a specification. -/
def TaskSpec.shape (S : TaskSpec) : TaskSpecShape :=
  { Steps := S.Steps.map Container.shape, Volumes := S.Volumes.map Volume.shape }

/-! ## Worked inputs -/

/-- A step with a placeholder in every template field and every kind of
reference present, and with a placeholder in the name of its first env entry,
which is a key and not a template. -/
def exampleStep : Container :=
  { Name := "${n}"
    Image := "${img}"
    Command := ["${cmd}"]
    Args := ["${arg}", "-v"]
    WorkingDir := "/${dir}"
    EnvFrom :=
      [{ Prefix := "${pre}_"
         ConfigMapRef := some { LocalObjectReference := ⟨"${cm}"⟩, Other := "optional" }
         SecretRef := none },
       { Prefix := ""
         ConfigMapRef := none
         SecretRef := some { LocalObjectReference := ⟨"${sec}"⟩, Other := "" } }]
    Env :=
      [{ Name := "${n}"
         Value := ""
         ValueFrom := some
           { ConfigMapKeyRef := none
             SecretKeyRef := some
               { LocalObjectReference := ⟨"${sec}"⟩, Key := "${key}", Other := "" }
             Other := "" } },
       { Name := "HOME", Value := "/${dir}", ValueFrom := none },
       { Name := "CFG"
         Value := ""
         ValueFrom := some
           { ConfigMapKeyRef := some
               { LocalObjectReference := ⟨"${cm}"⟩, Key := "${key}", Other := "" }
             SecretKeyRef := none
             Other := "" } }]
    VolumeMounts := [{ Name := "${vol}", MountPath := "/${dir}", SubPath := "${sub}", Other := "" }]
    Other := "ports" }

/-- A specification with that step, a second step with the same arguments and no
other sequence, and four volumes: a config map, a claim, a host path, which is
none of the sources the traversal rewrites, and a secret. -/
def exampleSpec : TaskSpec :=
  { Steps :=
      [exampleStep,
       { Name := "${n}-2", Image := "${img}", Command := [], Args := ["${arg}", "-v"],
         WorkingDir := "", EnvFrom := [], Env := [], VolumeMounts := [], Other := "" }]
    Volumes :=
      [{ Name := "${vol}"
         VolumeSource :=
           { ConfigMap := some { LocalObjectReference := ⟨"${cm}"⟩, Other := "" }
             Secret := none
             PersistentVolumeClaim := none
             Other := "" } },
       { Name := "data"
         VolumeSource :=
           { ConfigMap := none
             Secret := none
             PersistentVolumeClaim := some { ClaimName := "${claim}", Other := "" }
             Other := "" } },
       { Name := "${vol}-host"
         VolumeSource :=
           { ConfigMap := none
             Secret := none
             PersistentVolumeClaim := none
             Other := "hostPath: /${dir}" } },
       { Name := "creds"
         VolumeSource :=
           { ConfigMap := none
             Secret := some { SecretName := "${sec}", Other := "" }
             PersistentVolumeClaim := none
             Other := "" } }]
    Other := "inputs" }

/-- A map that resolves every placeholder of `exampleSpec` but `claim`. -/
def exampleMap : GoMap :=
  [("n", "build"), ("img", "busybox"), ("cmd", "sh"), ("arg", "-c"), ("dir", "work"),
   ("pre", "APP"), ("cm", "settings"), ("sec", "token"), ("key", "password"), ("vol", "cache"),
   ("sub", "${dir}")]

/-- A specification whose only step has the image `${a}`. -/
def loopSpec : TaskSpec :=
  { Steps :=
      [{ Name := "s", Image := "${a}", Command := [], Args := [], WorkingDir := "",
         EnvFrom := [], Env := [], VolumeMounts := [], Other := "" }]
    Volumes := []
    Other := "" }

/-- The step of the scenario of the spec: its image is one placeholder, for the
parameter `greeting`. -/
def greetingStep : Container :=
  { Name := "greet", Image := "${inputs.params.greeting}", Command := [], Args := [],
    WorkingDir := "", EnvFrom := [], Env := [], VolumeMounts := [], Other := "" }

/-- The specification of the scenario of the spec: one step, no volume. -/
def greetingSpec : TaskSpec :=
  { Steps := [greetingStep], Volumes := [], Other := "" }

/-- The TaskRun of the scenario of the spec: `greeting` is bound to `hello`. -/
def greetingRun : TaskRun :=
  ⟨⟨⟨[⟨"greeting", "hello"⟩]⟩⟩⟩

/-- Two resources that export the sub-key `url` each. -/
def exampleResources : List (String × PipelineResourceInterface) :=
  [("workspace", ⟨[("url", "u"), ("revision", "r")]⟩), ("image", ⟨[("url", "i")]⟩)]

/-! ## The specification in memory

The object graph of a `TaskSpec` as Go lays it out: a struct behind a pointer, and
a backing array behind a slice, are cells of a heap; a pointer or a slice header is
the address of its cell, or nil (a slice spans its whole backing array). With
sharing in scope, the copy made by `DeepCopy` and the writes of the traversal are
operations on the heap. The fields gathered in `Other` are values here as well:
`apply.go` does not follow the references they may hold. -/

namespace mem

/-- The address of a cell of the heap. -/
abbrev Addr := Nat

/-- A pointer or a slice header: nil, or the address of the struct or of the
backing array. -/
abbrev Ref := Option Addr

/-- A `corev1.EnvVarSource` in memory. -/
structure EnvVarSourceRec where
  ConfigMapKeyRef : Ref
  SecretKeyRef : Ref
  Other : Untouched
  deriving DecidableEq, Repr

/-- A `corev1.EnvVar` in memory. -/
structure EnvVarRec where
  Name : String
  Value : String
  ValueFrom : Ref
  deriving DecidableEq, Repr

/-- A `corev1.EnvFromSource` in memory. -/
structure EnvFromRec where
  Prefix : String
  ConfigMapRef : Ref
  SecretRef : Ref
  deriving DecidableEq, Repr

/-- A `corev1.Container` in memory. -/
structure ContainerRec where
  Name : String
  Image : String
  Command : Ref
  Args : Ref
  WorkingDir : String
  EnvFrom : Ref
  Env : Ref
  VolumeMounts : Ref
  Other : Untouched
  deriving DecidableEq, Repr

/-- A `corev1.Volume` in memory; the embedded `VolumeSource` is part of the
struct. -/
structure VolumeRec where
  Name : String
  ConfigMap : Ref
  Secret : Ref
  PersistentVolumeClaim : Ref
  Other : Untouched
  deriving DecidableEq, Repr

/-- A `v1alpha1.TaskSpec` in memory. -/
structure TaskSpecRec where
  Steps : Ref
  Volumes : Ref
  Other : Untouched
  deriving DecidableEq, Repr

/-- A cell of the heap: the target of one pointer, the backing array of one
slice, or a map. -/
inductive Cell where
  | strings (xs : List String)
  | envVars (xs : List EnvVarRec)
  | envVarSource (x : EnvVarSourceRec)
  | secretKeySelector (x : SecretKeySelector)
  | configMapKeySelector (x : ConfigMapKeySelector)
  | envFroms (xs : List EnvFromRec)
  | configMapEnvSource (x : ConfigMapEnvSource)
  | secretEnvSource (x : SecretEnvSource)
  | volumeMounts (xs : List VolumeMount)
  | containers (xs : List ContainerRec)
  | volumes (xs : List VolumeRec)
  | configMapVolumeSource (x : ConfigMapVolumeSource)
  | secretVolumeSource (x : SecretVolumeSource)
  | persistentVolumeClaim (x : PersistentVolumeClaimVolumeSource)
  | taskSpec (x : TaskSpecRec)
  | map (m : GoMap)
  deriving DecidableEq, Repr

/-- The heap: the cell at each address below its length. -/
abbrev Heap := List Cell

/-- The addresses a cell holds. -/
def Cell.refs : Cell → List Addr
  | Cell.envVars xs => xs.flatMap (fun e => e.ValueFrom.toList)
  | Cell.envVarSource x => x.ConfigMapKeyRef.toList ++ x.SecretKeyRef.toList
  | Cell.envFroms xs => xs.flatMap (fun e => e.ConfigMapRef.toList ++ e.SecretRef.toList)
  | Cell.containers xs =>
    xs.flatMap (fun c => c.Command.toList ++ c.Args.toList ++ c.EnvFrom.toList ++ c.Env.toList
      ++ c.VolumeMounts.toList)
  | Cell.volumes xs =>
    xs.flatMap (fun v => v.ConfigMap.toList ++ v.Secret.toList ++ v.PersistentVolumeClaim.toList)
  | Cell.taskSpec x => x.Steps.toList ++ x.Volumes.toList
  | _ => []

/-- The addresses reachable from an address by following the addresses held in
cells. -/
inductive Reach (h : Heap) : Addr → Addr → Prop where
  | refl (a : Addr) : Reach h a a
  | step (a b c : Addr) (cell : Cell) :
      h[a]? = some cell → b ∈ cell.refs → Reach h b c → Reach h a c

/-! ### The specification held at an address -/

/-- The value behind a pointer to a struct that holds no address, read by `get`;
nil gives `none`. -/
def loadTarget {α : Type} (get : Cell → Option α) (h : Heap) (r : Ref) : Option (Option α) :=
  match r with
  | none => some none
  | some a =>
    match h[a]? with
    | none => none
    | some c =>
      match get c with
      | none => none
      | some x => some (some x)

/-- The elements of a slice, read from its backing array by `get`; a nil slice has
no element. -/
def loadSlice {α : Type} (get : Cell → Option (List α)) (h : Heap) (r : Ref) :
    Option (List α) :=
  match r with
  | none => some []
  | some a =>
    match h[a]? with
    | none => none
    | some c => get c

/-- The values of the elements of an array, each read by `f`. -/
def loadEach {α β : Type} (f : α → Option β) : List α → Option (List β)
  | [] => some []
  | x :: xs =>
    match f x with
    | none => none
    | some y =>
      match loadEach f xs with
      | none => none
      | some ys => some (y :: ys)

/-- The `EnvVarSource` behind a pointer. -/
def loadEnvVarSource (h : Heap) (r : Ref) : Option (Option EnvVarSource) :=
  match r with
  | none => some none
  | some a =>
    match h[a]? with
    | some (Cell.envVarSource x) =>
      match loadTarget (fun c => match c with
          | Cell.configMapKeySelector y => some y
          | _ => none) h x.ConfigMapKeyRef with
      | none => none
      | some c =>
        match loadTarget (fun c => match c with
            | Cell.secretKeySelector y => some y
            | _ => none) h x.SecretKeyRef with
        | none => none
        | some s => some (some { ConfigMapKeyRef := c, SecretKeyRef := s, Other := x.Other })
    | _ => none

/-- The `EnvVar` of a record. -/
def loadEnvVar (h : Heap) (e : EnvVarRec) : Option EnvVar :=
  match loadEnvVarSource h e.ValueFrom with
  | none => none
  | some vf => some { Name := e.Name, Value := e.Value, ValueFrom := vf }

/-- The `EnvFromSource` of a record. -/
def loadEnvFrom (h : Heap) (e : EnvFromRec) : Option EnvFromSource :=
  match loadTarget (fun c => match c with
      | Cell.configMapEnvSource y => some y
      | _ => none) h e.ConfigMapRef with
  | none => none
  | some c =>
    match loadTarget (fun c => match c with
        | Cell.secretEnvSource y => some y
        | _ => none) h e.SecretRef with
    | none => none
    | some s => some { Prefix := e.Prefix, ConfigMapRef := c, SecretRef := s }

/-- The elements of a slice of strings. -/
def loadStrings (h : Heap) (r : Ref) : Option (List String) :=
  loadSlice (fun c => match c with
    | Cell.strings xs => some xs
    | _ => none) h r

/-- The `Container` of a record. -/
def loadContainer (h : Heap) (c : ContainerRec) : Option Container :=
  match loadStrings h c.Command with
  | none => none
  | some cmd =>
    match loadStrings h c.Args with
    | none => none
    | some args =>
      match loadSlice (fun c => match c with
          | Cell.envFroms xs => loadEach (loadEnvFrom h) xs
          | _ => none) h c.EnvFrom with
      | none => none
      | some ef =>
        match loadSlice (fun c => match c with
            | Cell.envVars xs => loadEach (loadEnvVar h) xs
            | _ => none) h c.Env with
        | none => none
        | some env =>
          match loadSlice (fun c => match c with
              | Cell.volumeMounts xs => some xs
              | _ => none) h c.VolumeMounts with
          | none => none
          | some vm =>
            some { Name := c.Name, Image := c.Image, Command := cmd, Args := args,
                   WorkingDir := c.WorkingDir, EnvFrom := ef, Env := env, VolumeMounts := vm,
                   Other := c.Other }

/-- The `Volume` of a record. -/
def loadVolume (h : Heap) (v : VolumeRec) : Option Volume :=
  match loadTarget (fun c => match c with
      | Cell.configMapVolumeSource y => some y
      | _ => none) h v.ConfigMap with
  | none => none
  | some c =>
    match loadTarget (fun c => match c with
        | Cell.secretVolumeSource y => some y
        | _ => none) h v.Secret with
    | none => none
    | some s =>
      match loadTarget (fun c => match c with
          | Cell.persistentVolumeClaim y => some y
          | _ => none) h v.PersistentVolumeClaim with
      | none => none
      | some p =>
        some { Name := v.Name
               VolumeSource :=
                 { ConfigMap := c, Secret := s, PersistentVolumeClaim := p, Other := v.Other } }

/-- The specification held at an address: the value of the object graph under it,
when every reference of the graph leads to a cell of its type. -/
def load (h : Heap) (spec : Addr) : Option TaskSpec :=
  match h[spec]? with
  | some (Cell.taskSpec x) =>
    match loadSlice (fun c => match c with
        | Cell.containers xs => loadEach (loadContainer h) xs
        | _ => none) h x.Steps with
    | none => none
    | some steps =>
      match loadSlice (fun c => match c with
          | Cell.volumes xs => loadEach (loadVolume h) xs
          | _ => none) h x.Volumes with
      | none => none
      | some volumes => some { Steps := steps, Volumes := volumes, Other := x.Other }
  | _ => none

/-- The map held at an address. -/
def loadMap (h : Heap) (a : Addr) : Option GoMap :=
  match h[a]? with
  | some (Cell.map m) => some m
  | _ => none

/-! ### `DeepCopy` -/

/-- The clone of a pointer target or backing array that holds no address: a new
cell with the same content (`new` or `make`, then a copy), nil for nil. -/
def copyFlat (h : Heap) (r : Ref) : Option (Heap × Ref) :=
  match r with
  | none => some (h, none)
  | some a =>
    match h[a]? with
    | some c => if c.refs = [] then some (h ++ [c], some h.length) else none
    | none => none

/-- The clones of the elements of an array, one after the other. -/
def copyEach {α : Type} (f : Heap → α → Option (Heap × α)) :
    Heap → List α → Option (Heap × List α)
  | h, [] => some (h, [])
  | h, x :: xs =>
    match f h x with
    | none => none
    | some (h1, y) =>
      match copyEach f h1 xs with
      | none => none
      | some (h2, ys) => some (h2, y :: ys)

/-- The clone of an `EnvVarSource` behind a pointer. -/
def copyEnvVarSource (h : Heap) (r : Ref) : Option (Heap × Ref) :=
  match r with
  | none => some (h, none)
  | some a =>
    match h[a]? with
    | some (Cell.envVarSource x) =>
      match copyFlat h x.ConfigMapKeyRef with
      | none => none
      | some (h1, c) =>
        match copyFlat h1 x.SecretKeyRef with
        | none => none
        | some (h2, s) =>
          some (h2 ++ [Cell.envVarSource { x with ConfigMapKeyRef := c, SecretKeyRef := s }],
            some h2.length)
    | _ => none

/-- The clone of one `EnvVar`. -/
def copyEnvVar (h : Heap) (e : EnvVarRec) : Option (Heap × EnvVarRec) :=
  match copyEnvVarSource h e.ValueFrom with
  | none => none
  | some (h1, vf) => some (h1, { e with ValueFrom := vf })

/-- The clone of a slice of `EnvVar`. -/
def copyEnvVars (h : Heap) (r : Ref) : Option (Heap × Ref) :=
  match r with
  | none => some (h, none)
  | some a =>
    match h[a]? with
    | some (Cell.envVars xs) =>
      match copyEach copyEnvVar h xs with
      | none => none
      | some (h1, ys) => some (h1 ++ [Cell.envVars ys], some h1.length)
    | _ => none

/-- The clone of one `EnvFromSource`. -/
def copyEnvFrom (h : Heap) (e : EnvFromRec) : Option (Heap × EnvFromRec) :=
  match copyFlat h e.ConfigMapRef with
  | none => none
  | some (h1, c) =>
    match copyFlat h1 e.SecretRef with
    | none => none
    | some (h2, s) => some (h2, { e with ConfigMapRef := c, SecretRef := s })

/-- The clone of a slice of `EnvFromSource`. -/
def copyEnvFroms (h : Heap) (r : Ref) : Option (Heap × Ref) :=
  match r with
  | none => some (h, none)
  | some a =>
    match h[a]? with
    | some (Cell.envFroms xs) =>
      match copyEach copyEnvFrom h xs with
      | none => none
      | some (h1, ys) => some (h1 ++ [Cell.envFroms ys], some h1.length)
    | _ => none

/-- The clone of one `Container`. -/
def copyContainer (h : Heap) (c : ContainerRec) : Option (Heap × ContainerRec) :=
  match copyFlat h c.Command with
  | none => none
  | some (h1, cmd) =>
    match copyFlat h1 c.Args with
    | none => none
    | some (h2, args) =>
      match copyEnvFroms h2 c.EnvFrom with
      | none => none
      | some (h3, ef) =>
        match copyEnvVars h3 c.Env with
        | none => none
        | some (h4, env) =>
          match copyFlat h4 c.VolumeMounts with
          | none => none
          | some (h5, vm) =>
            some (h5, { c with Command := cmd, Args := args, EnvFrom := ef, Env := env,
                               VolumeMounts := vm })

/-- The clone of a slice of `Container`. -/
def copyContainers (h : Heap) (r : Ref) : Option (Heap × Ref) :=
  match r with
  | none => some (h, none)
  | some a =>
    match h[a]? with
    | some (Cell.containers xs) =>
      match copyEach copyContainer h xs with
      | none => none
      | some (h1, ys) => some (h1 ++ [Cell.containers ys], some h1.length)
    | _ => none

/-- The clone of one `Volume`. -/
def copyVolume (h : Heap) (v : VolumeRec) : Option (Heap × VolumeRec) :=
  match copyFlat h v.ConfigMap with
  | none => none
  | some (h1, c) =>
    match copyFlat h1 v.Secret with
    | none => none
    | some (h2, s) =>
      match copyFlat h2 v.PersistentVolumeClaim with
      | none => none
      | some (h3, p) => some (h3, { v with ConfigMap := c, Secret := s, PersistentVolumeClaim := p })

/-- The clone of a slice of `Volume`. -/
def copyVolumes (h : Heap) (r : Ref) : Option (Heap × Ref) :=
  match r with
  | none => some (h, none)
  | some a =>
    match h[a]? with
    | some (Cell.volumes xs) =>
      match copyEach copyVolume h xs with
      | none => none
      | some (h1, ys) => some (h1 ++ [Cell.volumes ys], some h1.length)
    | _ => none

/-- Modelled from the spec: `TaskSpec.DeepCopy`, generated code that `apply.go`
calls and does not define. The spec has it clone the specification structurally,
every nested sequence included, so that the clone shares no reference with the
input: each struct behind a pointer and each backing array reachable from the
specification is copied into a new cell, and nil stays nil. -/
def DeepCopy (h : Heap) (spec : Addr) : Option (Heap × Addr) :=
  match h[spec]? with
  | some (Cell.taskSpec x) =>
    match copyContainers h x.Steps with
    | none => none
    | some (h1, steps) =>
      match copyVolumes h1 x.Volumes with
      | none => none
      | some (h2, volumes) =>
        some (h2 ++ [Cell.taskSpec { x with Steps := steps, Volumes := volumes }], h2.length)
  | _ => none

/-! ### Actions on the heap -/

/-- A piece of code that runs on the heap: it yields the heap it leaves, or nothing
when it dereferences nil, indexes out of range or meets a cell of another type. -/
abbrev Action := Heap → Option Heap

/-- The empty statement. -/
def skip : Action := fun h => some h

/-- A run that stops with a fault. -/
def fault : Action := fun _ => none

/-- Two statements in sequence. -/
def seq (f g : Action) : Action := fun h =>
  match f h with
  | none => none
  | some h1 => g h1

/-- A read of the cell at an address, handed to the code that follows. -/
def readCell (a : Addr) (k : Cell → Action) : Action := fun h =>
  match h[a]? with
  | none => none
  | some c => k c h

/-- A write into the cell at an address: the cell is replaced by its update. -/
def write (a : Addr) (upd : Cell → Option Cell) : Action := fun h =>
  match h[a]? with
  | none => none
  | some c =>
    match upd c with
    | none => none
    | some c1 => some (h.set a c1)

/-- A loop whose body runs once for each index of a list, in order. -/
def forEach (body : Nat → Action) : List Nat → Action
  | [] => skip
  | i :: rest => seq (body i) (forEach body rest)

/-- A read of the map behind the reference `replacements`. -/
def withMap (replacements : Addr) (k : GoMap → Action) : Action :=
  readCell replacements (fun c =>
    match c with
    | Cell.map m => k m
    | _ => fault)

/-- An assignment whose right-hand side calls the substitution with the map
behind `replacements`, and whose left-hand side lies in the cell at `a`. -/
def assign (replacements a : Addr) (upd : GoMap → Cell → Option Cell) : Action :=
  withMap replacements (fun m => write a (upd m))

/-! ### Updates of one cell -/

/-- The update of element `i` of a backing array of strings. -/
def onString (i : Nat) (g : String → String) : Cell → Option Cell
  | Cell.strings xs =>
    match xs[i]? with
    | none => none
    | some x => some (Cell.strings (xs.set i (g x)))
  | _ => none

/-- The update of the string fields of element `i` of a backing array of
`EnvVar`. -/
def onEnvVar (i : Nat) (g : EnvVarRec → String) : Cell → Option Cell
  | Cell.envVars xs =>
    match xs[i]? with
    | none => none
    | some x => some (Cell.envVars (xs.set i { x with Value := g x }))
  | _ => none

/-- The update of the prefix of element `i` of a backing array of
`EnvFromSource`. -/
def onEnvFrom (i : Nat) (g : EnvFromRec → String) : Cell → Option Cell
  | Cell.envFroms xs =>
    match xs[i]? with
    | none => none
    | some x => some (Cell.envFroms (xs.set i { x with Prefix := g x }))
  | _ => none

/-- The update of element `i` of a backing array of `VolumeMount`. -/
def onVolumeMount (i : Nat) (g : VolumeMount → VolumeMount) : Cell → Option Cell
  | Cell.volumeMounts xs =>
    match xs[i]? with
    | none => none
    | some x => some (Cell.volumeMounts (xs.set i (g x)))
  | _ => none

/-- The string fields of a `Container` that the traversal assigns. -/
inductive ContainerField where
  | Name
  | Image
  | WorkingDir
  deriving DecidableEq, Repr

/-- The update of one string field of element `i` of a backing array of
`Container`. -/
def onContainer (i : Nat) (fld : ContainerField) (g : String → String) : Cell → Option Cell
  | Cell.containers xs =>
    match xs[i]? with
    | none => none
    | some x =>
      match fld with
      | ContainerField.Name => some (Cell.containers (xs.set i { x with Name := g x.Name }))
      | ContainerField.Image => some (Cell.containers (xs.set i { x with Image := g x.Image }))
      | ContainerField.WorkingDir =>
        some (Cell.containers (xs.set i { x with WorkingDir := g x.WorkingDir }))
  | _ => none

/-- The update of the name of element `i` of a backing array of `Volume`. -/
def onVolume (i : Nat) (g : VolumeRec → String) : Cell → Option Cell
  | Cell.volumes xs =>
    match xs[i]? with
    | none => none
    | some x => some (Cell.volumes (xs.set i { x with Name := g x }))
  | _ => none

section Traversal

/- The function `templating.ApplyReplacements` is a parameter, as above. -/
variable (subst : String → GoMap → String)

/-- The loop `for ia, a := range xs { xs[ia] = subst(a) }` over a slice of
strings. -/
def applyStrings (replacements : Addr) (r : Ref) : Action :=
  match r with
  | none => skip
  | some a =>
    readCell a (fun c =>
      match c with
      | Cell.strings xs =>
        forEach (fun ia => assign replacements a (fun m => onString ia (fun x => subst x m)))
          (List.range xs.length)
      | _ => fault)

/-- The assignments to `Name` and `Key` of a `SecretKeySelector` behind a
pointer. -/
def applySecretKeyRef (replacements : Addr) (r : Ref) : Action :=
  match r with
  | none => skip
  | some a =>
    seq
      (assign replacements a (fun m c =>
        match c with
        | Cell.secretKeySelector x =>
          some (Cell.secretKeySelector
            { x with LocalObjectReference := ⟨subst x.LocalObjectReference.Name m⟩ })
        | _ => none))
      (assign replacements a (fun m c =>
        match c with
        | Cell.secretKeySelector x => some (Cell.secretKeySelector { x with Key := subst x.Key m })
        | _ => none))

/-- The assignments to `Name` and `Key` of a `ConfigMapKeySelector` behind a
pointer. -/
def applyConfigMapKeyRef (replacements : Addr) (r : Ref) : Action :=
  match r with
  | none => skip
  | some a =>
    seq
      (assign replacements a (fun m c =>
        match c with
        | Cell.configMapKeySelector x =>
          some (Cell.configMapKeySelector
            { x with LocalObjectReference := ⟨subst x.LocalObjectReference.Name m⟩ })
        | _ => none))
      (assign replacements a (fun m c =>
        match c with
        | Cell.configMapKeySelector x =>
          some (Cell.configMapKeySelector { x with Key := subst x.Key m })
        | _ => none))

/-- The body of the loop over `steps[i].Env`, whose backing array is at `env`. -/
def applyEnvVar (replacements env : Addr) (ie : Nat) : Action :=
  readCell env (fun c =>
    match c with
    | Cell.envVars es =>
      match es[ie]? with
      | none => fault
      | some e =>
        seq (assign replacements env (fun m => onEnvVar ie (fun _ => subst e.Value m)))
          (match e.ValueFrom with
           | none => skip
           | some vf =>
             seq
               (readCell vf (fun c =>
                 match c with
                 | Cell.envVarSource src => applySecretKeyRef subst replacements src.SecretKeyRef
                 | _ => fault))
               (readCell vf (fun c =>
                 match c with
                 | Cell.envVarSource src =>
                   applyConfigMapKeyRef subst replacements src.ConfigMapKeyRef
                 | _ => fault)))
    | _ => fault)

/-- The loop over `steps[i].Env`. -/
def applyEnv (replacements : Addr) (r : Ref) : Action :=
  match r with
  | none => skip
  | some env =>
    readCell env (fun c =>
      match c with
      | Cell.envVars es => forEach (applyEnvVar subst replacements env) (List.range es.length)
      | _ => fault)

/-- The assignment to the name of a `ConfigMapEnvSource` behind a pointer. -/
def applyConfigMapRef (replacements : Addr) (r : Ref) : Action :=
  match r with
  | none => skip
  | some a =>
    assign replacements a (fun m c =>
      match c with
      | Cell.configMapEnvSource x =>
        some (Cell.configMapEnvSource
          { x with LocalObjectReference := ⟨subst x.LocalObjectReference.Name m⟩ })
      | _ => none)

/-- The assignment to the name of a `SecretEnvSource` behind a pointer. -/
def applySecretRef (replacements : Addr) (r : Ref) : Action :=
  match r with
  | none => skip
  | some a =>
    assign replacements a (fun m c =>
      match c with
      | Cell.secretEnvSource x =>
        some (Cell.secretEnvSource
          { x with LocalObjectReference := ⟨subst x.LocalObjectReference.Name m⟩ })
      | _ => none)

/-- The body of the loop over `steps[i].EnvFrom`, whose backing array is at
`envFrom`. -/
def applyEnvFromSource (replacements envFrom : Addr) (ie : Nat) : Action :=
  readCell envFrom (fun c =>
    match c with
    | Cell.envFroms es =>
      match es[ie]? with
      | none => fault
      | some e =>
        seq (assign replacements envFrom (fun m => onEnvFrom ie (fun _ => subst e.Prefix m)))
          (seq (applyConfigMapRef subst replacements e.ConfigMapRef)
            (applySecretRef subst replacements e.SecretRef))
    | _ => fault)

/-- The loop over `steps[i].EnvFrom`. -/
def applyEnvFrom (replacements : Addr) (r : Ref) : Action :=
  match r with
  | none => skip
  | some a =>
    readCell a (fun c =>
      match c with
      | Cell.envFroms es =>
        forEach (applyEnvFromSource subst replacements a) (List.range es.length)
      | _ => fault)

/-- The body of the loop over `steps[i].VolumeMounts`, whose backing array is at
`mounts`. -/
def applyVolumeMount (replacements mounts : Addr) (iv : Nat) : Action :=
  readCell mounts (fun c =>
    match c with
    | Cell.volumeMounts vs =>
      match vs[iv]? with
      | none => fault
      | some v =>
        seq (assign replacements mounts (fun m =>
              onVolumeMount iv (fun x => { x with Name := subst v.Name m })))
          (seq (assign replacements mounts (fun m =>
                onVolumeMount iv (fun x => { x with MountPath := subst v.MountPath m })))
            (assign replacements mounts (fun m =>
                onVolumeMount iv (fun x => { x with SubPath := subst v.SubPath m }))))
    | _ => fault)

/-- The loop over `steps[i].VolumeMounts`. -/
def applyVolumeMounts (replacements : Addr) (r : Ref) : Action :=
  match r with
  | none => skip
  | some a =>
    readCell a (fun c =>
      match c with
      | Cell.volumeMounts vs =>
        forEach (applyVolumeMount subst replacements a) (List.range vs.length)
      | _ => fault)

/-- A read of the element `steps[i]`, handed to the code that follows. -/
def withStep (steps : Addr) (i : Nat) (k : ContainerRec → Action) : Action :=
  readCell steps (fun c =>
    match c with
    | Cell.containers cs =>
      match cs[i]? with
      | none => fault
      | some x => k x
    | _ => fault)

/-- The body of the loop over the steps, whose backing array is at `steps`. -/
def applyStep (replacements steps : Addr) (i : Nat) : Action :=
  seq (assign replacements steps (fun m =>
        onContainer i ContainerField.Name (fun x => subst x m)))
  (seq (assign replacements steps (fun m =>
        onContainer i ContainerField.Image (fun x => subst x m)))
  (seq (withStep steps i (fun x => applyStrings subst replacements x.Args))
  (seq (withStep steps i (fun x => applyEnv subst replacements x.Env))
  (seq (withStep steps i (fun x => applyEnvFrom subst replacements x.EnvFrom))
  (seq (assign replacements steps (fun m =>
        onContainer i ContainerField.WorkingDir (fun x => subst x m)))
  (seq (withStep steps i (fun x => applyStrings subst replacements x.Command))
    (withStep steps i (fun x => applyVolumeMounts subst replacements x.VolumeMounts))))))))

/-- The assignment to the name of a `ConfigMapVolumeSource` behind a pointer. -/
def applyConfigMap (replacements : Addr) (r : Ref) : Action :=
  match r with
  | none => skip
  | some a =>
    assign replacements a (fun m c =>
      match c with
      | Cell.configMapVolumeSource x =>
        some (Cell.configMapVolumeSource
          { x with LocalObjectReference := ⟨subst x.LocalObjectReference.Name m⟩ })
      | _ => none)

/-- The assignment to the name of a `SecretVolumeSource` behind a pointer. -/
def applySecret (replacements : Addr) (r : Ref) : Action :=
  match r with
  | none => skip
  | some a =>
    assign replacements a (fun m c =>
      match c with
      | Cell.secretVolumeSource x =>
        some (Cell.secretVolumeSource { x with SecretName := subst x.SecretName m })
      | _ => none)

/-- The assignment to the name of a `PersistentVolumeClaimVolumeSource` behind a
pointer. -/
def applyPersistentVolumeClaim (replacements : Addr) (r : Ref) : Action :=
  match r with
  | none => skip
  | some a =>
    assign replacements a (fun m c =>
      match c with
      | Cell.persistentVolumeClaim x =>
        some (Cell.persistentVolumeClaim { x with ClaimName := subst x.ClaimName m })
      | _ => none)

/-- The body of the loop over `spec.Volumes`, whose backing array is at
`volumes`. -/
def applyVolume (replacements volumes : Addr) (i : Nat) : Action :=
  readCell volumes (fun c =>
    match c with
    | Cell.volumes vs =>
      match vs[i]? with
      | none => fault
      | some v =>
        seq (assign replacements volumes (fun m => onVolume i (fun _ => subst v.Name m)))
          (seq (applyConfigMap subst replacements v.ConfigMap)
            (seq (applySecret subst replacements v.Secret)
              (applyPersistentVolumeClaim subst replacements v.PersistentVolumeClaim)))
    | _ => fault)

/-- The two loops of `ApplyReplacements`, run on the specification at `spec`. -/
def traverse (replacements spec : Addr) : Action :=
  seq
    (readCell spec (fun c =>
      match c with
      | Cell.taskSpec x =>
        match x.Steps with
        | none => skip
        | some steps =>
          readCell steps (fun c =>
            match c with
            | Cell.containers cs =>
              forEach (applyStep subst replacements steps) (List.range cs.length)
            | _ => fault)
      | _ => fault))
    (readCell spec (fun c =>
      match c with
      | Cell.taskSpec x =>
        match x.Volumes with
        | none => skip
        | some volumes =>
          readCell volumes (fun c =>
            match c with
            | Cell.volumes vs =>
              forEach (applyVolume subst replacements volumes) (List.range vs.length)
            | _ => fault)
      | _ => fault))

/-- `ApplyReplacements` on the heap: the specification at `spec` is cloned, the
clone is rewritten in place with the map behind `replacements`, and the address of
the clone is returned with the heap the call leaves. -/
def ApplyReplacements (h : Heap) (spec replacements : Addr) : Option (Heap × Addr) :=
  match DeepCopy h spec with
  | none => none
  | some (h1, clone) =>
    match traverse subst replacements clone h1 with
    | none => none
    | some h2 => some (h2, clone)

end Traversal

/-- A heap that holds `exampleMap` at address 0 and `exampleSpec` at address 17;
the two steps share the backing array of their arguments, at address 1. -/
def exampleHeap : Heap :=
  [ Cell.map exampleMap,
    Cell.strings ["${arg}", "-v"],
    Cell.strings ["${cmd}"],
    Cell.secretKeySelector { LocalObjectReference := ⟨"${sec}"⟩, Key := "${key}", Other := "" },
    Cell.envVarSource { ConfigMapKeyRef := none, SecretKeyRef := some 3, Other := "" },
    Cell.configMapKeySelector
      { LocalObjectReference := ⟨"${cm}"⟩, Key := "${key}", Other := "" },
    Cell.envVarSource { ConfigMapKeyRef := some 5, SecretKeyRef := none, Other := "" },
    Cell.envVars
      [{ Name := "${n}", Value := "", ValueFrom := some 4 },
       { Name := "HOME", Value := "/${dir}", ValueFrom := none },
       { Name := "CFG", Value := "", ValueFrom := some 6 }],
    Cell.configMapEnvSource { LocalObjectReference := ⟨"${cm}"⟩, Other := "optional" },
    Cell.secretEnvSource { LocalObjectReference := ⟨"${sec}"⟩, Other := "" },
    Cell.envFroms
      [{ Prefix := "${pre}_", ConfigMapRef := some 8, SecretRef := none },
       { Prefix := "", ConfigMapRef := none, SecretRef := some 9 }],
    Cell.volumeMounts
      [{ Name := "${vol}", MountPath := "/${dir}", SubPath := "${sub}", Other := "" }],
    Cell.containers
      [{ Name := "${n}", Image := "${img}", Command := some 2, Args := some 1,
         WorkingDir := "/${dir}", EnvFrom := some 10, Env := some 7, VolumeMounts := some 11,
         Other := "ports" },
       { Name := "${n}-2", Image := "${img}", Command := none, Args := some 1,
         WorkingDir := "", EnvFrom := none, Env := none, VolumeMounts := none,
         Other := "" }],
    Cell.configMapVolumeSource { LocalObjectReference := ⟨"${cm}"⟩, Other := "" },
    Cell.persistentVolumeClaim { ClaimName := "${claim}", Other := "" },
    Cell.secretVolumeSource { SecretName := "${sec}", Other := "" },
    Cell.volumes
      [{ Name := "${vol}", ConfigMap := some 13, Secret := none, PersistentVolumeClaim := none,
         Other := "" },
       { Name := "data", ConfigMap := none, Secret := none, PersistentVolumeClaim := some 14,
         Other := "" },
       { Name := "${vol}-host", ConfigMap := none, Secret := none,
         PersistentVolumeClaim := none, Other := "hostPath: /${dir}" },
       { Name := "creds", ConfigMap := none, Secret := some 15, PersistentVolumeClaim := none,
         Other := "" }],
    Cell.taskSpec { Steps := some 12, Volumes := some 16, Other := "inputs" } ]

/-! ### Predicates on heaps and actions -/

/-- Every cell at or above `n` holds addresses at or above `n` only. -/
def Fresh (n : Nat) (h : Heap) : Prop :=
  ∀ (a : Addr) (c : Cell), n ≤ a → h[a]? = some c → ∀ r ∈ c.refs, n ≤ r

/-- What a run may change: no cell below `n`, no address held in any cell, and not
the size of the heap. -/
structure Frame (n : Nat) (h h1 : Heap) : Prop where
  length : h1.length = h.length
  below : ∀ a : Addr, a < n → h1[a]? = h[a]?
  refs : ∀ a : Addr, (h1[a]?).map Cell.refs = (h[a]?).map Cell.refs

/-- An action that, run on a heap whose cells from `n` on are closed under
reference, stays within the frame. -/
def Safe (n : Nat) (f : Action) : Prop :=
  ∀ h h1, Fresh n h → f h = some h1 → Frame n h h1

/-- What a clone operation guarantees, on a heap of at least `n` cells whose cells
from `n` on are closed under reference: the heap is extended, stays closed, and
the addresses of the clone are at or above `n`. -/
def Clones {α : Type} (n : Nat) (f : Heap → α → Option (Heap × α)) (refs : α → List Addr) :
    Prop :=
  ∀ h x h1 y, n ≤ h.length → Fresh n h → f h x = some (h1, y) →
    h <+: h1 ∧ Fresh n h1 ∧ ∀ r ∈ refs y, n ≤ r

/-- The second heap has every cell of the first. -/
def Agree (h h1 : Heap) : Prop :=
  ∀ (a : Addr) (c : Cell), h[a]? = some c → h1[a]? = some c

/-! ### Shapes -/

/-- The shape of a cell: the cell with every string blanked that the traversal
may assign. Its type, the lengths of its sequences, the addresses it holds, its
keys and its `Other` fields are kept, and so is a map. -/
def Cell.skel : Cell → Cell
  | Cell.strings xs => Cell.strings (xs.map (fun _ => ""))
  | Cell.envVars xs => Cell.envVars (xs.map (fun e => { e with Value := "" }))
  | Cell.envVarSource x => Cell.envVarSource x
  | Cell.secretKeySelector x =>
    Cell.secretKeySelector { x with LocalObjectReference := ⟨""⟩, Key := "" }
  | Cell.configMapKeySelector x =>
    Cell.configMapKeySelector { x with LocalObjectReference := ⟨""⟩, Key := "" }
  | Cell.envFroms xs => Cell.envFroms (xs.map (fun e => { e with Prefix := "" }))
  | Cell.configMapEnvSource x => Cell.configMapEnvSource { x with LocalObjectReference := ⟨""⟩ }
  | Cell.secretEnvSource x => Cell.secretEnvSource { x with LocalObjectReference := ⟨""⟩ }
  | Cell.volumeMounts xs =>
    Cell.volumeMounts (xs.map (fun v => { v with Name := "", MountPath := "", SubPath := "" }))
  | Cell.containers xs =>
    Cell.containers (xs.map (fun c => { c with Name := "", Image := "", WorkingDir := "" }))
  | Cell.volumes xs => Cell.volumes (xs.map (fun v => { v with Name := "" }))
  | Cell.configMapVolumeSource x =>
    Cell.configMapVolumeSource { x with LocalObjectReference := ⟨""⟩ }
  | Cell.secretVolumeSource x => Cell.secretVolumeSource { x with SecretName := "" }
  | Cell.persistentVolumeClaim x => Cell.persistentVolumeClaim { x with ClaimName := "" }
  | Cell.taskSpec x => Cell.taskSpec x
  | Cell.map m => Cell.map m

/-- Two heaps of one shape: cell by cell, they differ in assignable strings
only. -/
def Skel (h h1 : Heap) : Prop :=
  h1.map Cell.skel = h.map Cell.skel

/-- An action that, on every heap of the shape of `h0`, runs to its end and
leaves a heap of that shape. -/
def Total (h0 : Heap) (f : Action) : Prop :=
  ∀ h, Skel h0 h → ∃ h1, f h = some h1 ∧ Skel h0 h1

/-! ### Well-formed references -/

/-- A reference that is nil or leads to a cell with the property `P`. -/
def Holds (P : Cell → Prop) (h : Heap) (r : Ref) : Prop :=
  ∀ a, r = some a → ∃ c, h[a]? = some c ∧ P c

/-- The cell is a backing array of strings. -/
def Cell.isStrings (c : Cell) : Prop := ∃ xs, c = Cell.strings xs

/-- The cell is a `SecretKeySelector`. -/
def Cell.isSecretKeySelector (c : Cell) : Prop := ∃ x, c = Cell.secretKeySelector x

/-- The cell is a `ConfigMapKeySelector`. -/
def Cell.isConfigMapKeySelector (c : Cell) : Prop := ∃ x, c = Cell.configMapKeySelector x

/-- The cell is a `ConfigMapEnvSource`. -/
def Cell.isConfigMapEnvSource (c : Cell) : Prop := ∃ x, c = Cell.configMapEnvSource x

/-- The cell is a `SecretEnvSource`. -/
def Cell.isSecretEnvSource (c : Cell) : Prop := ∃ x, c = Cell.secretEnvSource x

/-- The cell is a backing array of `VolumeMount`. -/
def Cell.isVolumeMounts (c : Cell) : Prop := ∃ xs, c = Cell.volumeMounts xs

/-- The cell is a `ConfigMapVolumeSource`. -/
def Cell.isConfigMapVolumeSource (c : Cell) : Prop := ∃ x, c = Cell.configMapVolumeSource x

/-- The cell is a `SecretVolumeSource`. -/
def Cell.isSecretVolumeSource (c : Cell) : Prop := ∃ x, c = Cell.secretVolumeSource x

/-- The cell is a `PersistentVolumeClaimVolumeSource`. -/
def Cell.isPersistentVolumeClaim (c : Cell) : Prop := ∃ x, c = Cell.persistentVolumeClaim x

/-- The cell is an `EnvVarSource` whose references are well formed. -/
def Cell.wfEnvVarSource (h : Heap) (c : Cell) : Prop :=
  ∃ x, c = Cell.envVarSource x ∧ Holds Cell.isConfigMapKeySelector h x.ConfigMapKeyRef ∧
    Holds Cell.isSecretKeySelector h x.SecretKeyRef

/-- The cell is a backing array of `EnvVar` whose references are well formed. -/
def Cell.wfEnvVars (h : Heap) (c : Cell) : Prop :=
  ∃ es, c = Cell.envVars es ∧ ∀ e ∈ es, Holds (Cell.wfEnvVarSource h) h e.ValueFrom

/-- The cell is a backing array of `EnvFromSource` whose references are well
formed. -/
def Cell.wfEnvFroms (h : Heap) (c : Cell) : Prop :=
  ∃ es, c = Cell.envFroms es ∧ ∀ e ∈ es,
    Holds Cell.isConfigMapEnvSource h e.ConfigMapRef ∧ Holds Cell.isSecretEnvSource h e.SecretRef

/-- The cell is a backing array of `Container` whose slices are well formed. -/
def Cell.wfContainers (h : Heap) (c : Cell) : Prop :=
  ∃ cs, c = Cell.containers cs ∧ ∀ x ∈ cs,
    Holds Cell.isStrings h x.Command ∧ Holds Cell.isStrings h x.Args ∧
    Holds (Cell.wfEnvFroms h) h x.EnvFrom ∧ Holds (Cell.wfEnvVars h) h x.Env ∧
    Holds Cell.isVolumeMounts h x.VolumeMounts

/-- The cell is a backing array of `Volume` whose references are well formed. -/
def Cell.wfVolumes (h : Heap) (c : Cell) : Prop :=
  ∃ vs, c = Cell.volumes vs ∧ ∀ v ∈ vs,
    Holds Cell.isConfigMapVolumeSource h v.ConfigMap ∧
    Holds Cell.isSecretVolumeSource h v.Secret ∧
    Holds Cell.isPersistentVolumeClaim h v.PersistentVolumeClaim

/-- The cell is a `TaskSpec` whose slices are well formed. -/
def Cell.wfTaskSpec (h : Heap) (c : Cell) : Prop :=
  ∃ x, c = Cell.taskSpec x ∧ Holds (Cell.wfContainers h) h x.Steps ∧
    Holds (Cell.wfVolumes h) h x.Volumes

/-- A well-formed specification at an address: every reference of its object graph
is nil or leads to a cell of the type the reference has in Go. -/
def WellFormed (h : Heap) (spec : Addr) : Prop :=
  Holds (Cell.wfTaskSpec h) h (some spec)

/-! ### Devices of the refinement -/

/-! ### What the traversal leaves in a cell -/

section Applied

variable (subst : String → GoMap → String)

/-- The cell once the traversal has passed over it: every template string it
holds is substituted with the map `m`. -/
def Cell.applied (m : GoMap) : Cell → Cell
  | Cell.strings xs => Cell.strings (xs.map (fun x => subst x m))
  | Cell.envVars xs => Cell.envVars (xs.map (fun e => { e with Value := subst e.Value m }))
  | Cell.envVarSource x => Cell.envVarSource x
  | Cell.secretKeySelector x =>
    Cell.secretKeySelector
      { x with LocalObjectReference := ⟨subst x.LocalObjectReference.Name m⟩,
               Key := subst x.Key m }
  | Cell.configMapKeySelector x =>
    Cell.configMapKeySelector
      { x with LocalObjectReference := ⟨subst x.LocalObjectReference.Name m⟩,
               Key := subst x.Key m }
  | Cell.envFroms xs => Cell.envFroms (xs.map (fun e => { e with Prefix := subst e.Prefix m }))
  | Cell.configMapEnvSource x =>
    Cell.configMapEnvSource
      { x with LocalObjectReference := ⟨subst x.LocalObjectReference.Name m⟩ }
  | Cell.secretEnvSource x =>
    Cell.secretEnvSource { x with LocalObjectReference := ⟨subst x.LocalObjectReference.Name m⟩ }
  | Cell.volumeMounts xs =>
    Cell.volumeMounts (xs.map (fun v =>
      { v with Name := subst v.Name m, MountPath := subst v.MountPath m,
               SubPath := subst v.SubPath m }))
  | Cell.containers xs =>
    Cell.containers (xs.map (fun c =>
      { c with Name := subst c.Name m, Image := subst c.Image m,
               WorkingDir := subst c.WorkingDir m }))
  | Cell.volumes xs => Cell.volumes (xs.map (fun v => { v with Name := subst v.Name m }))
  | Cell.configMapVolumeSource x =>
    Cell.configMapVolumeSource
      { x with LocalObjectReference := ⟨subst x.LocalObjectReference.Name m⟩ }
  | Cell.secretVolumeSource x =>
    Cell.secretVolumeSource { x with SecretName := subst x.SecretName m }
  | Cell.persistentVolumeClaim x =>
    Cell.persistentVolumeClaim { x with ClaimName := subst x.ClaimName m }
  | Cell.taskSpec x => Cell.taskSpec x
  | Cell.map k => Cell.map k

/-- The second heap is the first one after the traversal has passed over the
cells at the addresses of `F`, once over each, and over no other cell. -/
def Passed (m : GoMap) (F : List Addr) (h h1 : Heap) : Prop :=
  ∀ a : Addr, h1[a]? = if a ∈ F then (h[a]?).map (Cell.applied subst m) else h[a]?

/-- The second heap is the first one after the traversal has passed over the
cells of `F`, except that the cell at `a` now holds `c`. -/
def PassedBut (m : GoMap) (a : Addr) (c : Cell) (F : List Addr) (h h1 : Heap) : Prop :=
  h1[a]? = some c ∧
    ∀ b : Addr, b ≠ a → h1[b]? = if b ∈ F then (h[b]?).map (Cell.applied subst m) else h[b]?

end Applied

/-- A list of which the elements below index `k` have been rewritten by `g`. -/
def Partly {α : Type} (g : α → α) (k : Nat) (xs ys : List α) : Prop :=
  ∀ i : Nat, ys[i]? = if i < k then (xs[i]?).map g else xs[i]?

/-! ### Footprints -/

/-- The addresses of the cells under a pointer to an `EnvVarSource`. -/
def fpEnvVarSource (h : Heap) (r : Ref) : List Addr :=
  match r with
  | none => []
  | some a =>
    a :: (match h[a]? with
      | some (Cell.envVarSource x) => x.SecretKeyRef.toList ++ x.ConfigMapKeyRef.toList
      | _ => [])

/-- The addresses of the cells under a slice of `EnvVar`. -/
def fpEnvVars (h : Heap) (r : Ref) : List Addr :=
  match r with
  | none => []
  | some a =>
    a :: (match h[a]? with
      | some (Cell.envVars es) => es.flatMap (fun e => fpEnvVarSource h e.ValueFrom)
      | _ => [])

/-- The addresses of the cells under an `EnvFromSource`. -/
def fpEnvFrom (e : EnvFromRec) : List Addr :=
  e.ConfigMapRef.toList ++ e.SecretRef.toList

/-- The addresses of the cells under a slice of `EnvFromSource`. -/
def fpEnvFroms (h : Heap) (r : Ref) : List Addr :=
  match r with
  | none => []
  | some a =>
    a :: (match h[a]? with
      | some (Cell.envFroms es) => es.flatMap fpEnvFrom
      | _ => [])

/-- The addresses of the cells under a `Container`, in the order the traversal
meets them. -/
def fpContainer (h : Heap) (c : ContainerRec) : List Addr :=
  c.Args.toList ++ (fpEnvVars h c.Env ++ (fpEnvFroms h c.EnvFrom ++
    (c.Command.toList ++ c.VolumeMounts.toList)))

/-- The addresses of the cells under a slice of `Container`. -/
def fpContainers (h : Heap) (r : Ref) : List Addr :=
  match r with
  | none => []
  | some a =>
    a :: (match h[a]? with
      | some (Cell.containers cs) => cs.flatMap (fpContainer h)
      | _ => [])

/-- The addresses of the cells under a `Volume`. -/
def fpVolume (v : VolumeRec) : List Addr :=
  v.ConfigMap.toList ++ (v.Secret.toList ++ v.PersistentVolumeClaim.toList)

/-- The addresses of the cells under a slice of `Volume`. -/
def fpVolumes (h : Heap) (r : Ref) : List Addr :=
  match r with
  | none => []
  | some a =>
    a :: (match h[a]? with
      | some (Cell.volumes vs) => vs.flatMap fpVolume
      | _ => [])

/-- The footprint of a specification: the addresses of the cells of its object
graph, each as often as the graph leads to it. -/
def footprint (h : Heap) (spec : Addr) : List Addr :=
  spec :: (match h[spec]? with
    | some (Cell.taskSpec x) => fpContainers h x.Steps ++ fpVolumes h x.Volumes
    | _ => [])

/-- What a clone operation allocates: the heap is extended; the footprint of the
clone is the same on every heap that extends the one returned, lies in the cells
added, and meets no cell twice. -/
def Allocates {α : Type} (f : Heap → α → Option (Heap × α)) (fp : Heap → α → List Addr) :
    Prop :=
  ∀ h x h1 y, f h x = some (h1, y) →
    h <+: h1 ∧ (∀ h2, h1 <+: h2 → fp h2 y = fp h1 y) ∧ (fp h1 y).Nodup ∧
      ∀ a : Nat, a ∈ fp h1 y → h.length ≤ a ∧ a < h1.length

/-! ### The entry points that build a map -/

section Entries

variable (subst : String → GoMap → String)

/-- `ApplyParameters` on the heap. `tr` is the pointer the function is given: nil,
or a TaskRun. The map is made and the defaults are written to it; the read of
`tr.Spec.Inputs.Params` through nil ends the run; otherwise the bindings are
written, the map is held in a new cell, and `ApplyReplacements` is called with
the address of that cell. -/
def ApplyParameters (h : Heap) (spec : Addr) (tr : Option TaskRun) (defaults : List TaskParam) :
    Option (Heap × Addr) :=
  let replacements := resources.ApplyParameters.setDefaults [] defaults
  match tr with
  | none => none
  | some t =>
    ApplyReplacements subst
      (h ++ [Cell.map (resources.ApplyParameters.setParams replacements t.Spec.Inputs.Params)])
      spec h.length

/-- The outer loop of `ApplyResources`, over the entries of the mapping in the
order the run enumerates them. The value of an entry is an interface value: nil,
or a resource. The call `r.Replacements()` on nil ends the run; otherwise the
exports of the resource are written by the inner loop. -/
def ApplyResources.build (replacementStr : String) :
    GoMap → List (String × Option PipelineResourceInterface) → Option GoMap
  | replacements, [] => some replacements
  | _, (_, none) :: _ => none
  | replacements, (name, some r) :: rest =>
    ApplyResources.build replacementStr
      (resources.ApplyResources.setExports replacementStr name replacements r.Replacements) rest

/-- `ApplyResources` on the heap: the map of the exports of the resolved resources
is built, held in a new cell, and `ApplyReplacements` is called with the address
of that cell. -/
def ApplyResources (h : Heap) (spec : Addr)
    (resolvedResources : List (String × Option PipelineResourceInterface))
    (replacementStr : String) : Option (Heap × Addr) :=
  match ApplyResources.build replacementStr [] resolvedResources with
  | none => none
  | some replacements => ApplyReplacements subst (h ++ [Cell.map replacements]) spec h.length

end Entries

/-- A heap that holds the empty map at address 0 and, at address 1, a
specification without steps and without volumes. -/
def emptyHeap : Heap :=
  [Cell.map [], Cell.taskSpec { Steps := none, Volumes := none, Other := "" }]

end mem

end resources

/-! ## Lemmas on maps -/

theorem GoMap.index_nil (k : String) : GoMap.index [] k = none := rfl

theorem GoMap.index_filter_ne (m : GoMap) (k k' : String) (h : k' ≠ k) :
    GoMap.index (m.filter (fun e => e.1 != k)) k' = GoMap.index m k' := by
  induction m with
  | nil => rfl
  | cons e m ih =>
    obtain ⟨a, b⟩ := e
    by_cases hak : a = k
    · subst hak
      have h1 : (k' == a) = false := by simpa using h
      simp [GoMap.index, List.filter, List.lookup, h1] at ih ⊢
      exact ih
    · have h1 : (a != k) = true := by simpa using hak
      simp only [List.filter, h1]
      by_cases hk : k' = a
      · subst hk
        simp [GoMap.index, List.lookup]
      · have h2 : (k' == a) = false := by simpa using hk
        simp only [GoMap.index, List.lookup, h2] at ih ⊢
        exact ih

theorem GoMap.index_assign (m : GoMap) (k v k' : String) :
    GoMap.index (GoMap.assign m k v) k' = if k' = k then some v else GoMap.index m k' := by
  by_cases h : k' = k
  · subst h
    simp [GoMap.index, GoMap.assign, List.lookup]
  · have h1 : (k' == k) = false := by simpa using h
    rw [if_neg h]
    have := GoMap.index_filter_ne m k k' h
    simp only [GoMap.index, GoMap.assign, List.lookup, h1] at this ⊢
    exact this


theorem String.append_right_cancel (p a b : String) (h : p ++ a = p ++ b) : a = b := by
  have h1 := congrArg String.data h
  simp only [String.data_append] at h1
  exact String.ext (List.append_cancel_left h1)


/-- A sequence of writes leaves, under a key, the value of the last write to that
key, or what the map held before when no write has that key. -/
theorem GoMap.index_foldl_assign (es : List (String × String)) (m : GoMap) (k : String) :
    GoMap.index (es.foldl (fun m e => GoMap.assign m e.1 e.2) m) k =
      match (es.filter (fun e => e.1 = k)).getLast? with
      | some e => some e.2
      | none => GoMap.index m k := by
  induction es using List.reverseRecOn with
  | nil => simp
  | append_singleton es e ih =>
    rw [List.foldl_append, List.filter_append]
    simp only [List.foldl_cons, List.foldl_nil]
    rw [GoMap.index_assign]
    by_cases h : e.1 = k
    · subst h
      simp [List.filter]
    · have h1 : ¬ k = e.1 := fun x => h x.symm
      rw [if_neg h1, ih]
      simp [List.filter, h]

/-- Two enumerations of the entries of one map, whose keys are pairwise distinct,
answer every read alike. -/
theorem GoMap.index_perm (M M' : GoMap) (hp : List.Perm M' M)
    (hnd : (M.map Prod.fst).Nodup) (k : String) : GoMap.index M' k = GoMap.index M k := by
  induction hp with
  | nil => rfl
  | cons x _ ih =>
    rw [List.map_cons, List.nodup_cons] at hnd
    simp only [GoMap.index, List.lookup] at ih ⊢
    split
    · rfl
    · exact ih hnd.2
  | swap x y l =>
    simp only [List.map_cons, List.nodup_cons, List.mem_cons, not_or] at hnd
    obtain ⟨⟨hxy, _⟩, _, _⟩ := hnd
    by_cases h1 : k = x.1
    · by_cases h2 : k = y.1
      · exact absurd (h1.symm.trans h2) (fun e => hxy e)
      · have e1 : (k == x.1) = true := by simpa using h1
        have e2 : (k == y.1) = false := by simpa using h2
        simp [GoMap.index, List.lookup, e1, e2]
    · have e1 : (k == x.1) = false := by simpa using h1
      by_cases h2 : k = y.1
      · have e2 : (k == y.1) = true := by simpa using h2
        simp [GoMap.index, List.lookup, e1, e2]
      · have e2 : (k == y.1) = false := by simpa using h2
        simp [GoMap.index, List.lookup, e1, e2]
  | trans h1 h2 ih1 ih2 =>
    have hmid := (List.Perm.nodup_iff (List.Perm.map Prod.fst h2)).2 hnd
    exact (ih1 hmid).trans (ih2 hnd)

/-! ## Lemmas on the placeholder engine -/

namespace templating

theorem flatMap_text_lit (cs : List Char) : (cs.map Token.lit).flatMap Token.text = cs := by
  induction cs with
  | nil => rfl
  | cons c cs ih => simp only [List.map_cons, List.flatMap_cons, Token.text, ih]; rfl

/-- The tokens of a text spell out the text: nothing is dropped by the scan. -/
theorem tokenize_text (cs : List Char) (st : State) :
    (tokenize st cs).flatMap Token.text = st.pending ++ cs := by
  induction cs generalizing st with
  | nil =>
    cases st with
    | text => rfl
    | dollar => rfl
    | key acc =>
      simp only [tokenize, List.flatMap_cons, Token.text, flatMap_text_lit, State.pending,
        List.append_nil]
      rfl
  | cons c cs ih =>
    cases st with
    | text =>
      simp only [tokenize]
      split
      · next h => subst h; rw [ih]; rfl
      · rw [List.flatMap_cons, ih]; rfl
    | dollar =>
      simp only [tokenize]
      split
      · next h => subst h; rw [ih]; rfl
      · split
        · next h => subst h; rw [List.flatMap_cons, ih]; rfl
        · rw [List.flatMap_cons, List.flatMap_cons, ih]; rfl
    | key acc =>
      simp only [tokenize]
      split
      · next h =>
        subst h
        rw [List.flatMap_cons, ih]
        simp [Token.text, State.pending]
      · rw [ih]
        simp [State.pending]

/-- A token list none of whose placeholders has its key in the map is rendered as
its own text. -/
theorem flatMap_render_unresolved (M : GoMap) (ts : List Token)
    (h : ∀ k, Token.ph k ∈ ts → GoMap.index M (String.mk k) = none) :
    ts.flatMap (render M) = ts.flatMap Token.text := by
  induction ts with
  | nil => rfl
  | cons t ts ih =>
    rw [List.flatMap_cons, List.flatMap_cons, ih (fun k hk => h k (List.mem_cons_of_mem _ hk))]
    congr 1
    cases t with
    | lit c => rfl
    | ph k => simp only [render, h k (List.mem_cons_self _ _)]

theorem mem_placeholders (text : String) (k : List Char) :
    String.mk k ∈ placeholders text ↔ Token.ph k ∈ tokenize State.text text.data := by
  simp only [placeholders, List.mem_filterMap]
  constructor
  · rintro ⟨t, ht, h⟩
    cases t with
    | lit c => simp at h
    | ph k' =>
      have hk : k' = k := congrArg String.data (Option.some.inj h)
      subst hk
      exact ht
  · intro h
    exact ⟨Token.ph k, h, rfl⟩

/-- A text none of whose placeholders has its key in the map is returned as it
is. -/
theorem ApplyReplacements_unresolved (text : String) (M : GoMap)
    (h : ∀ k ∈ placeholders text, GoMap.index M k = none) :
    ApplyReplacements text M = text := by
  rw [ApplyReplacements, flatMap_render_unresolved M _
    (fun k hk => h _ ((mem_placeholders text k).2 hk)), tokenize_text]
  rfl

/-- The substitution reads the map through its lookups only. -/
theorem ApplyReplacements_index_congr (text : String) (M M' : GoMap)
    (h : ∀ k, GoMap.index M' k = GoMap.index M k) :
    ApplyReplacements text M' = ApplyReplacements text M := by
  have hr : render M' = render M := by
    funext t
    cases t with
    | lit c => rfl
    | ph k => simp only [render, h]
  rw [ApplyReplacements, ApplyReplacements, hr]

/-- With the empty map no placeholder is resolved: the text is returned. -/
theorem ApplyReplacements_nil (text : String) : ApplyReplacements text [] = text :=
  ApplyReplacements_unresolved text [] (fun _ _ => rfl)

/-- A text that is one placeholder whose key is in the map becomes the value
of the key. -/
theorem ApplyReplacements_one_placeholder (text : String) (M : GoMap) (key v : String)
    (ht : tokenize State.text text.data = [Token.ph key.data])
    (hv : GoMap.index M key = some v) : ApplyReplacements text M = v := by
  simp only [ApplyReplacements, ht, List.flatMap_cons, List.flatMap_nil, List.append_nil, render]
  have hk : String.mk key.data = key := rfl
  rw [hk, hv]

theorem tokenize_key (acc key rest : List Char) (hk : '\x7d' ∉ key) :
    tokenize (State.key acc) (key ++ '\x7d' :: rest) =
      Token.ph (acc.reverse ++ key) :: tokenize State.text rest := by
  induction key generalizing acc with
  | nil => simp [tokenize]
  | cons c cs ih =>
    have hc : c ≠ '\x7d' := fun e => hk (by simp [e])
    have hcs : '\x7d' ∉ cs := fun e => hk (List.mem_cons_of_mem _ e)
    rw [List.cons_append, tokenize, if_neg hc, ih (c :: acc) hcs]
    simp

/-- The text made of the opening delimiter, a key without a closing brace and
the closing brace is one placeholder, for that key. -/
theorem tokenize_placeholder (key : String) (hk : '\x7d' ∉ key.data) :
    tokenize State.text ("$\x7b" ++ key ++ "\x7d").data = [Token.ph key.data] := by
  have hd : ("$\x7b" ++ key ++ "\x7d").data = '$' :: '\x7b' :: (key.data ++ '\x7d' :: []) := by
    simp only [String.data_append]
    rfl
  rw [hd]
  simp only [tokenize, if_true]
  rw [tokenize_key [] key.data [] hk]
  simp [tokenize]

/-- The text made of the opening delimiter, a key without a closing brace and
the closing brace is turned into the value of the key, with every map that
holds the key. -/
theorem ApplyReplacements_placeholder (key : String) (hk : '\x7d' ∉ key.data) (M : GoMap)
    (v : String) (hv : GoMap.index M key = some v) :
    ApplyReplacements ("$\x7b" ++ key ++ "\x7d") M = v :=
  ApplyReplacements_one_placeholder _ M key v (tokenize_placeholder key hk) hv

end templating

namespace resources

theorem ApplyParameters.setParams_concat (m : GoMap) (ps : List Param) (p : Param) :
    ApplyParameters.setParams m (ps ++ [p]) =
      GoMap.assign (ApplyParameters.setParams m ps) ("inputs.params." ++ p.Name) p.Value := by
  simp [ApplyParameters.setParams, List.foldl_append]

theorem ApplyParameters.setDefaults_concat (m : GoMap) (ds : List TaskParam) (d : TaskParam) :
    ApplyParameters.setDefaults m (ds ++ [d]) =
      if d.Default ≠ "" then
        GoMap.assign (ApplyParameters.setDefaults m ds) ("inputs.params." ++ d.Name) d.Default
      else ApplyParameters.setDefaults m ds := by
  simp [ApplyParameters.setDefaults, List.foldl_append]

/-- After the second loop, the entry of a parameter name is the value of the last
binding of that name, or what the map held before when no binding has that name. -/
theorem ApplyParameters.setParams_index (m : GoMap) (ps : List Param) (n : String) :
    GoMap.index (ApplyParameters.setParams m ps) ("inputs.params." ++ n) =
      match (ps.filter (fun p => p.Name = n)).getLast? with
      | some b => some b.Value
      | none => GoMap.index m ("inputs.params." ++ n) := by
  induction ps using List.reverseRecOn with
  | nil => simp [ApplyParameters.setParams]
  | append_singleton ps p ih =>
    rw [ApplyParameters.setParams_concat, GoMap.index_assign, List.filter_append]
    by_cases h : p.Name = n
    · subst h
      simp [List.filter]
    · have h1 : ¬ "inputs.params." ++ n = "inputs.params." ++ p.Name :=
        fun e => h (String.append_right_cancel _ _ _ e).symm
      rw [if_neg h1, ih]
      simp [List.filter, h]

/-- After the first loop, the entry of a parameter name is the last non-empty
default declared for that name. -/
theorem ApplyParameters.setDefaults_index (m : GoMap) (ds : List TaskParam) (n : String) :
    GoMap.index (ApplyParameters.setDefaults m ds) ("inputs.params." ++ n) =
      match (ds.filter (fun d => d.Name = n ∧ d.Default ≠ "")).getLast? with
      | some d => some d.Default
      | none => GoMap.index m ("inputs.params." ++ n) := by
  induction ds using List.reverseRecOn with
  | nil => simp [ApplyParameters.setDefaults]
  | append_singleton ds d ih =>
    rw [ApplyParameters.setDefaults_concat, List.filter_append]
    by_cases hd : d.Default = ""
    · simp [hd, ih, List.filter]
    · rw [if_pos hd, GoMap.index_assign]
      by_cases h : d.Name = n
      · subst h
        simp [List.filter, hd]
      · have h1 : ¬ "inputs.params." ++ n = "inputs.params." ++ d.Name :=
          fun e => h (String.append_right_cancel _ _ _ e).symm
        rw [if_neg h1, ih]
        simp [List.filter, h]

theorem getLast?_filter_eq_none {α : Type} (p : α → Bool) (l : List α) :
    (l.filter p).getLast? = none ↔ ∀ a ∈ l, p a = false := by
  rw [List.getLast?_eq_none_iff, List.filter_eq_nil_iff]
  simp

/-! ## Claims on the map built by `ApplyParameters` -/

/-- C1 (override precedence): for every name that occurs in at least one binding of
the TaskRun, the map built by `ApplyParameters` sends `inputs.params.<name>` to the
value of the last binding of that name, whatever the declared defaults are and
also when that value is the empty string. -/
theorem ApplyParameters_binding_wins (tr : TaskRun) (defaults : List TaskParam) (n : String)
    (h : ∃ p ∈ tr.Spec.Inputs.Params, p.Name = n) :
    ∃ b, (tr.Spec.Inputs.Params.filter (fun p => p.Name = n)).getLast? = some b ∧
      GoMap.index (ApplyParameters.replacements tr defaults) ("inputs.params." ++ n)
        = some b.Value := by
  obtain ⟨p, hp, hn⟩ := h
  cases hl : (tr.Spec.Inputs.Params.filter (fun p => p.Name = n)).getLast? with
  | none =>
    rw [getLast?_filter_eq_none] at hl
    have := hl p hp
    simp [hn] at this
  | some b =>
    refine ⟨b, rfl, ?_⟩
    rw [ApplyParameters.replacements, ApplyParameters.setParams_index, hl]

/-- C1 at a concrete input: the binding `x = ""` overrides the default `d`. -/
theorem ApplyParameters_binding_wins_witness :
    (∃ p ∈ (TaskRun.mk ⟨⟨[⟨"x", "v"⟩, ⟨"x", ""⟩]⟩⟩).Spec.Inputs.Params, p.Name = "x") ∧
    ∃ b, ((TaskRun.mk ⟨⟨[⟨"x", "v"⟩, ⟨"x", ""⟩]⟩⟩).Spec.Inputs.Params.filter
        (fun p => p.Name = "x")).getLast? = some b ∧
      GoMap.index (ApplyParameters.replacements ⟨⟨⟨[⟨"x", "v"⟩, ⟨"x", ""⟩]⟩⟩⟩ [⟨"x", "d"⟩])
        ("inputs.params." ++ "x") = some b.Value :=
  ⟨⟨⟨"x", ""⟩, by simp, rfl⟩,
   ApplyParameters_binding_wins ⟨⟨⟨[⟨"x", "v"⟩, ⟨"x", ""⟩]⟩⟩⟩ [⟨"x", "d"⟩] "x"
     ⟨⟨"x", ""⟩, by simp, rfl⟩⟩

/-- C2 (empty default omitted): the map built by `ApplyParameters` has the key
`inputs.params.<name>` exactly when some binding has that name or some declaration
of that name has a non-empty default; so when no binding has the name and every
declaration of it has the empty default, the key is absent. -/
theorem ApplyParameters_key_present_iff (tr : TaskRun) (defaults : List TaskParam) (n : String) :
    ((GoMap.index (ApplyParameters.replacements tr defaults) ("inputs.params." ++ n)).isSome
        ↔ ((∃ p ∈ tr.Spec.Inputs.Params, p.Name = n) ∨
            ∃ d ∈ defaults, d.Name = n ∧ d.Default ≠ "")) ∧
    (((∀ p ∈ tr.Spec.Inputs.Params, p.Name ≠ n) ∧
        (∀ d ∈ defaults, d.Name = n → d.Default = "")) →
      GoMap.index (ApplyParameters.replacements tr defaults) ("inputs.params." ++ n) = none) := by
  have key : (GoMap.index (ApplyParameters.replacements tr defaults)
        ("inputs.params." ++ n)).isSome
        ↔ ((∃ p ∈ tr.Spec.Inputs.Params, p.Name = n) ∨
            ∃ d ∈ defaults, d.Name = n ∧ d.Default ≠ "") := by
    rw [ApplyParameters.replacements, ApplyParameters.setParams_index]
    cases hl : (tr.Spec.Inputs.Params.filter (fun p => p.Name = n)).getLast? with
    | some b =>
      have hb : b ∈ tr.Spec.Inputs.Params.filter (fun p => p.Name = n) :=
        List.mem_of_getLast?_eq_some hl
      rw [List.mem_filter] at hb
      simp only [Option.isSome_some, true_iff]
      exact Or.inl ⟨b, hb.1, by simpa using hb.2⟩
    | none =>
      rw [getLast?_filter_eq_none] at hl
      have hno : ¬ ∃ p ∈ tr.Spec.Inputs.Params, p.Name = n := by
        rintro ⟨p, hp, hn⟩
        have := hl p hp
        simp [hn] at this
      simp only [hno, false_or]
      rw [ApplyParameters.setDefaults_index]
      cases hd : (defaults.filter (fun d => d.Name = n ∧ d.Default ≠ "")).getLast? with
      | some d =>
        have hm : d ∈ defaults.filter (fun d => d.Name = n ∧ d.Default ≠ "") :=
          List.mem_of_getLast?_eq_some hd
        rw [List.mem_filter] at hm
        simp only [Option.isSome_some, true_iff]
        exact ⟨d, hm.1, by simpa using hm.2⟩
      | none =>
        rw [getLast?_filter_eq_none] at hd
        simp only [GoMap.index_nil, Option.isSome_none, Bool.false_eq_true, false_iff]
        rintro ⟨d, hm, h1, h2⟩
        have := hd d hm
        simp [h1, h2] at this
  refine ⟨key, ?_⟩
  rintro ⟨hp, hd⟩
  rw [← Option.not_isSome_iff_eq_none, key]
  rintro (⟨p, hm, hn⟩ | ⟨d, hm, hn, hne⟩)
  · exact hp p hm hn
  · exact hne (hd d hm hn)

/-! ## The map built by `ApplyResources` -/

theorem ApplyResources.setExports_eq (replacementStr name : String) (m exports : GoMap) :
    ApplyResources.setExports replacementStr name m exports =
      (exports.map (fun kv =>
        (replacementStr ++ ".resources." ++ name ++ "." ++ kv.1, kv.2))).foldl
        (fun m e => GoMap.assign m e.1 e.2) m := by
  simp [ApplyResources.setExports, List.foldl_map]

theorem ApplyResources.replacements_eq_aux
    (resolvedResources : List (String × PipelineResourceInterface))
    (replacementStr : String) (m : GoMap) :
    resolvedResources.foldl
        (fun m nr => ApplyResources.setExports replacementStr nr.1 m nr.2.Replacements) m =
      (ApplyResources.writes resolvedResources replacementStr).foldl
        (fun m e => GoMap.assign m e.1 e.2) m := by
  induction resolvedResources generalizing m with
  | nil => rfl
  | cons nr rs ih =>
    simp only [List.foldl_cons, ApplyResources.writes, List.flatMap_cons, List.foldl_append]
    rw [ih, ApplyResources.setExports_eq]
    rfl

theorem ApplyResources.replacements_eq
    (resolvedResources : List (String × PipelineResourceInterface))
    (replacementStr : String) :
    ApplyResources.replacements resolvedResources replacementStr =
      (ApplyResources.writes resolvedResources replacementStr).foldl
        (fun m e => GoMap.assign m e.1 e.2) [] :=
  ApplyResources.replacements_eq_aux resolvedResources replacementStr []

theorem ApplyResources.mem_writes (resolvedResources : List (String × PipelineResourceInterface))
    (replacementStr : String) (e : String × String) :
    e ∈ ApplyResources.writes resolvedResources replacementStr ↔
      ∃ n r k v, (n, r) ∈ resolvedResources ∧ (k, v) ∈ r.Replacements ∧
        e = (replacementStr ++ ".resources." ++ n ++ "." ++ k, v) := by
  simp only [ApplyResources.writes, List.mem_flatMap, List.mem_map]
  constructor
  · rintro ⟨⟨n, r⟩, hn, ⟨k, v⟩, hk, rfl⟩
    exact ⟨n, r, k, v, hn, hk, rfl⟩
  · rintro ⟨n, r, k, v, hn, hk, rfl⟩
    exact ⟨(n, r), hn, (k, v), hk, rfl⟩

/-- C3, as stated, fails: the bindings `a` (exporting `b.c`) and `a.b` (exporting
`c`) compose the same key `inputs.resources.a.b.c`, and the map keeps only the
value written last; whichever way the two bindings are enumerated, one exported
pair is not mapped to its value. -/
theorem ApplyResources_key_collision :
    (("a", (⟨[("b.c", "1")]⟩ : PipelineResourceInterface)) ∈
        [("a", (⟨[("b.c", "1")]⟩ : PipelineResourceInterface)), ("a.b", ⟨[("c", "2")]⟩)] ∧
      ("b.c", "1") ∈ (⟨[("b.c", "1")]⟩ : PipelineResourceInterface).Replacements ∧
      GoMap.index
        (ApplyResources.replacements [("a", ⟨[("b.c", "1")]⟩), ("a.b", ⟨[("c", "2")]⟩)] "inputs")
        ("inputs" ++ ".resources." ++ "a" ++ "." ++ "b.c") = some "2") ∧
    (("a.b", (⟨[("c", "2")]⟩ : PipelineResourceInterface)) ∈
        [("a.b", (⟨[("c", "2")]⟩ : PipelineResourceInterface)), ("a", ⟨[("b.c", "1")]⟩)] ∧
      ("c", "2") ∈ (⟨[("c", "2")]⟩ : PipelineResourceInterface).Replacements ∧
      GoMap.index
        (ApplyResources.replacements [("a.b", ⟨[("c", "2")]⟩), ("a", ⟨[("b.c", "1")]⟩)] "inputs")
        ("inputs" ++ ".resources." ++ "a.b" ++ "." ++ "c") = some "1") := by
  decide

/-- C3, amended: for every pair `(bindingName, resource)` of the mapping and every
pair `(subKey, value)` exported by the resource, the map built by `ApplyResources`
sends `<scope>.resources.<bindingName>.<subKey>` to `value`, provided every
exported pair of the mapping that composes the same key carries the same value. -/
theorem ApplyResources_key_value
    (resolvedResources : List (String × PipelineResourceInterface)) (replacementStr : String)
    (n : String) (r : PipelineResourceInterface) (k v : String)
    (hn : (n, r) ∈ resolvedResources) (hk : (k, v) ∈ r.Replacements)
    (hsame : ∀ n' r' k' v', (n', r') ∈ resolvedResources → (k', v') ∈ r'.Replacements →
      replacementStr ++ ".resources." ++ n' ++ "." ++ k'
        = replacementStr ++ ".resources." ++ n ++ "." ++ k → v' = v) :
    GoMap.index (ApplyResources.replacements resolvedResources replacementStr)
      (replacementStr ++ ".resources." ++ n ++ "." ++ k) = some v := by
  rw [ApplyResources.replacements_eq, GoMap.index_foldl_assign]
  cases hl : ((ApplyResources.writes resolvedResources replacementStr).filter
      (fun e => e.1 = replacementStr ++ ".resources." ++ n ++ "." ++ k)).getLast? with
  | none =>
    rw [getLast?_filter_eq_none] at hl
    have hm := (ApplyResources.mem_writes resolvedResources replacementStr
      (replacementStr ++ ".resources." ++ n ++ "." ++ k, v)).2 ⟨n, r, k, v, hn, hk, rfl⟩
    have := hl _ hm
    simp at this
  | some e =>
    have he := List.mem_of_getLast?_eq_some hl
    rw [List.mem_filter, ApplyResources.mem_writes] at he
    obtain ⟨⟨n', r', k', v', hn', hk', rfl⟩, hkey⟩ := he
    have hkey' : replacementStr ++ ".resources." ++ n' ++ "." ++ k'
        = replacementStr ++ ".resources." ++ n ++ "." ++ k := by simpa using hkey
    simp only [hsame n' r' k' v' hn' hk' hkey']

/-- C3 amended, at a concrete input: two resources whose exports compose distinct
keys. -/
theorem ApplyResources_key_value_witness :
    GoMap.index
      (ApplyResources.replacements
        [("workspace", ⟨[("url", "u"), ("revision", "r")]⟩), ("image", ⟨[("url", "i")]⟩)]
        "inputs")
      ("inputs" ++ ".resources." ++ "workspace" ++ "." ++ "revision") = some "r" :=
  ApplyResources_key_value
    [("workspace", ⟨[("url", "u"), ("revision", "r")]⟩), ("image", ⟨[("url", "i")]⟩)]
    "inputs" "workspace" ⟨[("url", "u"), ("revision", "r")]⟩ "revision" "r"
    (by decide) (by decide)
    (by
      intro n' r' k' v' hn' hk' hkey
      simp only [List.mem_cons, Prod.mk.injEq, List.mem_singleton, List.not_mem_nil,
        or_false] at hn'
      rcases hn' with ⟨rfl, rfl⟩ | ⟨rfl, rfl⟩
      · simp only [List.mem_cons, Prod.mk.injEq, List.mem_singleton, List.not_mem_nil,
          or_false] at hk'
        rcases hk' with ⟨rfl, rfl⟩ | ⟨rfl, rfl⟩
        · exact absurd hkey (by decide)
        · rfl
      · simp only [List.mem_cons, Prod.mk.injEq, List.mem_singleton, List.not_mem_nil,
          or_false] at hk'
        obtain ⟨rfl, rfl⟩ := hk'
        exact absurd hkey (by decide))

/-! ## The traversal of `ApplyReplacements` -/

theorem rangeStore_prefix {α : Type} (body : α → α) (xs : List α) (k : Nat) :
    ∀ i, ((List.range k).foldl
      (fun acc i => match acc[i]? with
        | some x => acc.set i (body x)
        | none => acc) xs)[i]? = if i < k then (xs[i]?).map body else xs[i]? := by
  induction k with
  | zero => intro i; simp
  | succ k ih =>
    intro i
    rw [List.range_succ, List.foldl_append]
    simp only [List.foldl_cons, List.foldl_nil]
    generalize hacc : (List.range k).foldl _ xs = acc at ih ⊢
    have hk := ih k
    simp only [lt_irrefl, if_false] at hk
    cases hx : xs[k]? with
    | none =>
      rw [hx] at hk
      rw [hk]
      simp only
      rw [ih i]
      by_cases h1 : i < k
      · simp [h1, Nat.lt_succ_of_lt h1]
      · by_cases h2 : i = k
        · subst h2; simp [hx]
        · have h3 : ¬ i < k + 1 := by omega
          simp [h1, h3]
    | some x =>
      rw [hx] at hk
      rw [hk]
      simp only
      rw [List.getElem?_set]
      by_cases h2 : k = i
      · subst h2
        have hlt : k < acc.length := by
          rcases Nat.lt_or_ge k acc.length with h | h
          · exact h
          · rw [List.getElem?_eq_none h] at hk; cases hk
        simp [hlt, hx]
      · rw [if_neg h2, ih i]
        by_cases h1 : i < k
        · simp [h1, Nat.lt_succ_of_lt h1]
        · have h3 : ¬ i < k + 1 := by omega
          simp [h1, h3]

theorem rangeStore_eq_map {α : Type} (body : α → α) (xs : List α) :
    rangeStore body xs = xs.map body := by
  apply List.ext_getElem?
  intro i
  rw [rangeStore, rangeStore_prefix, List.getElem?_map]
  by_cases h : i < xs.length
  · simp [h]
  · simp [h, List.getElem?_eq_none (Nat.le_of_not_lt h)]

section TraversalLemmas

variable (subst : String → GoMap → String)

theorem ApplyReplacements.step_eq (M : GoMap) (c : Container) :
    ApplyReplacements.step subst M c =
      { Name := subst c.Name M
        Image := subst c.Image M
        Command := c.Command.map (fun a => subst a M)
        Args := c.Args.map (fun a => subst a M)
        WorkingDir := subst c.WorkingDir M
        EnvFrom := c.EnvFrom.map (ApplyReplacements.envFrom subst M)
        Env := c.Env.map (ApplyReplacements.env subst M)
        VolumeMounts := c.VolumeMounts.map (ApplyReplacements.volumeMount subst M)
        Other := c.Other } := by
  simp only [ApplyReplacements.step, rangeStore_eq_map]

theorem ApplyReplacements_eq (S : TaskSpec) (M : GoMap) :
    ApplyReplacements subst S M =
      { Steps := S.Steps.map (ApplyReplacements.step subst M)
        Volumes := S.Volumes.map (ApplyReplacements.volume subst M)
        Other := S.Other } := by
  simp only [ApplyReplacements, TaskSpec.DeepCopy, rangeStore_eq_map]

theorem ApplyReplacements.env_value (M : GoMap) (e : EnvVar) :
    (ApplyReplacements.env subst M e).Value = subst e.Value M := by
  obtain ⟨n, v, vf⟩ := e
  cases vf <;> rfl

theorem ApplyReplacements.env_name (M : GoMap) (e : EnvVar) :
    (ApplyReplacements.env subst M e).Name = e.Name := by
  obtain ⟨n, v, vf⟩ := e
  cases vf <;> rfl

theorem ApplyReplacements.env_secretKeyRef (M : GoMap) (e : EnvVar) :
    ((ApplyReplacements.env subst M e).ValueFrom.bind (fun vf => vf.SecretKeyRef)).map
        (fun r => (r.LocalObjectReference.Name, r.Key)) =
      (e.ValueFrom.bind (fun vf => vf.SecretKeyRef)).map
        (fun r => (subst r.LocalObjectReference.Name M, subst r.Key M)) := by
  obtain ⟨n, v, vf⟩ := e
  cases vf with
  | none => rfl
  | some vf =>
    obtain ⟨c, s, o⟩ := vf
    cases c <;> cases s <;> rfl

theorem ApplyReplacements.env_configMapKeyRef (M : GoMap) (e : EnvVar) :
    ((ApplyReplacements.env subst M e).ValueFrom.bind (fun vf => vf.ConfigMapKeyRef)).map
        (fun r => (r.LocalObjectReference.Name, r.Key)) =
      (e.ValueFrom.bind (fun vf => vf.ConfigMapKeyRef)).map
        (fun r => (subst r.LocalObjectReference.Name M, subst r.Key M)) := by
  obtain ⟨n, v, vf⟩ := e
  cases vf with
  | none => rfl
  | some vf =>
    obtain ⟨c, s, o⟩ := vf
    cases c <;> cases s <;> rfl

theorem ApplyReplacements.envFrom_prefix (M : GoMap) (e : EnvFromSource) :
    (ApplyReplacements.envFrom subst M e).Prefix = subst e.Prefix M := by
  obtain ⟨p, c, s⟩ := e
  cases c <;> cases s <;> rfl

theorem ApplyReplacements.envFrom_configMapRef (M : GoMap) (e : EnvFromSource) :
    (ApplyReplacements.envFrom subst M e).ConfigMapRef.map (fun r => r.LocalObjectReference.Name) =
      e.ConfigMapRef.map (fun r => subst r.LocalObjectReference.Name M) := by
  obtain ⟨p, c, s⟩ := e
  cases c <;> cases s <;> rfl

theorem ApplyReplacements.envFrom_secretRef (M : GoMap) (e : EnvFromSource) :
    (ApplyReplacements.envFrom subst M e).SecretRef.map (fun r => r.LocalObjectReference.Name) =
      e.SecretRef.map (fun r => subst r.LocalObjectReference.Name M) := by
  obtain ⟨p, c, s⟩ := e
  cases c <;> cases s <;> rfl

theorem ApplyReplacements.env_frame (M : GoMap) (e : EnvVar) :
    (ApplyReplacements.env subst M e).frame = e.frame := by
  obtain ⟨n, v, vf⟩ := e
  cases vf with
  | none => rfl
  | some vf =>
    obtain ⟨c, s, o⟩ := vf
    cases c <;> cases s <;> rfl

theorem ApplyReplacements.envFrom_frame (M : GoMap) (e : EnvFromSource) :
    (ApplyReplacements.envFrom subst M e).frame = e.frame := by
  obtain ⟨p, c, s⟩ := e
  cases c <;> cases s <;> rfl

theorem ApplyReplacements.volume_frame (M : GoMap) (v : Volume) :
    (ApplyReplacements.volume subst M v).frame = v.frame := by
  obtain ⟨n, ⟨c, s, p, o⟩⟩ := v
  cases c <;> cases s <;> cases p <;> rfl

theorem ApplyReplacements.step_frame (M : GoMap) (c : Container) :
    (ApplyReplacements.step subst M c).frame = c.frame := by
  rw [ApplyReplacements.step_eq]
  simp only [Container.frame, List.map_map]
  congr 1
  · apply List.map_congr_left
    intro e _
    exact ApplyReplacements.envFrom_frame subst M e
  · apply List.map_congr_left
    intro e _
    exact ApplyReplacements.env_frame subst M e

/-- C4 (exhaustive step coverage): for every specification, map and step `i`, step
`i` of the result has `Name`, `Image`, `WorkingDir`, every `Args` and `Command`
entry, every `Env` value, the name and key of every present secret or config map
key reference, every `EnvFrom` prefix, the name of every present config map or
secret reference, and every volume mount `Name`, `MountPath` and `SubPath` equal
to `templating.ApplyReplacements` applied, with the map, to the same field of step
`i` of the input. -/
theorem ApplyReplacements_step_coverage (S : TaskSpec) (M : GoMap) (i : Nat) (s : Container)
    (hs : S.Steps[i]? = some s) :
    ∃ o, (ApplyReplacements subst S M).Steps[i]? = some o ∧
      o.Name = subst s.Name M ∧
      o.Image = subst s.Image M ∧
      o.WorkingDir = subst s.WorkingDir M ∧
      o.Args = s.Args.map (fun a => subst a M) ∧
      o.Command = s.Command.map (fun a => subst a M) ∧
      o.Env.map (fun e => e.Value) = s.Env.map (fun e => subst e.Value M) ∧
      o.Env.map (fun e => (e.ValueFrom.bind (fun vf => vf.SecretKeyRef)).map
          (fun r => (r.LocalObjectReference.Name, r.Key))) =
        s.Env.map (fun e => (e.ValueFrom.bind (fun vf => vf.SecretKeyRef)).map
          (fun r => (subst r.LocalObjectReference.Name M, subst r.Key M))) ∧
      o.Env.map (fun e => (e.ValueFrom.bind (fun vf => vf.ConfigMapKeyRef)).map
          (fun r => (r.LocalObjectReference.Name, r.Key))) =
        s.Env.map (fun e => (e.ValueFrom.bind (fun vf => vf.ConfigMapKeyRef)).map
          (fun r => (subst r.LocalObjectReference.Name M, subst r.Key M))) ∧
      o.EnvFrom.map (fun e => e.Prefix) = s.EnvFrom.map (fun e => subst e.Prefix M) ∧
      o.EnvFrom.map (fun e => e.ConfigMapRef.map (fun r => r.LocalObjectReference.Name)) =
        s.EnvFrom.map (fun e =>
          e.ConfigMapRef.map (fun r => subst r.LocalObjectReference.Name M)) ∧
      o.EnvFrom.map (fun e => e.SecretRef.map (fun r => r.LocalObjectReference.Name)) =
        s.EnvFrom.map (fun e => e.SecretRef.map (fun r => subst r.LocalObjectReference.Name M)) ∧
      o.VolumeMounts.map (fun v => (v.Name, v.MountPath, v.SubPath)) =
        s.VolumeMounts.map (fun v => (subst v.Name M, subst v.MountPath M, subst v.SubPath M)) := by
  refine ⟨ApplyReplacements.step subst M s, ?_, ?_⟩
  · rw [ApplyReplacements_eq]
    simp [List.getElem?_map, hs]
  · rw [ApplyReplacements.step_eq]
    refine ⟨rfl, rfl, rfl, rfl, rfl, ?_, ?_, ?_, ?_, ?_, ?_, ?_⟩
    · simp only [List.map_map]
      exact List.map_congr_left (fun e _ => ApplyReplacements.env_value subst M e)
    · simp only [List.map_map]
      exact List.map_congr_left (fun e _ => ApplyReplacements.env_secretKeyRef subst M e)
    · simp only [List.map_map]
      exact List.map_congr_left (fun e _ => ApplyReplacements.env_configMapKeyRef subst M e)
    · simp only [List.map_map]
      exact List.map_congr_left (fun e _ => ApplyReplacements.envFrom_prefix subst M e)
    · simp only [List.map_map]
      exact List.map_congr_left (fun e _ => ApplyReplacements.envFrom_configMapRef subst M e)
    · simp only [List.map_map]
      exact List.map_congr_left (fun e _ => ApplyReplacements.envFrom_secretRef subst M e)
    · simp only [List.map_map]
      exact List.map_congr_left (fun v _ => rfl)

/-- C5 (volume coverage): for every specification, map and volume `i`, volume `i`
of the result has `Name` equal to the substitution of the input `Name`, and
`ConfigMap.Name`, `Secret.SecretName` and `PersistentVolumeClaim.ClaimName` equal
to the substitution of the input field whenever that source is present; a volume
with none of the three sources keeps the source of the input. -/
theorem ApplyReplacements_volume_coverage (S : TaskSpec) (M : GoMap) (i : Nat) (v : Volume)
    (hv : S.Volumes[i]? = some v) :
    ∃ o, (ApplyReplacements subst S M).Volumes[i]? = some o ∧
      o.Name = subst v.Name M ∧
      o.VolumeSource.ConfigMap.map (fun r => r.LocalObjectReference.Name) =
        v.VolumeSource.ConfigMap.map (fun r => subst r.LocalObjectReference.Name M) ∧
      o.VolumeSource.Secret.map (fun r => r.SecretName) =
        v.VolumeSource.Secret.map (fun r => subst r.SecretName M) ∧
      o.VolumeSource.PersistentVolumeClaim.map (fun r => r.ClaimName) =
        v.VolumeSource.PersistentVolumeClaim.map (fun r => subst r.ClaimName M) ∧
      (v.VolumeSource.ConfigMap = none → v.VolumeSource.Secret = none →
        v.VolumeSource.PersistentVolumeClaim = none → o.VolumeSource = v.VolumeSource) := by
  refine ⟨ApplyReplacements.volume subst M v, ?_, ?_⟩
  · rw [ApplyReplacements_eq]
    simp [List.getElem?_map, hv]
  · obtain ⟨n, ⟨c, s, p, o⟩⟩ := v
    cases c <;> cases s <;> cases p <;>
      simp [ApplyReplacements.volume]

/-- C7 (keys are never substituted): the result and the input have the same frame,
that is, they agree on every field that is not a designated template field; and
for every step `i` and env entry `j` the `Name` of the entry in the result is its
`Name` in the input, whatever the substitution would do to it. -/
theorem ApplyReplacements_frame (S : TaskSpec) (M : GoMap) :
    (ApplyReplacements subst S M).frame = S.frame ∧
    ∀ (i j : Nat) (s : Container) (e : EnvVar), S.Steps[i]? = some s → s.Env[j]? = some e →
      ∃ o e', (ApplyReplacements subst S M).Steps[i]? = some o ∧ o.Env[j]? = some e' ∧
        e'.Name = e.Name := by
  constructor
  · rw [ApplyReplacements_eq]
    simp only [TaskSpec.frame, List.map_map]
    congr 1
    · exact List.map_congr_left (fun c _ => ApplyReplacements.step_frame subst M c)
    · exact List.map_congr_left (fun v _ => ApplyReplacements.volume_frame subst M v)
  · intro i j s e hs he
    refine ⟨ApplyReplacements.step subst M s, ApplyReplacements.env subst M e, ?_, ?_, ?_⟩
    · rw [ApplyReplacements_eq]
      simp [List.getElem?_map, hs]
    · rw [ApplyReplacements.step_eq]
      simp [List.getElem?_map, he]
    · exact ApplyReplacements.env_name subst M e

/-! ### Dependence on the template fields only -/

theorem ApplyReplacements.env_congr (f g : String → GoMap → String) (M M' : GoMap) (e : EnvVar)
    (h : ∀ t ∈ e.templates, f t M = g t M') :
    ApplyReplacements.env f M e = ApplyReplacements.env g M' e := by
  obtain ⟨n, v, vf⟩ := e
  cases vf with
  | none =>
    simp only [EnvVar.templates, List.mem_cons, List.not_mem_nil, or_false, forall_eq] at h
    simp [ApplyReplacements.env, h]
  | some vf =>
    obtain ⟨c, s, o⟩ := vf
    cases c <;> cases s <;>
      simp only [EnvVar.templates, List.mem_cons, List.mem_append, List.not_mem_nil, or_false,
          false_or, forall_eq_or_imp, forall_eq, List.nil_append, List.append_nil,
          List.cons_append, or_imp, forall_and] at h <;>
      simp [ApplyReplacements.env, h]

theorem ApplyReplacements.envFrom_congr (f g : String → GoMap → String) (M M' : GoMap)
    (e : EnvFromSource) (h : ∀ t ∈ e.templates, f t M = g t M') :
    ApplyReplacements.envFrom f M e = ApplyReplacements.envFrom g M' e := by
  obtain ⟨p, c, s⟩ := e
  cases c <;> cases s <;>
    simp only [EnvFromSource.templates, List.mem_cons, List.mem_append, List.not_mem_nil,
        or_false, false_or, forall_eq_or_imp, forall_eq, List.nil_append, List.append_nil,
        List.cons_append, or_imp, forall_and] at h <;>
    simp [ApplyReplacements.envFrom, h]

theorem ApplyReplacements.volumeMount_congr (f g : String → GoMap → String) (M M' : GoMap)
    (v : VolumeMount) (h : ∀ t ∈ v.templates, f t M = g t M') :
    ApplyReplacements.volumeMount f M v = ApplyReplacements.volumeMount g M' v := by
  simp only [VolumeMount.templates, List.mem_cons, List.not_mem_nil, or_false,
    forall_eq_or_imp, forall_eq] at h
  simp [ApplyReplacements.volumeMount, h]

theorem ApplyReplacements.volume_congr (f g : String → GoMap → String) (M M' : GoMap)
    (v : Volume) (h : ∀ t ∈ v.templates, f t M = g t M') :
    ApplyReplacements.volume f M v = ApplyReplacements.volume g M' v := by
  obtain ⟨n, ⟨c, s, p, o⟩⟩ := v
  cases c <;> cases s <;> cases p <;>
    simp only [Volume.templates, List.mem_cons, List.mem_append, List.not_mem_nil,
        or_false, false_or, forall_eq_or_imp, forall_eq, List.nil_append, List.append_nil,
        List.cons_append, or_imp, forall_and] at h <;>
    simp [ApplyReplacements.volume, h]

theorem ApplyReplacements.step_congr (f g : String → GoMap → String) (M M' : GoMap)
    (c : Container) (h : ∀ t ∈ c.templates, f t M = g t M') :
    ApplyReplacements.step f M c = ApplyReplacements.step g M' c := by
  rw [ApplyReplacements.step_eq, ApplyReplacements.step_eq]
  simp only [Container.templates, List.mem_cons, List.mem_append, List.mem_flatMap,
    forall_eq_or_imp, or_imp, forall_and] at h
  obtain ⟨hn, hi, ⟨⟨ha, he⟩, hf⟩, hw, hc, hv⟩ := h
  simp only [hn, hi, hw]
  congr 1
  · exact List.map_congr_left hc
  · exact List.map_congr_left ha
  · exact List.map_congr_left (fun e he' =>
      ApplyReplacements.envFrom_congr f g M M' e (fun t ht => hf t ⟨e, he', ht⟩))
  · exact List.map_congr_left (fun e he' =>
      ApplyReplacements.env_congr f g M M' e (fun t ht => he t ⟨e, he', ht⟩))
  · exact List.map_congr_left (fun v hv' =>
      ApplyReplacements.volumeMount_congr f g M M' v (fun t ht => hv t ⟨v, hv', ht⟩))

/-- The traversal reads the substitution only at the template fields of the
specification. -/
theorem ApplyReplacements_congr (f g : String → GoMap → String) (M M' : GoMap) (S : TaskSpec)
    (h : ∀ t ∈ S.templates, f t M = g t M') :
    ApplyReplacements f S M = ApplyReplacements g S M' := by
  rw [ApplyReplacements_eq, ApplyReplacements_eq]
  simp only [TaskSpec.templates, List.mem_append, List.mem_flatMap, or_imp, forall_and] at h
  obtain ⟨hs, hv⟩ := h
  congr 1
  · exact List.map_congr_left (fun c hc =>
      ApplyReplacements.step_congr f g M M' c (fun t ht => hs t ⟨c, hc, ht⟩))
  · exact List.map_congr_left (fun v hv' =>
      ApplyReplacements.volume_congr f g M M' v (fun t ht => hv t ⟨v, hv', ht⟩))

theorem ApplyReplacements.env_id (M : GoMap) (e : EnvVar) :
    ApplyReplacements.env (fun t _ => t) M e = e := by
  obtain ⟨n, v, vf⟩ := e
  cases vf with
  | none => rfl
  | some vf =>
    obtain ⟨c, s, o⟩ := vf
    cases c <;> cases s <;> rfl

theorem ApplyReplacements.envFrom_id (M : GoMap) (e : EnvFromSource) :
    ApplyReplacements.envFrom (fun t _ => t) M e = e := by
  obtain ⟨p, c, s⟩ := e
  cases c <;> cases s <;> rfl

theorem ApplyReplacements.volume_id (M : GoMap) (v : Volume) :
    ApplyReplacements.volume (fun t _ => t) M v = v := by
  obtain ⟨n, ⟨c, s, p, o⟩⟩ := v
  cases c <;> cases s <;> cases p <;> rfl

theorem ApplyReplacements.step_id (M : GoMap) (c : Container) :
    ApplyReplacements.step (fun t _ => t) M c = c := by
  rw [ApplyReplacements.step_eq]
  have h1 : ApplyReplacements.envFrom (fun t _ => t) M = id :=
    funext (ApplyReplacements.envFrom_id M)
  have h2 : ApplyReplacements.env (fun t _ => t) M = id := funext (ApplyReplacements.env_id M)
  have h3 : ApplyReplacements.volumeMount (fun t _ => t) M = id := funext (fun _ => rfl)
  simp only [h1, h2, h3, List.map_id_fun, List.map_id_fun', id_eq]

/-- A substitution that changes no string leaves the specification as it is. -/
theorem ApplyReplacements_id (M : GoMap) (S : TaskSpec) :
    ApplyReplacements (fun t _ => t) S M = S := by
  rw [ApplyReplacements_eq]
  have h1 : ApplyReplacements.step (fun t _ => t) M = id := funext (ApplyReplacements.step_id M)
  have h2 : ApplyReplacements.volume (fun t _ => t) M = id :=
    funext (ApplyReplacements.volume_id M)
  simp only [h1, h2, List.map_id_fun, id_eq]

/-- When the substitution fixes every template field of a specification, the
traversal returns the specification. -/
theorem ApplyReplacements_fixed (S : TaskSpec) (M : GoMap)
    (h : ∀ t ∈ S.templates, subst t M = t) : ApplyReplacements subst S M = S := by
  rw [ApplyReplacements_congr subst (fun t _ => t) M M S h, ApplyReplacements_id]

/-! ### The template fields of the result -/

theorem ApplyReplacements.env_templates (M : GoMap) (e : EnvVar) :
    (ApplyReplacements.env subst M e).templates = e.templates.map (fun t => subst t M) := by
  obtain ⟨n, v, vf⟩ := e
  cases vf with
  | none => rfl
  | some vf =>
    obtain ⟨c, s, o⟩ := vf
    cases c <;> cases s <;> rfl

theorem ApplyReplacements.envFrom_templates (M : GoMap) (e : EnvFromSource) :
    (ApplyReplacements.envFrom subst M e).templates = e.templates.map (fun t => subst t M) := by
  obtain ⟨p, c, s⟩ := e
  cases c <;> cases s <;> rfl

theorem ApplyReplacements.volume_templates (M : GoMap) (v : Volume) :
    (ApplyReplacements.volume subst M v).templates = v.templates.map (fun t => subst t M) := by
  obtain ⟨n, ⟨c, s, p, o⟩⟩ := v
  cases c <;> cases s <;> cases p <;> rfl

theorem flatMap_map_templates {α : Type} (tp : α → List String) (body : α → α)
    (f : String → String) (h : ∀ a, tp (body a) = (tp a).map f) (xs : List α) :
    (xs.map body).flatMap tp = (xs.flatMap tp).map f := by
  induction xs with
  | nil => rfl
  | cons a xs ih => simp only [List.map_cons, List.flatMap_cons, List.map_append, ih, h]

theorem ApplyReplacements.step_templates (M : GoMap) (c : Container) :
    (ApplyReplacements.step subst M c).templates = c.templates.map (fun t => subst t M) := by
  rw [ApplyReplacements.step_eq]
  simp only [Container.templates, List.map_cons, List.map_append]
  rw [flatMap_map_templates EnvVar.templates _ _ (ApplyReplacements.env_templates subst M),
    flatMap_map_templates EnvFromSource.templates _ _
      (ApplyReplacements.envFrom_templates subst M),
    flatMap_map_templates VolumeMount.templates (ApplyReplacements.volumeMount subst M)
      (fun t => subst t M) (fun _ => rfl)]

/-- The template fields of the result are the substitutions of the template
fields of the input, position by position. -/
theorem ApplyReplacements_templates (S : TaskSpec) (M : GoMap) :
    (ApplyReplacements subst S M).templates = S.templates.map (fun t => subst t M) := by
  rw [ApplyReplacements_eq]
  simp only [TaskSpec.templates, List.map_append]
  rw [flatMap_map_templates Container.templates _ _ (ApplyReplacements.step_templates subst M),
    flatMap_map_templates Volume.templates _ _ (ApplyReplacements.volume_templates subst M)]

end TraversalLemmas


/-! ## Claims that rest on the placeholder engine -/

/-- C4 at a concrete input: every template field of `exampleStep` is rewritten. -/
theorem ApplyReplacements_step_coverage_witness :
    exampleSpec.Steps[0]? = some exampleStep ∧
    ∃ o, (ApplyReplacements templating.ApplyReplacements exampleSpec exampleMap).Steps[0]?
        = some o ∧
      o.Name = "build" ∧ o.Image = "busybox" ∧ o.WorkingDir = "/work" ∧
      o.Args = ["-c", "-v"] ∧ o.Command = ["sh"] ∧
      o.Env.map (fun e => (e.ValueFrom.bind (fun vf => vf.SecretKeyRef)).map
          (fun r => (r.LocalObjectReference.Name, r.Key)))
        = [some ("token", "password"), none, none] ∧
      o.EnvFrom.map (fun e => e.Prefix) = ["APP_", ""] ∧
      o.VolumeMounts.map (fun v => (v.Name, v.MountPath, v.SubPath))
        = [("cache", "/work", "${dir}")] := by
  refine ⟨rfl, ?_⟩
  obtain ⟨o, h0, hn, hi, hw, ha, hc, _, hs, _, hp, _, _, hv⟩ :=
    ApplyReplacements_step_coverage templating.ApplyReplacements exampleSpec exampleMap 0
      exampleStep rfl
  exact ⟨o, h0, hn.trans (by decide), hi.trans (by decide), hw.trans (by decide),
    ha.trans (by decide), hc.trans (by decide), hs.trans (by decide), hp.trans (by decide),
    hv.trans (by decide)⟩

/-- C5 at a concrete input: the claim volume of `exampleSpec`, whose placeholder
has no entry in the map, and the host path volume, whose source is kept. -/
theorem ApplyReplacements_volume_coverage_witness :
    (∃ v, exampleSpec.Volumes[0]? = some v ∧
      ∃ o, (ApplyReplacements templating.ApplyReplacements exampleSpec exampleMap).Volumes[0]?
          = some o ∧ o.Name = "cache" ∧
        o.VolumeSource.ConfigMap.map (fun r => r.LocalObjectReference.Name) = some "settings") ∧
    (∃ v, exampleSpec.Volumes[2]? = some v ∧
      ∃ o, (ApplyReplacements templating.ApplyReplacements exampleSpec exampleMap).Volumes[2]?
          = some o ∧ o.Name = "cache-host" ∧ o.VolumeSource = v.VolumeSource) := by
  constructor
  · refine ⟨_, rfl, ?_⟩
    obtain ⟨o, h0, hn, hc, _⟩ :=
      ApplyReplacements_volume_coverage templating.ApplyReplacements exampleSpec exampleMap 0 _ rfl
    exact ⟨o, h0, hn.trans (by decide), hc.trans (by decide)⟩
  · refine ⟨_, rfl, ?_⟩
    obtain ⟨o, h0, hn, _, _, _, hk⟩ :=
      ApplyReplacements_volume_coverage templating.ApplyReplacements exampleSpec exampleMap 2 _ rfl
    exact ⟨o, h0, hn.trans (by decide), hk rfl rfl rfl⟩

/-- C7 at a concrete input: the env entry of `exampleStep` is named `${n}`, the
map resolves `n`, and the entry keeps its name. -/
theorem ApplyReplacements_frame_witness :
    GoMap.index exampleMap "n" = some "build" ∧
    ∃ o e, (ApplyReplacements templating.ApplyReplacements exampleSpec exampleMap).Steps[0]?
        = some o ∧ o.Env[0]? = some e ∧ e.Name = "${n}" := by
  refine ⟨by decide, ?_⟩
  obtain ⟨o, e, h0, h1, hn⟩ :=
    (ApplyReplacements_frame templating.ApplyReplacements exampleSpec exampleMap).2 0 0
      exampleStep _ rfl rfl
  exact ⟨o, e, h0, h1, hn⟩

/-- C8 (single-pass substitution): when a template field of the specification
holds a placeholder whose key the map resolves, the same field of the result is
the rendering of what precedes the placeholder, then the value of the key, as it
is, then the rendering of what follows; the value is not scanned, whatever it
contains. And the result is the same for every enumeration of the entries of the
map. -/
theorem ApplyReplacements_single_pass (S : TaskSpec) (M : GoMap) (j : Nat) (t : String)
    (ts1 ts2 : List templating.Token) (k : List Char) (v : String)
    (ht : S.templates[j]? = some t)
    (htok : templating.tokenize templating.State.text t.data
      = ts1 ++ templating.Token.ph k :: ts2)
    (hv : GoMap.index M (String.mk k) = some v) :
    (∃ t', (ApplyReplacements templating.ApplyReplacements S M).templates[j]? = some t' ∧
      t'.data = ts1.flatMap (templating.render M) ++ v.data
        ++ ts2.flatMap (templating.render M)) ∧
    ∀ M' : GoMap, List.Perm M' M → (M.map Prod.fst).Nodup →
      ApplyReplacements templating.ApplyReplacements S M'
        = ApplyReplacements templating.ApplyReplacements S M := by
  constructor
  · refine ⟨templating.ApplyReplacements t M, ?_, ?_⟩
    · rw [ApplyReplacements_templates, List.getElem?_map, ht]
      rfl
    · simp only [templating.ApplyReplacements, htok, List.flatMap_append, List.flatMap_cons,
        templating.render, hv, List.append_assoc]
  · intro M' hp hnd
    exact ApplyReplacements_congr _ _ M' M S
      (fun t _ => templating.ApplyReplacements_index_congr t M M'
        (GoMap.index_perm M M' hp hnd))

/-- C8 at a concrete input: the sub path `${sub}` of the volume mount of
`exampleStep` becomes the value `${dir}` of `sub`, and stays so although the map
resolves `dir`. -/
theorem ApplyReplacements_single_pass_witness :
    GoMap.index exampleMap "dir" = some "work" ∧
    ∃ t', (ApplyReplacements templating.ApplyReplacements exampleSpec exampleMap).templates[19]?
        = some t' ∧ t' = "${dir}" := by
  refine ⟨by decide, ?_⟩
  obtain ⟨t', h0, h1⟩ :=
    (ApplyReplacements_single_pass exampleSpec exampleMap 19 "${sub}" []
      [] ['s', 'u', 'b'] "${dir}" (by decide) (by decide) (by decide)).1
  exact ⟨t', h0, String.ext (h1.trans (by decide))⟩

/-- C9 (pass-through of unresolved placeholders): a placeholder of a template
field whose key is absent from the map stands unchanged, delimiters included, in
the same field of the result, between the renderings of what precedes and of what
follows it; and a field none of whose placeholders has its key in the map is the
same in the result. -/
theorem ApplyReplacements_pass_through (S : TaskSpec) (M : GoMap) (j : Nat) (t : String)
    (ht : S.templates[j]? = some t) :
    ∃ t', (ApplyReplacements templating.ApplyReplacements S M).templates[j]? = some t' ∧
      (∀ (ts1 ts2 : List templating.Token) (k : List Char),
        templating.tokenize templating.State.text t.data
          = ts1 ++ templating.Token.ph k :: ts2 →
        GoMap.index M (String.mk k) = none →
        t'.data = ts1.flatMap (templating.render M) ++ ('$' :: '\x7b' :: (k ++ ['\x7d']))
          ++ ts2.flatMap (templating.render M)) ∧
      ((∀ k ∈ templating.placeholders t, GoMap.index M k = none) → t' = t) := by
  refine ⟨templating.ApplyReplacements t M, ?_, ?_, ?_⟩
  · rw [ApplyReplacements_templates, List.getElem?_map, ht]
    rfl
  · intro ts1 ts2 k htok hk
    simp only [templating.ApplyReplacements, htok, List.flatMap_append, List.flatMap_cons,
      templating.render, hk, templating.Token.text, List.append_assoc]
  · exact templating.ApplyReplacements_unresolved t M

/-- C9 at a concrete input: the claim name `${claim}` of the second volume of
`exampleSpec` has no entry in the map and is returned as it is. -/
theorem ApplyReplacements_pass_through_witness :
    GoMap.index exampleMap "claim" = none ∧
    ∃ t', (ApplyReplacements templating.ApplyReplacements exampleSpec exampleMap).templates[28]?
        = some t' ∧ t' = "${claim}" := by
  refine ⟨by decide, ?_⟩
  obtain ⟨t', h0, _, h2⟩ :=
    ApplyReplacements_pass_through exampleSpec exampleMap 28 "${claim}" (by decide)
  exact ⟨t', h0, h2 (by decide)⟩

/-- C10, as stated, fails: with the image `${a}` and the entry `a ↦ ${a}!`, one
application yields the image `${a}!` and a second one `${a}!!`. -/
theorem ApplyReplacements_not_idempotent :
    (ApplyReplacements templating.ApplyReplacements loopSpec [("a", "${a}!")]).Steps.map
        (fun c => c.Image) = ["${a}!"] ∧
    (ApplyReplacements templating.ApplyReplacements
      (ApplyReplacements templating.ApplyReplacements loopSpec [("a", "${a}!")])
      [("a", "${a}!")]).Steps.map (fun c => c.Image) = ["${a}!!"] ∧
    ApplyReplacements templating.ApplyReplacements
      (ApplyReplacements templating.ApplyReplacements loopSpec [("a", "${a}!")])
      [("a", "${a}!")]
      ≠ ApplyReplacements templating.ApplyReplacements loopSpec [("a", "${a}!")] := by
  decide

/-- C10, amended: a second application with the same map changes nothing,
provided the first application left, in the template fields of its result, no
placeholder whose key is in the map. -/
theorem ApplyReplacements_idempotent (S : TaskSpec) (M : GoMap)
    (h : ∀ t ∈ (ApplyReplacements templating.ApplyReplacements S M).templates,
      ∀ k ∈ templating.placeholders t, GoMap.index M k = none) :
    ApplyReplacements templating.ApplyReplacements
        (ApplyReplacements templating.ApplyReplacements S M) M
      = ApplyReplacements templating.ApplyReplacements S M :=
  ApplyReplacements_fixed templating.ApplyReplacements _ M
    (fun t ht => templating.ApplyReplacements_unresolved t M (h t ht))

/-- C10 amended, at a concrete input: `loopSpec` with the entry `a ↦ x`. -/
theorem ApplyReplacements_idempotent_witness :
    ApplyReplacements templating.ApplyReplacements
        (ApplyReplacements templating.ApplyReplacements loopSpec [("a", "x")]) [("a", "x")]
      = ApplyReplacements templating.ApplyReplacements loopSpec [("a", "x")] :=
  ApplyReplacements_idempotent loopSpec [("a", "x")] (by decide)

/-! ## More on the map built by `ApplyParameters` -/

/-- The entry of a parameter name in the map built by `ApplyParameters`: the
value of the last binding of the name; without a binding, the last non-empty
default declared for the name; otherwise none. -/
theorem ApplyParameters.replacements_index (tr : TaskRun) (defaults : List TaskParam)
    (n : String) :
    GoMap.index (ApplyParameters.replacements tr defaults) ("inputs.params." ++ n) =
      match (tr.Spec.Inputs.Params.filter (fun p => p.Name = n)).getLast? with
      | some p => some p.Value
      | none =>
        match (defaults.filter (fun d => d.Name = n ∧ d.Default ≠ "")).getLast? with
        | some d => some d.Default
        | none => none := by
  rw [ApplyParameters.replacements, ApplyParameters.setParams_index,
    ApplyParameters.setDefaults_index]
  rfl

theorem ApplyParameters.setParams_index_other (m : GoMap) (ps : List Param) (k : String)
    (hk : ∀ n, k ≠ "inputs.params." ++ n) :
    GoMap.index (ApplyParameters.setParams m ps) k = GoMap.index m k := by
  induction ps using List.reverseRecOn with
  | nil => rfl
  | append_singleton ps p ih =>
    rw [ApplyParameters.setParams_concat, GoMap.index_assign, if_neg (hk p.Name), ih]

theorem ApplyParameters.setDefaults_index_other (m : GoMap) (ds : List TaskParam) (k : String)
    (hk : ∀ n, k ≠ "inputs.params." ++ n) :
    GoMap.index (ApplyParameters.setDefaults m ds) k = GoMap.index m k := by
  induction ds using List.reverseRecOn with
  | nil => rfl
  | append_singleton ds d ih =>
    rw [ApplyParameters.setDefaults_concat]
    by_cases hd : d.Default = ""
    · simp [hd, ih]
    · rw [if_pos hd, GoMap.index_assign, if_neg (hk d.Name), ih]

theorem ApplyParameters.setDefaults_empty (ds : List TaskParam)
    (h : ∀ d ∈ ds, d.Default = "") : ApplyParameters.setDefaults [] ds = [] := by
  induction ds using List.reverseRecOn with
  | nil => rfl
  | append_singleton ds d ih =>
    rw [ApplyParameters.setDefaults_concat]
    have hd : d.Default = "" := h d (by simp)
    simp only [hd, ne_eq, not_true_eq_false, if_false]
    exact ih (fun e he => h e (by simp [he]))

/-- C13 (defaults with duplicate names): for a name that no binding has and that
some declaration gives a non-empty default, the map built by `ApplyParameters`
sends `inputs.params.<name>` to the default of the last declaration of the name
whose default is non-empty; and declarations that follow with the empty default
for that name leave the entry as it is. -/
theorem ApplyParameters_last_default (tr : TaskRun) (defaults : List TaskParam) (n : String)
    (hb : ∀ p ∈ tr.Spec.Inputs.Params, p.Name ≠ n)
    (hd : ∃ d ∈ defaults, d.Name = n ∧ d.Default ≠ "") :
    (∃ d, (defaults.filter (fun d => d.Name = n ∧ d.Default ≠ "")).getLast? = some d ∧
      GoMap.index (ApplyParameters.replacements tr defaults) ("inputs.params." ++ n)
        = some d.Default) ∧
    ∀ later : List TaskParam, (∀ e ∈ later, e.Name = n → e.Default = "") →
      GoMap.index (ApplyParameters.replacements tr (defaults ++ later))
          ("inputs.params." ++ n) =
        GoMap.index (ApplyParameters.replacements tr defaults) ("inputs.params." ++ n) := by
  have hnb : (tr.Spec.Inputs.Params.filter (fun p => p.Name = n)).getLast? = none := by
    rw [getLast?_filter_eq_none]
    intro p hp
    simpa using hb p hp
  constructor
  · obtain ⟨d, hm, hn, hne⟩ := hd
    cases hl : (defaults.filter (fun d => d.Name = n ∧ d.Default ≠ "")).getLast? with
    | none =>
      rw [getLast?_filter_eq_none] at hl
      have := hl d hm
      simp [hn, hne] at this
    | some d1 =>
      refine ⟨d1, rfl, ?_⟩
      rw [ApplyParameters.replacements_index, hnb, hl]
  · intro later hlater
    rw [ApplyParameters.replacements_index, ApplyParameters.replacements_index, hnb]
    have hf : later.filter (fun d => d.Name = n ∧ d.Default ≠ "") = [] := by
      rw [List.filter_eq_nil_iff]
      intro e he
      simp only [decide_eq_true_eq, not_and, not_not]
      exact hlater e he
    rw [List.filter_append, hf, List.append_nil]

/-- C13 at a concrete input: `x` is declared three times, with the defaults `a`,
`b` and the empty string, and is not bound; the entry is `b`. -/
theorem ApplyParameters_last_default_witness :
    (∃ d, ([(⟨"x", "a"⟩ : TaskParam), ⟨"x", "b"⟩, ⟨"x", ""⟩].filter
        (fun d => d.Name = "x" ∧ d.Default ≠ "")).getLast? = some d ∧
      GoMap.index
        (ApplyParameters.replacements ⟨⟨⟨[⟨"y", "v"⟩]⟩⟩⟩ [⟨"x", "a"⟩, ⟨"x", "b"⟩, ⟨"x", ""⟩])
        ("inputs.params." ++ "x") = some d.Default) ∧
    ∀ later : List TaskParam, (∀ e ∈ later, e.Name = "x" → e.Default = "") →
      GoMap.index
          (ApplyParameters.replacements ⟨⟨⟨[⟨"y", "v"⟩]⟩⟩⟩
            ([⟨"x", "a"⟩, ⟨"x", "b"⟩, ⟨"x", ""⟩] ++ later))
          ("inputs.params." ++ "x") =
        GoMap.index
          (ApplyParameters.replacements ⟨⟨⟨[⟨"y", "v"⟩]⟩⟩⟩ [⟨"x", "a"⟩, ⟨"x", "b"⟩, ⟨"x", ""⟩])
          ("inputs.params." ++ "x") :=
  ApplyParameters_last_default ⟨⟨⟨[⟨"y", "v"⟩]⟩⟩⟩ [⟨"x", "a"⟩, ⟨"x", "b"⟩, ⟨"x", ""⟩] "x"
    (by decide) ⟨⟨"x", "a"⟩, by decide, rfl, by decide⟩

/-- C11 (end-to-end parameter application): for every specification, TaskRun and
list of declarations, `ApplyParameters` is `ApplyReplacements` with the map of
defaults and bindings, whatever the placeholder engine is; that map holds, under
`inputs.params.<k>`, the value of the last binding of `k`, without a binding the
last non-empty default of `k`, and holds no other key. Hence, for every step, a
step whose `Image` is exactly one placeholder for `inputs.params.<n>`, with `n`
bound, has the value of the last binding of `n` as its `Image` in the result,
whatever default is declared for `n`: for every engine, when the engine turns the
image into the value of the key with every map that holds the key; and for the
engine modelled from the spec, when the scan of the image yields the one
placeholder token of the key. -/
theorem ApplyParameters_end_to_end (S : TaskSpec) (tr : TaskRun) (defaults : List TaskParam) :
    (∀ subst : String → GoMap → String,
      ApplyParameters subst S tr defaults =
        ApplyReplacements subst S (ApplyParameters.replacements tr defaults)) ∧
    (∀ k : String,
      GoMap.index (ApplyParameters.replacements tr defaults) ("inputs.params." ++ k) =
        match (tr.Spec.Inputs.Params.filter (fun p => p.Name = k)).getLast? with
        | some p => some p.Value
        | none =>
          match (defaults.filter (fun d => d.Name = k ∧ d.Default ≠ "")).getLast? with
          | some d => some d.Default
          | none => none) ∧
    (∀ key : String, (∀ k, key ≠ "inputs.params." ++ k) →
      GoMap.index (ApplyParameters.replacements tr defaults) key = none) ∧
    (∀ (subst : String → GoMap → String) (i : Nat) (s : Container) (n : String) (b : Param),
      S.Steps[i]? = some s →
      (∀ (M : GoMap) (v : String), GoMap.index M ("inputs.params." ++ n) = some v →
        subst s.Image M = v) →
      (tr.Spec.Inputs.Params.filter (fun p => p.Name = n)).getLast? = some b →
      ∃ s', (ApplyParameters subst S tr defaults).Steps[i]? = some s' ∧ s'.Image = b.Value) ∧
    ∀ (i : Nat) (s : Container) (n : String) (b : Param),
      S.Steps[i]? = some s →
      templating.tokenize templating.State.text s.Image.data =
        [templating.Token.ph ("inputs.params." ++ n).data] →
      (tr.Spec.Inputs.Params.filter (fun p => p.Name = n)).getLast? = some b →
      ∃ s', (ApplyParameters templating.ApplyReplacements S tr defaults).Steps[i]? = some s' ∧
        s'.Image = b.Value := by
  have hstep : ∀ (subst : String → GoMap → String) (i : Nat) (s : Container),
      S.Steps[i]? = some s →
      (ApplyParameters subst S tr defaults).Steps[i]? =
        some (ApplyReplacements.step subst (ApplyParameters.replacements tr defaults) s) := by
    intro subst i s hs
    rw [ApplyParameters, ApplyReplacements_eq]
    simp only [List.getElem?_map, hs, Option.map_some']
  have hkey : ∀ (n : String) (b : Param),
      (tr.Spec.Inputs.Params.filter (fun p => p.Name = n)).getLast? = some b →
      GoMap.index (ApplyParameters.replacements tr defaults) ("inputs.params." ++ n) =
        some b.Value := by
    intro n b hb
    rw [ApplyParameters.replacements_index, hb]
  refine ⟨fun _ => rfl, ApplyParameters.replacements_index tr defaults, ?_, ?_, ?_⟩
  · intro key hkey
    rw [ApplyParameters.replacements, ApplyParameters.setParams_index_other _ _ _ hkey,
      ApplyParameters.setDefaults_index_other _ _ _ hkey]
    rfl
  · intro subst i s n b hs himg hb
    refine ⟨_, hstep subst i s hs, ?_⟩
    rw [ApplyReplacements.step_eq]
    exact himg _ _ (hkey n b hb)
  · intro i s n b hs himg hb
    refine ⟨_, hstep templating.ApplyReplacements i s hs, ?_⟩
    rw [ApplyReplacements.step_eq]
    exact templating.ApplyReplacements_one_placeholder _ _ _ _ himg (hkey n b hb)

/-- C11 at the scenario of the spec: `greeting` is declared with the default `hi`
and bound to `hello`; the image of the step, the placeholder for
`inputs.params.greeting`, is `hello` in the result; the map holds `hello` under
`inputs.params.greeting`, and the engine modelled from the spec turns the image
into the value of that key. -/
theorem ApplyParameters_end_to_end_witness :
    greetingSpec.Steps[0]? = some greetingStep ∧
    templating.tokenize templating.State.text greetingStep.Image.data =
      [templating.Token.ph ("inputs.params." ++ "greeting").data] ∧
    (greetingRun.Spec.Inputs.Params.filter (fun p => p.Name = "greeting")).getLast? =
      some ⟨"greeting", "hello"⟩ ∧
    GoMap.index (ApplyParameters.replacements greetingRun [⟨"greeting", "hi"⟩])
      ("inputs.params." ++ "greeting") = some "hello" ∧
    (∀ (M : GoMap) (v : String), GoMap.index M ("inputs.params." ++ "greeting") = some v →
      templating.ApplyReplacements greetingStep.Image M = v) ∧
    ∃ s', (ApplyParameters templating.ApplyReplacements greetingSpec greetingRun
        [⟨"greeting", "hi"⟩]).Steps[0]? = some s' ∧ s'.Image = "hello" :=
  ⟨rfl, by decide, by decide,
    (ApplyParameters_end_to_end greetingSpec greetingRun [⟨"greeting", "hi"⟩]).2.1 "greeting",
    templating.ApplyReplacements_placeholder ("inputs.params." ++ "greeting") (by decide),
    (ApplyParameters_end_to_end greetingSpec greetingRun [⟨"greeting", "hi"⟩]).2.2.2.1
      templating.ApplyReplacements 0 greetingStep "greeting" ⟨"greeting", "hello"⟩ rfl
      (templating.ApplyReplacements_placeholder ("inputs.params." ++ "greeting") (by decide))
      (by decide)⟩

/-- C16 (the empty map is the identity): when the placeholder engine returns the
text it is given with the empty map, `ApplyReplacements` with the empty map
returns the specification; so does `ApplyResources` without resolved resources,
for every scope, and `ApplyParameters` for a TaskRun without parameters and
declarations whose defaults are all empty. -/
theorem ApplyReplacements_empty_map (subst : String → GoMap → String)
    (hsubst : ∀ text, subst text [] = text) (S : TaskSpec) :
    ApplyReplacements subst S [] = S ∧
    (∀ replacementStr : String, ApplyResources subst S [] replacementStr = S) ∧
    (∀ (tr : TaskRun) (defaults : List TaskParam), tr.Spec.Inputs.Params = [] →
      (∀ d ∈ defaults, d.Default = "") → ApplyParameters subst S tr defaults = S) := by
  have h0 : ApplyReplacements subst S [] = S :=
    ApplyReplacements_fixed subst S [] (fun t _ => hsubst t)
  refine ⟨h0, fun _ => h0, ?_⟩
  intro tr defaults hp hd
  have hm : ApplyParameters.replacements tr defaults = [] := by
    rw [ApplyParameters.replacements, hp, ApplyParameters.setDefaults_empty defaults hd]
    rfl
  rw [ApplyParameters, hm]
  exact h0

/-- C16 at a concrete input: the placeholder engine modelled from the spec
returns every text with the empty map, and `exampleSpec`, with a placeholder in
every template field, is returned as it is. -/
theorem ApplyReplacements_empty_map_witness :
    (∀ text, templating.ApplyReplacements text [] = text) ∧
    ApplyReplacements templating.ApplyReplacements exampleSpec [] = exampleSpec :=
  ⟨templating.ApplyReplacements_nil,
    (ApplyReplacements_empty_map templating.ApplyReplacements templating.ApplyReplacements_nil
      exampleSpec).1⟩

/-! ## Keys composed by `ApplyResources` -/

theorem append_sep_inj {α : Type} (sep : α) (a b c d : List α) (ha : sep ∉ a) (hc : sep ∉ c)
    (h : a ++ sep :: b = c ++ sep :: d) : a = c ∧ b = d := by
  induction a generalizing c with
  | nil =>
    cases c with
    | nil =>
      simp only [List.nil_append, List.cons.injEq, true_and] at h
      exact ⟨rfl, h⟩
    | cons y ys =>
      simp only [List.nil_append, List.cons_append, List.cons.injEq] at h
      exact absurd (List.mem_cons_self _ _) (h.1 ▸ hc)
  | cons x xs ih =>
    cases c with
    | nil =>
      simp only [List.nil_append, List.cons_append, List.cons.injEq] at h
      exact absurd (List.mem_cons_self _ _) (h.1 ▸ ha)
    | cons y ys =>
      simp only [List.cons_append, List.cons.injEq] at h
      obtain ⟨e1, e2⟩ :=
        ih ys (fun hh => ha (List.mem_cons_of_mem _ hh)) (fun hh => hc (List.mem_cons_of_mem _ hh))
          h.2
      exact ⟨by rw [h.1, e1], e2⟩

/-- Two compositions `<scope>.resources.<name>.<subKey>` with names that hold
no dot are equal only when the names and the sub-keys are. -/
theorem ApplyResources.key_inj (replacementStr n1 k1 n2 k2 : String)
    (h1 : '.' ∉ n1.data) (h2 : '.' ∉ n2.data)
    (h : replacementStr ++ ".resources." ++ n1 ++ "." ++ k1 =
      replacementStr ++ ".resources." ++ n2 ++ "." ++ k2) : n1 = n2 ∧ k1 = k2 := by
  have hd := congrArg String.data h
  simp only [String.data_append, List.append_assoc] at hd
  have hd1 := List.append_cancel_left (List.append_cancel_left hd)
  obtain ⟨e1, e2⟩ := append_sep_inj '.' n1.data k1.data n2.data k2.data h1 h2 hd1
  exact ⟨String.ext e1, String.ext e2⟩

/-- Writes to pairwise distinct keys, made into the empty map, leave the entries
written. -/
theorem GoMap.foldl_assign_nodup (es : List (String × String))
    (hn : (es.map Prod.fst).Nodup) :
    es.foldl (fun m e => GoMap.assign m e.1 e.2) [] = es.reverse := by
  induction es using List.reverseRecOn with
  | nil => rfl
  | append_singleton es e ih =>
    rw [List.map_append, List.nodup_append] at hn
    obtain ⟨hn1, _, hd⟩ := hn
    rw [List.foldl_append, List.reverse_append]
    simp only [List.foldl_cons, List.foldl_nil, List.reverse_cons, List.reverse_nil,
      List.nil_append, List.singleton_append]
    rw [ih hn1, GoMap.assign]
    congr 1
    rw [List.filter_eq_self]
    intro x hx
    have hx1 : x.1 ∈ es.map Prod.fst := List.mem_map.2 ⟨x, List.mem_reverse.1 hx, rfl⟩
    have hne : x.1 ≠ e.1 := fun he => hd hx1 (by simp [he])
    simpa using hne

/-- The keys of the writes of `ApplyResources` are pairwise distinct when the
binding names are, hold no dot, and every resource exports each sub-key once. -/
theorem ApplyResources.writes_nodup (replacementStr : String)
    (resolvedResources : List (String × PipelineResourceInterface))
    (hdot : ∀ nr ∈ resolvedResources, '.' ∉ nr.1.data)
    (hnames : (resolvedResources.map Prod.fst).Nodup)
    (hkeys : ∀ nr ∈ resolvedResources, (nr.2.Replacements.map Prod.fst).Nodup) :
    ((ApplyResources.writes resolvedResources replacementStr).map Prod.fst).Nodup := by
  rw [ApplyResources.writes, List.map_flatMap, List.nodup_flatMap]
  constructor
  · intro nr hnr
    rw [List.map_map]
    have hk := hkeys nr hnr
    have hf : (Prod.fst ∘ fun kv : String × String =>
          (replacementStr ++ ".resources." ++ nr.1 ++ "." ++ kv.1, kv.2)) =
        (fun k : String => replacementStr ++ ".resources." ++ nr.1 ++ "." ++ k) ∘ Prod.fst := rfl
    rw [hf, ← List.map_map]
    apply List.Nodup.map _ hk
    intro a b hab
    exact String.append_right_cancel _ _ _ hab
  · have hp : List.Pairwise (fun a b : String × PipelineResourceInterface => a.1 ≠ b.1)
        resolvedResources := List.pairwise_map.1 hnames
    refine List.Pairwise.imp_of_mem ?_ hp
    intro a b ha hb hab
    intro x hxa hxb
    simp only [List.mem_map] at hxa hxb
    obtain ⟨e1, ⟨kv1, _, rfl⟩, rfl⟩ := hxa
    obtain ⟨e2, ⟨kv2, _, rfl⟩, hk⟩ := hxb
    exact hab (ApplyResources.key_inj replacementStr _ _ _ _
      (hdot a ha) (hdot b hb) hk.symm).1

/-- Another enumeration of the exports of each resource makes the same writes,
in another order. -/
theorem ApplyResources.writes_perm_exports (replacementStr : String)
    (rs mid : List (String × PipelineResourceInterface))
    (h1 : List.Forall₂ (fun a b : String × PipelineResourceInterface =>
      a.1 = b.1 ∧ List.Perm a.2.Replacements b.2.Replacements) rs mid) :
    List.Perm (ApplyResources.writes rs replacementStr)
      (ApplyResources.writes mid replacementStr) := by
  induction h1 with
  | nil => exact List.Perm.refl _
  | cons hab _ ih =>
    simp only [ApplyResources.writes, List.flatMap_cons] at ih ⊢
    refine List.Perm.append ?_ ih
    rw [hab.1]
    exact List.Perm.map _ hab.2

/-- Another enumeration of the mapping and of the exports makes the same
writes, in another order. -/
theorem ApplyResources.writes_perm (replacementStr : String)
    (rs mid rs' : List (String × PipelineResourceInterface))
    (h1 : List.Forall₂ (fun a b : String × PipelineResourceInterface =>
      a.1 = b.1 ∧ List.Perm a.2.Replacements b.2.Replacements) rs mid)
    (h2 : List.Perm mid rs') :
    List.Perm (ApplyResources.writes rs' replacementStr)
      (ApplyResources.writes rs replacementStr) := by
  have p1 : List.Perm (ApplyResources.writes mid replacementStr)
      (ApplyResources.writes rs' replacementStr) :=
    List.Perm.flatMap_right _ h2
  exact ((ApplyResources.writes_perm_exports replacementStr rs mid h1).trans p1).symm


/-- In a map whose keys are pairwise distinct, the key of an entry is sent to the
value of the entry. -/
theorem GoMap.index_of_mem_nodup (M : GoMap) (hnd : (M.map Prod.fst).Nodup) (k v : String)
    (hm : (k, v) ∈ M) : GoMap.index M k = some v := by
  induction M with
  | nil => cases hm
  | cons e M ih =>
    rw [List.map_cons, List.nodup_cons] at hnd
    simp only [GoMap.index, List.lookup]
    rcases List.mem_cons.1 hm with he | hm1
    · subst he
      simp
    · have hne : k ≠ e.1 := by
        intro hk
        apply hnd.1
        rw [← hk]
        exact List.mem_map.2 ⟨(k, v), hm1, rfl⟩
      have e1 : (k == e.1) = false := by simpa using hne
      rw [e1]
      exact ih hnd.2 hm1

/-! ## The map built by `ApplyResources`, for names without a dot -/

/-- C14 (key composition is injective for names without a dot): two compositions
`<scope>.resources.<name>.<subKey>` whose names hold no dot are equal only when
the names and the sub-keys are. So, for a mapping whose binding names hold no dot,
are pairwise distinct, and whose resources export each sub-key once, as in a Go
map: the keys of the map built by `ApplyResources` are pairwise distinct, its
entries are the writes made, one for each exported pair, every exported pair is
sent to its value, and the map is the same whatever the order in which the
resources and the exports of each resource are enumerated. -/
theorem ApplyResources_key_injective (replacementStr : String)
    (resolvedResources : List (String × PipelineResourceInterface))
    (hdot : ∀ nr ∈ resolvedResources, '.' ∉ nr.1.data)
    (hnames : (resolvedResources.map Prod.fst).Nodup)
    (hkeys : ∀ nr ∈ resolvedResources, (nr.2.Replacements.map Prod.fst).Nodup) :
    (∀ n1 k1 n2 k2 : String, '.' ∉ n1.data → '.' ∉ n2.data →
      replacementStr ++ ".resources." ++ n1 ++ "." ++ k1 =
        replacementStr ++ ".resources." ++ n2 ++ "." ++ k2 → n1 = n2 ∧ k1 = k2) ∧
    ((ApplyResources.replacements resolvedResources replacementStr).map Prod.fst).Nodup ∧
    List.Perm (ApplyResources.replacements resolvedResources replacementStr)
      (ApplyResources.writes resolvedResources replacementStr) ∧
    (ApplyResources.replacements resolvedResources replacementStr).length =
      (resolvedResources.map (fun nr => nr.2.Replacements.length)).sum ∧
    (∀ n r k v, (n, r) ∈ resolvedResources → (k, v) ∈ r.Replacements →
      GoMap.index (ApplyResources.replacements resolvedResources replacementStr)
        (replacementStr ++ ".resources." ++ n ++ "." ++ k) = some v) ∧
    ∀ mid other : List (String × PipelineResourceInterface),
      List.Forall₂ (fun a b : String × PipelineResourceInterface =>
        a.1 = b.1 ∧ List.Perm a.2.Replacements b.2.Replacements) resolvedResources mid →
      List.Perm mid other →
      List.Perm (ApplyResources.replacements other replacementStr)
        (ApplyResources.replacements resolvedResources replacementStr) ∧
      ∀ key, GoMap.index (ApplyResources.replacements other replacementStr) key =
        GoMap.index (ApplyResources.replacements resolvedResources replacementStr) key := by
  have hw := ApplyResources.writes_nodup replacementStr resolvedResources hdot hnames hkeys
  have hrev : ApplyResources.replacements resolvedResources replacementStr =
      (ApplyResources.writes resolvedResources replacementStr).reverse := by
    rw [ApplyResources.replacements_eq, GoMap.foldl_assign_nodup _ hw]
  have hperm : List.Perm (ApplyResources.replacements resolvedResources replacementStr)
      (ApplyResources.writes resolvedResources replacementStr) := by
    rw [hrev]
    exact List.reverse_perm _
  have hnd : ((ApplyResources.replacements resolvedResources replacementStr).map
      Prod.fst).Nodup :=
    (List.Perm.nodup_iff (List.Perm.map Prod.fst hperm)).2 hw
  refine ⟨fun n1 k1 n2 k2 h1 h2 h => ApplyResources.key_inj replacementStr n1 k1 n2 k2 h1 h2 h,
    hnd, hperm, ?_, ?_, ?_⟩
  · rw [hperm.length_eq, ApplyResources.writes, List.length_flatMap]
    congr 1
    apply List.map_congr_left
    intro nr _
    simp only [Function.comp_apply, List.length_map]
  · intro n r k v hn hk
    have hm : (replacementStr ++ ".resources." ++ n ++ "." ++ k, v) ∈
        ApplyResources.replacements resolvedResources replacementStr :=
      hperm.mem_iff.2 ((ApplyResources.mem_writes _ _ _).2 ⟨n, r, k, v, hn, hk, rfl⟩)
    exact GoMap.index_of_mem_nodup _ hnd _ _ hm
  · intro mid other h1 h2
    have hw2 : List.Perm (ApplyResources.writes other replacementStr)
        (ApplyResources.writes resolvedResources replacementStr) :=
      ApplyResources.writes_perm replacementStr resolvedResources mid other h1 h2
    have hw3 : ((ApplyResources.writes other replacementStr).map Prod.fst).Nodup :=
      (List.Perm.nodup_iff (List.Perm.map Prod.fst hw2)).2 hw
    have hrev2 : ApplyResources.replacements other replacementStr =
        (ApplyResources.writes other replacementStr).reverse := by
      rw [ApplyResources.replacements_eq, GoMap.foldl_assign_nodup _ hw3]
    have hp2 : List.Perm (ApplyResources.replacements other replacementStr)
        (ApplyResources.replacements resolvedResources replacementStr) := by
      rw [hrev2]
      exact ((List.reverse_perm _).trans hw2).trans hperm.symm
    exact ⟨hp2, fun key => GoMap.index_perm _ _ hp2 hnd key⟩

/-- C14 at a concrete input: the resources `workspace` and `image` export `url`
each; enumerated the other way round, exports included, they give the same map. -/
theorem ApplyResources_key_injective_witness :
    (∀ nr ∈ exampleResources, '.' ∉ nr.1.data) ∧
    (exampleResources.map Prod.fst).Nodup ∧
    (∀ nr ∈ exampleResources, (nr.2.Replacements.map Prod.fst).Nodup) ∧
    (ApplyResources.replacements exampleResources "inputs").length = 3 ∧
    ∀ key,
      GoMap.index
          (ApplyResources.replacements
            [("image", ⟨[("url", "i")]⟩), ("workspace", ⟨[("revision", "r"), ("url", "u")]⟩)]
            "inputs") key =
        GoMap.index (ApplyResources.replacements exampleResources "inputs") key :=
  ⟨by decide, by decide, by decide,
    (ApplyResources_key_injective "inputs" exampleResources (by decide) (by decide)
      (by decide)).2.2.2.1,
    ((ApplyResources_key_injective "inputs" exampleResources (by decide) (by decide)
      (by decide)).2.2.2.2.2
      [("workspace", ⟨[("revision", "r"), ("url", "u")]⟩), ("image", ⟨[("url", "i")]⟩)]
      [("image", ⟨[("url", "i")]⟩), ("workspace", ⟨[("revision", "r"), ("url", "u")]⟩)]
      (List.Forall₂.cons ⟨rfl, List.Perm.swap _ _ _⟩
        (List.Forall₂.cons ⟨rfl, List.Perm.refl _⟩ List.Forall₂.nil))
      (List.Perm.swap _ _ _)).2⟩

/-! ## Shape -/

section ShapeLemmas

variable (subst : String → GoMap → String)

theorem ApplyReplacements.env_shape (M : GoMap) (e : EnvVar) :
    (ApplyReplacements.env subst M e).shape = e.shape := by
  obtain ⟨n, v, vf⟩ := e
  cases vf with
  | none => rfl
  | some vf =>
    obtain ⟨c, s, o⟩ := vf
    cases c <;> cases s <;> rfl

theorem ApplyReplacements.envFrom_shape (M : GoMap) (e : EnvFromSource) :
    (ApplyReplacements.envFrom subst M e).shape = e.shape := by
  obtain ⟨p, c, s⟩ := e
  cases c <;> cases s <;> rfl

theorem ApplyReplacements.volume_shape (M : GoMap) (v : Volume) :
    (ApplyReplacements.volume subst M v).shape = v.shape := by
  obtain ⟨n, c, s, p, o⟩ := v
  cases c <;> cases s <;> cases p <;> rfl

theorem ApplyReplacements.step_shape (M : GoMap) (c : Container) :
    (ApplyReplacements.step subst M c).shape = c.shape := by
  rw [ApplyReplacements.step_eq]
  simp only [Container.shape, List.length_map, List.map_map]
  congr 1
  · apply List.map_congr_left
    intro e _
    exact ApplyReplacements.env_shape subst M e
  · apply List.map_congr_left
    intro e _
    exact ApplyReplacements.envFrom_shape subst M e

end ShapeLemmas

/-- C15 (shape preservation): `ApplyReplacements` returns a specification with as
many steps and as many volumes as it is given; the step at an index of the result
has sequences `Args`, `Command`, `Env`, `EnvFrom` and `VolumeMounts` of the
lengths they have in the step at that index of the input, and its entries of
`Env` and `EnvFrom` have, index by index, the references `ValueFrom`,
`SecretKeyRef`, `ConfigMapKeyRef`, `ConfigMapRef` and `SecretRef` present where
the input has them; the volume at an index of the result has the sources
`ConfigMap`, `Secret` and `PersistentVolumeClaim` present where the input has
them. -/
theorem ApplyReplacements_shape (subst : String → GoMap → String) (S : TaskSpec) (M : GoMap) :
    (ApplyReplacements subst S M).Steps.length = S.Steps.length ∧
    (ApplyReplacements subst S M).Volumes.length = S.Volumes.length ∧
    (∀ (i : Nat) (s : Container), S.Steps[i]? = some s →
      ∃ s', (ApplyReplacements subst S M).Steps[i]? = some s' ∧
        s'.Args.length = s.Args.length ∧ s'.Command.length = s.Command.length ∧
        s'.Env.length = s.Env.length ∧ s'.EnvFrom.length = s.EnvFrom.length ∧
        s'.VolumeMounts.length = s.VolumeMounts.length ∧
        (∀ (j : Nat) (e : EnvVar), s.Env[j]? = some e →
          ∃ e', s'.Env[j]? = some e' ∧
            e'.ValueFrom.isSome = e.ValueFrom.isSome ∧
            (e'.ValueFrom.bind (fun vf => vf.SecretKeyRef)).isSome =
              (e.ValueFrom.bind (fun vf => vf.SecretKeyRef)).isSome ∧
            (e'.ValueFrom.bind (fun vf => vf.ConfigMapKeyRef)).isSome =
              (e.ValueFrom.bind (fun vf => vf.ConfigMapKeyRef)).isSome) ∧
        (∀ (j : Nat) (e : EnvFromSource), s.EnvFrom[j]? = some e →
          ∃ e', s'.EnvFrom[j]? = some e' ∧
            e'.ConfigMapRef.isSome = e.ConfigMapRef.isSome ∧
            e'.SecretRef.isSome = e.SecretRef.isSome)) ∧
    (∀ (i : Nat) (v : Volume), S.Volumes[i]? = some v →
      ∃ v', (ApplyReplacements subst S M).Volumes[i]? = some v' ∧
        v'.VolumeSource.ConfigMap.isSome = v.VolumeSource.ConfigMap.isSome ∧
        v'.VolumeSource.Secret.isSome = v.VolumeSource.Secret.isSome ∧
        v'.VolumeSource.PersistentVolumeClaim.isSome =
          v.VolumeSource.PersistentVolumeClaim.isSome) ∧
    (ApplyReplacements subst S M).shape = S.shape := by
  rw [ApplyReplacements_eq]
  refine ⟨List.length_map _ _, List.length_map _ _, ?_, ?_, ?_⟩
  · intro i s hs
    refine ⟨ApplyReplacements.step subst M s, by simp only [List.getElem?_map, hs,
      Option.map_some'], ?_⟩
    rw [ApplyReplacements.step_eq]
    refine ⟨List.length_map _ _, List.length_map _ _, List.length_map _ _, List.length_map _ _,
      List.length_map _ _, ?_, ?_⟩
    · intro j e he
      refine ⟨ApplyReplacements.env subst M e, by simp only [List.getElem?_map, he,
        Option.map_some'], ?_⟩
      have := ApplyReplacements.env_shape subst M e
      simp only [EnvVar.shape, EnvVarShape.mk.injEq] at this
      exact ⟨this.1, this.2.1, this.2.2⟩
    · intro j e he
      refine ⟨ApplyReplacements.envFrom subst M e, by simp only [List.getElem?_map, he,
        Option.map_some'], ?_⟩
      have := ApplyReplacements.envFrom_shape subst M e
      simp only [EnvFromSource.shape, EnvFromShape.mk.injEq] at this
      exact this
  · intro i v hv
    refine ⟨ApplyReplacements.volume subst M v, by simp only [List.getElem?_map, hv,
      Option.map_some'], ?_⟩
    have := ApplyReplacements.volume_shape subst M v
    simp only [Volume.shape, VolumeShape.mk.injEq] at this
    exact this
  · simp only [TaskSpec.shape, List.map_map]
    congr 1
    · apply List.map_congr_left
      intro c _
      exact ApplyReplacements.step_shape subst M c
    · apply List.map_congr_left
      intro v _
      exact ApplyReplacements.volume_shape subst M v

/-! ## The specification in memory: the input is not written -/

namespace mem

theorem frame_self (n : Nat) (h : Heap) : Frame n h h :=
  ⟨Eq.refl _, fun _ _ => Eq.refl _, fun _ => Eq.refl _⟩

theorem Frame.trans {n : Nat} {h h1 h2 : Heap} (f1 : Frame n h h1) (f2 : Frame n h1 h2) :
    Frame n h h2 :=
  ⟨f2.length.trans f1.length, fun a ha => (f2.below a ha).trans (f1.below a ha),
    fun a => (f2.refs a).trans (f1.refs a)⟩

theorem Fresh.frame {n : Nat} {h h1 : Heap} (hf : Fresh n h) (fr : Frame n h h1) :
    Fresh n h1 := by
  intro a c ha hc r hr
  have h1r := fr.refs a
  rw [hc] at h1r
  cases hx : h[a]? with
  | none => rw [hx] at h1r; cases h1r
  | some c0 =>
    rw [hx] at h1r
    have he : c.refs = c0.refs := Option.some.inj h1r
    exact hf a c0 ha hx r (he ▸ hr)

theorem safe_skip (n : Nat) : Safe n skip := by
  intro h h1 _ hr
  cases hr
  exact frame_self n h

theorem safe_fault (n : Nat) : Safe n fault := by
  intro h h1 _ hr
  cases hr

theorem safe_seq {n : Nat} {f g : Action} (hf : Safe n f) (hg : Safe n g) :
    Safe n (seq f g) := by
  intro h h2 hfr hr
  simp only [seq] at hr
  cases h1 : f h with
  | none => rw [h1] at hr; cases hr
  | some hm =>
    rw [h1] at hr
    have f1 := hf h hm hfr h1
    exact f1.trans (hg hm h2 (hfr.frame f1) hr)

theorem safe_forEach {n : Nat} {body : Nat → Action} (hb : ∀ i, Safe n (body i))
    (l : List Nat) : Safe n (forEach body l) := by
  induction l with
  | nil => exact safe_skip n
  | cons i rest ih => exact safe_seq (hb i) ih

/-- A read anywhere, when the code that follows does not depend on what was
read to stay within the frame. -/
theorem safe_readCell {n : Nat} (a : Addr) {k : Cell → Action} (hk : ∀ c, Safe n (k c)) :
    Safe n (readCell a k) := by
  intro h h1 hfr hr
  simp only [readCell] at hr
  cases hc : h[a]? with
  | none => rw [hc] at hr; cases hr
  | some c =>
    rw [hc] at hr
    exact hk c h h1 hfr hr

/-- A read at or above `n`: the addresses read are at or above `n`. -/
theorem safe_readCell_fresh {n : Nat} {a : Addr} (ha : n ≤ a) {k : Cell → Action}
    (hk : ∀ c, (∀ r ∈ c.refs, n ≤ r) → Safe n (k c)) : Safe n (readCell a k) := by
  intro h h1 hfr hr
  simp only [readCell] at hr
  cases hc : h[a]? with
  | none => rw [hc] at hr; cases hr
  | some c =>
    rw [hc] at hr
    exact hk c (hfr a c ha hc) h h1 hfr hr

/-- A write at or above `n` that keeps the addresses held in the cell. -/
theorem safe_write {n : Nat} {a : Addr} (ha : n ≤ a) {upd : Cell → Option Cell}
    (hu : ∀ c c1, upd c = some c1 → c1.refs = c.refs) : Safe n (write a upd) := by
  intro h h1 _ hr
  simp only [write] at hr
  cases hc : h[a]? with
  | none => rw [hc] at hr; cases hr
  | some c =>
    rw [hc] at hr
    simp only at hr
    cases hc1 : upd c with
    | none => rw [hc1] at hr; cases hr
    | some c1 =>
      rw [hc1] at hr
      cases hr
      have hlt : a < h.length := by
        rcases Nat.lt_or_ge a h.length with hl | hl
        · exact hl
        · rw [List.getElem?_eq_none hl] at hc; cases hc
      refine ⟨List.length_set _ _ _, ?_, ?_⟩
      · intro b hb
        have hne : a ≠ b := Nat.ne_of_gt (Nat.lt_of_lt_of_le hb ha)
        rw [List.getElem?_set_ne hne]
      · intro b
        by_cases hab : a = b
        · subst hab
          rw [List.getElem?_set_eq_of_lt _ hlt, hc]
          simp only [Option.map_some', hu c c1 hc1]
        · rw [List.getElem?_set_ne hab]

theorem safe_withMap {n : Nat} (a : Addr) {k : GoMap → Action} (hk : ∀ m, Safe n (k m)) :
    Safe n (withMap a k) := by
  apply safe_readCell
  intro c
  cases c <;> first | exact safe_fault n | exact hk _

theorem safe_assign {n : Nat} (rep : Addr) {a : Addr} (ha : n ≤ a)
    {upd : GoMap → Cell → Option Cell}
    (hu : ∀ m c c1, upd m c = some c1 → c1.refs = c.refs) : Safe n (assign rep a upd) :=
  safe_withMap rep (fun m => safe_write ha (hu m))

/-! ### The updates keep the addresses held in a cell -/

theorem flatMap_set_eq {α β : Type} (g : α → List β) (xs : List α) (i : Nat) (x y : α)
    (hx : xs[i]? = some x) (hg : g y = g x) : (xs.set i y).flatMap g = xs.flatMap g := by
  induction xs generalizing i with
  | nil => rfl
  | cons z zs ih =>
    cases i with
    | zero =>
      simp only [List.getElem?_cons_zero, Option.some.injEq] at hx
      subst hx
      simp only [List.set_cons_zero, List.flatMap_cons, hg]
    | succ j =>
      simp only [List.getElem?_cons_succ] at hx
      simp only [List.set_cons_succ, List.flatMap_cons, ih j hx]

theorem onString_refs (i : Nat) (g : String → String) (c c1 : Cell)
    (h : onString i g c = some c1) : c1.refs = c.refs := by
  cases c <;> simp only [onString] at h <;> try cases h
  next xs =>
    cases hx : xs[i]? with
    | none => rw [hx] at h; cases h
    | some x => rw [hx] at h; cases h; rfl

theorem onEnvVar_refs (i : Nat) (g : EnvVarRec → String) (c c1 : Cell)
    (h : onEnvVar i g c = some c1) : c1.refs = c.refs := by
  cases c <;> simp only [onEnvVar] at h <;> try cases h
  next xs =>
    cases hx : xs[i]? with
    | none => rw [hx] at h; cases h
    | some x =>
      rw [hx] at h
      cases h
      exact flatMap_set_eq _ xs i x _ hx (Eq.refl _)

theorem onEnvFrom_refs (i : Nat) (g : EnvFromRec → String) (c c1 : Cell)
    (h : onEnvFrom i g c = some c1) : c1.refs = c.refs := by
  cases c <;> simp only [onEnvFrom] at h <;> try cases h
  next xs =>
    cases hx : xs[i]? with
    | none => rw [hx] at h; cases h
    | some x =>
      rw [hx] at h
      cases h
      exact flatMap_set_eq _ xs i x _ hx (Eq.refl _)

theorem onVolumeMount_refs (i : Nat) (g : VolumeMount → VolumeMount) (c c1 : Cell)
    (h : onVolumeMount i g c = some c1) : c1.refs = c.refs := by
  cases c <;> simp only [onVolumeMount] at h <;> try cases h
  next xs =>
    cases hx : xs[i]? with
    | none => rw [hx] at h; cases h
    | some x => rw [hx] at h; cases h; rfl

theorem onContainer_refs (i : Nat) (fld : ContainerField) (g : String → String) (c c1 : Cell)
    (h : onContainer i fld g c = some c1) : c1.refs = c.refs := by
  cases c <;> simp only [onContainer] at h <;> try cases h
  next xs =>
    cases hx : xs[i]? with
    | none => rw [hx] at h; cases h
    | some x =>
      rw [hx] at h
      cases fld <;> cases h <;> exact flatMap_set_eq _ xs i x _ hx (Eq.refl _)

theorem onVolume_refs (i : Nat) (g : VolumeRec → String) (c c1 : Cell)
    (h : onVolume i g c = some c1) : c1.refs = c.refs := by
  cases c <;> simp only [onVolume] at h <;> try cases h
  next xs =>
    cases hx : xs[i]? with
    | none => rw [hx] at h; cases h
    | some x =>
      rw [hx] at h
      cases h
      exact flatMap_set_eq _ xs i x _ hx (Eq.refl _)

/-! ### The traversal stays within the frame -/

section TraversalFrame

variable (subst : String → GoMap → String)

theorem safe_applyStrings (n : Nat) (rep : Addr) (r : Ref) (hr : ∀ a ∈ r, n ≤ a) :
    Safe n (applyStrings subst rep r) := by
  cases r with
  | none => exact safe_skip n
  | some a =>
    have ha : n ≤ a := hr a rfl
    apply safe_readCell
    intro c
    cases c <;> first
      | exact safe_fault n
      | exact safe_forEach (fun i => safe_assign rep ha (fun m => onString_refs i _)) _

theorem safe_applySecretKeyRef (n : Nat) (rep : Addr) (r : Ref) (hr : ∀ a ∈ r, n ≤ a) :
    Safe n (applySecretKeyRef subst rep r) := by
  cases r with
  | none => exact safe_skip n
  | some a =>
    have ha : n ≤ a := hr a rfl
    apply safe_seq <;> apply safe_assign rep ha <;> intro m c c1 h <;>
      cases c <;> first | (cases h; rfl) | cases h

theorem safe_applyConfigMapKeyRef (n : Nat) (rep : Addr) (r : Ref) (hr : ∀ a ∈ r, n ≤ a) :
    Safe n (applyConfigMapKeyRef subst rep r) := by
  cases r with
  | none => exact safe_skip n
  | some a =>
    have ha : n ≤ a := hr a rfl
    apply safe_seq <;> apply safe_assign rep ha <;> intro m c c1 h <;>
      cases c <;> first | (cases h; rfl) | cases h

theorem leaf_refs {upd : Cell → Option Cell}
    (hu : ∀ c c1, upd c = some c1 → c.refs = [] ∧ c1.refs = []) :
    ∀ c c1, upd c = some c1 → c1.refs = c.refs :=
  fun c c1 h => ((hu c c1 h).2).trans ((hu c c1 h).1).symm

theorem safe_applyEnvVar (n : Nat) (rep env : Addr) (henv : n ≤ env) (ie : Nat) :
    Safe n (applyEnvVar subst rep env ie) := by
  apply safe_readCell_fresh henv
  intro c hc
  cases c <;> try exact safe_fault n
  next es =>
    simp only
    cases he : es[ie]? with
    | none => exact safe_fault n
    | some e =>
      simp only
      apply safe_seq (safe_assign rep henv (fun m => onEnvVar_refs ie _))
      cases hvf : e.ValueFrom with
      | none => exact safe_skip n
      | some vf =>
        have hmem : vf ∈ (Cell.envVars es).refs := by
          simp only [Cell.refs, List.mem_flatMap]
          exact ⟨e, List.getElem?_mem he, by simp [hvf]⟩
        have hvfn : n ≤ vf := hc vf hmem
        simp only
        apply safe_seq <;> apply safe_readCell_fresh hvfn <;> intro c hc1 <;>
          cases c <;> try exact safe_fault n
        · next src =>
          apply safe_applySecretKeyRef
          intro a ha
          exact hc1 a (by simp [Cell.refs, Option.mem_def.1 ha])
        · next src =>
          apply safe_applyConfigMapKeyRef
          intro a ha
          exact hc1 a (by simp [Cell.refs, Option.mem_def.1 ha])

theorem safe_applyEnv (n : Nat) (rep : Addr) (r : Ref) (hr : ∀ a ∈ r, n ≤ a) :
    Safe n (applyEnv subst rep r) := by
  cases r with
  | none => exact safe_skip n
  | some a =>
    have ha : n ≤ a := hr a rfl
    apply safe_readCell
    intro c
    cases c <;> first
      | exact safe_fault n
      | exact safe_forEach (fun i => safe_applyEnvVar subst n rep a ha i) _

theorem safe_applyConfigMapRef (n : Nat) (rep : Addr) (r : Ref) (hr : ∀ a ∈ r, n ≤ a) :
    Safe n (applyConfigMapRef subst rep r) := by
  cases r with
  | none => exact safe_skip n
  | some a =>
    apply safe_assign rep (hr a rfl)
    intro m c c1 h
    cases c <;> first | (cases h; rfl) | cases h

theorem safe_applySecretRef (n : Nat) (rep : Addr) (r : Ref) (hr : ∀ a ∈ r, n ≤ a) :
    Safe n (applySecretRef subst rep r) := by
  cases r with
  | none => exact safe_skip n
  | some a =>
    apply safe_assign rep (hr a rfl)
    intro m c c1 h
    cases c <;> first | (cases h; rfl) | cases h

theorem safe_applyEnvFromSource (n : Nat) (rep envFrom : Addr) (henv : n ≤ envFrom) (ie : Nat) :
    Safe n (applyEnvFromSource subst rep envFrom ie) := by
  apply safe_readCell_fresh henv
  intro c hc
  cases c <;> try exact safe_fault n
  next es =>
    simp only
    cases he : es[ie]? with
    | none => exact safe_fault n
    | some e =>
      simp only
      have hmem : ∀ a, a ∈ e.ConfigMapRef.toList ++ e.SecretRef.toList → n ≤ a := by
        intro a ha
        apply hc a
        simp only [Cell.refs, List.mem_flatMap]
        exact ⟨e, List.getElem?_mem he, ha⟩
      apply safe_seq (safe_assign rep henv (fun m => onEnvFrom_refs ie _))
      apply safe_seq
      · apply safe_applyConfigMapRef
        intro a ha
        exact hmem a (by simp [Option.mem_def.1 ha])
      · apply safe_applySecretRef
        intro a ha
        exact hmem a (by simp [Option.mem_def.1 ha])

theorem safe_applyEnvFrom (n : Nat) (rep : Addr) (r : Ref) (hr : ∀ a ∈ r, n ≤ a) :
    Safe n (applyEnvFrom subst rep r) := by
  cases r with
  | none => exact safe_skip n
  | some a =>
    have ha : n ≤ a := hr a rfl
    apply safe_readCell
    intro c
    cases c <;> first
      | exact safe_fault n
      | exact safe_forEach (fun i => safe_applyEnvFromSource subst n rep a ha i) _

theorem safe_applyVolumeMount (n : Nat) (rep mounts : Addr) (hm : n ≤ mounts) (iv : Nat) :
    Safe n (applyVolumeMount subst rep mounts iv) := by
  apply safe_readCell
  intro c
  cases c <;> try exact safe_fault n
  next vs =>
    simp only
    cases hv : vs[iv]? with
    | none => exact safe_fault n
    | some v =>
      simp only
      exact safe_seq (safe_assign rep hm (fun m => onVolumeMount_refs iv _))
        (safe_seq (safe_assign rep hm (fun m => onVolumeMount_refs iv _))
          (safe_assign rep hm (fun m => onVolumeMount_refs iv _)))

theorem safe_applyVolumeMounts (n : Nat) (rep : Addr) (r : Ref) (hr : ∀ a ∈ r, n ≤ a) :
    Safe n (applyVolumeMounts subst rep r) := by
  cases r with
  | none => exact safe_skip n
  | some a =>
    have ha : n ≤ a := hr a rfl
    apply safe_readCell
    intro c
    cases c <;> first
      | exact safe_fault n
      | exact safe_forEach (fun i => safe_applyVolumeMount subst n rep a ha i) _

/-- A read of `steps[i]` at or above `n`: the slices of the step are at or above
`n`. -/
theorem safe_withStep (n : Nat) (steps : Addr) (hs : n ≤ steps) (i : Nat)
    {k : ContainerRec → Action}
    (hk : ∀ x : ContainerRec,
      (∀ a, a ∈ x.Command.toList ++ x.Args.toList ++ x.EnvFrom.toList ++ x.Env.toList
        ++ x.VolumeMounts.toList → n ≤ a) → Safe n (k x)) :
    Safe n (withStep steps i k) := by
  apply safe_readCell_fresh hs
  intro c hc
  cases c <;> try exact safe_fault n
  next cs =>
    simp only
    cases hx : cs[i]? with
    | none => exact safe_fault n
    | some x =>
      simp only
      apply hk x
      intro a ha
      apply hc a
      simp only [Cell.refs, List.mem_flatMap]
      exact ⟨x, List.getElem?_mem hx, ha⟩

theorem safe_applyStep (n : Nat) (rep steps : Addr) (hs : n ≤ steps) (i : Nat) :
    Safe n (applyStep subst rep steps i) := by
  refine safe_seq (safe_assign rep hs (fun m => onContainer_refs i _ _)) ?_
  refine safe_seq (safe_assign rep hs (fun m => onContainer_refs i _ _)) ?_
  refine safe_seq (safe_withStep n steps hs i (fun x hx =>
    safe_applyStrings subst n rep x.Args
      (fun a ha => hx a (by simp [Option.mem_def.1 ha])))) ?_
  refine safe_seq (safe_withStep n steps hs i (fun x hx =>
    safe_applyEnv subst n rep x.Env
      (fun a ha => hx a (by simp [Option.mem_def.1 ha])))) ?_
  refine safe_seq (safe_withStep n steps hs i (fun x hx =>
    safe_applyEnvFrom subst n rep x.EnvFrom
      (fun a ha => hx a (by simp [Option.mem_def.1 ha])))) ?_
  refine safe_seq (safe_assign rep hs (fun m => onContainer_refs i _ _)) ?_
  refine safe_seq (safe_withStep n steps hs i (fun x hx =>
    safe_applyStrings subst n rep x.Command
      (fun a ha => hx a (by simp [Option.mem_def.1 ha])))) ?_
  exact safe_withStep n steps hs i (fun x hx =>
    safe_applyVolumeMounts subst n rep x.VolumeMounts
      (fun a ha => hx a (by simp [Option.mem_def.1 ha])))

theorem safe_applyConfigMap (n : Nat) (rep : Addr) (r : Ref) (hr : ∀ a ∈ r, n ≤ a) :
    Safe n (applyConfigMap subst rep r) := by
  cases r with
  | none => exact safe_skip n
  | some a =>
    apply safe_assign rep (hr a rfl)
    intro m c c1 h
    cases c <;> first | (cases h; rfl) | cases h

theorem safe_applySecret (n : Nat) (rep : Addr) (r : Ref) (hr : ∀ a ∈ r, n ≤ a) :
    Safe n (applySecret subst rep r) := by
  cases r with
  | none => exact safe_skip n
  | some a =>
    apply safe_assign rep (hr a rfl)
    intro m c c1 h
    cases c <;> first | (cases h; rfl) | cases h

theorem safe_applyPersistentVolumeClaim (n : Nat) (rep : Addr) (r : Ref)
    (hr : ∀ a ∈ r, n ≤ a) : Safe n (applyPersistentVolumeClaim subst rep r) := by
  cases r with
  | none => exact safe_skip n
  | some a =>
    apply safe_assign rep (hr a rfl)
    intro m c c1 h
    cases c <;> first | (cases h; rfl) | cases h

theorem safe_applyVolume (n : Nat) (rep volumes : Addr) (hv : n ≤ volumes) (i : Nat) :
    Safe n (applyVolume subst rep volumes i) := by
  apply safe_readCell_fresh hv
  intro c hc
  cases c <;> try exact safe_fault n
  next vs =>
    simp only
    cases hx : vs[i]? with
    | none => exact safe_fault n
    | some v =>
      simp only
      have hmem : ∀ a, a ∈ v.ConfigMap.toList ++ v.Secret.toList
          ++ v.PersistentVolumeClaim.toList → n ≤ a := by
        intro a ha
        apply hc a
        simp only [Cell.refs, List.mem_flatMap]
        exact ⟨v, List.getElem?_mem hx, ha⟩
      refine safe_seq (safe_assign rep hv (fun m => onVolume_refs i _)) ?_
      refine safe_seq (safe_applyConfigMap subst n rep _
        (fun a ha => hmem a (by simp [Option.mem_def.1 ha]))) ?_
      refine safe_seq (safe_applySecret subst n rep _
        (fun a ha => hmem a (by simp [Option.mem_def.1 ha]))) ?_
      exact safe_applyPersistentVolumeClaim subst n rep _
        (fun a ha => hmem a (by simp [Option.mem_def.1 ha]))

/-- The traversal of a specification at or above `n` stays within the frame. -/
theorem safe_traverse (n : Nat) (rep spec : Addr) (hs : n ≤ spec) :
    Safe n (traverse subst rep spec) := by
  apply safe_seq <;> apply safe_readCell_fresh hs <;> intro c hc <;>
    cases c <;> try exact safe_fault n
  · next x =>
    simp only
    cases hst : x.Steps with
    | none => exact safe_skip n
    | some steps =>
      have h1 : n ≤ steps := hc steps (by simp [Cell.refs, hst])
      simp only
      apply safe_readCell
      intro c
      cases c <;> first
        | exact safe_fault n
        | exact safe_forEach (fun i => safe_applyStep subst n rep steps h1 i) _
  · next x =>
    simp only
    cases hst : x.Volumes with
    | none => exact safe_skip n
    | some volumes =>
      have h1 : n ≤ volumes := hc volumes (by simp [Cell.refs, hst])
      simp only
      apply safe_readCell
      intro c
      cases c <;> first
        | exact safe_fault n
        | exact safe_forEach (fun i => safe_applyVolume subst n rep volumes h1 i) _

end TraversalFrame

/-! ### The clone is made of new cells -/

theorem Fresh.push {n : Nat} {h : Heap} (hf : Fresh n h) (c : Cell)
    (hc : ∀ r ∈ c.refs, n ≤ r) : Fresh n (h ++ [c]) := by
  intro a c1 ha hc1 r hr
  rcases Nat.lt_or_ge a h.length with hl | hl
  · rw [List.getElem?_append_left hl] at hc1
    exact hf a c1 ha hc1 r hr
  · rw [List.getElem?_append_right hl] at hc1
    cases hd : a - h.length with
    | zero =>
      rw [hd] at hc1
      simp only [List.getElem?_cons_zero, Option.some.injEq] at hc1
      subst hc1
      exact hc r hr
    | succ k =>
      rw [hd] at hc1
      simp at hc1

theorem Fresh.empty (h : Heap) : Fresh h.length h := by
  intro a c ha hc
  rw [List.getElem?_eq_none ha] at hc
  cases hc

theorem clones_copyFlat (n : Nat) : Clones n copyFlat (fun r => r.toList) := by
  intro h r h1 y hn hf hr
  cases r with
  | none =>
    cases hr
    exact ⟨List.prefix_refl _, hf, by simp⟩
  | some a =>
    simp only [copyFlat] at hr
    cases hc : h[a]? with
    | none => rw [hc] at hr; cases hr
    | some c =>
      rw [hc] at hr
      simp only at hr
      split at hr
      · next hrefs =>
        cases hr
        refine ⟨List.prefix_append _ _, hf.push c (by simp [hrefs]), ?_⟩
        intro r hr
        simp only [Option.toList, List.mem_singleton] at hr
        subst hr
        exact hn
      · cases hr

theorem clones_copyEach {α : Type} (n : Nat) (f : Heap → α → Option (Heap × α))
    (refs : α → List Addr) (hf : Clones n f refs) :
    Clones n (copyEach f) (fun ys => ys.flatMap refs) := by
  intro h xs
  induction xs generalizing h with
  | nil =>
    intro h1 ys _ hfr hr
    cases hr
    exact ⟨List.prefix_refl _, hfr, by simp⟩
  | cons x xs ih =>
    intro h2 ys hn hfr hr
    simp only [copyEach] at hr
    cases hx : f h x with
    | none => rw [hx] at hr; cases hr
    | some p =>
      obtain ⟨h1, y⟩ := p
      rw [hx] at hr
      simp only at hr
      obtain ⟨hp1, hf1, hy⟩ := hf h x h1 y hn hfr hx
      cases hxs : copyEach f h1 xs with
      | none => rw [hxs] at hr; cases hr
      | some q =>
        obtain ⟨h3, zs⟩ := q
        rw [hxs] at hr
        cases hr
        obtain ⟨hp2, hf2, hzs⟩ := ih h1 h2 zs (Nat.le_trans hn hp1.length_le) hf1 hxs
        refine ⟨hp1.trans hp2, hf2, ?_⟩
        intro r hr
        simp only [List.flatMap_cons, List.mem_append] at hr
        rcases hr with hr | hr
        · exact hy r hr
        · exact hzs r hr

/-- The clone of a backing array of structs: the elements are cloned, then a new
cell is pushed for the array. -/
theorem clones_push {n : Nat} {h h1 : Heap} (c : Cell) (hn : n ≤ h.length) (hp : h <+: h1)
    (hf : Fresh n h1) (hc : ∀ r ∈ c.refs, n ≤ r) :
    h <+: h1 ++ [c] ∧ Fresh n (h1 ++ [c]) ∧ ∀ r ∈ (some h1.length : Ref).toList, n ≤ r := by
  refine ⟨hp.trans (List.prefix_append _ _), hf.push c hc, ?_⟩
  intro r hr
  simp only [Option.toList, List.mem_singleton] at hr
  subst hr
  exact Nat.le_trans hn hp.length_le

theorem clones_copyEnvVarSource (n : Nat) :
    Clones n copyEnvVarSource (fun r => r.toList) := by
  intro h r h3 y hn hf hr
  cases r with
  | none =>
    cases hr
    exact ⟨List.prefix_refl _, hf, by simp⟩
  | some a =>
    simp only [copyEnvVarSource] at hr
    cases hc : h[a]? with
    | none => rw [hc] at hr; cases hr
    | some c =>
      rw [hc] at hr
      cases c <;> try cases hr
      next x =>
        simp only at hr
        cases h1e : copyFlat h x.ConfigMapKeyRef with
        | none => rw [h1e] at hr; cases hr
        | some p =>
          obtain ⟨h1, c1⟩ := p
          rw [h1e] at hr
          simp only at hr
          obtain ⟨hp1, hf1, hc1⟩ := clones_copyFlat n h _ h1 c1 hn hf h1e
          have hn1 := Nat.le_trans hn hp1.length_le
          cases h2e : copyFlat h1 x.SecretKeyRef with
          | none => rw [h2e] at hr; cases hr
          | some q =>
            obtain ⟨h2, s1⟩ := q
            rw [h2e] at hr
            cases hr
            obtain ⟨hp2, hf2, hs1⟩ := clones_copyFlat n h1 _ _ _ hn1 hf1 h2e
            refine clones_push _ hn (hp1.trans hp2) hf2 ?_
            intro r hr
            simp only [Cell.refs, List.mem_append] at hr
            rcases hr with hr | hr
            · exact hc1 r hr
            · exact hs1 r hr

theorem clones_copyEnvVar (n : Nat) :
    Clones n copyEnvVar (fun e => e.ValueFrom.toList) := by
  intro h e h1 y hn hf hr
  simp only [copyEnvVar] at hr
  cases he : copyEnvVarSource h e.ValueFrom with
  | none => rw [he] at hr; cases hr
  | some p =>
    obtain ⟨h2, vf⟩ := p
    rw [he] at hr
    cases hr
    exact clones_copyEnvVarSource n h _ _ _ hn hf he

theorem clones_copyEnvVars (n : Nat) : Clones n copyEnvVars (fun r => r.toList) := by
  intro h r h3 y hn hf hr
  cases r with
  | none =>
    cases hr
    exact ⟨List.prefix_refl _, hf, by simp⟩
  | some a =>
    simp only [copyEnvVars] at hr
    cases hc : h[a]? with
    | none => rw [hc] at hr; cases hr
    | some c =>
      rw [hc] at hr
      cases c <;> try cases hr
      next xs =>
        simp only at hr
        cases he : copyEach copyEnvVar h xs with
        | none => rw [he] at hr; cases hr
        | some p =>
          obtain ⟨h1, ys⟩ := p
          rw [he] at hr
          cases hr
          obtain ⟨hp1, hf1, hys⟩ :=
            clones_copyEach n _ _ (clones_copyEnvVar n) h xs h1 ys hn hf he
          exact clones_push _ hn hp1 hf1 hys

theorem clones_copyEnvFrom (n : Nat) :
    Clones n copyEnvFrom (fun e => e.ConfigMapRef.toList ++ e.SecretRef.toList) := by
  intro h e h3 y hn hf hr
  simp only [copyEnvFrom] at hr
  cases h1e : copyFlat h e.ConfigMapRef with
  | none => rw [h1e] at hr; cases hr
  | some p =>
    obtain ⟨h1, c1⟩ := p
    rw [h1e] at hr
    simp only at hr
    obtain ⟨hp1, hf1, hc1⟩ := clones_copyFlat n h _ h1 c1 hn hf h1e
    have hn1 := Nat.le_trans hn hp1.length_le
    cases h2e : copyFlat h1 e.SecretRef with
    | none => rw [h2e] at hr; cases hr
    | some q =>
      obtain ⟨h2, s1⟩ := q
      rw [h2e] at hr
      cases hr
      obtain ⟨hp2, hf2, hs1⟩ := clones_copyFlat n h1 _ _ _ hn1 hf1 h2e
      refine ⟨hp1.trans hp2, hf2, ?_⟩
      intro r hr
      simp only [List.mem_append] at hr
      rcases hr with hr | hr
      · exact hc1 r hr
      · exact hs1 r hr

theorem clones_copyEnvFroms (n : Nat) : Clones n copyEnvFroms (fun r => r.toList) := by
  intro h r h3 y hn hf hr
  cases r with
  | none =>
    cases hr
    exact ⟨List.prefix_refl _, hf, by simp⟩
  | some a =>
    simp only [copyEnvFroms] at hr
    cases hc : h[a]? with
    | none => rw [hc] at hr; cases hr
    | some c =>
      rw [hc] at hr
      cases c <;> try cases hr
      next xs =>
        simp only at hr
        cases he : copyEach copyEnvFrom h xs with
        | none => rw [he] at hr; cases hr
        | some p =>
          obtain ⟨h1, ys⟩ := p
          rw [he] at hr
          cases hr
          obtain ⟨hp1, hf1, hys⟩ :=
            clones_copyEach n _ _ (clones_copyEnvFrom n) h xs h1 ys hn hf he
          exact clones_push _ hn hp1 hf1 hys

theorem clones_copyContainer (n : Nat) :
    Clones n copyContainer (fun c => c.Command.toList ++ c.Args.toList ++ c.EnvFrom.toList
      ++ c.Env.toList ++ c.VolumeMounts.toList) := by
  intro h c h6 y hn hf hr
  simp only [copyContainer] at hr
  cases e1 : copyFlat h c.Command with
  | none => rw [e1] at hr; cases hr
  | some p1 =>
    obtain ⟨h1, r1⟩ := p1
    rw [e1] at hr
    simp only at hr
    obtain ⟨hp1, hf1, hr1⟩ := clones_copyFlat n h _ h1 r1 hn hf e1
    have hn1 := Nat.le_trans hn hp1.length_le
    cases e2 : copyFlat h1 c.Args with
    | none => rw [e2] at hr; cases hr
    | some p2 =>
      obtain ⟨h2, r2⟩ := p2
      rw [e2] at hr
      simp only at hr
      obtain ⟨hp2, hf2, hr2⟩ := clones_copyFlat n h1 _ h2 r2 hn1 hf1 e2
      have hn2 := Nat.le_trans hn1 hp2.length_le
      cases e3 : copyEnvFroms h2 c.EnvFrom with
      | none => rw [e3] at hr; cases hr
      | some p3 =>
        obtain ⟨h3, r3⟩ := p3
        rw [e3] at hr
        simp only at hr
        obtain ⟨hp3, hf3, hr3⟩ := clones_copyEnvFroms n h2 _ h3 r3 hn2 hf2 e3
        have hn3 := Nat.le_trans hn2 hp3.length_le
        cases e4 : copyEnvVars h3 c.Env with
        | none => rw [e4] at hr; cases hr
        | some p4 =>
          obtain ⟨h4, r4⟩ := p4
          rw [e4] at hr
          simp only at hr
          obtain ⟨hp4, hf4, hr4⟩ := clones_copyEnvVars n h3 _ h4 r4 hn3 hf3 e4
          have hn4 := Nat.le_trans hn3 hp4.length_le
          cases e5 : copyFlat h4 c.VolumeMounts with
          | none => rw [e5] at hr; cases hr
          | some p5 =>
            obtain ⟨h5, r5⟩ := p5
            rw [e5] at hr
            obtain ⟨hp5, hf5, hr5⟩ := clones_copyFlat n h4 _ h5 r5 hn4 hf4 e5
            cases hr
            refine ⟨(((hp1.trans hp2).trans hp3).trans hp4).trans hp5, hf5, ?_⟩
            intro r hr
            simp only [List.mem_append] at hr
            rcases hr with (((hr | hr) | hr) | hr) | hr
            · exact hr1 r hr
            · exact hr2 r hr
            · exact hr3 r hr
            · exact hr4 r hr
            · exact hr5 r hr

theorem clones_copyContainers (n : Nat) : Clones n copyContainers (fun r => r.toList) := by
  intro h r h3 y hn hf hr
  cases r with
  | none =>
    cases hr
    exact ⟨List.prefix_refl _, hf, by simp⟩
  | some a =>
    simp only [copyContainers] at hr
    cases hc : h[a]? with
    | none => rw [hc] at hr; cases hr
    | some c =>
      rw [hc] at hr
      cases c <;> try cases hr
      next xs =>
        simp only at hr
        cases he : copyEach copyContainer h xs with
        | none => rw [he] at hr; cases hr
        | some p =>
          obtain ⟨h1, ys⟩ := p
          rw [he] at hr
          cases hr
          obtain ⟨hp1, hf1, hys⟩ :=
            clones_copyEach n _ _ (clones_copyContainer n) h xs h1 ys hn hf he
          exact clones_push _ hn hp1 hf1 hys

theorem clones_copyVolume (n : Nat) :
    Clones n copyVolume (fun v => v.ConfigMap.toList ++ v.Secret.toList
      ++ v.PersistentVolumeClaim.toList) := by
  intro h v h4 y hn hf hr
  simp only [copyVolume] at hr
  cases e1 : copyFlat h v.ConfigMap with
  | none => rw [e1] at hr; cases hr
  | some p1 =>
    obtain ⟨h1, r1⟩ := p1
    rw [e1] at hr
    simp only at hr
    obtain ⟨hp1, hf1, hr1⟩ := clones_copyFlat n h _ h1 r1 hn hf e1
    have hn1 := Nat.le_trans hn hp1.length_le
    cases e2 : copyFlat h1 v.Secret with
    | none => rw [e2] at hr; cases hr
    | some p2 =>
      obtain ⟨h2, r2⟩ := p2
      rw [e2] at hr
      simp only at hr
      obtain ⟨hp2, hf2, hr2⟩ := clones_copyFlat n h1 _ h2 r2 hn1 hf1 e2
      have hn2 := Nat.le_trans hn1 hp2.length_le
      cases e3 : copyFlat h2 v.PersistentVolumeClaim with
      | none => rw [e3] at hr; cases hr
      | some p3 =>
        obtain ⟨h3, r3⟩ := p3
        rw [e3] at hr
        obtain ⟨hp3, hf3, hr3⟩ := clones_copyFlat n h2 _ h3 r3 hn2 hf2 e3
        cases hr
        refine ⟨(hp1.trans hp2).trans hp3, hf3, ?_⟩
        intro r hr
        simp only [List.mem_append] at hr
        rcases hr with (hr | hr) | hr
        · exact hr1 r hr
        · exact hr2 r hr
        · exact hr3 r hr

theorem clones_copyVolumes (n : Nat) : Clones n copyVolumes (fun r => r.toList) := by
  intro h r h3 y hn hf hr
  cases r with
  | none =>
    cases hr
    exact ⟨List.prefix_refl _, hf, by simp⟩
  | some a =>
    simp only [copyVolumes] at hr
    cases hc : h[a]? with
    | none => rw [hc] at hr; cases hr
    | some c =>
      rw [hc] at hr
      cases c <;> try cases hr
      next xs =>
        simp only at hr
        cases he : copyEach copyVolume h xs with
        | none => rw [he] at hr; cases hr
        | some p =>
          obtain ⟨h1, ys⟩ := p
          rw [he] at hr
          cases hr
          obtain ⟨hp1, hf1, hys⟩ :=
            clones_copyEach n _ _ (clones_copyVolume n) h xs h1 ys hn hf he
          exact clones_push _ hn hp1 hf1 hys

/-- The clone made by `DeepCopy` leaves the heap it found as a prefix of the heap
it returns, lies in the new cells, and the new cells point to new cells only. -/
theorem DeepCopy_fresh (h : Heap) (spec : Addr) (h1 : Heap) (clone : Addr)
    (hr : DeepCopy h spec = some (h1, clone)) :
    h <+: h1 ∧ Fresh h.length h1 ∧ h.length ≤ clone ∧ clone < h1.length := by
  simp only [DeepCopy] at hr
  cases hc : h[spec]? with
  | none => rw [hc] at hr; cases hr
  | some c =>
    rw [hc] at hr
    cases c <;> try cases hr
    next x =>
      simp only at hr
      cases e1 : copyContainers h x.Steps with
      | none => rw [e1] at hr; cases hr
      | some p1 =>
        obtain ⟨h2, r1⟩ := p1
        rw [e1] at hr
        simp only at hr
        obtain ⟨hp1, hf1, hr1⟩ :=
          clones_copyContainers h.length h _ h2 r1 (Nat.le_refl _) (Fresh.empty h) e1
        cases e2 : copyVolumes h2 x.Volumes with
        | none => rw [e2] at hr; cases hr
        | some p2 =>
          obtain ⟨h3, r2⟩ := p2
          rw [e2] at hr
          obtain ⟨hp2, hf2, hr2⟩ :=
            clones_copyVolumes h.length h2 _ h3 r2 hp1.length_le hf1 e2
          cases hr
          refine ⟨(hp1.trans hp2).trans (List.prefix_append _ _), hf2.push _ ?_,
            (hp1.trans hp2).length_le, by simp⟩
          intro r hr
          simp only [Cell.refs, List.mem_append] at hr
          rcases hr with hr | hr
          · exact hr1 r hr
          · exact hr2 r hr

/-- On a heap whose cells from `n` on are closed under reference, what is
reachable from an address at or above `n` is at or above `n`. -/
theorem Fresh.reach {n : Nat} {h : Heap} (hf : Fresh n h) {a b : Addr} (ha : n ≤ a)
    (hr : Reach h a b) : n ≤ b := by
  induction hr with
  | refl a => exact ha
  | step a b c cell hc hb _ ih => exact ih (hf a cell ha hc b hb)

/-! ### What is read from a heap is read from every heap that keeps its cells -/

theorem Agree.of_prefix {h h1 : Heap} (hp : h <+: h1) : Agree h h1 := by
  intro a c hc
  obtain ⟨t, rfl⟩ := hp
  have hlt : a < h.length := by
    rcases Nat.lt_or_ge a h.length with hl | hl
    · exact hl
    · rw [List.getElem?_eq_none hl] at hc; cases hc
  rw [List.getElem?_append_left hlt]
  exact hc

theorem loadTarget_agree {α : Type} (get : Cell → Option α) {h h1 : Heap} (ha : Agree h h1)
    (r : Ref) (v : Option α) (hl : loadTarget get h r = some v) :
    loadTarget get h1 r = some v := by
  cases r with
  | none => exact hl
  | some a =>
    simp only [loadTarget] at hl ⊢
    cases hc : h[a]? with
    | none => rw [hc] at hl; cases hl
    | some c =>
      rw [hc] at hl
      rw [ha a c hc]
      exact hl

theorem loadSlice_agree {α : Type} (get get1 : Cell → Option (List α)) {h h1 : Heap}
    (ha : Agree h h1) (hg : ∀ c v, get c = some v → get1 c = some v)
    (r : Ref) (v : List α) (hl : loadSlice get h r = some v) :
    loadSlice get1 h1 r = some v := by
  cases r with
  | none => exact hl
  | some a =>
    simp only [loadSlice] at hl ⊢
    cases hc : h[a]? with
    | none => rw [hc] at hl; cases hl
    | some c =>
      rw [hc] at hl
      rw [ha a c hc]
      exact hg c v hl

theorem loadEach_agree {α β : Type} (f f1 : α → Option β)
    (hf : ∀ x y, f x = some y → f1 x = some y) (xs : List α) (ys : List β)
    (hl : loadEach f xs = some ys) : loadEach f1 xs = some ys := by
  induction xs generalizing ys with
  | nil => exact hl
  | cons x xs ih =>
    simp only [loadEach] at hl ⊢
    cases hx : f x with
    | none => rw [hx] at hl; cases hl
    | some y =>
      rw [hx] at hl
      rw [hf x y hx]
      simp only at hl ⊢
      cases hxs : loadEach f xs with
      | none => rw [hxs] at hl; cases hl
      | some zs =>
        rw [hxs] at hl
        rw [ih zs hxs]
        exact hl

theorem loadEnvVarSource_agree {h h1 : Heap} (ha : Agree h h1) (r : Ref)
    (v : Option EnvVarSource) (hl : loadEnvVarSource h r = some v) :
    loadEnvVarSource h1 r = some v := by
  cases r with
  | none => exact hl
  | some a =>
    simp only [loadEnvVarSource] at hl ⊢
    cases hc : h[a]? with
    | none => rw [hc] at hl; cases hl
    | some c =>
      rw [hc] at hl
      rw [ha a c hc]
      cases c <;> try cases hl
      next x =>
        simp only at hl ⊢
        cases e1 : loadTarget (fun c => match c with
            | Cell.configMapKeySelector y => some y
            | _ => none) h x.ConfigMapKeyRef with
        | none => rw [e1] at hl; cases hl
        | some c1 =>
          rw [e1] at hl
          rw [loadTarget_agree _ ha _ _ e1]
          simp only at hl ⊢
          cases e2 : loadTarget (fun c => match c with
              | Cell.secretKeySelector y => some y
              | _ => none) h x.SecretKeyRef with
          | none => rw [e2] at hl; cases hl
          | some s1 =>
            rw [e2] at hl
            rw [loadTarget_agree _ ha _ _ e2]
            exact hl

theorem loadEnvVar_agree {h h1 : Heap} (ha : Agree h h1) (e : EnvVarRec) (v : EnvVar)
    (hl : loadEnvVar h e = some v) : loadEnvVar h1 e = some v := by
  simp only [loadEnvVar] at hl ⊢
  cases e1 : loadEnvVarSource h e.ValueFrom with
  | none => rw [e1] at hl; cases hl
  | some vf =>
    rw [e1] at hl
    rw [loadEnvVarSource_agree ha _ _ e1]
    exact hl

theorem loadEnvFrom_agree {h h1 : Heap} (ha : Agree h h1) (e : EnvFromRec) (v : EnvFromSource)
    (hl : loadEnvFrom h e = some v) : loadEnvFrom h1 e = some v := by
  simp only [loadEnvFrom] at hl ⊢
  cases e1 : loadTarget (fun c => match c with
      | Cell.configMapEnvSource y => some y
      | _ => none) h e.ConfigMapRef with
  | none => rw [e1] at hl; cases hl
  | some c1 =>
    rw [e1] at hl
    rw [loadTarget_agree _ ha _ _ e1]
    simp only at hl ⊢
    cases e2 : loadTarget (fun c => match c with
        | Cell.secretEnvSource y => some y
        | _ => none) h e.SecretRef with
    | none => rw [e2] at hl; cases hl
    | some s1 =>
      rw [e2] at hl
      rw [loadTarget_agree _ ha _ _ e2]
      exact hl

theorem loadContainer_agree {h h1 : Heap} (ha : Agree h h1) (c : ContainerRec) (v : Container)
    (hl : loadContainer h c = some v) : loadContainer h1 c = some v := by
  simp only [loadContainer, loadStrings] at hl ⊢
  cases e1 : loadSlice (fun c => match c with
      | Cell.strings xs => some xs
      | _ => none) h c.Command with
  | none => rw [e1] at hl; cases hl
  | some cmd =>
    rw [e1] at hl
    rw [loadSlice_agree _ _ ha (fun _ _ hg => hg) _ _ e1]
    simp only at hl ⊢
    cases e2 : loadSlice (fun c => match c with
        | Cell.strings xs => some xs
        | _ => none) h c.Args with
    | none => rw [e2] at hl; cases hl
    | some args =>
      rw [e2] at hl
      rw [loadSlice_agree _ _ ha (fun _ _ hg => hg) _ _ e2]
      simp only at hl ⊢
      cases e3 : loadSlice (fun c => match c with
          | Cell.envFroms xs => loadEach (loadEnvFrom h) xs
          | _ => none) h c.EnvFrom with
      | none => rw [e3] at hl; cases hl
      | some ef =>
        rw [e3] at hl
        have e3' := loadSlice_agree _ (fun c => match c with
            | Cell.envFroms xs => loadEach (loadEnvFrom h1) xs
            | _ => none) ha (by
              intro c v hg
              cases c <;> try cases hg
              next xs => exact loadEach_agree _ _ (loadEnvFrom_agree ha) xs v hg) _ _ e3
        rw [e3']
        simp only at hl ⊢
        cases e4 : loadSlice (fun c => match c with
            | Cell.envVars xs => loadEach (loadEnvVar h) xs
            | _ => none) h c.Env with
        | none => rw [e4] at hl; cases hl
        | some env =>
          rw [e4] at hl
          have e4' := loadSlice_agree _ (fun c => match c with
              | Cell.envVars xs => loadEach (loadEnvVar h1) xs
              | _ => none) ha (by
                intro c v hg
                cases c <;> try cases hg
                next xs => exact loadEach_agree _ _ (loadEnvVar_agree ha) xs v hg) _ _ e4
          rw [e4']
          simp only at hl ⊢
          cases e5 : loadSlice (fun c => match c with
              | Cell.volumeMounts xs => some xs
              | _ => none) h c.VolumeMounts with
          | none => rw [e5] at hl; cases hl
          | some vm =>
            rw [e5] at hl
            rw [loadSlice_agree _ _ ha (fun _ _ hg => hg) _ _ e5]
            exact hl

theorem loadVolume_agree {h h1 : Heap} (ha : Agree h h1) (x : VolumeRec) (v : Volume)
    (hl : loadVolume h x = some v) : loadVolume h1 x = some v := by
  simp only [loadVolume] at hl ⊢
  cases e1 : loadTarget (fun c => match c with
      | Cell.configMapVolumeSource y => some y
      | _ => none) h x.ConfigMap with
  | none => rw [e1] at hl; cases hl
  | some c1 =>
    rw [e1] at hl
    rw [loadTarget_agree _ ha _ _ e1]
    simp only at hl ⊢
    cases e2 : loadTarget (fun c => match c with
        | Cell.secretVolumeSource y => some y
        | _ => none) h x.Secret with
    | none => rw [e2] at hl; cases hl
    | some s1 =>
      rw [e2] at hl
      rw [loadTarget_agree _ ha _ _ e2]
      simp only at hl ⊢
      cases e3 : loadTarget (fun c => match c with
          | Cell.persistentVolumeClaim y => some y
          | _ => none) h x.PersistentVolumeClaim with
      | none => rw [e3] at hl; cases hl
      | some p1 =>
        rw [e3] at hl
        rw [loadTarget_agree _ ha _ _ e3]
        exact hl

/-- A specification held at an address is held there by every heap that keeps the
cells of the first. -/
theorem load_agree {h h1 : Heap} (ha : Agree h h1) (spec : Addr) (S : TaskSpec)
    (hl : load h spec = some S) : load h1 spec = some S := by
  simp only [load] at hl ⊢
  cases hc : h[spec]? with
  | none => rw [hc] at hl; cases hl
  | some c =>
    rw [hc] at hl
    rw [ha spec c hc]
    cases c <;> try cases hl
    next x =>
      simp only at hl ⊢
      cases e1 : loadSlice (fun c => match c with
          | Cell.containers xs => loadEach (loadContainer h) xs
          | _ => none) h x.Steps with
      | none => rw [e1] at hl; cases hl
      | some steps =>
        rw [e1] at hl
        have e1' := loadSlice_agree _ (fun c => match c with
            | Cell.containers xs => loadEach (loadContainer h1) xs
            | _ => none) ha (by
              intro c v hg
              cases c <;> try cases hg
              next xs => exact loadEach_agree _ _ (loadContainer_agree ha) xs v hg) _ _ e1
        rw [e1']
        simp only at hl ⊢
        cases e2 : loadSlice (fun c => match c with
            | Cell.volumes xs => loadEach (loadVolume h) xs
            | _ => none) h x.Volumes with
        | none => rw [e2] at hl; cases hl
        | some volumes =>
          rw [e2] at hl
          have e2' := loadSlice_agree _ (fun c => match c with
              | Cell.volumes xs => loadEach (loadVolume h1) xs
              | _ => none) ha (by
                intro c v hg
                cases c <;> try cases hg
                next xs => exact loadEach_agree _ _ (loadVolume_agree ha) xs v hg) _ _ e2
          rw [e2']
          exact hl

theorem Frame.agree {n : Nat} {h h1 h2 : Heap} (hp : h <+: h1) (hn : n = h.length)
    (fr : Frame n h1 h2) : Agree h h2 := by
  intro a c hc
  have hlt : a < h.length := by
    rcases Nat.lt_or_ge a h.length with hl | hl
    · exact hl
    · rw [List.getElem?_eq_none hl] at hc; cases hc
  rw [fr.below a (hn ▸ hlt)]
  exact Agree.of_prefix hp a c hc

theorem loadMap_agree {h h1 : Heap} (ha : Agree h h1) (a : Addr) (m : GoMap)
    (hl : loadMap h a = some m) : loadMap h1 a = some m := by
  simp only [loadMap] at hl ⊢
  cases hc : h[a]? with
  | none => rw [hc] at hl; cases hl
  | some c =>
    rw [hc] at hl
    rw [ha a c hc]
    exact hl

/-- When `ApplyReplacements`, run on a heap with the specification at `spec` and
the map at `replacements`, returns, every cell the heap had before the call is as
it was, so the specification and the map held there are the same as before; the
copy made by `DeepCopy` lies in new cells and the traversal changes cells of that
copy only; and nothing the heap had before the call is reachable from the
specification that is returned. -/
theorem ApplyReplacements_no_mutation (subst : String → GoMap → String) (h : Heap)
    (spec replacements : Addr) (h2 : Heap) (out : Addr)
    (hrun : ApplyReplacements subst h spec replacements = some (h2, out)) :
    (∀ a : Addr, a < h.length → h2[a]? = h[a]?) ∧
    (∀ S, load h spec = some S → load h2 spec = some S) ∧
    (∀ M, loadMap h replacements = some M → loadMap h2 replacements = some M) ∧
    (∃ h1, DeepCopy h spec = some (h1, out) ∧ h <+: h1 ∧
      ∀ a : Addr, h2[a]? ≠ h1[a]? → h.length ≤ a ∧ a < h1.length) ∧
    (∀ a, Reach h2 out a → h.length ≤ a) := by
  simp only [ApplyReplacements] at hrun
  cases hd : DeepCopy h spec with
  | none => rw [hd] at hrun; cases hrun
  | some p =>
    obtain ⟨h1, clone⟩ := p
    rw [hd] at hrun
    simp only at hrun
    cases ht : traverse subst replacements clone h1 with
    | none => rw [ht] at hrun; cases hrun
    | some h3 =>
      rw [ht] at hrun
      cases hrun
      obtain ⟨hp, hf, hc, _⟩ := DeepCopy_fresh h spec h1 out hd
      have fr : Frame h.length h1 h2 := safe_traverse subst h.length replacements out hc h1 h2 hf ht
      have hag : Agree h h2 := fr.agree hp rfl
      refine ⟨?_, fun S => load_agree hag spec S, fun M => loadMap_agree hag replacements M,
        ⟨h1, rfl, hp, ?_⟩, fun a hr => (hf.frame fr).reach hc hr⟩
      · intro a ha
        rw [fr.below a ha]
        obtain ⟨t, rfl⟩ := hp
        exact List.getElem?_append_left ha
      · intro a hne
        constructor
        · by_contra hlt
          exact hne (fr.below a (Nat.lt_of_not_le hlt))
        · by_contra hge
          have h1n : h1[a]? = none := List.getElem?_eq_none (Nat.le_of_not_lt hge)
          have h2n : h2[a]? = none :=
            List.getElem?_eq_none (fr.length ▸ Nat.le_of_not_lt hge)
          exact hne (h2n.trans h1n.symm)

theorem skel_self (h : Heap) : Skel h h := Eq.refl _

theorem Skel.getElem? {h h1 : Heap} (hs : Skel h h1) (a : Addr) :
    (h1[a]?).map Cell.skel = (h[a]?).map Cell.skel := by
  have := congrArg (fun l => l[a]?) hs
  simpa only [List.getElem?_map] using this

/-- On a heap of the shape of `h0`, the cell at an address of `h0` has the shape
of the cell of `h0`. -/
theorem Skel.cell {h0 h : Heap} (hs : Skel h0 h) {a : Addr} {c0 : Cell}
    (h0a : h0[a]? = some c0) : ∃ c, h[a]? = some c ∧ c.skel = c0.skel := by
  have := hs.getElem? a
  rw [h0a] at this
  cases hc : h[a]? with
  | none => rw [hc] at this; cases this
  | some c =>
    rw [hc] at this
    exact ⟨c, Eq.refl _, Option.some.inj this⟩

theorem Skel.set {h0 h : Heap} (hs : Skel h0 h) {a : Addr} {c c1 : Cell}
    (ha : h[a]? = some c) (hc : c1.skel = c.skel) : Skel h0 (h.set a c1) := by
  unfold Skel at hs ⊢
  rw [← hs]
  apply List.ext_getElem?
  intro i
  rw [List.getElem?_map, List.getElem?_map, List.getElem?_set]
  by_cases hi : a = i
  · subst hi
    have hlt : a < h.length := by
      rcases Nat.lt_or_ge a h.length with hl | hl
      · exact hl
      · rw [List.getElem?_eq_none hl] at ha; cases ha
    simp [hlt, ha, hc]
  · simp [hi]

theorem total_skip (h0 : Heap) : Total h0 skip :=
  fun h hs => ⟨h, Eq.refl _, hs⟩

theorem total_seq {h0 : Heap} {f g : Action} (hf : Total h0 f) (hg : Total h0 g) :
    Total h0 (seq f g) := by
  intro h hs
  obtain ⟨h1, e1, s1⟩ := hf h hs
  obtain ⟨h2, e2, s2⟩ := hg h1 s1
  exact ⟨h2, by simp only [seq, e1, e2], s2⟩

theorem total_forEach {h0 : Heap} {body : Nat → Action} (l : List Nat)
    (hb : ∀ i ∈ l, Total h0 (body i)) : Total h0 (forEach body l) := by
  induction l with
  | nil => exact total_skip h0
  | cons i rest ih =>
    exact total_seq (hb i (List.mem_cons_self _ _))
      (ih (fun j hj => hb j (List.mem_cons_of_mem _ hj)))

/-- A read of a cell of `h0`: what is read has the shape of the cell of `h0`. -/
theorem total_readCell {h0 : Heap} {a : Addr} {c0 : Cell} (h0a : h0[a]? = some c0)
    {k : Cell → Action} (hk : ∀ c, c.skel = c0.skel → Total h0 (k c)) :
    Total h0 (readCell a k) := by
  intro h hs
  obtain ⟨c, hc, hsk⟩ := hs.cell h0a
  obtain ⟨h1, e1, s1⟩ := hk c hsk h hs
  exact ⟨h1, by simp only [readCell, hc, e1], s1⟩

/-- A write into a cell of `h0` whose update is defined on every cell of that
shape and keeps the shape. -/
theorem total_write {h0 : Heap} {a : Addr} {c0 : Cell} (h0a : h0[a]? = some c0)
    {upd : Cell → Option Cell}
    (hu : ∀ c, c.skel = c0.skel → ∃ c1, upd c = some c1 ∧ c1.skel = c.skel) :
    Total h0 (write a upd) := by
  intro h hs
  obtain ⟨c, hc, hsk⟩ := hs.cell h0a
  obtain ⟨c1, e1, s1⟩ := hu c hsk
  exact ⟨h.set a c1, by simp only [write, hc, e1], hs.set hc s1⟩

theorem skel_map {c : Cell} {m : GoMap} (h : c.skel = (Cell.map m).skel) : c = Cell.map m := by
  cases c <;> simp only [Cell.skel, reduceCtorEq] at h
  next m1 => exact h

theorem total_withMap {h0 : Heap} {rep : Addr} {m : GoMap} (hm : h0[rep]? = some (Cell.map m))
    {k : GoMap → Action} (hk : Total h0 (k m)) : Total h0 (withMap rep k) := by
  apply total_readCell hm
  intro c hc
  rw [skel_map hc]
  exact hk

theorem total_assign {h0 : Heap} {rep : Addr} {m : GoMap} (hm : h0[rep]? = some (Cell.map m))
    {a : Addr} {c0 : Cell} (h0a : h0[a]? = some c0) {upd : GoMap → Cell → Option Cell}
    (hu : ∀ c, c.skel = c0.skel → ∃ c1, upd m c = some c1 ∧ c1.skel = c.skel) :
    Total h0 (assign rep a upd) :=
  total_withMap hm (total_write h0a hu)

/-! ### Cells of a known shape -/

theorem map_set_congr {α β : Type} (g : α → β) (xs : List α) (i : Nat) (x y : α)
    (hx : xs[i]? = some x) (hg : g y = g x) : (xs.set i y).map g = xs.map g := by
  induction xs generalizing i with
  | nil => rfl
  | cons z zs ih =>
    cases i with
    | zero =>
      simp only [List.getElem?_cons_zero, Option.some.injEq] at hx
      subst hx
      simp only [List.set_cons_zero, List.map_cons, hg]
    | succ j =>
      simp only [List.getElem?_cons_succ] at hx
      simp only [List.set_cons_succ, List.map_cons, ih j hx]

theorem getElem?_of_map_eq {α β : Type} (g : α → β) {xs ys : List α}
    (h : xs.map g = ys.map g) (i : Nat) : (xs[i]?).map g = (ys[i]?).map g := by
  have := congrArg (fun l => l[i]?) h
  simpa only [List.getElem?_map] using this

theorem length_of_map_eq {α β : Type} (g : α → β) {xs ys : List α}
    (h : xs.map g = ys.map g) : xs.length = ys.length := by
  have := congrArg List.length h
  simpa only [List.length_map] using this

theorem skel_strings {c : Cell} {xs0 : List String} (h : c.skel = (Cell.strings xs0).skel) :
    ∃ xs, c = Cell.strings xs ∧ xs.length = xs0.length := by
  cases c <;> simp only [Cell.skel, reduceCtorEq, Cell.strings.injEq] at h
  next xs => exact ⟨xs, Eq.refl _, length_of_map_eq _ h⟩

theorem skel_envVars {c : Cell} {es0 : List EnvVarRec} (h : c.skel = (Cell.envVars es0).skel) :
    ∃ es, c = Cell.envVars es ∧
      es.map (fun e => { e with Value := "" }) = es0.map (fun e => { e with Value := "" }) := by
  cases c <;> simp only [Cell.skel, reduceCtorEq, Cell.envVars.injEq] at h
  next es => exact ⟨es, Eq.refl _, h⟩

theorem skel_envVarSource {c : Cell} {x : EnvVarSourceRec}
    (h : c.skel = (Cell.envVarSource x).skel) : c = Cell.envVarSource x := by
  cases c <;> simp only [Cell.skel, reduceCtorEq, Cell.envVarSource.injEq] at h
  next y => rw [h]

theorem skel_secretKeySelector {c : Cell} {x : SecretKeySelector}
    (h : c.skel = (Cell.secretKeySelector x).skel) : ∃ y, c = Cell.secretKeySelector y := by
  cases c <;> simp only [Cell.skel, reduceCtorEq] at h
  next y => exact ⟨y, Eq.refl _⟩

theorem skel_configMapKeySelector {c : Cell} {x : ConfigMapKeySelector}
    (h : c.skel = (Cell.configMapKeySelector x).skel) :
    ∃ y, c = Cell.configMapKeySelector y := by
  cases c <;> simp only [Cell.skel, reduceCtorEq] at h
  next y => exact ⟨y, Eq.refl _⟩

theorem skel_envFroms {c : Cell} {es0 : List EnvFromRec}
    (h : c.skel = (Cell.envFroms es0).skel) :
    ∃ es, c = Cell.envFroms es ∧
      es.map (fun e => { e with Prefix := "" }) = es0.map (fun e => { e with Prefix := "" }) := by
  cases c <;> simp only [Cell.skel, reduceCtorEq, Cell.envFroms.injEq] at h
  next es => exact ⟨es, Eq.refl _, h⟩

theorem skel_configMapEnvSource {c : Cell} {x : ConfigMapEnvSource}
    (h : c.skel = (Cell.configMapEnvSource x).skel) : ∃ y, c = Cell.configMapEnvSource y := by
  cases c <;> simp only [Cell.skel, reduceCtorEq] at h
  next y => exact ⟨y, Eq.refl _⟩

theorem skel_secretEnvSource {c : Cell} {x : SecretEnvSource}
    (h : c.skel = (Cell.secretEnvSource x).skel) : ∃ y, c = Cell.secretEnvSource y := by
  cases c <;> simp only [Cell.skel, reduceCtorEq] at h
  next y => exact ⟨y, Eq.refl _⟩

theorem skel_volumeMounts {c : Cell} {vs0 : List VolumeMount}
    (h : c.skel = (Cell.volumeMounts vs0).skel) :
    ∃ vs, c = Cell.volumeMounts vs ∧ vs.length = vs0.length := by
  cases c <;> simp only [Cell.skel, reduceCtorEq, Cell.volumeMounts.injEq] at h
  next vs => exact ⟨vs, Eq.refl _, length_of_map_eq _ h⟩

theorem skel_containers {c : Cell} {cs0 : List ContainerRec}
    (h : c.skel = (Cell.containers cs0).skel) :
    ∃ cs, c = Cell.containers cs ∧
      cs.map (fun c => { c with Name := "", Image := "", WorkingDir := "" })
        = cs0.map (fun c => { c with Name := "", Image := "", WorkingDir := "" }) := by
  cases c <;> simp only [Cell.skel, reduceCtorEq, Cell.containers.injEq] at h
  next cs => exact ⟨cs, Eq.refl _, h⟩

theorem skel_volumes {c : Cell} {vs0 : List VolumeRec}
    (h : c.skel = (Cell.volumes vs0).skel) :
    ∃ vs, c = Cell.volumes vs ∧
      vs.map (fun v => { v with Name := "" }) = vs0.map (fun v => { v with Name := "" }) := by
  cases c <;> simp only [Cell.skel, reduceCtorEq, Cell.volumes.injEq] at h
  next vs => exact ⟨vs, Eq.refl _, h⟩

theorem skel_configMapVolumeSource {c : Cell} {x : ConfigMapVolumeSource}
    (h : c.skel = (Cell.configMapVolumeSource x).skel) :
    ∃ y, c = Cell.configMapVolumeSource y := by
  cases c <;> simp only [Cell.skel, reduceCtorEq] at h
  next y => exact ⟨y, Eq.refl _⟩

theorem skel_secretVolumeSource {c : Cell} {x : SecretVolumeSource}
    (h : c.skel = (Cell.secretVolumeSource x).skel) : ∃ y, c = Cell.secretVolumeSource y := by
  cases c <;> simp only [Cell.skel, reduceCtorEq] at h
  next y => exact ⟨y, Eq.refl _⟩

theorem skel_persistentVolumeClaim {c : Cell} {x : PersistentVolumeClaimVolumeSource}
    (h : c.skel = (Cell.persistentVolumeClaim x).skel) :
    ∃ y, c = Cell.persistentVolumeClaim y := by
  cases c <;> simp only [Cell.skel, reduceCtorEq] at h
  next y => exact ⟨y, Eq.refl _⟩

theorem skel_taskSpec {c : Cell} {x : TaskSpecRec}
    (h : c.skel = (Cell.taskSpec x).skel) : c = Cell.taskSpec x := by
  cases c <;> simp only [Cell.skel, reduceCtorEq, Cell.taskSpec.injEq] at h
  next y => rw [h]

/-! ### The updates are defined on cells of the right shape -/

theorem getElem?_some_of_lt {α : Type} (xs : List α) (i : Nat) (hi : i < xs.length) :
    ∃ x, xs[i]? = some x :=
  ⟨xs[i], List.getElem?_eq_getElem hi⟩

theorem onString_total (i : Nat) (g : String → String) (xs0 : List String)
    (hi : i < xs0.length) (c : Cell) (hc : c.skel = (Cell.strings xs0).skel) :
    ∃ c1, onString i g c = some c1 ∧ c1.skel = c.skel := by
  obtain ⟨xs, rfl, hlen⟩ := skel_strings hc
  obtain ⟨x, hx⟩ := getElem?_some_of_lt xs i (hlen ▸ hi)
  refine ⟨Cell.strings (xs.set i (g x)), by simp only [onString, hx], ?_⟩
  simp only [Cell.skel, Cell.strings.injEq]
  exact map_set_congr _ xs i x _ hx (Eq.refl _)

theorem onEnvVar_total (i : Nat) (g : EnvVarRec → String) (es0 : List EnvVarRec)
    (hi : i < es0.length) (c : Cell) (hc : c.skel = (Cell.envVars es0).skel) :
    ∃ c1, onEnvVar i g c = some c1 ∧ c1.skel = c.skel := by
  obtain ⟨es, rfl, hmap⟩ := skel_envVars hc
  obtain ⟨x, hx⟩ := getElem?_some_of_lt es i (length_of_map_eq _ hmap ▸ hi)
  refine ⟨Cell.envVars (es.set i { x with Value := g x }), by simp only [onEnvVar, hx], ?_⟩
  simp only [Cell.skel, Cell.envVars.injEq]
  exact map_set_congr _ es i x _ hx (Eq.refl _)

theorem onEnvFrom_total (i : Nat) (g : EnvFromRec → String) (es0 : List EnvFromRec)
    (hi : i < es0.length) (c : Cell) (hc : c.skel = (Cell.envFroms es0).skel) :
    ∃ c1, onEnvFrom i g c = some c1 ∧ c1.skel = c.skel := by
  obtain ⟨es, rfl, hmap⟩ := skel_envFroms hc
  obtain ⟨x, hx⟩ := getElem?_some_of_lt es i (length_of_map_eq _ hmap ▸ hi)
  refine ⟨Cell.envFroms (es.set i { x with Prefix := g x }), by simp only [onEnvFrom, hx], ?_⟩
  simp only [Cell.skel, Cell.envFroms.injEq]
  exact map_set_congr _ es i x _ hx (Eq.refl _)

/-- An update of a volume mount that keeps everything but its three template
strings. -/
theorem onVolumeMount_total (i : Nat) (g : VolumeMount → VolumeMount)
    (hg : ∀ v, (g v).Other = v.Other) (vs0 : List VolumeMount)
    (hi : i < vs0.length) (c : Cell) (hc : c.skel = (Cell.volumeMounts vs0).skel) :
    ∃ c1, onVolumeMount i g c = some c1 ∧ c1.skel = c.skel := by
  obtain ⟨vs, rfl, hlen⟩ := skel_volumeMounts hc
  obtain ⟨x, hx⟩ := getElem?_some_of_lt vs i (hlen ▸ hi)
  refine ⟨Cell.volumeMounts (vs.set i (g x)), by simp only [onVolumeMount, hx], ?_⟩
  simp only [Cell.skel, Cell.volumeMounts.injEq]
  exact map_set_congr _ vs i x _ hx (by simp only [hg])

theorem onContainer_total (i : Nat) (fld : ContainerField) (g : String → String)
    (cs0 : List ContainerRec) (hi : i < cs0.length) (c : Cell)
    (hc : c.skel = (Cell.containers cs0).skel) :
    ∃ c1, onContainer i fld g c = some c1 ∧ c1.skel = c.skel := by
  obtain ⟨cs, rfl, hmap⟩ := skel_containers hc
  obtain ⟨x, hx⟩ := getElem?_some_of_lt cs i (length_of_map_eq _ hmap ▸ hi)
  cases fld
  · refine ⟨Cell.containers (cs.set i { x with Name := g x.Name }),
      by simp only [onContainer, hx], ?_⟩
    simp only [Cell.skel, Cell.containers.injEq]
    exact map_set_congr _ cs i x _ hx (Eq.refl _)
  · refine ⟨Cell.containers (cs.set i { x with Image := g x.Image }),
      by simp only [onContainer, hx], ?_⟩
    simp only [Cell.skel, Cell.containers.injEq]
    exact map_set_congr _ cs i x _ hx (Eq.refl _)
  · refine ⟨Cell.containers (cs.set i { x with WorkingDir := g x.WorkingDir }),
      by simp only [onContainer, hx], ?_⟩
    simp only [Cell.skel, Cell.containers.injEq]
    exact map_set_congr _ cs i x _ hx (Eq.refl _)

theorem onVolume_total (i : Nat) (g : VolumeRec → String) (vs0 : List VolumeRec)
    (hi : i < vs0.length) (c : Cell) (hc : c.skel = (Cell.volumes vs0).skel) :
    ∃ c1, onVolume i g c = some c1 ∧ c1.skel = c.skel := by
  obtain ⟨vs, rfl, hmap⟩ := skel_volumes hc
  obtain ⟨x, hx⟩ := getElem?_some_of_lt vs i (length_of_map_eq _ hmap ▸ hi)
  refine ⟨Cell.volumes (vs.set i { x with Name := g x }), by simp only [onVolume, hx], ?_⟩
  simp only [Cell.skel, Cell.volumes.injEq]
  exact map_set_congr _ vs i x _ hx (Eq.refl _)

/-! ### The traversal runs to its end on a well-formed clone -/

section TraversalTotal

variable (subst : String → GoMap → String)

theorem total_applyStrings {h0 : Heap} {rep : Addr} {m : GoMap}
    (hm : h0[rep]? = some (Cell.map m)) (r : Ref)
    (ht : ∀ a, r = some a → ∃ xs0, h0[a]? = some (Cell.strings xs0)) :
    Total h0 (applyStrings subst rep r) := by
  cases r with
  | none => exact total_skip h0
  | some a =>
    obtain ⟨xs0, h0a⟩ := ht a rfl
    apply total_readCell h0a
    intro c hc
    obtain ⟨xs, rfl, hlen⟩ := skel_strings hc
    simp only
    apply total_forEach
    intro i hi
    exact total_assign hm h0a (onString_total i _ xs0 (hlen ▸ List.mem_range.1 hi))

theorem total_applySecretKeyRef {h0 : Heap} {rep : Addr} {m : GoMap}
    (hm : h0[rep]? = some (Cell.map m)) (r : Ref)
    (ht : ∀ a, r = some a → ∃ x, h0[a]? = some (Cell.secretKeySelector x)) :
    Total h0 (applySecretKeyRef subst rep r) := by
  cases r with
  | none => exact total_skip h0
  | some a =>
    obtain ⟨x0, h0a⟩ := ht a rfl
    apply total_seq <;> apply total_assign hm h0a <;> intro c hc <;>
      obtain ⟨y, rfl⟩ := skel_secretKeySelector hc <;> exact ⟨_, rfl, rfl⟩

theorem total_applyConfigMapKeyRef {h0 : Heap} {rep : Addr} {m : GoMap}
    (hm : h0[rep]? = some (Cell.map m)) (r : Ref)
    (ht : ∀ a, r = some a → ∃ x, h0[a]? = some (Cell.configMapKeySelector x)) :
    Total h0 (applyConfigMapKeyRef subst rep r) := by
  cases r with
  | none => exact total_skip h0
  | some a =>
    obtain ⟨x0, h0a⟩ := ht a rfl
    apply total_seq <;> apply total_assign hm h0a <;> intro c hc <;>
      obtain ⟨y, rfl⟩ := skel_configMapKeySelector hc <;> exact ⟨_, rfl, rfl⟩

end TraversalTotal

section TraversalTotal2

variable (subst : String → GoMap → String)

theorem total_applyEnvVar {h0 : Heap} {rep : Addr} {m : GoMap}
    (hm : h0[rep]? = some (Cell.map m)) (env : Addr) (es0 : List EnvVarRec)
    (h0a : h0[env]? = some (Cell.envVars es0))
    (hw : ∀ e ∈ es0, Holds (Cell.wfEnvVarSource h0) h0 e.ValueFrom)
    (ie : Nat) (hie : ie < es0.length) :
    Total h0 (applyEnvVar subst rep env ie) := by
  apply total_readCell h0a
  intro c hc
  obtain ⟨es, rfl, hmap⟩ := skel_envVars hc
  simp only
  obtain ⟨e, he⟩ := getElem?_some_of_lt es ie (length_of_map_eq _ hmap ▸ hie)
  obtain ⟨e0, he0⟩ := getElem?_some_of_lt es0 ie hie
  have hee := getElem?_of_map_eq _ hmap ie
  rw [he, he0] at hee
  simp only [Option.map_some'] at hee
  have hvf : e.ValueFrom = e0.ValueFrom := by
    simp only [Option.some.injEq, EnvVarRec.mk.injEq] at hee
    exact hee.2.2
  simp only [he]
  apply total_seq (total_assign hm h0a (onEnvVar_total ie _ es0 hie))
  cases hv : e.ValueFrom with
  | none => exact total_skip h0
  | some vf =>
    obtain ⟨c0, h0vf, x, rfl, hcm, hsk⟩ :=
      hw e0 (List.getElem?_mem he0) vf (hvf ▸ hv)
    simp only
    apply total_seq <;> apply total_readCell h0vf <;> intro c hc <;>
      rw [skel_envVarSource hc]
    · exact total_applySecretKeyRef subst hm _ (fun a ha => by
        obtain ⟨c1, h1, y, rfl⟩ := hsk a ha
        exact ⟨y, h1⟩)
    · exact total_applyConfigMapKeyRef subst hm _ (fun a ha => by
        obtain ⟨c1, h1, y, rfl⟩ := hcm a ha
        exact ⟨y, h1⟩)

theorem total_applyEnv {h0 : Heap} {rep : Addr} {m : GoMap}
    (hm : h0[rep]? = some (Cell.map m)) (r : Ref) (hw : Holds (Cell.wfEnvVars h0) h0 r) :
    Total h0 (applyEnv subst rep r) := by
  cases r with
  | none => exact total_skip h0
  | some a =>
    obtain ⟨c0, h0a, es0, rfl, hes⟩ := hw a rfl
    apply total_readCell h0a
    intro c hc
    obtain ⟨es, rfl, hmap⟩ := skel_envVars hc
    simp only
    apply total_forEach
    intro i hi
    exact total_applyEnvVar subst hm a es0 h0a hes i
      (length_of_map_eq _ hmap ▸ List.mem_range.1 hi)

theorem total_applyConfigMapRef {h0 : Heap} {rep : Addr} {m : GoMap}
    (hm : h0[rep]? = some (Cell.map m)) (r : Ref)
    (hw : Holds Cell.isConfigMapEnvSource h0 r) :
    Total h0 (applyConfigMapRef subst rep r) := by
  cases r with
  | none => exact total_skip h0
  | some a =>
    obtain ⟨c0, h0a, x0, rfl⟩ := hw a rfl
    apply total_assign hm h0a
    intro c hc
    obtain ⟨y, rfl⟩ := skel_configMapEnvSource hc
    exact ⟨_, rfl, rfl⟩

theorem total_applySecretRef {h0 : Heap} {rep : Addr} {m : GoMap}
    (hm : h0[rep]? = some (Cell.map m)) (r : Ref)
    (hw : Holds Cell.isSecretEnvSource h0 r) :
    Total h0 (applySecretRef subst rep r) := by
  cases r with
  | none => exact total_skip h0
  | some a =>
    obtain ⟨c0, h0a, x0, rfl⟩ := hw a rfl
    apply total_assign hm h0a
    intro c hc
    obtain ⟨y, rfl⟩ := skel_secretEnvSource hc
    exact ⟨_, rfl, rfl⟩

theorem total_applyEnvFromSource {h0 : Heap} {rep : Addr} {m : GoMap}
    (hm : h0[rep]? = some (Cell.map m)) (a : Addr) (es0 : List EnvFromRec)
    (h0a : h0[a]? = some (Cell.envFroms es0))
    (hw : ∀ e ∈ es0, Holds Cell.isConfigMapEnvSource h0 e.ConfigMapRef ∧
      Holds Cell.isSecretEnvSource h0 e.SecretRef)
    (ie : Nat) (hie : ie < es0.length) :
    Total h0 (applyEnvFromSource subst rep a ie) := by
  apply total_readCell h0a
  intro c hc
  obtain ⟨es, rfl, hmap⟩ := skel_envFroms hc
  simp only
  obtain ⟨e, he⟩ := getElem?_some_of_lt es ie (length_of_map_eq _ hmap ▸ hie)
  obtain ⟨e0, he0⟩ := getElem?_some_of_lt es0 ie hie
  have hee := getElem?_of_map_eq _ hmap ie
  rw [he, he0] at hee
  simp only [Option.map_some'] at hee
  simp only [Option.some.injEq, EnvFromRec.mk.injEq] at hee
  have h1 : e.ConfigMapRef = e0.ConfigMapRef := hee.2.1
  have h2 : e.SecretRef = e0.SecretRef := hee.2.2
  simp only [he]
  obtain ⟨w1, w2⟩ := hw e0 (List.getElem?_mem he0)
  apply total_seq (total_assign hm h0a (onEnvFrom_total ie _ es0 hie))
  apply total_seq
  · exact total_applyConfigMapRef subst hm _ (h1 ▸ w1)
  · exact total_applySecretRef subst hm _ (h2 ▸ w2)

theorem total_applyEnvFrom {h0 : Heap} {rep : Addr} {m : GoMap}
    (hm : h0[rep]? = some (Cell.map m)) (r : Ref) (hw : Holds (Cell.wfEnvFroms h0) h0 r) :
    Total h0 (applyEnvFrom subst rep r) := by
  cases r with
  | none => exact total_skip h0
  | some a =>
    obtain ⟨c0, h0a, es0, rfl, hes⟩ := hw a rfl
    apply total_readCell h0a
    intro c hc
    obtain ⟨es, rfl, hmap⟩ := skel_envFroms hc
    simp only
    apply total_forEach
    intro i hi
    exact total_applyEnvFromSource subst hm a es0 h0a hes i
      (length_of_map_eq _ hmap ▸ List.mem_range.1 hi)

theorem total_applyVolumeMount {h0 : Heap} {rep : Addr} {m : GoMap}
    (hm : h0[rep]? = some (Cell.map m)) (a : Addr) (vs0 : List VolumeMount)
    (h0a : h0[a]? = some (Cell.volumeMounts vs0)) (iv : Nat) (hiv : iv < vs0.length) :
    Total h0 (applyVolumeMount subst rep a iv) := by
  apply total_readCell h0a
  intro c hc
  obtain ⟨vs, rfl, hlen⟩ := skel_volumeMounts hc
  simp only
  obtain ⟨v, hv⟩ := getElem?_some_of_lt vs iv (hlen ▸ hiv)
  simp only [hv]
  exact total_seq
    (total_assign hm h0a (fun c hc => onVolumeMount_total iv _ (by intro v; rfl) vs0 hiv c hc))
    (total_seq
      (total_assign hm h0a (fun c hc => onVolumeMount_total iv _ (by intro v; rfl) vs0 hiv c hc))
      (total_assign hm h0a (fun c hc => onVolumeMount_total iv _ (by intro v; rfl) vs0 hiv c hc)))

theorem total_applyVolumeMounts {h0 : Heap} {rep : Addr} {m : GoMap}
    (hm : h0[rep]? = some (Cell.map m)) (r : Ref) (hw : Holds Cell.isVolumeMounts h0 r) :
    Total h0 (applyVolumeMounts subst rep r) := by
  cases r with
  | none => exact total_skip h0
  | some a =>
    obtain ⟨c0, h0a, vs0, rfl⟩ := hw a rfl
    apply total_readCell h0a
    intro c hc
    obtain ⟨vs, rfl, hlen⟩ := skel_volumeMounts hc
    simp only
    apply total_forEach
    intro i hi
    exact total_applyVolumeMount subst hm a vs0 h0a i (hlen ▸ List.mem_range.1 hi)

end TraversalTotal2

section TraversalTotal3

variable (subst : String → GoMap → String)

/-- A read of `steps[i]` from a cell of the shape of a cell of `h0`: the slice
headers read are those of `h0`. -/
theorem total_withStep {h0 : Heap} (steps : Addr) (cs0 : List ContainerRec)
    (h0a : h0[steps]? = some (Cell.containers cs0)) (i : Nat) (x0 : ContainerRec)
    (hx0 : cs0[i]? = some x0) {k : ContainerRec → Action}
    (hk : ∀ x : ContainerRec, x.Command = x0.Command → x.Args = x0.Args →
      x.EnvFrom = x0.EnvFrom → x.Env = x0.Env → x.VolumeMounts = x0.VolumeMounts →
      Total h0 (k x)) :
    Total h0 (withStep steps i k) := by
  apply total_readCell h0a
  intro c hc
  obtain ⟨cs, rfl, hmap⟩ := skel_containers hc
  simp only
  have hee := getElem?_of_map_eq _ hmap i
  rw [hx0] at hee
  cases hx : cs[i]? with
  | none => rw [hx] at hee; cases hee
  | some x =>
    rw [hx] at hee
    simp only [Option.map_some', Option.some.injEq, ContainerRec.mk.injEq] at hee
    simp only
    exact hk x hee.2.2.1 hee.2.2.2.1 hee.2.2.2.2.2.1 hee.2.2.2.2.2.2.1 hee.2.2.2.2.2.2.2.1

theorem total_applyStep {h0 : Heap} {rep : Addr} {m : GoMap}
    (hm : h0[rep]? = some (Cell.map m)) (steps : Addr) (cs0 : List ContainerRec)
    (h0a : h0[steps]? = some (Cell.containers cs0))
    (hw : ∀ x ∈ cs0,
      Holds Cell.isStrings h0 x.Command ∧ Holds Cell.isStrings h0 x.Args ∧
      Holds (Cell.wfEnvFroms h0) h0 x.EnvFrom ∧ Holds (Cell.wfEnvVars h0) h0 x.Env ∧
      Holds Cell.isVolumeMounts h0 x.VolumeMounts)
    (i : Nat) (hi : i < cs0.length) :
    Total h0 (applyStep subst rep steps i) := by
  obtain ⟨x0, hx0⟩ := getElem?_some_of_lt cs0 i hi
  obtain ⟨w1, w2, w3, w4, w5⟩ := hw x0 (List.getElem?_mem hx0)
  have hstr : ∀ r, Holds Cell.isStrings h0 r →
      ∀ a, r = some a → ∃ xs0, h0[a]? = some (Cell.strings xs0) := by
    intro r hr a ha
    obtain ⟨c, hc, xs, rfl⟩ := hr a ha
    exact ⟨xs, hc⟩
  refine total_seq (total_assign hm h0a (onContainer_total i _ _ cs0 hi)) ?_
  refine total_seq (total_assign hm h0a (onContainer_total i _ _ cs0 hi)) ?_
  refine total_seq (total_withStep steps cs0 h0a i x0 hx0 (fun x _ e2 _ _ _ =>
    total_applyStrings subst hm x.Args (hstr _ (e2 ▸ w2)))) ?_
  refine total_seq (total_withStep steps cs0 h0a i x0 hx0 (fun x _ _ _ e4 _ =>
    total_applyEnv subst hm x.Env (e4 ▸ w4))) ?_
  refine total_seq (total_withStep steps cs0 h0a i x0 hx0 (fun x _ _ e3 _ _ =>
    total_applyEnvFrom subst hm x.EnvFrom (e3 ▸ w3))) ?_
  refine total_seq (total_assign hm h0a (onContainer_total i _ _ cs0 hi)) ?_
  refine total_seq (total_withStep steps cs0 h0a i x0 hx0 (fun x e1 _ _ _ _ =>
    total_applyStrings subst hm x.Command (hstr _ (e1 ▸ w1)))) ?_
  exact total_withStep steps cs0 h0a i x0 hx0 (fun x _ _ _ _ e5 =>
    total_applyVolumeMounts subst hm x.VolumeMounts (e5 ▸ w5))

theorem total_applyConfigMap {h0 : Heap} {rep : Addr} {m : GoMap}
    (hm : h0[rep]? = some (Cell.map m)) (r : Ref)
    (hw : Holds Cell.isConfigMapVolumeSource h0 r) :
    Total h0 (applyConfigMap subst rep r) := by
  cases r with
  | none => exact total_skip h0
  | some a =>
    obtain ⟨c0, h0a, x0, rfl⟩ := hw a rfl
    apply total_assign hm h0a
    intro c hc
    obtain ⟨y, rfl⟩ := skel_configMapVolumeSource hc
    exact ⟨_, rfl, rfl⟩

theorem total_applySecret {h0 : Heap} {rep : Addr} {m : GoMap}
    (hm : h0[rep]? = some (Cell.map m)) (r : Ref)
    (hw : Holds Cell.isSecretVolumeSource h0 r) :
    Total h0 (applySecret subst rep r) := by
  cases r with
  | none => exact total_skip h0
  | some a =>
    obtain ⟨c0, h0a, x0, rfl⟩ := hw a rfl
    apply total_assign hm h0a
    intro c hc
    obtain ⟨y, rfl⟩ := skel_secretVolumeSource hc
    exact ⟨_, rfl, rfl⟩

theorem total_applyPersistentVolumeClaim {h0 : Heap} {rep : Addr} {m : GoMap}
    (hm : h0[rep]? = some (Cell.map m)) (r : Ref)
    (hw : Holds Cell.isPersistentVolumeClaim h0 r) :
    Total h0 (applyPersistentVolumeClaim subst rep r) := by
  cases r with
  | none => exact total_skip h0
  | some a =>
    obtain ⟨c0, h0a, x0, rfl⟩ := hw a rfl
    apply total_assign hm h0a
    intro c hc
    obtain ⟨y, rfl⟩ := skel_persistentVolumeClaim hc
    exact ⟨_, rfl, rfl⟩

theorem total_applyVolume {h0 : Heap} {rep : Addr} {m : GoMap}
    (hm : h0[rep]? = some (Cell.map m)) (a : Addr) (vs0 : List VolumeRec)
    (h0a : h0[a]? = some (Cell.volumes vs0))
    (hw : ∀ v ∈ vs0,
      Holds Cell.isConfigMapVolumeSource h0 v.ConfigMap ∧
      Holds Cell.isSecretVolumeSource h0 v.Secret ∧
      Holds Cell.isPersistentVolumeClaim h0 v.PersistentVolumeClaim)
    (i : Nat) (hi : i < vs0.length) :
    Total h0 (applyVolume subst rep a i) := by
  apply total_readCell h0a
  intro c hc
  obtain ⟨vs, rfl, hmap⟩ := skel_volumes hc
  simp only
  obtain ⟨v, hv⟩ := getElem?_some_of_lt vs i (length_of_map_eq _ hmap ▸ hi)
  obtain ⟨v0, hv0⟩ := getElem?_some_of_lt vs0 i hi
  have hee := getElem?_of_map_eq _ hmap i
  rw [hv, hv0] at hee
  simp only [Option.map_some', Option.some.injEq, VolumeRec.mk.injEq] at hee
  simp only [hv]
  obtain ⟨w1, w2, w3⟩ := hw v0 (List.getElem?_mem hv0)
  refine total_seq (total_assign hm h0a (onVolume_total i _ vs0 hi)) ?_
  refine total_seq (total_applyConfigMap subst hm _ (hee.2.1 ▸ w1)) ?_
  refine total_seq (total_applySecret subst hm _ (hee.2.2.1 ▸ w2)) ?_
  exact total_applyPersistentVolumeClaim subst hm _ (hee.2.2.2.1 ▸ w3)

/-- The traversal of a well-formed specification runs to its end, and leaves
every cell with the shape it had. -/
theorem total_traverse {h0 : Heap} {rep : Addr} {m : GoMap}
    (hm : h0[rep]? = some (Cell.map m)) (spec : Addr) (hw : WellFormed h0 spec) :
    Total h0 (traverse subst rep spec) := by
  obtain ⟨c0, h0a, x0, rfl, wsteps, wvols⟩ := hw spec rfl
  apply total_seq <;> apply total_readCell h0a <;> intro c hc <;> rw [skel_taskSpec hc]
  · simp only
    cases hst : x0.Steps with
    | none => exact total_skip h0
    | some steps =>
      obtain ⟨c1, h1a, cs0, rfl, hcs⟩ := wsteps steps hst
      simp only
      apply total_readCell h1a
      intro c hc1
      obtain ⟨cs, rfl, hmap⟩ := skel_containers hc1
      simp only
      apply total_forEach
      intro i hi
      exact total_applyStep subst hm steps cs0 h1a hcs i
        (length_of_map_eq _ hmap ▸ List.mem_range.1 hi)
  · simp only
    cases hst : x0.Volumes with
    | none => exact total_skip h0
    | some volumes =>
      obtain ⟨c1, h1a, vs0, rfl, hvs⟩ := wvols volumes hst
      simp only
      apply total_readCell h1a
      intro c hc1
      obtain ⟨vs, rfl, hmap⟩ := skel_volumes hc1
      simp only
      apply total_forEach
      intro i hi
      exact total_applyVolume subst hm volumes vs0 h1a hvs i
        (length_of_map_eq _ hmap ▸ List.mem_range.1 hi)

end TraversalTotal3

/-! ### `DeepCopy` returns, and its clone holds the specification -/

theorem copyFlat_loadTarget {α : Type} (get : Cell → Option α)
    (hget : ∀ c v, get c = some v → c.refs = []) (h : Heap) (r : Ref) (v : Option α)
    (hl : loadTarget get h r = some v) :
    ∃ h1 y, copyFlat h r = some (h1, y) ∧ h <+: h1 ∧ loadTarget get h1 y = some v := by
  cases r with
  | none => exact ⟨h, none, rfl, List.prefix_refl _, hl⟩
  | some a =>
    simp only [loadTarget] at hl
    cases hc : h[a]? with
    | none => rw [hc] at hl; cases hl
    | some c =>
      rw [hc] at hl
      simp only at hl
      cases hg : get c with
      | none => rw [hg] at hl; cases hl
      | some x =>
        rw [hg] at hl
        refine ⟨h ++ [c], some h.length, ?_, List.prefix_append _ _, ?_⟩
        · simp only [copyFlat, hc, hget c x hg, if_true]
        · simp only [loadTarget, List.getElem?_concat_length, hg]
          exact hl

theorem copyFlat_loadSlice {α : Type} (get : Cell → Option (List α))
    (hget : ∀ c v, get c = some v → c.refs = []) (h : Heap) (r : Ref) (v : List α)
    (hl : loadSlice get h r = some v) :
    ∃ h1 y, copyFlat h r = some (h1, y) ∧ h <+: h1 ∧ loadSlice get h1 y = some v := by
  cases r with
  | none => exact ⟨h, none, rfl, List.prefix_refl _, hl⟩
  | some a =>
    simp only [loadSlice] at hl
    cases hc : h[a]? with
    | none => rw [hc] at hl; cases hl
    | some c =>
      rw [hc] at hl
      simp only at hl
      refine ⟨h ++ [c], some h.length, ?_, List.prefix_append _ _, ?_⟩
      · simp only [copyFlat, hc, hget c v hl, if_true]
      · simp only [loadSlice, List.getElem?_concat_length]
        exact hl

theorem copyEach_loadEach {α β : Type} (copy : Heap → α → Option (Heap × α))
    (ld : Heap → α → Option β)
    (hmono : ∀ h h1 x v, h <+: h1 → ld h x = some v → ld h1 x = some v)
    (hcopy : ∀ h x v, ld h x = some v →
      ∃ h1 y, copy h x = some (h1, y) ∧ h <+: h1 ∧ ld h1 y = some v)
    (h : Heap) (xs : List α) (vs : List β) (hl : loadEach (ld h) xs = some vs) :
    ∃ h1 ys, copyEach copy h xs = some (h1, ys) ∧ h <+: h1 ∧
      loadEach (ld h1) ys = some vs := by
  induction xs generalizing h vs with
  | nil => exact ⟨h, [], rfl, List.prefix_refl _, hl⟩
  | cons x xs ih =>
    simp only [loadEach] at hl
    cases hx : ld h x with
    | none => rw [hx] at hl; cases hl
    | some v =>
      rw [hx] at hl
      simp only at hl
      cases hxs : loadEach (ld h) xs with
      | none => rw [hxs] at hl; cases hl
      | some ws =>
        rw [hxs] at hl
        cases hl
        obtain ⟨h1, y, e1, p1, l1⟩ := hcopy h x v hx
        have hxs1 : loadEach (ld h1) xs = some ws :=
          loadEach_agree _ _ (fun x v => hmono h h1 x v p1) xs ws hxs
        obtain ⟨h2, ys, e2, p2, l2⟩ := ih h1 ws hxs1
        refine ⟨h2, y :: ys, ?_, p1.trans p2, ?_⟩
        · simp only [copyEach, e1, e2]
        · simp only [loadEach, hmono h1 h2 y v p2 l1, l2]

theorem copyEnvVarSource_load (h : Heap) (r : Ref) (v : Option EnvVarSource)
    (hl : loadEnvVarSource h r = some v) :
    ∃ h1 y, copyEnvVarSource h r = some (h1, y) ∧ h <+: h1 ∧
      loadEnvVarSource h1 y = some v := by
  cases r with
  | none => exact ⟨h, none, rfl, List.prefix_refl _, hl⟩
  | some a =>
    simp only [loadEnvVarSource] at hl
    cases hc : h[a]? with
    | none => rw [hc] at hl; cases hl
    | some c =>
      rw [hc] at hl
      cases c <;> try cases hl
      next x =>
        simp only at hl
        cases e1 : loadTarget (fun c => match c with
            | Cell.configMapKeySelector y => some y
            | _ => none) h x.ConfigMapKeyRef with
        | none => rw [e1] at hl; cases hl
        | some c1 =>
          rw [e1] at hl
          simp only at hl
          cases e2 : loadTarget (fun c => match c with
              | Cell.secretKeySelector y => some y
              | _ => none) h x.SecretKeyRef with
          | none => rw [e2] at hl; cases hl
          | some s1 =>
            rw [e2] at hl
            obtain ⟨h1, rc, k1, p1, l1⟩ := copyFlat_loadTarget _
              (by intro c v hg; cases c <;> first | (cases hg; rfl) | cases hg) h _ _ e1
            have e2' := loadTarget_agree _ (Agree.of_prefix p1) _ _ e2
            obtain ⟨h2, rs, k2, p2, l2⟩ := copyFlat_loadTarget _
              (by intro c v hg; cases c <;> first | (cases hg; rfl) | cases hg) h1 _ _ e2'
            have l1' := loadTarget_agree _ (Agree.of_prefix (p2.trans (List.prefix_append _
              [Cell.envVarSource { x with ConfigMapKeyRef := rc, SecretKeyRef := rs }]))) _ _ l1
            have l2' := loadTarget_agree _ (Agree.of_prefix (List.prefix_append h2
              [Cell.envVarSource { x with ConfigMapKeyRef := rc, SecretKeyRef := rs }])) _ _ l2
            refine ⟨h2 ++ [Cell.envVarSource { x with ConfigMapKeyRef := rc, SecretKeyRef := rs }],
              some h2.length, ?_, (p1.trans p2).trans (List.prefix_append _ _), ?_⟩
            · simp only [copyEnvVarSource, hc, k1, k2]
            · simp only [loadEnvVarSource, List.getElem?_concat_length, l1', l2']
              exact hl

theorem copyEnvVar_load (h : Heap) (e : EnvVarRec) (v : EnvVar)
    (hl : loadEnvVar h e = some v) :
    ∃ h1 y, copyEnvVar h e = some (h1, y) ∧ h <+: h1 ∧ loadEnvVar h1 y = some v := by
  simp only [loadEnvVar] at hl
  cases e1 : loadEnvVarSource h e.ValueFrom with
  | none => rw [e1] at hl; cases hl
  | some vf =>
    rw [e1] at hl
    obtain ⟨h1, y, k1, p1, l1⟩ := copyEnvVarSource_load h _ _ e1
    refine ⟨h1, { e with ValueFrom := y }, ?_, p1, ?_⟩
    · simp only [copyEnvVar, k1]
    · simp only [loadEnvVar, l1]
      exact hl

theorem copyEnvVars_load (h : Heap) (r : Ref) (v : List EnvVar)
    (hl : loadSlice (fun c => match c with
        | Cell.envVars xs => loadEach (loadEnvVar h) xs
        | _ => none) h r = some v) :
    ∃ h1 y, copyEnvVars h r = some (h1, y) ∧ h <+: h1 ∧
      loadSlice (fun c => match c with
        | Cell.envVars xs => loadEach (loadEnvVar h1) xs
        | _ => none) h1 y = some v := by
  cases r with
  | none => exact ⟨h, none, rfl, List.prefix_refl _, hl⟩
  | some a =>
    simp only [loadSlice] at hl
    cases hc : h[a]? with
    | none => rw [hc] at hl; cases hl
    | some c =>
      rw [hc] at hl
      cases c <;> try cases hl
      next xs =>
        simp only at hl
        obtain ⟨h1, ys, k1, p1, l1⟩ := copyEach_loadEach copyEnvVar loadEnvVar
          (fun h h1 x v p => loadEnvVar_agree (Agree.of_prefix p) x v) copyEnvVar_load h xs v hl
        refine ⟨h1 ++ [Cell.envVars ys], some h1.length, ?_,
          p1.trans (List.prefix_append _ _), ?_⟩
        · simp only [copyEnvVars, hc, k1]
        · simp only [loadSlice, List.getElem?_concat_length]
          exact loadEach_agree _ _
            (loadEnvVar_agree (Agree.of_prefix (List.prefix_append _ _))) ys v l1

theorem copyEnvFrom_load (h : Heap) (e : EnvFromRec) (v : EnvFromSource)
    (hl : loadEnvFrom h e = some v) :
    ∃ h1 y, copyEnvFrom h e = some (h1, y) ∧ h <+: h1 ∧ loadEnvFrom h1 y = some v := by
  simp only [loadEnvFrom] at hl
  cases e1 : loadTarget (fun c => match c with
      | Cell.configMapEnvSource y => some y
      | _ => none) h e.ConfigMapRef with
  | none => rw [e1] at hl; cases hl
  | some c1 =>
    rw [e1] at hl
    simp only at hl
    cases e2 : loadTarget (fun c => match c with
        | Cell.secretEnvSource y => some y
        | _ => none) h e.SecretRef with
    | none => rw [e2] at hl; cases hl
    | some s1 =>
      rw [e2] at hl
      obtain ⟨h1, rc, k1, p1, l1⟩ := copyFlat_loadTarget _
        (by intro c v hg; cases c <;> first | (cases hg; rfl) | cases hg) h _ _ e1
      have e2' := loadTarget_agree _ (Agree.of_prefix p1) _ _ e2
      obtain ⟨h2, rs, k2, p2, l2⟩ := copyFlat_loadTarget _
        (by intro c v hg; cases c <;> first | (cases hg; rfl) | cases hg) h1 _ _ e2'
      have l1' := loadTarget_agree _ (Agree.of_prefix p2) _ _ l1
      refine ⟨h2, { e with ConfigMapRef := rc, SecretRef := rs }, ?_, p1.trans p2, ?_⟩
      · simp only [copyEnvFrom, k1, k2]
      · simp only [loadEnvFrom, l1', l2]
        exact hl

theorem copyEnvFroms_load (h : Heap) (r : Ref) (v : List EnvFromSource)
    (hl : loadSlice (fun c => match c with
        | Cell.envFroms xs => loadEach (loadEnvFrom h) xs
        | _ => none) h r = some v) :
    ∃ h1 y, copyEnvFroms h r = some (h1, y) ∧ h <+: h1 ∧
      loadSlice (fun c => match c with
        | Cell.envFroms xs => loadEach (loadEnvFrom h1) xs
        | _ => none) h1 y = some v := by
  cases r with
  | none => exact ⟨h, none, rfl, List.prefix_refl _, hl⟩
  | some a =>
    simp only [loadSlice] at hl
    cases hc : h[a]? with
    | none => rw [hc] at hl; cases hl
    | some c =>
      rw [hc] at hl
      cases c <;> try cases hl
      next xs =>
        simp only at hl
        obtain ⟨h1, ys, k1, p1, l1⟩ := copyEach_loadEach copyEnvFrom loadEnvFrom
          (fun h h1 x v p => loadEnvFrom_agree (Agree.of_prefix p) x v) copyEnvFrom_load h xs v hl
        refine ⟨h1 ++ [Cell.envFroms ys], some h1.length, ?_,
          p1.trans (List.prefix_append _ _), ?_⟩
        · simp only [copyEnvFroms, hc, k1]
        · simp only [loadSlice, List.getElem?_concat_length]
          exact loadEach_agree _ _
            (loadEnvFrom_agree (Agree.of_prefix (List.prefix_append _ _))) ys v l1

theorem loadEnvFromSlice_agree {h h1 : Heap} (ha : Agree h h1) (r : Ref)
    (v : List EnvFromSource)
    (hl : loadSlice (fun c => match c with
        | Cell.envFroms xs => loadEach (loadEnvFrom h) xs
        | _ => none) h r = some v) :
    loadSlice (fun c => match c with
        | Cell.envFroms xs => loadEach (loadEnvFrom h1) xs
        | _ => none) h1 r = some v :=
  loadSlice_agree _ _ ha (by
    intro c v hg
    cases c <;> try cases hg
    next xs => exact loadEach_agree _ _ (loadEnvFrom_agree ha) xs v hg) _ _ hl

theorem loadEnvVarSlice_agree {h h1 : Heap} (ha : Agree h h1) (r : Ref) (v : List EnvVar)
    (hl : loadSlice (fun c => match c with
        | Cell.envVars xs => loadEach (loadEnvVar h) xs
        | _ => none) h r = some v) :
    loadSlice (fun c => match c with
        | Cell.envVars xs => loadEach (loadEnvVar h1) xs
        | _ => none) h1 r = some v :=
  loadSlice_agree _ _ ha (by
    intro c v hg
    cases c <;> try cases hg
    next xs => exact loadEach_agree _ _ (loadEnvVar_agree ha) xs v hg) _ _ hl

theorem copyContainer_load (h : Heap) (c : ContainerRec) (v : Container)
    (hl : loadContainer h c = some v) :
    ∃ h1 y, copyContainer h c = some (h1, y) ∧ h <+: h1 ∧ loadContainer h1 y = some v := by
  simp only [loadContainer, loadStrings] at hl
  cases e1 : loadSlice (fun c => match c with
      | Cell.strings xs => some xs
      | _ => none) h c.Command with
  | none => rw [e1] at hl; cases hl
  | some cmd =>
    rw [e1] at hl
    simp only at hl
    cases e2 : loadSlice (fun c => match c with
        | Cell.strings xs => some xs
        | _ => none) h c.Args with
    | none => rw [e2] at hl; cases hl
    | some args =>
      rw [e2] at hl
      simp only at hl
      cases e3 : loadSlice (fun c => match c with
          | Cell.envFroms xs => loadEach (loadEnvFrom h) xs
          | _ => none) h c.EnvFrom with
      | none => rw [e3] at hl; cases hl
      | some ef =>
        rw [e3] at hl
        simp only at hl
        cases e4 : loadSlice (fun c => match c with
            | Cell.envVars xs => loadEach (loadEnvVar h) xs
            | _ => none) h c.Env with
        | none => rw [e4] at hl; cases hl
        | some env =>
          rw [e4] at hl
          simp only at hl
          cases e5 : loadSlice (fun c => match c with
              | Cell.volumeMounts xs => some xs
              | _ => none) h c.VolumeMounts with
          | none => rw [e5] at hl; cases hl
          | some vm =>
            rw [e5] at hl
            obtain ⟨h1, r1, k1, p1, l1⟩ := copyFlat_loadSlice _
              (by intro c v hg; cases c <;> first | (cases hg; rfl) | cases hg) h _ _ e1
            have a1 := Agree.of_prefix p1
            obtain ⟨h2, r2, k2, p2, l2⟩ := copyFlat_loadSlice _
              (by intro c v hg; cases c <;> first | (cases hg; rfl) | cases hg) h1 _ _
              (loadSlice_agree _ _ a1 (fun _ _ hg => hg) _ _ e2)
            have a2 := Agree.of_prefix (p1.trans p2)
            obtain ⟨h3, r3, k3, p3, l3⟩ :=
              copyEnvFroms_load h2 _ _ (loadEnvFromSlice_agree a2 _ _ e3)
            have a3 := Agree.of_prefix ((p1.trans p2).trans p3)
            obtain ⟨h4, r4, k4, p4, l4⟩ :=
              copyEnvVars_load h3 _ _ (loadEnvVarSlice_agree a3 _ _ e4)
            have a4 := Agree.of_prefix (((p1.trans p2).trans p3).trans p4)
            obtain ⟨h5, r5, k5, p5, l5⟩ := copyFlat_loadSlice _
              (by intro c v hg; cases c <;> first | (cases hg; rfl) | cases hg) h4 _ _
              (loadSlice_agree _ _ a4 (fun _ _ hg => hg) _ _ e5)
            have l1' := loadSlice_agree _ _
              (Agree.of_prefix (((p2.trans p3).trans p4).trans p5)) (fun _ _ hg => hg) _ _ l1
            have l2' := loadSlice_agree _ _
              (Agree.of_prefix ((p3.trans p4).trans p5)) (fun _ _ hg => hg) _ _ l2
            have l3' := loadEnvFromSlice_agree (Agree.of_prefix (p4.trans p5)) _ _ l3
            have l4' := loadEnvVarSlice_agree (Agree.of_prefix p5) _ _ l4
            refine ⟨h5,
              { c with Command := r1, Args := r2, EnvFrom := r3, Env := r4, VolumeMounts := r5 },
              ?_, (((p1.trans p2).trans p3).trans p4).trans p5, ?_⟩
            · simp only [copyContainer, k1, k2, k3, k4, k5]
            · simp only [loadContainer, loadStrings, l1', l2', l3', l4', l5]
              exact hl

theorem copyContainers_load (h : Heap) (r : Ref) (v : List Container)
    (hl : loadSlice (fun c => match c with
        | Cell.containers xs => loadEach (loadContainer h) xs
        | _ => none) h r = some v) :
    ∃ h1 y, copyContainers h r = some (h1, y) ∧ h <+: h1 ∧
      loadSlice (fun c => match c with
        | Cell.containers xs => loadEach (loadContainer h1) xs
        | _ => none) h1 y = some v := by
  cases r with
  | none => exact ⟨h, none, rfl, List.prefix_refl _, hl⟩
  | some a =>
    simp only [loadSlice] at hl
    cases hc : h[a]? with
    | none => rw [hc] at hl; cases hl
    | some c =>
      rw [hc] at hl
      cases c <;> try cases hl
      next xs =>
        simp only at hl
        obtain ⟨h1, ys, k1, p1, l1⟩ := copyEach_loadEach copyContainer loadContainer
          (fun h h1 x v p => loadContainer_agree (Agree.of_prefix p) x v) copyContainer_load
          h xs v hl
        refine ⟨h1 ++ [Cell.containers ys], some h1.length, ?_,
          p1.trans (List.prefix_append _ _), ?_⟩
        · simp only [copyContainers, hc, k1]
        · simp only [loadSlice, List.getElem?_concat_length]
          exact loadEach_agree _ _
            (loadContainer_agree (Agree.of_prefix (List.prefix_append _ _))) ys v l1

theorem copyVolume_load (h : Heap) (x : VolumeRec) (v : Volume)
    (hl : loadVolume h x = some v) :
    ∃ h1 y, copyVolume h x = some (h1, y) ∧ h <+: h1 ∧ loadVolume h1 y = some v := by
  simp only [loadVolume] at hl
  cases e1 : loadTarget (fun c => match c with
      | Cell.configMapVolumeSource y => some y
      | _ => none) h x.ConfigMap with
  | none => rw [e1] at hl; cases hl
  | some c1 =>
    rw [e1] at hl
    simp only at hl
    cases e2 : loadTarget (fun c => match c with
        | Cell.secretVolumeSource y => some y
        | _ => none) h x.Secret with
    | none => rw [e2] at hl; cases hl
    | some s1 =>
      rw [e2] at hl
      simp only at hl
      cases e3 : loadTarget (fun c => match c with
          | Cell.persistentVolumeClaim y => some y
          | _ => none) h x.PersistentVolumeClaim with
      | none => rw [e3] at hl; cases hl
      | some q1 =>
        rw [e3] at hl
        obtain ⟨h1, r1, k1, p1, l1⟩ := copyFlat_loadTarget _
          (by intro c v hg; cases c <;> first | (cases hg; rfl) | cases hg) h _ _ e1
        obtain ⟨h2, r2, k2, p2, l2⟩ := copyFlat_loadTarget _
          (by intro c v hg; cases c <;> first | (cases hg; rfl) | cases hg) h1 _ _
          (loadTarget_agree _ (Agree.of_prefix p1) _ _ e2)
        obtain ⟨h3, r3, k3, p3, l3⟩ := copyFlat_loadTarget _
          (by intro c v hg; cases c <;> first | (cases hg; rfl) | cases hg) h2 _ _
          (loadTarget_agree _ (Agree.of_prefix (p1.trans p2)) _ _ e3)
        have l1' := loadTarget_agree _ (Agree.of_prefix (p2.trans p3)) _ _ l1
        have l2' := loadTarget_agree _ (Agree.of_prefix p3) _ _ l2
        refine ⟨h3, { x with ConfigMap := r1, Secret := r2, PersistentVolumeClaim := r3 }, ?_,
          (p1.trans p2).trans p3, ?_⟩
        · simp only [copyVolume, k1, k2, k3]
        · simp only [loadVolume, l1', l2', l3]
          exact hl

theorem copyVolumes_load (h : Heap) (r : Ref) (v : List Volume)
    (hl : loadSlice (fun c => match c with
        | Cell.volumes xs => loadEach (loadVolume h) xs
        | _ => none) h r = some v) :
    ∃ h1 y, copyVolumes h r = some (h1, y) ∧ h <+: h1 ∧
      loadSlice (fun c => match c with
        | Cell.volumes xs => loadEach (loadVolume h1) xs
        | _ => none) h1 y = some v := by
  cases r with
  | none => exact ⟨h, none, rfl, List.prefix_refl _, hl⟩
  | some a =>
    simp only [loadSlice] at hl
    cases hc : h[a]? with
    | none => rw [hc] at hl; cases hl
    | some c =>
      rw [hc] at hl
      cases c <;> try cases hl
      next xs =>
        simp only at hl
        obtain ⟨h1, ys, k1, p1, l1⟩ := copyEach_loadEach copyVolume loadVolume
          (fun h h1 x v p => loadVolume_agree (Agree.of_prefix p) x v) copyVolume_load
          h xs v hl
        refine ⟨h1 ++ [Cell.volumes ys], some h1.length, ?_,
          p1.trans (List.prefix_append _ _), ?_⟩
        · simp only [copyVolumes, hc, k1]
        · simp only [loadSlice, List.getElem?_concat_length]
          exact loadEach_agree _ _
            (loadVolume_agree (Agree.of_prefix (List.prefix_append _ _))) ys v l1

theorem loadContainerSlice_agree {h h1 : Heap} (ha : Agree h h1) (r : Ref) (v : List Container)
    (hl : loadSlice (fun c => match c with
        | Cell.containers xs => loadEach (loadContainer h) xs
        | _ => none) h r = some v) :
    loadSlice (fun c => match c with
        | Cell.containers xs => loadEach (loadContainer h1) xs
        | _ => none) h1 r = some v :=
  loadSlice_agree _ _ ha (by
    intro c v hg
    cases c <;> try cases hg
    next xs => exact loadEach_agree _ _ (loadContainer_agree ha) xs v hg) _ _ hl

theorem loadVolumeSlice_agree {h h1 : Heap} (ha : Agree h h1) (r : Ref) (v : List Volume)
    (hl : loadSlice (fun c => match c with
        | Cell.volumes xs => loadEach (loadVolume h) xs
        | _ => none) h r = some v) :
    loadSlice (fun c => match c with
        | Cell.volumes xs => loadEach (loadVolume h1) xs
        | _ => none) h1 r = some v :=
  loadSlice_agree _ _ ha (by
    intro c v hg
    cases c <;> try cases hg
    next xs => exact loadEach_agree _ _ (loadVolume_agree ha) xs v hg) _ _ hl

/-- `DeepCopy` of a specification held at an address returns, and the clone holds
the same specification. -/
theorem DeepCopy_load (h : Heap) (spec : Addr) (S : TaskSpec) (hl : load h spec = some S) :
    ∃ h1 clone, DeepCopy h spec = some (h1, clone) ∧ load h1 clone = some S := by
  simp only [load] at hl
  cases hc : h[spec]? with
  | none => rw [hc] at hl; cases hl
  | some c =>
    rw [hc] at hl
    cases c <;> try cases hl
    next x =>
      simp only at hl
      cases e1 : loadSlice (fun c => match c with
          | Cell.containers xs => loadEach (loadContainer h) xs
          | _ => none) h x.Steps with
      | none => rw [e1] at hl; cases hl
      | some steps =>
        rw [e1] at hl
        simp only at hl
        cases e2 : loadSlice (fun c => match c with
            | Cell.volumes xs => loadEach (loadVolume h) xs
            | _ => none) h x.Volumes with
        | none => rw [e2] at hl; cases hl
        | some volumes =>
          rw [e2] at hl
          obtain ⟨h1, r1, k1, p1, l1⟩ := copyContainers_load h _ _ e1
          obtain ⟨h2, r2, k2, p2, l2⟩ :=
            copyVolumes_load h1 _ _ (loadVolumeSlice_agree (Agree.of_prefix p1) _ _ e2)
          have l1' := loadContainerSlice_agree (Agree.of_prefix (p2.trans (List.prefix_append _
            [Cell.taskSpec { x with Steps := r1, Volumes := r2 }]))) _ _ l1
          have l2' := loadVolumeSlice_agree (Agree.of_prefix (List.prefix_append h2
            [Cell.taskSpec { x with Steps := r1, Volumes := r2 }])) _ _ l2
          refine ⟨h2 ++ [Cell.taskSpec { x with Steps := r1, Volumes := r2 }], h2.length, ?_, ?_⟩
          · simp only [DeepCopy, hc, k1, k2]
          · simp only [load, List.getElem?_concat_length, l1', l2']
            exact hl

/-! ### A specification held at an address is well formed -/

theorem holds_of_loadTarget {α : Type} (get : Cell → Option α) (P : Cell → Prop)
    (hget : ∀ c x, get c = some x → P c) (h : Heap) (r : Ref) (v : Option α)
    (hl : loadTarget get h r = some v) : Holds P h r := by
  intro a ha
  subst ha
  simp only [loadTarget] at hl
  cases hc : h[a]? with
  | none => rw [hc] at hl; cases hl
  | some c =>
    rw [hc] at hl
    simp only at hl
    cases hg : get c with
    | none => rw [hg] at hl; cases hl
    | some x => exact ⟨c, rfl, hget c x hg⟩

theorem holds_of_loadSlice {α : Type} (get : Cell → Option (List α)) (P : Cell → Prop)
    (hget : ∀ c x, get c = some x → P c) (h : Heap) (r : Ref) (v : List α)
    (hl : loadSlice get h r = some v) : Holds P h r := by
  intro a ha
  subst ha
  simp only [loadSlice] at hl
  cases hc : h[a]? with
  | none => rw [hc] at hl; cases hl
  | some c =>
    rw [hc] at hl
    exact ⟨c, rfl, hget c v hl⟩

theorem loadEach_mem {α β : Type} (f : α → Option β) (xs : List α) (ys : List β)
    (hl : loadEach f xs = some ys) : ∀ x ∈ xs, ∃ y, f x = some y := by
  induction xs generalizing ys with
  | nil => intro x hx; cases hx
  | cons z zs ih =>
    simp only [loadEach] at hl
    cases hz : f z with
    | none => rw [hz] at hl; cases hl
    | some y =>
      rw [hz] at hl
      simp only at hl
      cases hzs : loadEach f zs with
      | none => rw [hzs] at hl; cases hl
      | some ws =>
        intro x hx
        rcases List.mem_cons.1 hx with rfl | hx
        · exact ⟨y, hz⟩
        · exact ih ws hzs x hx

theorem wf_of_loadEnvVarSource (h : Heap) (r : Ref) (v : Option EnvVarSource)
    (hl : loadEnvVarSource h r = some v) : Holds (Cell.wfEnvVarSource h) h r := by
  intro a ha
  subst ha
  simp only [loadEnvVarSource] at hl
  cases hc : h[a]? with
  | none => rw [hc] at hl; cases hl
  | some c =>
    rw [hc] at hl
    cases c <;> try cases hl
    next x =>
      simp only at hl
      cases e1 : loadTarget (fun c => match c with
          | Cell.configMapKeySelector y => some y
          | _ => none) h x.ConfigMapKeyRef with
      | none => rw [e1] at hl; cases hl
      | some c1 =>
        rw [e1] at hl
        simp only at hl
        cases e2 : loadTarget (fun c => match c with
            | Cell.secretKeySelector y => some y
            | _ => none) h x.SecretKeyRef with
        | none => rw [e2] at hl; cases hl
        | some s1 =>
          refine ⟨_, rfl, x, rfl, ?_, ?_⟩
          · exact holds_of_loadTarget _ _
              (by intro c y hg; cases c <;> first | (cases hg; exact ⟨_, rfl⟩) | cases hg)
              h _ _ e1
          · exact holds_of_loadTarget _ _
              (by intro c y hg; cases c <;> first | (cases hg; exact ⟨_, rfl⟩) | cases hg)
              h _ _ e2

theorem wf_of_loadEnvVar (h : Heap) (e : EnvVarRec) (v : EnvVar)
    (hl : loadEnvVar h e = some v) : Holds (Cell.wfEnvVarSource h) h e.ValueFrom := by
  simp only [loadEnvVar] at hl
  cases e1 : loadEnvVarSource h e.ValueFrom with
  | none => rw [e1] at hl; cases hl
  | some vf => exact wf_of_loadEnvVarSource h _ _ e1

theorem wf_of_loadEnvFrom (h : Heap) (e : EnvFromRec) (v : EnvFromSource)
    (hl : loadEnvFrom h e = some v) :
    Holds Cell.isConfigMapEnvSource h e.ConfigMapRef ∧
      Holds Cell.isSecretEnvSource h e.SecretRef := by
  simp only [loadEnvFrom] at hl
  cases e1 : loadTarget (fun c => match c with
      | Cell.configMapEnvSource y => some y
      | _ => none) h e.ConfigMapRef with
  | none => rw [e1] at hl; cases hl
  | some c1 =>
    rw [e1] at hl
    simp only at hl
    cases e2 : loadTarget (fun c => match c with
        | Cell.secretEnvSource y => some y
        | _ => none) h e.SecretRef with
    | none => rw [e2] at hl; cases hl
    | some s1 =>
      constructor
      · exact holds_of_loadTarget _ _
          (by intro c y hg; cases c <;> first | (cases hg; exact ⟨_, rfl⟩) | cases hg)
          h _ _ e1
      · exact holds_of_loadTarget _ _
          (by intro c y hg; cases c <;> first | (cases hg; exact ⟨_, rfl⟩) | cases hg)
          h _ _ e2

theorem wf_of_loadContainer (h : Heap) (c : ContainerRec) (v : Container)
    (hl : loadContainer h c = some v) :
    Holds Cell.isStrings h c.Command ∧ Holds Cell.isStrings h c.Args ∧
    Holds (Cell.wfEnvFroms h) h c.EnvFrom ∧ Holds (Cell.wfEnvVars h) h c.Env ∧
    Holds Cell.isVolumeMounts h c.VolumeMounts := by
  simp only [loadContainer, loadStrings] at hl
  cases e1 : loadSlice (fun c => match c with
      | Cell.strings xs => some xs
      | _ => none) h c.Command with
  | none => rw [e1] at hl; cases hl
  | some cmd =>
    rw [e1] at hl
    simp only at hl
    cases e2 : loadSlice (fun c => match c with
        | Cell.strings xs => some xs
        | _ => none) h c.Args with
    | none => rw [e2] at hl; cases hl
    | some args =>
      rw [e2] at hl
      simp only at hl
      cases e3 : loadSlice (fun c => match c with
          | Cell.envFroms xs => loadEach (loadEnvFrom h) xs
          | _ => none) h c.EnvFrom with
      | none => rw [e3] at hl; cases hl
      | some ef =>
        rw [e3] at hl
        simp only at hl
        cases e4 : loadSlice (fun c => match c with
            | Cell.envVars xs => loadEach (loadEnvVar h) xs
            | _ => none) h c.Env with
        | none => rw [e4] at hl; cases hl
        | some env =>
          rw [e4] at hl
          simp only at hl
          cases e5 : loadSlice (fun c => match c with
              | Cell.volumeMounts xs => some xs
              | _ => none) h c.VolumeMounts with
          | none => rw [e5] at hl; cases hl
          | some vm =>
            refine ⟨?_, ?_, ?_, ?_, ?_⟩
            · exact holds_of_loadSlice _ _
                (by intro c y hg; cases c <;> first | (cases hg; exact ⟨_, rfl⟩) | cases hg)
                h _ _ e1
            · exact holds_of_loadSlice _ _
                (by intro c y hg; cases c <;> first | (cases hg; exact ⟨_, rfl⟩) | cases hg)
                h _ _ e2
            · refine holds_of_loadSlice _ _ ?_ h _ _ e3
              intro c y hg
              cases c <;> try cases hg
              next xs =>
                refine ⟨xs, rfl, fun e he => ?_⟩
                obtain ⟨w, hw⟩ := loadEach_mem _ xs y hg e he
                exact wf_of_loadEnvFrom h e w hw
            · refine holds_of_loadSlice _ _ ?_ h _ _ e4
              intro c y hg
              cases c <;> try cases hg
              next xs =>
                refine ⟨xs, rfl, fun e he => ?_⟩
                obtain ⟨w, hw⟩ := loadEach_mem _ xs y hg e he
                exact wf_of_loadEnvVar h e w hw
            · exact holds_of_loadSlice _ _
                (by intro c y hg; cases c <;> first | (cases hg; exact ⟨_, rfl⟩) | cases hg)
                h _ _ e5

theorem wf_of_loadVolume (h : Heap) (x : VolumeRec) (v : Volume)
    (hl : loadVolume h x = some v) :
    Holds Cell.isConfigMapVolumeSource h x.ConfigMap ∧
    Holds Cell.isSecretVolumeSource h x.Secret ∧
    Holds Cell.isPersistentVolumeClaim h x.PersistentVolumeClaim := by
  simp only [loadVolume] at hl
  cases e1 : loadTarget (fun c => match c with
      | Cell.configMapVolumeSource y => some y
      | _ => none) h x.ConfigMap with
  | none => rw [e1] at hl; cases hl
  | some c1 =>
    rw [e1] at hl
    simp only at hl
    cases e2 : loadTarget (fun c => match c with
        | Cell.secretVolumeSource y => some y
        | _ => none) h x.Secret with
    | none => rw [e2] at hl; cases hl
    | some s1 =>
      rw [e2] at hl
      simp only at hl
      cases e3 : loadTarget (fun c => match c with
          | Cell.persistentVolumeClaim y => some y
          | _ => none) h x.PersistentVolumeClaim with
      | none => rw [e3] at hl; cases hl
      | some q1 =>
        refine ⟨?_, ?_, ?_⟩
        · exact holds_of_loadTarget _ _
            (by intro c y hg; cases c <;> first | (cases hg; exact ⟨_, rfl⟩) | cases hg)
            h _ _ e1
        · exact holds_of_loadTarget _ _
            (by intro c y hg; cases c <;> first | (cases hg; exact ⟨_, rfl⟩) | cases hg)
            h _ _ e2
        · exact holds_of_loadTarget _ _
            (by intro c y hg; cases c <;> first | (cases hg; exact ⟨_, rfl⟩) | cases hg)
            h _ _ e3

/-- A specification held at an address is well formed there. -/
theorem wellFormed_of_load (h : Heap) (spec : Addr) (S : TaskSpec)
    (hl : load h spec = some S) : WellFormed h spec := by
  intro a ha
  cases ha
  simp only [load] at hl
  cases hc : h[spec]? with
  | none => rw [hc] at hl; cases hl
  | some c =>
    rw [hc] at hl
    cases c <;> try cases hl
    next x =>
      simp only at hl
      cases e1 : loadSlice (fun c => match c with
          | Cell.containers xs => loadEach (loadContainer h) xs
          | _ => none) h x.Steps with
      | none => rw [e1] at hl; cases hl
      | some steps =>
        rw [e1] at hl
        simp only at hl
        cases e2 : loadSlice (fun c => match c with
            | Cell.volumes xs => loadEach (loadVolume h) xs
            | _ => none) h x.Volumes with
        | none => rw [e2] at hl; cases hl
        | some volumes =>
          refine ⟨_, rfl, x, rfl, ?_, ?_⟩
          · refine holds_of_loadSlice _ _ ?_ h _ _ e1
            intro c y hg
            cases c <;> try cases hg
            next xs =>
              refine ⟨xs, rfl, fun e he => ?_⟩
              obtain ⟨w, hw⟩ := loadEach_mem _ xs y hg e he
              exact wf_of_loadContainer h e w hw
          · refine holds_of_loadSlice _ _ ?_ h _ _ e2
            intro c y hg
            cases c <;> try cases hg
            next xs =>
              refine ⟨xs, rfl, fun e he => ?_⟩
              obtain ⟨w, hw⟩ := loadEach_mem _ xs y hg e he
              exact wf_of_loadVolume h e w hw

/-- C6 (no mutation of the input): when the heap holds a specification at `spec`
and a map at `replacements`, `ApplyReplacements` returns; every cell the heap had
before the call is as it was, so the specification and the map are held where
they were; the traversal changes cells of the copy made by `DeepCopy` only, and
in those cells strings only; and nothing the heap had before the call is
reachable from the specification that is returned. -/
theorem ApplyReplacements_returns (subst : String → GoMap → String) (h : Heap)
    (spec replacements : Addr) (S : TaskSpec) (M : GoMap)
    (hS : load h spec = some S) (hM : loadMap h replacements = some M) :
    ∃ h2 out, ApplyReplacements subst h spec replacements = some (h2, out) ∧
      (∀ a : Addr, a < h.length → h2[a]? = h[a]?) ∧
      load h2 spec = some S ∧ loadMap h2 replacements = some M ∧
      (∃ h1, DeepCopy h spec = some (h1, out) ∧ load h1 out = some S ∧ Skel h1 h2 ∧
        ∀ a : Addr, h2[a]? ≠ h1[a]? → h.length ≤ a ∧ a < h1.length) ∧
      (∀ a, Reach h2 out a → h.length ≤ a) := by
  obtain ⟨h1, clone, hd, hl1⟩ := DeepCopy_load h spec S hS
  obtain ⟨hp, _, _, _⟩ := DeepCopy_fresh h spec h1 clone hd
  have hm : h[replacements]? = some (Cell.map M) := by
    simp only [loadMap] at hM
    cases hc : h[replacements]? with
    | none => rw [hc] at hM; cases hM
    | some c =>
      rw [hc] at hM
      cases c <;> first | (cases hM; rfl) | cases hM
  have hm1 : h1[replacements]? = some (Cell.map M) := Agree.of_prefix hp _ _ hm
  obtain ⟨h2, ht, hsk⟩ :=
    total_traverse subst hm1 clone (wellFormed_of_load h1 clone S hl1) h1 (skel_self h1)
  have hrun : ApplyReplacements subst h spec replacements = some (h2, clone) := by
    simp only [ApplyReplacements, hd, ht]
  obtain ⟨k1, k2, k3, ⟨h1', hd', _, k4⟩, k5⟩ :=
    ApplyReplacements_no_mutation subst h spec replacements h2 clone hrun
  have he : h1' = h1 := by
    rw [hd] at hd'
    exact (Prod.mk.inj (Option.some.inj hd')).1.symm
  subst he
  exact ⟨h2, clone, hrun, k1, k2 S hS, k3 M hM, ⟨h1', hd, hl1, hsk, k4⟩, k5⟩

/-- C6 at a concrete input: `exampleHeap` holds `exampleSpec` and `exampleMap`, whose
two steps share one backing array; the run returns, the heap it leaves holds both
where they were, and holds, at the address returned, the specification that
`resources.ApplyReplacements` computes. -/
theorem ApplyReplacements_returns_witness :
    load exampleHeap 17 = some exampleSpec ∧ loadMap exampleHeap 0 = some exampleMap ∧
    ∃ h2 out,
      ApplyReplacements templating.ApplyReplacements exampleHeap 17 0 = some (h2, out) ∧
      load h2 17 = some exampleSpec ∧ loadMap h2 0 = some exampleMap ∧
      load h2 out =
        some (resources.ApplyReplacements templating.ApplyReplacements exampleSpec exampleMap) ∧
      ∀ a, Reach h2 out a → exampleHeap.length ≤ a := by
  have hres : ∀ r ∈ ApplyReplacements templating.ApplyReplacements exampleHeap 17 0,
      load r.1 r.2 =
        some (resources.ApplyReplacements templating.ApplyReplacements exampleSpec
          exampleMap) := by
    decide!
  obtain ⟨h2, out, hrun, _, hS, hM, _, hreach⟩ :=
    ApplyReplacements_returns templating.ApplyReplacements exampleHeap 17 0 exampleSpec
      exampleMap (by decide!) (by decide!)
  exact ⟨by decide!, by decide!, h2, out, hrun, hS, hM, hres (h2, out) hrun, hreach⟩

/-! ### The three entry points return -/

/-- On a heap that holds a specification at `spec` and a map at `replacements`,
`DeepCopy` returns a clone that holds the specification, the traversal of the
clone runs to its end and leaves every cell with the shape it had, and
`ApplyReplacements` returns the address of the clone. -/
theorem ApplyReplacements_runs (subst : String → GoMap → String) (h : Heap)
    (spec replacements : Addr) (S : TaskSpec) (M : GoMap)
    (hS : load h spec = some S) (hm : h[replacements]? = some (Cell.map M)) :
    ∃ h1 h2 out, DeepCopy h spec = some (h1, out) ∧ load h1 out = some S ∧
      traverse subst replacements out h1 = some h2 ∧ Skel h1 h2 ∧
      ApplyReplacements subst h spec replacements = some (h2, out) := by
  obtain ⟨h1, clone, hd, hl1⟩ := DeepCopy_load h spec S hS
  obtain ⟨hp, _, _, _⟩ := DeepCopy_fresh h spec h1 clone hd
  have hm1 : h1[replacements]? = some (Cell.map M) := Agree.of_prefix hp _ _ hm
  obtain ⟨h2, ht, hsk⟩ :=
    total_traverse subst hm1 clone (wellFormed_of_load h1 clone S hl1) h1 (skel_self h1)
  exact ⟨h1, h2, clone, hd, hl1, ht, hsk, by simp only [ApplyReplacements, hd, ht]⟩

/-- The cell at the address of a map is a map. -/
theorem cell_of_loadMap {h : Heap} {a : Addr} {M : GoMap} (hM : loadMap h a = some M) :
    h[a]? = some (Cell.map M) := by
  simp only [loadMap] at hM
  cases hc : h[a]? with
  | none => rw [hc] at hM; cases hM
  | some c =>
    rw [hc] at hM
    cases c <;> first | (cases hM; rfl) | cases hM

/-- A specification held on a heap is held on the heap with one more cell. -/
theorem load_push {h : Heap} {spec : Addr} {S : TaskSpec} (hS : load h spec = some S)
    (c : Cell) : load (h ++ [c]) spec = some S :=
  load_agree (Agree.of_prefix (List.prefix_append h [c])) spec S hS

theorem getElem?_push (h : Heap) (c : Cell) : (h ++ [c])[h.length]? = some c := by
  simp

/-! ## The specification in memory: the run computes the value -/

/-! ### Runs, step by step -/

theorem run_seq {f g : Action} {h h2 : Heap} (hr : seq f g h = some h2) :
    ∃ h1, f h = some h1 ∧ g h1 = some h2 := by
  simp only [seq] at hr
  cases h1 : f h with
  | none => rw [h1] at hr; cases hr
  | some hm =>
    rw [h1] at hr
    exact ⟨hm, rfl, hr⟩

theorem run_readCell {a : Addr} {k : Cell → Action} {h h1 : Heap}
    (hr : readCell a k h = some h1) : ∃ c, h[a]? = some c ∧ k c h = some h1 := by
  simp only [readCell] at hr
  cases hc : h[a]? with
  | none => rw [hc] at hr; cases hr
  | some c =>
    rw [hc] at hr
    exact ⟨c, rfl, hr⟩

theorem run_write {a : Addr} {upd : Cell → Option Cell} {h h1 : Heap}
    (hr : write a upd h = some h1) :
    ∃ c c1, h[a]? = some c ∧ upd c = some c1 ∧ h1 = h.set a c1 := by
  simp only [write] at hr
  cases hc : h[a]? with
  | none => rw [hc] at hr; cases hr
  | some c =>
    rw [hc] at hr
    simp only at hr
    cases hc1 : upd c with
    | none => rw [hc1] at hr; cases hr
    | some c1 =>
      rw [hc1] at hr
      exact ⟨c, c1, rfl, hc1, (Option.some.inj hr).symm⟩

theorem run_assign {rep a : Addr} {upd : GoMap → Cell → Option Cell} {h h1 : Heap} {m : GoMap}
    (hm : h[rep]? = some (Cell.map m)) (hr : assign rep a upd h = some h1) :
    ∃ c c1, h[a]? = some c ∧ upd m c = some c1 ∧ h1 = h.set a c1 := by
  simp only [assign, withMap, readCell, hm] at hr
  exact run_write hr

theorem run_forEach_concat {body : Nat → Action} (l : List Nat) (i : Nat) {h h2 : Heap}
    (hr : forEach body (l ++ [i]) h = some h2) :
    ∃ h1, forEach body l h = some h1 ∧ body i h1 = some h2 := by
  induction l generalizing h with
  | nil =>
    obtain ⟨h1, e1, e2⟩ := run_seq hr
    cases e2
    exact ⟨h, rfl, e1⟩
  | cons j rest ih =>
    obtain ⟨h1, e1, e2⟩ := run_seq hr
    obtain ⟨h3, e3, e4⟩ := ih e2
    exact ⟨h3, by simp only [forEach, seq, e1, e3], e4⟩

/-- The rule of the loop over the indices below `n`: an invariant that every
iteration carries from its index to the next holds at `n` after the loop. -/
theorem run_forEach_range {body : Nat → Action} (n : Nat) (I : Nat → Heap → Prop)
    (hstep : ∀ k h h1, k < n → I k h → body k h = some h1 → I (k + 1) h1)
    {h h1 : Heap} (h0 : I 0 h) (hr : forEach body (List.range n) h = some h1) : I n h1 := by
  induction n generalizing h1 with
  | zero => cases hr; exact h0
  | succ n ih =>
    rw [List.range_succ] at hr
    obtain ⟨hm, e1, e2⟩ := run_forEach_concat _ _ hr
    exact hstep n hm h1 (Nat.lt_succ_self n)
      (ih (fun k a b hk => hstep k a b (Nat.lt_succ_of_lt hk)) e1) e2

/-! ### Cells and heaps after a write -/

theorem getElem?_set_self_of_some {α : Type} (l : List α) (a : Nat) (x y : α)
    (h : l[a]? = some x) : (l.set a y)[a]? = some y := by
  have hlt : a < l.length := by
    rcases Nat.lt_or_ge a l.length with hl | hl
    · exact hl
    · rw [List.getElem?_eq_none hl] at h; cases h
  exact List.getElem?_set_eq_of_lt _ hlt

theorem getElem?_set_other {α : Type} (l : List α) (a b : Nat) (y : α) (hab : b ≠ a) :
    (l.set a y)[b]? = l[b]? :=
  List.getElem?_set_ne (fun e => hab e.symm)

theorem ne_of_cells {h : Heap} {a b : Addr} {c d : Cell} (ha : h[a]? = some c)
    (hb : h[b]? = some d) (hcd : c ≠ d) : a ≠ b := by
  intro e
  subst e
  rw [ha] at hb
  exact hcd (Option.some.inj hb)

/-! ### Partly rewritten lists -/

theorem Partly.zero {α : Type} (g : α → α) (xs : List α) : Partly g 0 xs xs := by
  intro i
  simp

theorem Partly.get {α : Type} {g : α → α} {k : Nat} {xs ys : List α} (hp : Partly g k xs ys) :
    ys[k]? = xs[k]? := by
  have := hp k
  simpa using this

theorem Partly.step {α : Type} {g : α → α} {k : Nat} {xs ys : List α} (hp : Partly g k xs ys)
    {x : α} (hx : xs[k]? = some x) : Partly g (k + 1) xs (ys.set k (g x)) := by
  intro i
  by_cases hik : i = k
  · subst hik
    rw [getElem?_set_self_of_some ys i x (g x) (hp.get.trans hx)]
    simp [hx]
  · rw [getElem?_set_other ys k i _ hik, hp i]
    by_cases h1 : i < k
    · simp [h1, Nat.lt_succ_of_lt h1]
    · have h2 : ¬ i < k + 1 := by omega
      simp [h1, h2]

theorem Partly.full {α : Type} {g : α → α} {xs ys : List α} (hp : Partly g xs.length xs ys) :
    ys = xs.map g := by
  apply List.ext_getElem?
  intro i
  rw [hp i, List.getElem?_map]
  by_cases h : i < xs.length
  · simp [h]
  · simp [h, List.getElem?_eq_none (Nat.le_of_not_lt h)]

/-- Replacing the element at `k` twice is replacing it by the second value. -/
theorem set_set_same {α : Type} (l : List α) (k : Nat) (x y : α) :
    (l.set k x).set k y = l.set k y := by
  apply List.ext_getElem?
  intro i
  simp only [List.getElem?_set, List.length_set]
  by_cases h : k = i
  · simp [h]
  · simp [h]

section PassedLemmas

variable (subst : String → GoMap → String)

theorem Passed.nil (m : GoMap) (h : Heap) : Passed subst m [] h h := by
  intro a
  simp

theorem Passed.other {m : GoMap} {F : List Addr} {h h1 : Heap}
    (hp : Passed subst m F h h1) {a : Addr} (ha : a ∉ F) : h1[a]? = h[a]? := by
  rw [hp a, if_neg ha]

theorem Passed.append {m : GoMap} {F G : List Addr} {h h1 h2 : Heap}
    (p1 : Passed subst m F h h1) (p2 : Passed subst m G h1 h2)
    (hd : ∀ a, a ∈ F → a ∉ G) : Passed subst m (F ++ G) h h2 := by
  intro a
  rw [p2 a]
  by_cases hg : a ∈ G
  · have hf : a ∉ F := fun hf => hd a hf hg
    rw [if_pos hg, p1.other subst hf, if_pos (List.mem_append_right _ hg)]
  · rw [if_neg hg, p1 a]
    by_cases hf : a ∈ F
    · rw [if_pos hf, if_pos (List.mem_append_left _ hf)]
    · have : a ∉ F ++ G := by
        intro hh
        rcases List.mem_append.1 hh with hh | hh
        · exact hf hh
        · exact hg hh
      rw [if_neg hf, if_neg this]

/-- A write that puts, into the cell at `a`, the cell the traversal leaves. -/
theorem Passed.single (m : GoMap) {h : Heap} {a : Addr} {c : Cell} (hc : h[a]? = some c) :
    Passed subst m [a] h (h.set a (Cell.applied subst m c)) := by
  intro b
  by_cases hb : b = a
  · subst hb
    rw [getElem?_set_self_of_some h b c _ hc, hc]
    simp
  · rw [getElem?_set_other h a b _ hb]
    simp [hb]

theorem PassedBut.start (m : GoMap) {h : Heap} {a : Addr} {c : Cell} (hc : h[a]? = some c) :
    PassedBut subst m a c [] h h :=
  ⟨hc, fun b _ => by simp⟩

/-- A write into the cell set apart. -/
theorem PassedBut.store {m : GoMap} {a : Addr} {c : Cell} {F : List Addr} {h h1 : Heap}
    (hp : PassedBut subst m a c F h h1) (c1 : Cell) :
    PassedBut subst m a c1 F h (h1.set a c1) := by
  refine ⟨getElem?_set_self_of_some h1 a c c1 hp.1, ?_⟩
  intro b hb
  rw [getElem?_set_other h1 a b _ hb]
  exact hp.2 b hb

/-- A pass over cells that are neither the cell set apart nor passed before. -/
theorem PassedBut.pass {m : GoMap} {a : Addr} {c : Cell} {F G : List Addr} {h h1 h2 : Heap}
    (hp : PassedBut subst m a c F h h1) (hg : Passed subst m G h1 h2)
    (ha : a ∉ G) (hd : ∀ b, b ∈ F → b ∉ G) : PassedBut subst m a c (F ++ G) h h2 := by
  refine ⟨(hg.other subst ha).trans hp.1, ?_⟩
  intro b hb
  rw [hg b]
  by_cases hbg : b ∈ G
  · have hbf : b ∉ F := fun hf => hd b hf hbg
    rw [if_pos hbg, hp.2 b hb, if_neg hbf, if_pos (List.mem_append_right _ hbg)]
  · rw [if_neg hbg, hp.2 b hb]
    by_cases hbf : b ∈ F
    · rw [if_pos hbf, if_pos (List.mem_append_left _ hbf)]
    · have : b ∉ F ++ G := by
        intro hh
        rcases List.mem_append.1 hh with hh | hh
        · exact hbf hh
        · exact hbg hh
      rw [if_neg hbf, if_neg this]

/-- When the cell set apart holds what the traversal leaves in it, it has been
passed like the others. -/
theorem PassedBut.close {m : GoMap} {a : Addr} {c0 : Cell} {F : List Addr} {h h1 : Heap}
    (hp : PassedBut subst m a (Cell.applied subst m c0) F h h1) (hc : h[a]? = some c0) :
    Passed subst m (a :: F) h h1 := by
  intro b
  by_cases hb : b = a
  · subst hb
    rw [hp.1, hc]
    simp
  · rw [hp.2 b hb]
    simp [hb]

/-- The map, which no pass goes over, stays where it is. -/
theorem PassedBut.map {m : GoMap} {a : Addr} {c : Cell} {F : List Addr} {h h1 : Heap}
    (hp : PassedBut subst m a c F h h1) {rep : Addr} (hra : rep ≠ a) (hrf : rep ∉ F)
    {k : GoMap} (hm : h[rep]? = some (Cell.map k)) : h1[rep]? = some (Cell.map k) := by
  rw [hp.2 rep hra, if_neg hrf]
  exact hm

end PassedLemmas

/-! ### The traversal passes over every cell of the footprint -/

section TraversalPasses

variable (subst : String → GoMap → String)

theorem map_after_set {h : Heap} {rep a : Addr} {m : GoMap} (c : Cell)
    (hm : h[rep]? = some (Cell.map m)) (hra : rep ≠ a) :
    (h.set a c)[rep]? = some (Cell.map m) := by
  rw [getElem?_set_other h a rep c hra]
  exact hm

theorem passed_applyStrings {m : GoMap} {rep : Addr} {r : Ref} {h h1 : Heap}
    (hm : h[rep]? = some (Cell.map m))
    (hrun : applyStrings subst rep r h = some h1) : Passed subst m r.toList h h1 := by
  cases r with
  | none =>
    cases hrun
    exact Passed.nil subst m h
  | some a =>
    obtain ⟨c, hc, hk⟩ := run_readCell hrun
    cases c <;> try cases hk
    next xs =>
      have hra : rep ≠ a := ne_of_cells hm hc (by intro e; cases e)
      simp only at hk
      have key := run_forEach_range xs.length
        (fun k hk => ∃ ys, PassedBut subst m a (Cell.strings ys) [] h hk ∧
          Partly (fun x => subst x m) k xs ys)
        (by
          intro k h2 h3 hkn ⟨ys, hp, hpart⟩ hbody
          obtain ⟨c, c1, hc2, hu, rfl⟩ :=
            run_assign (hp.map subst hra (List.not_mem_nil _) hm) hbody
          rw [hp.1] at hc2
          cases hc2
          simp only [onString] at hu
          cases hy : ys[k]? with
          | none => rw [hy] at hu; cases hu
          | some y =>
            rw [hy] at hu
            cases hu
            exact ⟨_, hp.store subst _, hpart.step (hpart.get.symm.trans hy)⟩)
        ⟨xs, PassedBut.start subst m hc, Partly.zero _ xs⟩ hk
      obtain ⟨ys, hp, hpart⟩ := key
      rw [hpart.full] at hp
      have hp1 : PassedBut subst m a (Cell.applied subst m (Cell.strings xs)) [] h h1 := hp
      exact PassedBut.close subst hp1 hc

theorem passed_applySecretKeyRef {m : GoMap} {rep : Addr} {r : Ref} {h h1 : Heap}
    (hm : h[rep]? = some (Cell.map m))
    (hrun : applySecretKeyRef subst rep r h = some h1) : Passed subst m r.toList h h1 := by
  cases r with
  | none =>
    cases hrun
    exact Passed.nil subst m h
  | some a =>
    obtain ⟨h2, e1, e2⟩ := run_seq hrun
    obtain ⟨c, c1, hc, hu, rfl⟩ := run_assign hm e1
    cases c <;> try cases hu
    next x =>
      have hra : rep ≠ a := ne_of_cells hm hc (by intro e; cases e)
      obtain ⟨c2, c3, hc2, hu2, rfl⟩ := run_assign (map_after_set _ hm hra) e2
      rw [getElem?_set_self_of_some h a _ _ hc] at hc2
      cases hc2
      cases hu2
      rw [set_set_same]
      exact Passed.single subst m hc

theorem passed_applyConfigMapKeyRef {m : GoMap} {rep : Addr} {r : Ref} {h h1 : Heap}
    (hm : h[rep]? = some (Cell.map m))
    (hrun : applyConfigMapKeyRef subst rep r h = some h1) : Passed subst m r.toList h h1 := by
  cases r with
  | none =>
    cases hrun
    exact Passed.nil subst m h
  | some a =>
    obtain ⟨h2, e1, e2⟩ := run_seq hrun
    obtain ⟨c, c1, hc, hu, rfl⟩ := run_assign hm e1
    cases c <;> try cases hu
    next x =>
      have hra : rep ≠ a := ne_of_cells hm hc (by intro e; cases e)
      obtain ⟨c2, c3, hc2, hu2, rfl⟩ := run_assign (map_after_set _ hm hra) e2
      rw [getElem?_set_self_of_some h a _ _ hc] at hc2
      cases hc2
      cases hu2
      rw [set_set_same]
      exact Passed.single subst m hc

theorem passed_applyConfigMapRef {m : GoMap} {rep : Addr} {r : Ref} {h h1 : Heap}
    (hm : h[rep]? = some (Cell.map m))
    (hrun : applyConfigMapRef subst rep r h = some h1) : Passed subst m r.toList h h1 := by
  cases r with
  | none =>
    cases hrun
    exact Passed.nil subst m h
  | some a =>
    obtain ⟨c, c1, hc, hu, rfl⟩ := run_assign hm hrun
    cases c <;> try cases hu
    next x => exact Passed.single subst m hc

theorem passed_applySecretRef {m : GoMap} {rep : Addr} {r : Ref} {h h1 : Heap}
    (hm : h[rep]? = some (Cell.map m))
    (hrun : applySecretRef subst rep r h = some h1) : Passed subst m r.toList h h1 := by
  cases r with
  | none =>
    cases hrun
    exact Passed.nil subst m h
  | some a =>
    obtain ⟨c, c1, hc, hu, rfl⟩ := run_assign hm hrun
    cases c <;> try cases hu
    next x => exact Passed.single subst m hc

theorem passed_applyConfigMap {m : GoMap} {rep : Addr} {r : Ref} {h h1 : Heap}
    (hm : h[rep]? = some (Cell.map m))
    (hrun : applyConfigMap subst rep r h = some h1) : Passed subst m r.toList h h1 := by
  cases r with
  | none =>
    cases hrun
    exact Passed.nil subst m h
  | some a =>
    obtain ⟨c, c1, hc, hu, rfl⟩ := run_assign hm hrun
    cases c <;> try cases hu
    next x => exact Passed.single subst m hc

theorem passed_applySecret {m : GoMap} {rep : Addr} {r : Ref} {h h1 : Heap}
    (hm : h[rep]? = some (Cell.map m))
    (hrun : applySecret subst rep r h = some h1) : Passed subst m r.toList h h1 := by
  cases r with
  | none =>
    cases hrun
    exact Passed.nil subst m h
  | some a =>
    obtain ⟨c, c1, hc, hu, rfl⟩ := run_assign hm hrun
    cases c <;> try cases hu
    next x => exact Passed.single subst m hc

theorem passed_applyPersistentVolumeClaim {m : GoMap} {rep : Addr} {r : Ref} {h h1 : Heap}
    (hm : h[rep]? = some (Cell.map m))
    (hrun : applyPersistentVolumeClaim subst rep r h = some h1) :
    Passed subst m r.toList h h1 := by
  cases r with
  | none =>
    cases hrun
    exact Passed.nil subst m h
  | some a =>
    obtain ⟨c, c1, hc, hu, rfl⟩ := run_assign hm hrun
    cases c <;> try cases hu
    next x => exact Passed.single subst m hc

end TraversalPasses

/-! ### Lists of footprints -/

theorem flatMap_split {α β : Type} (f : α → List β) (xs : List α) (k : Nat) (x : α)
    (hx : xs[k]? = some x) :
    xs.flatMap f = (xs.take k).flatMap f ++ (f x ++ (xs.drop (k + 1)).flatMap f) := by
  induction xs generalizing k with
  | nil => cases hx
  | cons z zs ih =>
    cases k with
    | zero =>
      simp only [List.getElem?_cons_zero, Option.some.injEq] at hx
      subst hx
      simp
    | succ j =>
      simp only [List.getElem?_cons_succ] at hx
      simp only [List.take_succ_cons, List.drop_succ_cons, List.flatMap_cons, List.append_assoc]
      rw [ih j hx]

theorem flatMap_take_succ {α β : Type} (f : α → List β) (xs : List α) (k : Nat) (x : α)
    (hx : xs[k]? = some x) :
    (xs.take (k + 1)).flatMap f = (xs.take k).flatMap f ++ f x := by
  induction xs generalizing k with
  | nil => cases hx
  | cons z zs ih =>
    cases k with
    | zero =>
      simp only [List.getElem?_cons_zero, Option.some.injEq] at hx
      subst hx
      simp
    | succ j =>
      simp only [List.getElem?_cons_succ] at hx
      simp only [List.take_succ_cons, List.flatMap_cons, List.append_assoc]
      rw [ih j hx]

/-- In a list of footprints without repetition, the footprint of an element has
no repetition and shares no address with the footprints of the elements before
it. -/
theorem nodup_flatMap_at {α β : Type} (f : α → List β) (xs : List α) (k : Nat) (x : α)
    (hx : xs[k]? = some x) (hn : (xs.flatMap f).Nodup) :
    (f x).Nodup ∧ ∀ b, b ∈ (xs.take k).flatMap f → b ∉ f x := by
  rw [flatMap_split f xs k x hx] at hn
  have h1 := List.nodup_append.1 hn
  have h2 := List.nodup_append.1 h1.2.1
  refine ⟨h2.1, ?_⟩
  intro b hb hbx
  exact h1.2.2 hb (List.mem_append_left _ hbx)

theorem mem_flatMap_of_getElem? {α β : Type} (f : α → List β) (xs : List α) (k : Nat) (x : α)
    (hx : xs[k]? = some x) (b : β) (hb : b ∈ f x) : b ∈ xs.flatMap f :=
  List.mem_flatMap.2 ⟨x, List.getElem?_mem hx, hb⟩

theorem take_length_flatMap {α β : Type} (f : α → List β) (xs : List α) :
    (xs.take xs.length).flatMap f = xs.flatMap f := by
  rw [List.take_length]

theorem flatMap_const_nil {α β : Type} (xs : List α) :
    xs.flatMap (fun _ => ([] : List β)) = [] := by
  induction xs with
  | nil => rfl
  | cons x xs ih => simp

section PassedMore

variable (subst : String → GoMap → String)

theorem Passed.map_kept {m : GoMap} {F : List Addr} {h h1 : Heap} (hp : Passed subst m F h h1)
    {rep : Addr} {k : GoMap} (hm : h[rep]? = some (Cell.map k)) :
    h1[rep]? = some (Cell.map k) := by
  rw [hp rep, hm]
  by_cases hf : rep ∈ F
  · rw [if_pos hf]
    rfl
  · rw [if_neg hf]

theorem PassedBut.map_cell {m : GoMap} {a : Addr} {c : Cell} {F : List Addr} {h h1 : Heap}
    (hp : PassedBut subst m a c F h h1) {rep : Addr} (hra : rep ≠ a)
    {k : GoMap} (hm : h[rep]? = some (Cell.map k)) : h1[rep]? = some (Cell.map k) := by
  rw [hp.2 rep hra, hm]
  by_cases hf : rep ∈ F
  · rw [if_pos hf]
    rfl
  · rw [if_neg hf]

theorem PassedBut.untouched {m : GoMap} {a : Addr} {c : Cell} {F : List Addr} {h h1 : Heap}
    (hp : PassedBut subst m a c F h h1) {b : Addr} (hba : b ≠ a) (hbf : b ∉ F) :
    h1[b]? = h[b]? := by
  rw [hp.2 b hba, if_neg hbf]

theorem PassedBut.congr {m : GoMap} {a : Addr} {c : Cell} {F G : List Addr} {h h1 : Heap}
    (hp : PassedBut subst m a c F h h1) (hfg : ∀ b, b ∈ F ↔ b ∈ G) :
    PassedBut subst m a c G h h1 := by
  refine ⟨hp.1, ?_⟩
  intro b hb
  rw [hp.2 b hb]
  by_cases hf : b ∈ F
  · simp [hf, (hfg b).1 hf]
  · have : b ∉ G := fun hg => hf ((hfg b).2 hg)
    simp [hf, this]

/-- A cell the traversal leaves as it is counts as passed. -/
theorem Passed.cons_same {m : GoMap} {F : List Addr} {h h1 : Heap}
    (hp : Passed subst m F h h1) {a : Addr} {c : Cell} (hc : h[a]? = some c)
    (hfix : Cell.applied subst m c = c) : Passed subst m (a :: F) h h1 := by
  intro b
  rw [hp b]
  by_cases hb : b = a
  · subst hb
    rw [hc]
    by_cases hf : b ∈ F
    · simp [hf]
    · simp [hf, hfix]
  · by_cases hf : b ∈ F
    · simp [hf]
    · simp [hf, hb]

end PassedMore

/-! ### Footprints read the cells of the footprint only -/

theorem fpEnvVarSource_frame {h h1 : Heap} (r : Ref)
    (hs : ∀ b ∈ fpEnvVarSource h r, h1[b]? = h[b]?) :
    fpEnvVarSource h1 r = fpEnvVarSource h r := by
  cases r with
  | none => rfl
  | some a =>
    have ha : h1[a]? = h[a]? := hs a (by simp [fpEnvVarSource])
    simp only [fpEnvVarSource, ha]

theorem fpEnvVars_frame {h h1 : Heap} (r : Ref)
    (hs : ∀ b ∈ fpEnvVars h r, h1[b]? = h[b]?) : fpEnvVars h1 r = fpEnvVars h r := by
  cases r with
  | none => rfl
  | some a =>
    have ha : h1[a]? = h[a]? := hs a (by simp [fpEnvVars])
    simp only [fpEnvVars, ha]
    cases hc : h[a]? with
    | none => rfl
    | some c =>
      cases c <;> try rfl
      next es =>
        simp only [List.cons.injEq, true_and]
        apply List.flatMap_congr
        intro e he
        apply fpEnvVarSource_frame
        intro b hb
        apply hs b
        simp only [fpEnvVars, hc, List.mem_cons, List.mem_flatMap]
        exact Or.inr ⟨e, he, hb⟩

theorem fpEnvFroms_frame {h h1 : Heap} (r : Ref)
    (hs : ∀ b ∈ fpEnvFroms h r, h1[b]? = h[b]?) : fpEnvFroms h1 r = fpEnvFroms h r := by
  cases r with
  | none => rfl
  | some a =>
    have ha : h1[a]? = h[a]? := hs a (by simp [fpEnvFroms])
    simp only [fpEnvFroms, ha]

theorem fpContainer_frame {h h1 : Heap} (c : ContainerRec)
    (hs : ∀ b ∈ fpContainer h c, h1[b]? = h[b]?) : fpContainer h1 c = fpContainer h c := by
  have e1 : fpEnvVars h1 c.Env = fpEnvVars h c.Env :=
    fpEnvVars_frame _ (fun b hb => hs b (by simp [fpContainer, hb]))
  have e2 : fpEnvFroms h1 c.EnvFrom = fpEnvFroms h c.EnvFrom :=
    fpEnvFroms_frame _ (fun b hb => hs b (by simp [fpContainer, hb]))
  simp only [fpContainer, e1, e2]

/-! ### The rule of a loop over a backing array -/

section LoopRule

variable (subst : String → GoMap → String)

/-- Two rewritings in a row of the cell set apart and of disjoint sets of other
cells. -/
theorem PassedBut.andThen {m : GoMap} {a : Addr} {c c1 : Cell} {F G : List Addr}
    {h h1 h2 : Heap} (hp : PassedBut subst m a c F h h1) (hq : PassedBut subst m a c1 G h1 h2)
    (hd : ∀ b, b ∈ F → b ∉ G) : PassedBut subst m a c1 (F ++ G) h h2 := by
  refine ⟨hq.1, ?_⟩
  intro b hb
  rw [hq.2 b hb]
  by_cases hbg : b ∈ G
  · have hbf : b ∉ F := fun hf => hd b hf hbg
    rw [if_pos hbg, hp.2 b hb, if_neg hbf, if_pos (List.mem_append_right _ hbg)]
  · rw [if_neg hbg, hp.2 b hb]
    by_cases hbf : b ∈ F
    · rw [if_pos hbf, if_pos (List.mem_append_left _ hbf)]
    · have : b ∉ F ++ G := by
        intro hh
        rcases List.mem_append.1 hh with hh | hh
        · exact hbf hh
        · exact hbg hh
      rw [if_neg hbf, if_neg this]

/-- The rule of a loop over the backing array at `a`: when the body, run at index
`k`, rewrites element `k` by `g` and passes over the cells under that element, the
loop passes over the array and over the cells under its elements, provided no cell
is met twice. -/
theorem passed_loop {α : Type} (K : List α → Cell) (g : α → α) (fp : Heap → α → List Addr)
    (body : Nat → Action) (a rep : Addr) (m : GoMap) (xs : List α) {h h1 : Heap}
    (hK : Cell.applied subst m (K xs) = K (xs.map g))
    (hfp : ∀ (h h1 : Heap) (x : α), (∀ b ∈ fp h x, h1[b]? = h[b]?) → fp h1 x = fp h x)
    (hbody : ∀ (k : Nat) (hc h2 : Heap) (ys : List α) (x : α),
      hc[rep]? = some (Cell.map m) → hc[a]? = some (K ys) → ys[k]? = some x →
      (fp hc x).Nodup → a ∉ fp hc x → body k hc = some h2 →
      PassedBut subst m a (K (ys.set k (g x))) (fp hc x) hc h2)
    (hm : h[rep]? = some (Cell.map m)) (hra : rep ≠ a) (hc : h[a]? = some (K xs))
    (hn : (a :: xs.flatMap (fp h)).Nodup)
    (hrun : forEach body (List.range xs.length) h = some h1) :
    Passed subst m (a :: xs.flatMap (fp h)) h h1 := by
  have hn1 := List.nodup_cons.1 hn
  have key := run_forEach_range xs.length
    (fun k hk => ∃ ys, PassedBut subst m a (K ys) ((xs.take k).flatMap (fp h)) h hk ∧
      Partly g k xs ys)
    (by
      intro k h2 h3 hkn ⟨ys, hp, hpart⟩ hb
      obtain ⟨x, hx⟩ : ∃ x, xs[k]? = some x := ⟨xs[k], List.getElem?_eq_getElem hkn⟩
      have hy : ys[k]? = some x := hpart.get.trans hx
      obtain ⟨hxn, hxd⟩ := nodup_flatMap_at (fp h) xs k x hx hn1.2
      have hxa : a ∉ fp h x := fun hh => hn1.1 (mem_flatMap_of_getElem? (fp h) xs k x hx a hh)
      have hfe : fp h2 x = fp h x := by
        apply hfp
        intro b hbx
        apply hp.untouched subst
        · intro e
          subst e
          exact hxa hbx
        · intro hbf
          exact hxd b hbf hbx
      have hq := hbody k h2 h3 ys x (hp.map_cell subst hra hm) hp.1 hy (hfe ▸ hxn)
        (hfe ▸ hxa) hb
      rw [hfe] at hq
      refine ⟨_, ?_, hpart.step hx⟩
      rw [flatMap_take_succ (fp h) xs k x hx]
      exact hp.andThen subst hq hxd)
    ⟨xs, PassedBut.start subst m hc, Partly.zero _ xs⟩ hrun
  obtain ⟨ys, hp, hpart⟩ := key
  rw [hpart.full, take_length_flatMap, ← hK] at hp
  exact PassedBut.close subst hp hc

end LoopRule

/-! ### The bodies of the loops -/

section LoopBodies

variable (subst : String → GoMap → String)

/-- An assignment into the cell set apart. -/
theorem PassedBut.assign {m : GoMap} {a rep : Addr} {c : Cell} {F : List Addr} {h h1 h2 : Heap}
    {upd : GoMap → Cell → Option Cell}
    (hp : PassedBut subst m a c F h h1) (hm : h1[rep]? = some (Cell.map m))
    (hrun : assign rep a upd h1 = some h2) :
    ∃ c1, upd m c = some c1 ∧ PassedBut subst m a c1 F h h2 := by
  obtain ⟨c0, c1, hc0, hu, rfl⟩ := run_assign hm hrun
  rw [hp.1] at hc0
  cases hc0
  exact ⟨c1, hu, hp.store subst c1⟩

/-- A cell the traversal leaves as it is counts as passed. -/
theorem PassedBut.cons_fixed {m : GoMap} {a : Addr} {c : Cell} {F : List Addr} {h h1 : Heap}
    (hp : PassedBut subst m a c F h h1) {b : Addr} {c0 : Cell} (hc : h[b]? = some c0)
    (hfix : Cell.applied subst m c0 = c0) : PassedBut subst m a c (b :: F) h h1 := by
  refine ⟨hp.1, ?_⟩
  intro d hd
  rw [hp.2 d hd]
  by_cases hb : d = b
  · subst hb
    rw [hc]
    by_cases hf : d ∈ F
    · simp [hf]
    · simp [hf, hfix]
  · by_cases hf : d ∈ F
    · simp [hf]
    · simp [hf, hb]

theorem passedBut_applyVolumeMount {m : GoMap} {rep a : Addr} {k : Nat} {hc h2 : Heap}
    {ys : List VolumeMount} {x : VolumeMount}
    (hm : hc[rep]? = some (Cell.map m)) (ha : hc[a]? = some (Cell.volumeMounts ys))
    (hy : ys[k]? = some x) (hrun : applyVolumeMount subst rep a k hc = some h2) :
    PassedBut subst m a
      (Cell.volumeMounts (ys.set k
        { x with Name := subst x.Name m, MountPath := subst x.MountPath m,
                 SubPath := subst x.SubPath m })) [] hc h2 := by
  have hra : rep ≠ a := ne_of_cells hm ha (by intro e; cases e)
  obtain ⟨c, hc1, hk⟩ := run_readCell hrun
  rw [ha] at hc1
  cases hc1
  simp only [hy] at hk
  obtain ⟨h3, e1, e2⟩ := run_seq hk
  obtain ⟨h4, e3, e4⟩ := run_seq e2
  have p0 := PassedBut.start subst m ha
  obtain ⟨c1, hu1, p1⟩ := p0.assign subst hm e1
  simp only [onVolumeMount, hy] at hu1
  cases hu1
  obtain ⟨c2, hu2, p2⟩ := p1.assign subst (p1.map_cell subst hra hm) e3
  simp only [onVolumeMount, getElem?_set_self_of_some ys k x _ hy, set_set_same] at hu2
  cases hu2
  obtain ⟨c3, hu3, p3⟩ := p2.assign subst (p2.map_cell subst hra hm) e4
  simp only [onVolumeMount, getElem?_set_self_of_some ys k x _ hy, set_set_same] at hu3
  cases hu3
  exact p3

theorem passedBut_applyEnvFromSource {m : GoMap} {rep a : Addr} {k : Nat} {hc h2 : Heap}
    {ys : List EnvFromRec} {x : EnvFromRec}
    (hm : hc[rep]? = some (Cell.map m)) (ha : hc[a]? = some (Cell.envFroms ys))
    (hy : ys[k]? = some x) (hn : (fpEnvFrom x).Nodup) (hxa : a ∉ fpEnvFrom x)
    (hrun : applyEnvFromSource subst rep a k hc = some h2) :
    PassedBut subst m a (Cell.envFroms (ys.set k { x with Prefix := subst x.Prefix m }))
      (fpEnvFrom x) hc h2 := by
  have hra : rep ≠ a := ne_of_cells hm ha (by intro e; cases e)
  obtain ⟨c, hc1, hk⟩ := run_readCell hrun
  rw [ha] at hc1
  cases hc1
  simp only [hy] at hk
  obtain ⟨h3, e1, e2⟩ := run_seq hk
  obtain ⟨h4, e3, e4⟩ := run_seq e2
  have p0 := PassedBut.start subst m ha
  obtain ⟨c1, hu1, p1⟩ := p0.assign subst hm e1
  simp only [onEnvFrom, hy] at hu1
  cases hu1
  have hnd := List.nodup_append.1 hn
  have g1 := passed_applyConfigMapRef subst (p1.map_cell subst hra hm) e3
  have p2 := p1.pass subst g1 (fun hh => hxa (List.mem_append_left _ hh))
    (fun b hb => (List.not_mem_nil b hb).elim)
  have g2 := passed_applySecretRef subst (p2.map_cell subst hra hm) e4
  have p3 := p2.pass subst g2 (fun hh => hxa (List.mem_append_right _ hh))
    (fun b hb hb2 => hnd.2.2 hb hb2)
  exact p3

theorem passedBut_applyEnvVar {m : GoMap} {rep a : Addr} {k : Nat} {hc h2 : Heap}
    {ys : List EnvVarRec} {x : EnvVarRec}
    (hm : hc[rep]? = some (Cell.map m)) (ha : hc[a]? = some (Cell.envVars ys))
    (hy : ys[k]? = some x) (hn : (fpEnvVarSource hc x.ValueFrom).Nodup)
    (hxa : a ∉ fpEnvVarSource hc x.ValueFrom)
    (hrun : applyEnvVar subst rep a k hc = some h2) :
    PassedBut subst m a (Cell.envVars (ys.set k { x with Value := subst x.Value m }))
      (fpEnvVarSource hc x.ValueFrom) hc h2 := by
  have hra : rep ≠ a := ne_of_cells hm ha (by intro e; cases e)
  obtain ⟨c, hc1, hk⟩ := run_readCell hrun
  rw [ha] at hc1
  cases hc1
  simp only [hy] at hk
  obtain ⟨h3, e1, e2⟩ := run_seq hk
  have p0 := PassedBut.start subst m ha
  obtain ⟨c1, hu1, p1⟩ := p0.assign subst hm e1
  simp only [onEnvVar, hy] at hu1
  cases hu1
  cases hvf : x.ValueFrom with
  | none =>
    rw [hvf] at e2 p1
    cases e2
    exact p1
  | some vf =>
    rw [hvf] at e2 hn hxa p1
    simp only at e2
    obtain ⟨h4, e3, e4⟩ := run_seq e2
    have hva : vf ≠ a := by
      intro e
      apply hxa
      simp [fpEnvVarSource, e]
    obtain ⟨c, hcv, hk3⟩ := run_readCell e3
    rw [p1.untouched subst hva (List.not_mem_nil _)] at hcv
    cases c <;> try cases hk3
    next src =>
      simp only [fpEnvVarSource, hcv] at hn hxa ⊢
      have hn1 := List.nodup_cons.1 hn
      have hnd := List.nodup_append.1 hn1.2
      have g1 := passed_applySecretKeyRef subst (p1.map_cell subst hra hm) hk3
      have p2 := p1.pass subst g1
        (fun hh => hxa (List.mem_cons_of_mem _ (List.mem_append_left _ hh)))
        (fun b hb => (List.not_mem_nil b hb).elim)
      obtain ⟨c, hcv2, hk4⟩ := run_readCell e4
      rw [p2.untouched subst hva
        (fun hh => hn1.1 (List.mem_append_left _ hh)), hcv] at hcv2
      cases hcv2
      simp only at hk4
      have g2 := passed_applyConfigMapKeyRef subst (p2.map_cell subst hra hm) hk4
      have p3 := p2.pass subst g2
        (fun hh => hxa (List.mem_cons_of_mem _ (List.mem_append_right _ hh)))
        (fun b hb hb2 => hnd.2.2 hb hb2)
      exact p3.cons_fixed subst hcv rfl

end LoopBodies

/-! ### The loops over the slices of a step -/

section StepLoops

variable (subst : String → GoMap → String)

theorem passed_applyVolumeMounts {m : GoMap} {rep : Addr} {r : Ref} {h h1 : Heap}
    (hm : h[rep]? = some (Cell.map m))
    (hrun : applyVolumeMounts subst rep r h = some h1) : Passed subst m r.toList h h1 := by
  cases r with
  | none =>
    cases hrun
    exact Passed.nil subst m h
  | some a =>
    obtain ⟨c, hc, hk⟩ := run_readCell hrun
    cases c <;> try cases hk
    next xs =>
      have hra : rep ≠ a := ne_of_cells hm hc (by intro e; cases e)
      simp only at hk
      have key := passed_loop subst Cell.volumeMounts
        (fun v => { v with Name := subst v.Name m, MountPath := subst v.MountPath m,
                           SubPath := subst v.SubPath m })
        (fun _ _ => []) (applyVolumeMount subst rep a) a rep m xs rfl
        (fun _ _ _ _ => rfl)
        (fun k hc h2 ys x hm1 ha hy _ _ hr => passedBut_applyVolumeMount subst hm1 ha hy hr)
        hm hra hc (by simp [flatMap_const_nil]) hk
      simpa [flatMap_const_nil] using key

theorem passed_applyEnvFrom {m : GoMap} {rep : Addr} {r : Ref} {h h1 : Heap}
    (hm : h[rep]? = some (Cell.map m)) (hn : (fpEnvFroms h r).Nodup)
    (hrun : applyEnvFrom subst rep r h = some h1) : Passed subst m (fpEnvFroms h r) h h1 := by
  cases r with
  | none =>
    cases hrun
    exact Passed.nil subst m h
  | some a =>
    obtain ⟨c, hc, hk⟩ := run_readCell hrun
    cases c <;> try cases hk
    next xs =>
      have hra : rep ≠ a := ne_of_cells hm hc (by intro e; cases e)
      simp only at hk
      simp only [fpEnvFroms, hc] at hn ⊢
      exact passed_loop subst Cell.envFroms
        (fun e => { e with Prefix := subst e.Prefix m })
        (fun _ e => fpEnvFrom e) (applyEnvFromSource subst rep a) a rep m xs rfl
        (fun _ _ _ _ => rfl)
        (fun k hc h2 ys x hm1 ha hy hn1 hxa hr =>
          passedBut_applyEnvFromSource subst hm1 ha hy hn1 hxa hr)
        hm hra hc hn hk

theorem passed_applyEnv {m : GoMap} {rep : Addr} {r : Ref} {h h1 : Heap}
    (hm : h[rep]? = some (Cell.map m)) (hn : (fpEnvVars h r).Nodup)
    (hrun : applyEnv subst rep r h = some h1) : Passed subst m (fpEnvVars h r) h h1 := by
  cases r with
  | none =>
    cases hrun
    exact Passed.nil subst m h
  | some a =>
    obtain ⟨c, hc, hk⟩ := run_readCell hrun
    cases c <;> try cases hk
    next xs =>
      have hra : rep ≠ a := ne_of_cells hm hc (by intro e; cases e)
      simp only at hk
      simp only [fpEnvVars, hc] at hn ⊢
      exact passed_loop subst Cell.envVars
        (fun e => { e with Value := subst e.Value m })
        (fun h e => fpEnvVarSource h e.ValueFrom) (applyEnvVar subst rep a) a rep m xs rfl
        (fun h h1 x hs => fpEnvVarSource_frame x.ValueFrom hs)
        (fun k hc h2 ys x hm1 ha hy hn1 hxa hr =>
          passedBut_applyEnvVar subst hm1 ha hy hn1 hxa hr)
        hm hra hc hn hk

end StepLoops

/-! ### The two loops of the traversal -/

theorem fpVolumes_frame {h h1 : Heap} (r : Ref)
    (hs : ∀ b ∈ fpVolumes h r, h1[b]? = h[b]?) : fpVolumes h1 r = fpVolumes h r := by
  cases r with
  | none => rfl
  | some a =>
    have ha : h1[a]? = h[a]? := hs a (by simp [fpVolumes])
    simp only [fpVolumes, ha]

theorem fpContainers_frame {h h1 : Heap} (r : Ref)
    (hs : ∀ b ∈ fpContainers h r, h1[b]? = h[b]?) : fpContainers h1 r = fpContainers h r := by
  cases r with
  | none => rfl
  | some a =>
    have ha : h1[a]? = h[a]? := hs a (by simp [fpContainers])
    simp only [fpContainers, ha]
    cases hc : h[a]? with
    | none => rfl
    | some c =>
      cases c <;> try rfl
      next cs =>
        simp only [List.cons.injEq, true_and]
        apply List.flatMap_congr
        intro x hx
        apply fpContainer_frame
        intro b hb
        apply hs b
        simp only [fpContainers, hc, List.mem_cons, List.mem_flatMap]
        exact Or.inr ⟨x, hx, hb⟩

theorem run_withStep {steps : Addr} {i : Nat} {k : ContainerRec → Action} {h h1 : Heap}
    {ys : List ContainerRec} {x : ContainerRec} (ha : h[steps]? = some (Cell.containers ys))
    (hy : ys[i]? = some x) (hr : withStep steps i k h = some h1) : k x h = some h1 := by
  simp only [withStep, readCell, ha, hy] at hr
  exact hr

section TwoLoops

variable (subst : String → GoMap → String)

theorem passedBut_applyStep {m : GoMap} {rep a : Addr} {k : Nat} {hc h2 : Heap}
    {ys : List ContainerRec} {x : ContainerRec}
    (hm : hc[rep]? = some (Cell.map m)) (ha : hc[a]? = some (Cell.containers ys))
    (hy : ys[k]? = some x) (hn : (fpContainer hc x).Nodup) (hxa : a ∉ fpContainer hc x)
    (hrun : applyStep subst rep a k hc = some h2) :
    PassedBut subst m a
      (Cell.containers (ys.set k
        { x with Name := subst x.Name m, Image := subst x.Image m,
                 WorkingDir := subst x.WorkingDir m }))
      (fpContainer hc x) hc h2 := by
  have hra : rep ≠ a := ne_of_cells hm ha (by intro e; cases e)
  obtain ⟨s1, e1, r1⟩ := run_seq hrun
  obtain ⟨s2, e2, r2⟩ := run_seq r1
  obtain ⟨s3, e3, r3⟩ := run_seq r2
  obtain ⟨s4, e4, r4⟩ := run_seq r3
  obtain ⟨s5, e5, r5⟩ := run_seq r4
  obtain ⟨s6, e6, r6⟩ := run_seq r5
  obtain ⟨s7, e7, e8⟩ := run_seq r6
  simp only [fpContainer] at hn hxa ⊢
  have n1 := List.nodup_append.1 hn
  have n2 := List.nodup_append.1 n1.2.1
  have n3 := List.nodup_append.1 n2.2.1
  have n4 := List.nodup_append.1 n3.2.1
  have p0 := PassedBut.start subst m ha
  -- steps[i].Name
  obtain ⟨c1, hu1, p1⟩ := p0.assign subst hm e1
  simp only [onContainer, hy] at hu1
  cases hu1
  -- steps[i].Image
  obtain ⟨c2, hu2, p2⟩ := p1.assign subst (p1.map_cell subst hra hm) e2
  simp only [onContainer, getElem?_set_self_of_some ys k x _ hy, set_set_same] at hu2
  cases hu2
  -- steps[i].Args
  have t3 := run_withStep p2.1 (getElem?_set_self_of_some ys k x _ hy) e3
  simp only at t3
  have g3 := passed_applyStrings subst (p2.map_cell subst hra hm) t3
  have p3 := p2.pass subst g3 (fun hh => hxa (List.mem_append_left _ hh))
    (fun b hb => (List.not_mem_nil b hb).elim)
  -- steps[i].Env
  have t4 := run_withStep p3.1 (getElem?_set_self_of_some ys k x _ hy) e4
  simp only at t4
  have f4 : fpEnvVars s3 x.Env = fpEnvVars hc x.Env := by
    apply fpEnvVars_frame
    intro b hb
    apply p3.untouched subst
    · intro e
      subst e
      exact hxa (List.mem_append_right _ (List.mem_append_left _ hb))
    · intro hh
      exact n1.2.2 hh (List.mem_append_left _ hb)
  have g4 := passed_applyEnv subst (p3.map_cell subst hra hm) (f4 ▸ n2.1) t4
  rw [f4] at g4
  have p4 := p3.pass subst g4
    (fun hh => hxa (List.mem_append_right _ (List.mem_append_left _ hh)))
    (fun b hb hb2 => n1.2.2 hb (List.mem_append_left _ hb2))
  -- steps[i].EnvFrom
  have t5 := run_withStep p4.1 (getElem?_set_self_of_some ys k x _ hy) e5
  simp only at t5
  have f5 : fpEnvFroms s4 x.EnvFrom = fpEnvFroms hc x.EnvFrom := by
    apply fpEnvFroms_frame
    intro b hb
    apply p4.untouched subst
    · intro e
      subst e
      exact hxa (List.mem_append_right _ (List.mem_append_right _ (List.mem_append_left _ hb)))
    · intro hh
      rcases List.mem_append.1 hh with hh | hh
      · exact n1.2.2 hh (List.mem_append_right _ (List.mem_append_left _ hb))
      · exact n2.2.2 hh (List.mem_append_left _ hb)
  have g5 := passed_applyEnvFrom subst (p4.map_cell subst hra hm) (f5 ▸ n3.1) t5
  rw [f5] at g5
  have p5 := p4.pass subst g5
    (fun hh =>
      hxa (List.mem_append_right _ (List.mem_append_right _ (List.mem_append_left _ hh))))
    (fun b hb hb2 => by
      rcases List.mem_append.1 hb with hh | hh
      · exact n1.2.2 hh (List.mem_append_right _ (List.mem_append_left _ hb2))
      · exact n2.2.2 hh (List.mem_append_left _ hb2))
  -- steps[i].WorkingDir
  obtain ⟨c6, hu6, p6⟩ := p5.assign subst (p5.map_cell subst hra hm) e6
  simp only [onContainer, getElem?_set_self_of_some ys k x _ hy, set_set_same] at hu6
  cases hu6
  -- steps[i].Command
  have t7 := run_withStep p6.1 (getElem?_set_self_of_some ys k x _ hy) e7
  simp only at t7
  have g7 := passed_applyStrings subst (p6.map_cell subst hra hm) t7
  have p7 := p6.pass subst g7
    (fun hh => hxa (List.mem_append_right _ (List.mem_append_right _
      (List.mem_append_right _ (List.mem_append_left _ hh)))))
    (fun b hb hb2 => by
      rcases List.mem_append.1 hb with hh | hh
      · rcases List.mem_append.1 hh with hh | hh
        · exact n1.2.2 hh (List.mem_append_right _ (List.mem_append_right _
            (List.mem_append_left _ hb2)))
        · exact n2.2.2 hh (List.mem_append_right _ (List.mem_append_left _ hb2))
      · exact n3.2.2 hh (List.mem_append_left _ hb2))
  -- steps[i].VolumeMounts
  have t8 := run_withStep p7.1 (getElem?_set_self_of_some ys k x _ hy) e8
  simp only at t8
  have g8 := passed_applyVolumeMounts subst (p7.map_cell subst hra hm) t8
  have p8 := p7.pass subst g8
    (fun hh => hxa (List.mem_append_right _ (List.mem_append_right _
      (List.mem_append_right _ (List.mem_append_right _ hh)))))
    (fun b hb hb2 => by
      rcases List.mem_append.1 hb with hh | hh
      · rcases List.mem_append.1 hh with hh | hh
        · rcases List.mem_append.1 hh with hh | hh
          · exact n1.2.2 hh (List.mem_append_right _ (List.mem_append_right _
              (List.mem_append_right _ hb2)))
          · exact n2.2.2 hh (List.mem_append_right _ (List.mem_append_right _ hb2))
        · exact n3.2.2 hh (List.mem_append_right _ hb2)
      · exact n4.2.2 hh hb2)
  refine p8.congr subst ?_
  intro b
  simp only [List.mem_append, List.not_mem_nil, false_or, or_assoc]

theorem passedBut_applyVolume {m : GoMap} {rep a : Addr} {k : Nat} {hc h2 : Heap}
    {ys : List VolumeRec} {x : VolumeRec}
    (hm : hc[rep]? = some (Cell.map m)) (ha : hc[a]? = some (Cell.volumes ys))
    (hy : ys[k]? = some x) (hn : (fpVolume x).Nodup) (hxa : a ∉ fpVolume x)
    (hrun : applyVolume subst rep a k hc = some h2) :
    PassedBut subst m a (Cell.volumes (ys.set k { x with Name := subst x.Name m }))
      (fpVolume x) hc h2 := by
  have hra : rep ≠ a := ne_of_cells hm ha (by intro e; cases e)
  obtain ⟨c, hc1, hk⟩ := run_readCell hrun
  rw [ha] at hc1
  cases hc1
  simp only [hy] at hk
  obtain ⟨s1, e1, r1⟩ := run_seq hk
  obtain ⟨s2, e2, r2⟩ := run_seq r1
  obtain ⟨s3, e3, e4⟩ := run_seq r2
  simp only [fpVolume] at hn hxa ⊢
  have n1 := List.nodup_append.1 hn
  have n2 := List.nodup_append.1 n1.2.1
  have p0 := PassedBut.start subst m ha
  obtain ⟨c1, hu1, p1⟩ := p0.assign subst hm e1
  simp only [onVolume, hy] at hu1
  cases hu1
  have g2 := passed_applyConfigMap subst (p1.map_cell subst hra hm) e2
  have p2 := p1.pass subst g2 (fun hh => hxa (List.mem_append_left _ hh))
    (fun b hb => (List.not_mem_nil b hb).elim)
  have g3 := passed_applySecret subst (p2.map_cell subst hra hm) e3
  have p3 := p2.pass subst g3
    (fun hh => hxa (List.mem_append_right _ (List.mem_append_left _ hh)))
    (fun b hb hb2 => n1.2.2 hb (List.mem_append_left _ hb2))
  have g4 := passed_applyPersistentVolumeClaim subst (p3.map_cell subst hra hm) e4
  have p4 := p3.pass subst g4
    (fun hh => hxa (List.mem_append_right _ (List.mem_append_right _ hh)))
    (fun b hb hb2 => by
      rcases List.mem_append.1 hb with hh | hh
      · exact n1.2.2 hh (List.mem_append_right _ hb2)
      · exact n2.2.2 hh hb2)
  refine p4.congr subst ?_
  intro b
  simp only [List.mem_append, List.not_mem_nil, false_or, or_assoc]

/-- The loop over the steps passes over the cells under `spec.Steps`. -/
theorem passed_steps {m : GoMap} {rep : Addr} {r : Ref} {h h1 : Heap}
    (hm : h[rep]? = some (Cell.map m)) (hn : (fpContainers h r).Nodup)
    (hrun : (match r with
      | none => skip
      | some steps =>
        readCell steps (fun c =>
          match c with
          | Cell.containers cs =>
            forEach (applyStep subst rep steps) (List.range cs.length)
          | _ => fault)) h = some h1) :
    Passed subst m (fpContainers h r) h h1 := by
  cases r with
  | none =>
    cases hrun
    exact Passed.nil subst m h
  | some a =>
    obtain ⟨c, hc, hk⟩ := run_readCell hrun
    cases c <;> try cases hk
    next xs =>
      have hra : rep ≠ a := ne_of_cells hm hc (by intro e; cases e)
      simp only at hk
      simp only [fpContainers, hc] at hn ⊢
      exact passed_loop subst Cell.containers
        (fun c => { c with Name := subst c.Name m, Image := subst c.Image m,
                           WorkingDir := subst c.WorkingDir m })
        fpContainer (applyStep subst rep a) a rep m xs rfl
        (fun h h1 x hs => fpContainer_frame x hs)
        (fun k hc h2 ys x hm1 ha hy hn1 hxa hr =>
          passedBut_applyStep subst hm1 ha hy hn1 hxa hr)
        hm hra hc hn hk

/-- The loop over the volumes passes over the cells under `spec.Volumes`. -/
theorem passed_volumes {m : GoMap} {rep : Addr} {r : Ref} {h h1 : Heap}
    (hm : h[rep]? = some (Cell.map m)) (hn : (fpVolumes h r).Nodup)
    (hrun : (match r with
      | none => skip
      | some volumes =>
        readCell volumes (fun c =>
          match c with
          | Cell.volumes vs =>
            forEach (applyVolume subst rep volumes) (List.range vs.length)
          | _ => fault)) h = some h1) :
    Passed subst m (fpVolumes h r) h h1 := by
  cases r with
  | none =>
    cases hrun
    exact Passed.nil subst m h
  | some a =>
    obtain ⟨c, hc, hk⟩ := run_readCell hrun
    cases c <;> try cases hk
    next xs =>
      have hra : rep ≠ a := ne_of_cells hm hc (by intro e; cases e)
      simp only at hk
      simp only [fpVolumes, hc] at hn ⊢
      exact passed_loop subst Cell.volumes
        (fun v => { v with Name := subst v.Name m })
        (fun _ v => fpVolume v) (applyVolume subst rep a) a rep m xs rfl
        (fun _ _ _ _ => rfl)
        (fun k hc h2 ys x hm1 ha hy hn1 hxa hr =>
          passedBut_applyVolume subst hm1 ha hy hn1 hxa hr)
        hm hra hc hn hk

/-- The traversal passes over every cell of the object graph of the
specification, once over each, when no cell of the graph is shared. -/
theorem passed_traverse {m : GoMap} {rep spec : Addr} {h h1 : Heap}
    (hm : h[rep]? = some (Cell.map m)) (hn : (footprint h spec).Nodup)
    (hrun : traverse subst rep spec h = some h1) :
    Passed subst m (footprint h spec) h h1 := by
  obtain ⟨s1, e1, e2⟩ := run_seq hrun
  obtain ⟨c, hc, hk⟩ := run_readCell e1
  cases c <;> try cases hk
  next x =>
    simp only at hk
    simp only [footprint, hc] at hn ⊢
    have n0 := List.nodup_cons.1 hn
    have n1 := List.nodup_append.1 n0.2
    have g1 := passed_steps subst hm n1.1 hk
    obtain ⟨c, hc2, hk2⟩ := run_readCell e2
    rw [g1.other subst (fun hh => n0.1 (List.mem_append_left _ hh)), hc] at hc2
    cases hc2
    simp only at hk2
    have f2 : fpVolumes s1 x.Volumes = fpVolumes h x.Volumes := by
      apply fpVolumes_frame
      intro b hb
      exact g1.other subst (fun hh => n1.2.2 hh hb)
    have g2 := passed_volumes subst (g1.map_kept subst hm) (f2 ▸ n1.2.1) hk2
    rw [f2] at g2
    have g := g1.append subst g2 (fun b hb hb2 => n1.2.2 hb hb2)
    exact g.cons_same subst hc rfl

end TwoLoops

/-! ### The value held after the pass -/

section LoadApplied

variable (subst : String → GoMap → String)

theorem Passed.applied {m : GoMap} {F : List Addr} {h h1 : Heap} (hp : Passed subst m F h h1) :
    ∀ a ∈ F, h1[a]? = (h[a]?).map (Cell.applied subst m) := by
  intro a ha
  rw [hp a, if_pos ha]

theorem loadTarget_applied {α : Type} (get : Cell → Option α) (f : α → α) (m : GoMap)
    (hget : ∀ c x, get c = some x → get (Cell.applied subst m c) = some (f x))
    {h h1 : Heap} (r : Ref)
    (hp : ∀ a ∈ r.toList, h1[a]? = (h[a]?).map (Cell.applied subst m))
    (v : Option α) (hl : loadTarget get h r = some v) :
    loadTarget get h1 r = some (v.map f) := by
  cases r with
  | none =>
    cases hl
    rfl
  | some a =>
    simp only [loadTarget] at hl ⊢
    rw [hp a (by simp)]
    cases hc : h[a]? with
    | none => rw [hc] at hl; cases hl
    | some c =>
      rw [hc] at hl
      simp only [Option.map_some'] at hl ⊢
      cases hg : get c with
      | none => rw [hg] at hl; cases hl
      | some x =>
        rw [hg] at hl
        rw [hget c x hg]
        cases hl
        rfl

theorem loadSlice_applied {α : Type} (get get1 : Cell → Option (List α))
    (f : List α → List α) (m : GoMap) (hnil : f [] = []) {h h1 : Heap} (r : Ref)
    (hget : ∀ a c xs, r = some a → h[a]? = some c → get c = some xs →
      get1 (Cell.applied subst m c) = some (f xs))
    (hp : ∀ a ∈ r.toList, h1[a]? = (h[a]?).map (Cell.applied subst m))
    (v : List α) (hl : loadSlice get h r = some v) :
    loadSlice get1 h1 r = some (f v) := by
  cases r with
  | none =>
    cases hl
    simp only [loadSlice, hnil]
  | some a =>
    simp only [loadSlice] at hl ⊢
    rw [hp a (by simp)]
    cases hc : h[a]? with
    | none => rw [hc] at hl; cases hl
    | some c =>
      rw [hc] at hl
      simp only [Option.map_some'] at hl ⊢
      exact hget a c v rfl hc hl

theorem loadEach_applied {α β : Type} (f f1 : α → Option β) (g : α → α) (G : β → β)
    (xs : List α) (hx : ∀ x ∈ xs, ∀ y, f x = some y → f1 (g x) = some (G y))
    (ys : List β) (hl : loadEach f xs = some ys) :
    loadEach f1 (xs.map g) = some (ys.map G) := by
  induction xs generalizing ys with
  | nil =>
    cases hl
    rfl
  | cons x xs ih =>
    simp only [loadEach, List.map_cons] at hl ⊢
    cases e1 : f x with
    | none => rw [e1] at hl; cases hl
    | some y =>
      rw [e1] at hl
      rw [hx x (List.mem_cons_self _ _) y e1]
      simp only at hl ⊢
      cases e2 : loadEach f xs with
      | none => rw [e2] at hl; cases hl
      | some zs =>
        rw [e2] at hl
        rw [ih (fun z hz => hx z (List.mem_cons_of_mem _ hz)) zs e2]
        cases hl
        rfl

theorem loadStrings_applied (m : GoMap) {h h1 : Heap} (r : Ref)
    (hp : ∀ a ∈ r.toList, h1[a]? = (h[a]?).map (Cell.applied subst m))
    (v : List String) (hl : loadStrings h r = some v) :
    loadStrings h1 r = some (v.map (fun x => subst x m)) := by
  apply loadSlice_applied subst _ _ (fun xs => xs.map (fun x => subst x m)) m rfl r _ hp v hl
  intro a c xs _ _ hg
  cases c <;> try cases hg
  rfl

/-- The writes of the traversal to an `EnvVarSource`, as a function of its
value. -/
theorem env_eq (m : GoMap) (e : EnvVar) :
    resources.ApplyReplacements.env subst m e =
      { Name := e.Name
        Value := subst e.Value m
        ValueFrom := e.ValueFrom.map (fun vf =>
          { ConfigMapKeyRef := vf.ConfigMapKeyRef.map (fun r =>
              { LocalObjectReference := ⟨subst r.LocalObjectReference.Name m⟩
                Key := subst r.Key m
                Other := r.Other })
            SecretKeyRef := vf.SecretKeyRef.map (fun r =>
              { LocalObjectReference := ⟨subst r.LocalObjectReference.Name m⟩
                Key := subst r.Key m
                Other := r.Other })
            Other := vf.Other }) } := by
  obtain ⟨n, v, vf⟩ := e
  cases vf with
  | none => rfl
  | some vf =>
    obtain ⟨c, s, o⟩ := vf
    cases c <;> cases s <;> rfl

theorem envFrom_eq (m : GoMap) (e : EnvFromSource) :
    resources.ApplyReplacements.envFrom subst m e =
      { Prefix := subst e.Prefix m
        ConfigMapRef := e.ConfigMapRef.map (fun r =>
          { LocalObjectReference := ⟨subst r.LocalObjectReference.Name m⟩, Other := r.Other })
        SecretRef := e.SecretRef.map (fun r =>
          { LocalObjectReference := ⟨subst r.LocalObjectReference.Name m⟩, Other := r.Other }) } := by
  obtain ⟨p, c, s⟩ := e
  cases c <;> cases s <;> rfl

theorem volume_eq (m : GoMap) (v : Volume) :
    resources.ApplyReplacements.volume subst m v =
      { Name := subst v.Name m
        VolumeSource :=
          { ConfigMap := v.VolumeSource.ConfigMap.map (fun r =>
              { LocalObjectReference := ⟨subst r.LocalObjectReference.Name m⟩,
                Other := r.Other })
            Secret := v.VolumeSource.Secret.map (fun r =>
              { SecretName := subst r.SecretName m, Other := r.Other })
            PersistentVolumeClaim := v.VolumeSource.PersistentVolumeClaim.map (fun r =>
              { ClaimName := subst r.ClaimName m, Other := r.Other })
            Other := v.VolumeSource.Other } } := by
  obtain ⟨n, c, s, p, o⟩ := v
  cases c <;> cases s <;> cases p <;> rfl

theorem loadEnvVarSource_applied (m : GoMap) {h h1 : Heap} (r : Ref)
    (hp : ∀ a ∈ fpEnvVarSource h r, h1[a]? = (h[a]?).map (Cell.applied subst m))
    (v : Option EnvVarSource) (hl : loadEnvVarSource h r = some v) :
    loadEnvVarSource h1 r = some (v.map (fun vf =>
      { ConfigMapKeyRef := vf.ConfigMapKeyRef.map (fun r =>
          { LocalObjectReference := ⟨subst r.LocalObjectReference.Name m⟩
            Key := subst r.Key m
            Other := r.Other })
        SecretKeyRef := vf.SecretKeyRef.map (fun r =>
          { LocalObjectReference := ⟨subst r.LocalObjectReference.Name m⟩
            Key := subst r.Key m
            Other := r.Other })
        Other := vf.Other })) := by
  cases r with
  | none =>
    cases hl
    rfl
  | some a =>
    simp only [loadEnvVarSource] at hl ⊢
    rw [hp a (by simp [fpEnvVarSource])]
    cases hc : h[a]? with
    | none => rw [hc] at hl; cases hl
    | some c =>
      rw [hc] at hl
      cases c <;> try cases hl
      next x =>
        simp only [fpEnvVarSource, hc] at hp
        simp only [Option.map_some', Cell.applied] at hl ⊢
        generalize e1 : loadTarget _ h x.ConfigMapKeyRef = t1 at hl
        cases t1 with
        | none => cases hl
        | some c1 =>
          rw [loadTarget_applied subst _
            (fun r : ConfigMapKeySelector =>
              { LocalObjectReference := ⟨subst r.LocalObjectReference.Name m⟩
                Key := subst r.Key m
                Other := r.Other }) m
            (by
              intro c y hy
              cases c <;> try cases hy
              rfl)
            x.ConfigMapKeyRef
            (fun b hb => hp b (List.mem_cons_of_mem _ (List.mem_append_right _ hb))) _ e1]
          simp only at hl ⊢
          generalize e2 : loadTarget _ h x.SecretKeyRef = t2 at hl
          cases t2 with
          | none => cases hl
          | some s1 =>
            rw [loadTarget_applied subst _
              (fun r : SecretKeySelector =>
                { LocalObjectReference := ⟨subst r.LocalObjectReference.Name m⟩
                  Key := subst r.Key m
                  Other := r.Other }) m
              (by
                intro c y hy
                cases c <;> try cases hy
                rfl)
              x.SecretKeyRef
              (fun b hb => hp b (List.mem_cons_of_mem _ (List.mem_append_left _ hb))) _ e2]
            cases hl
            rfl

theorem loadEnvVar_applied (m : GoMap) {h h1 : Heap} (e : EnvVarRec)
    (hp : ∀ a ∈ fpEnvVarSource h e.ValueFrom, h1[a]? = (h[a]?).map (Cell.applied subst m))
    (v : EnvVar) (hl : loadEnvVar h e = some v) :
    loadEnvVar h1 { Name := e.Name, Value := subst e.Value m, ValueFrom := e.ValueFrom } =
      some (resources.ApplyReplacements.env subst m v) := by
  simp only [loadEnvVar] at hl ⊢
  generalize e1 : loadEnvVarSource h e.ValueFrom = t1 at hl
  cases t1 with
  | none => cases hl
  | some vf =>
    rw [loadEnvVarSource_applied subst m _ hp _ e1]
    cases hl
    rw [env_eq]

theorem loadEnvFrom_applied (m : GoMap) {h h1 : Heap} (e : EnvFromRec)
    (hp : ∀ a ∈ fpEnvFrom e, h1[a]? = (h[a]?).map (Cell.applied subst m))
    (v : EnvFromSource) (hl : loadEnvFrom h e = some v) :
    loadEnvFrom h1
        { Prefix := subst e.Prefix m, ConfigMapRef := e.ConfigMapRef, SecretRef := e.SecretRef } =
      some (resources.ApplyReplacements.envFrom subst m v) := by
  simp only [loadEnvFrom] at hl ⊢
  generalize e1 : loadTarget _ h e.ConfigMapRef = t1 at hl
  cases t1 with
  | none => cases hl
  | some c1 =>
    rw [loadTarget_applied subst _
      (fun r : ConfigMapEnvSource =>
        { LocalObjectReference := ⟨subst r.LocalObjectReference.Name m⟩, Other := r.Other }) m
      (by
        intro c y hy
        cases c <;> try cases hy
        rfl)
      e.ConfigMapRef (fun b hb => hp b (List.mem_append_left _ hb)) _ e1]
    simp only at hl ⊢
    generalize e2 : loadTarget _ h e.SecretRef = t2 at hl
    cases t2 with
    | none => cases hl
    | some s1 =>
      rw [loadTarget_applied subst _
        (fun r : SecretEnvSource =>
          { LocalObjectReference := ⟨subst r.LocalObjectReference.Name m⟩, Other := r.Other }) m
        (by
          intro c y hy
          cases c <;> try cases hy
          rfl)
        e.SecretRef (fun b hb => hp b (List.mem_append_right _ hb)) _ e2]
      cases hl
      rw [envFrom_eq]

end LoadApplied

/-! ### The value held after the pass: steps, volumes, the specification -/

section LoadApplied2

variable (subst : String → GoMap → String)

theorem volumeMount_eq (m : GoMap) (v : VolumeMount) :
    resources.ApplyReplacements.volumeMount subst m v =
      { v with Name := subst v.Name m, MountPath := subst v.MountPath m,
               SubPath := subst v.SubPath m } := rfl

theorem loadContainer_applied (m : GoMap) {h h1 : Heap} (c : ContainerRec)
    (hp : ∀ a ∈ fpContainer h c, h1[a]? = (h[a]?).map (Cell.applied subst m))
    (v : Container) (hl : loadContainer h c = some v) :
    loadContainer h1
        { c with Name := subst c.Name m, Image := subst c.Image m,
                 WorkingDir := subst c.WorkingDir m } =
      some (resources.ApplyReplacements.step subst m v) := by
  simp only [loadContainer, loadStrings] at hl ⊢
  simp only [fpContainer, List.mem_append] at hp
  generalize e1 : loadSlice _ h c.Command = t1 at hl
  cases t1 with
  | none => cases hl
  | some cmd =>
    rw [loadSlice_applied subst _ _ (fun xs => xs.map (fun x => subst x m)) m rfl c.Command
      ?_ (fun a ha => hp a (Or.inr (Or.inr (Or.inr (Or.inl ha))))) cmd e1]
    swap
    · intro a c0 xs _ _ hg
      cases c0 <;> try cases hg
      rfl
    simp only at hl ⊢
    generalize e2 : loadSlice _ h c.Args = t2 at hl
    cases t2 with
    | none => cases hl
    | some args =>
      rw [loadSlice_applied subst _ _ (fun xs => xs.map (fun x => subst x m)) m rfl c.Args
        ?_ (fun a ha => hp a (Or.inl ha)) args e2]
      swap
      · intro a c0 xs _ _ hg
        cases c0 <;> try cases hg
        rfl
      simp only at hl ⊢
      generalize e3 : loadSlice _ h c.EnvFrom = t3 at hl
      cases t3 with
      | none => cases hl
      | some ef =>
        rw [loadSlice_applied subst _ _
          (fun xs => xs.map (resources.ApplyReplacements.envFrom subst m)) m rfl c.EnvFrom
          ?_ ?_ ef e3]
        rotate_left
        · intro a c0 xs hr hc hg
          cases c0 <;> try cases hg
          next es =>
            simp only [Cell.applied]
            refine loadEach_applied (loadEnvFrom h) (loadEnvFrom h1) _ _ es ?_ xs hg
            intro e he y hy
            refine loadEnvFrom_applied subst m e ?_ y hy
            intro b hb
            apply hp b
            refine Or.inr (Or.inr (Or.inl ?_))
            rw [hr]
            simp only [fpEnvFroms, hc, List.mem_cons, List.mem_flatMap]
            exact Or.inr ⟨e, he, hb⟩
        · intro a ha
          apply hp a
          refine Or.inr (Or.inr (Or.inl ?_))
          cases hr : c.EnvFrom with
          | none => rw [hr] at ha; cases ha
          | some b =>
            rw [hr] at ha
            simp only [Option.toList, List.mem_singleton] at ha
            subst ha
            simp [fpEnvFroms]
        simp only at hl ⊢
        generalize e4 : loadSlice _ h c.Env = t4 at hl
        cases t4 with
        | none => cases hl
        | some env =>
          rw [loadSlice_applied subst _ _
            (fun xs => xs.map (resources.ApplyReplacements.env subst m)) m rfl c.Env
            ?_ ?_ env e4]
          rotate_left
          · intro a c0 xs hr hc hg
            cases c0 <;> try cases hg
            next es =>
              simp only [Cell.applied]
              refine loadEach_applied (loadEnvVar h) (loadEnvVar h1) _ _ es ?_ xs hg
              intro e he y hy
              refine loadEnvVar_applied subst m e ?_ y hy
              intro b hb
              apply hp b
              refine Or.inr (Or.inl ?_)
              rw [hr]
              simp only [fpEnvVars, hc, List.mem_cons, List.mem_flatMap]
              exact Or.inr ⟨e, he, hb⟩
          · intro a ha
            apply hp a
            refine Or.inr (Or.inl ?_)
            cases hr : c.Env with
            | none => rw [hr] at ha; cases ha
            | some b =>
              rw [hr] at ha
              simp only [Option.toList, List.mem_singleton] at ha
              subst ha
              simp [fpEnvVars]
          simp only at hl ⊢
          generalize e5 : loadSlice _ h c.VolumeMounts = t5 at hl
          cases t5 with
          | none => cases hl
          | some vm =>
            rw [loadSlice_applied subst _ _
              (fun xs => xs.map (resources.ApplyReplacements.volumeMount subst m)) m rfl
              c.VolumeMounts ?_ (fun a ha => hp a (Or.inr (Or.inr (Or.inr (Or.inr ha))))) vm e5]
            swap
            · intro a c0 xs _ _ hg
              cases c0 <;> try cases hg
              rfl
            cases hl
            rw [resources.ApplyReplacements.step_eq]

theorem loadVolume_applied (m : GoMap) {h h1 : Heap} (x : VolumeRec)
    (hp : ∀ a ∈ fpVolume x, h1[a]? = (h[a]?).map (Cell.applied subst m))
    (v : Volume) (hl : loadVolume h x = some v) :
    loadVolume h1 { x with Name := subst x.Name m } =
      some (resources.ApplyReplacements.volume subst m v) := by
  simp only [loadVolume] at hl ⊢
  simp only [fpVolume, List.mem_append] at hp
  generalize e1 : loadTarget _ h x.ConfigMap = t1 at hl
  cases t1 with
  | none => cases hl
  | some c1 =>
    rw [loadTarget_applied subst _
      (fun r : ConfigMapVolumeSource =>
        { LocalObjectReference := ⟨subst r.LocalObjectReference.Name m⟩, Other := r.Other }) m
      (by
        intro c y hy
        cases c <;> try cases hy
        rfl)
      x.ConfigMap (fun b hb => hp b (Or.inl hb)) _ e1]
    simp only at hl ⊢
    generalize e2 : loadTarget _ h x.Secret = t2 at hl
    cases t2 with
    | none => cases hl
    | some s1 =>
      rw [loadTarget_applied subst _
        (fun r : SecretVolumeSource => { SecretName := subst r.SecretName m, Other := r.Other }) m
        (by
          intro c y hy
          cases c <;> try cases hy
          rfl)
        x.Secret (fun b hb => hp b (Or.inr (Or.inl hb))) _ e2]
      simp only at hl ⊢
      generalize e3 : loadTarget _ h x.PersistentVolumeClaim = t3 at hl
      cases t3 with
      | none => cases hl
      | some p1 =>
        rw [loadTarget_applied subst _
          (fun r : PersistentVolumeClaimVolumeSource =>
            { ClaimName := subst r.ClaimName m, Other := r.Other }) m
          (by
            intro c y hy
            cases c <;> try cases hy
            rfl)
          x.PersistentVolumeClaim (fun b hb => hp b (Or.inr (Or.inr hb))) _ e3]
        cases hl
        rw [volume_eq]

/-- After the traversal has passed over the cells of a specification, once over
each, the heap holds the specification that `resources.ApplyReplacements`
computes. -/
theorem load_applied (m : GoMap) {h h1 : Heap} (spec : Addr)
    (hp : ∀ a ∈ footprint h spec, h1[a]? = (h[a]?).map (Cell.applied subst m))
    (S : TaskSpec) (hl : load h spec = some S) :
    load h1 spec = some (resources.ApplyReplacements subst S m) := by
  simp only [load] at hl ⊢
  rw [hp spec (by simp [footprint])]
  cases hc : h[spec]? with
  | none => rw [hc] at hl; cases hl
  | some c =>
    rw [hc] at hl
    cases c <;> try cases hl
    next x =>
      simp only [footprint, hc, List.mem_cons, List.mem_append] at hp
      simp only [Option.map_some', Cell.applied] at hl ⊢
      generalize e1 : loadSlice _ h x.Steps = t1 at hl
      cases t1 with
      | none => cases hl
      | some steps =>
        rw [loadSlice_applied subst _ _
          (fun xs => xs.map (resources.ApplyReplacements.step subst m)) m rfl x.Steps
          ?_ ?_ steps e1]
        rotate_left
        · intro a c0 xs hr hc0 hg
          cases c0 <;> try cases hg
          next cs =>
            simp only [Cell.applied]
            refine loadEach_applied (loadContainer h) (loadContainer h1) _ _ cs ?_ xs hg
            intro e he y hy
            refine loadContainer_applied subst m e ?_ y hy
            intro b hb
            apply hp b
            refine Or.inr (Or.inl ?_)
            rw [hr]
            simp only [fpContainers, hc0, List.mem_cons, List.mem_flatMap]
            exact Or.inr ⟨e, he, hb⟩
        · intro a ha
          apply hp a
          refine Or.inr (Or.inl ?_)
          cases hr : x.Steps with
          | none => rw [hr] at ha; cases ha
          | some b =>
            rw [hr] at ha
            simp only [Option.toList, List.mem_singleton] at ha
            subst ha
            simp [fpContainers]
        simp only at hl ⊢
        generalize e2 : loadSlice _ h x.Volumes = t2 at hl
        cases t2 with
        | none => cases hl
        | some volumes =>
          rw [loadSlice_applied subst _ _
            (fun xs => xs.map (resources.ApplyReplacements.volume subst m)) m rfl x.Volumes
            ?_ ?_ volumes e2]
          rotate_left
          · intro a c0 xs hr hc0 hg
            cases c0 <;> try cases hg
            next vs =>
              simp only [Cell.applied]
              refine loadEach_applied (loadVolume h) (loadVolume h1) _ _ vs ?_ xs hg
              intro e he y hy
              refine loadVolume_applied subst m e ?_ y hy
              intro b hb
              apply hp b
              refine Or.inr (Or.inr ?_)
              rw [hr]
              simp only [fpVolumes, hc0, List.mem_cons, List.mem_flatMap]
              exact Or.inr ⟨e, he, hb⟩
          · intro a ha
            apply hp a
            refine Or.inr (Or.inr ?_)
            cases hr : x.Volumes with
            | none => rw [hr] at ha; cases ha
            | some b =>
              rw [hr] at ha
              simp only [Option.toList, List.mem_singleton] at ha
              subst ha
              simp [fpVolumes]
          cases hl
          rw [resources.ApplyReplacements_eq]

end LoadApplied2

/-! ### The clone made by `DeepCopy` meets no cell twice -/

theorem getElem?_extends {h h1 : Heap} (hp : h <+: h1) {a : Addr} {c : Cell}
    (hc : h[a]? = some c) : h1[a]? = some c :=
  Agree.of_prefix hp a c hc

theorem getElem?_push_extends {h h1 : Heap} (c : Cell) (hp : h ++ [c] <+: h1) :
    h1[h.length]? = some c :=
  getElem?_extends hp (by simp)

theorem nodup_append_of_bounds {l1 l2 : List Addr} {n : Nat} (h1 : l1.Nodup) (h2 : l2.Nodup)
    (b1 : ∀ a ∈ l1, a < n) (b2 : ∀ a ∈ l2, n ≤ a) : (l1 ++ l2).Nodup := by
  rw [List.nodup_append]
  refine ⟨h1, h2, ?_⟩
  intro a ha hb
  exact absurd (b1 a ha) (Nat.not_lt.2 (b2 a hb))

theorem nodup_append_of_bounds_rev {l1 l2 : List Addr} {n : Nat} (h1 : l1.Nodup)
    (h2 : l2.Nodup) (b1 : ∀ a ∈ l1, n ≤ a) (b2 : ∀ a ∈ l2, a < n) : (l1 ++ l2).Nodup := by
  rw [List.nodup_append]
  refine ⟨h1, h2, ?_⟩
  intro a ha hb
  exact absurd (b2 a hb) (Nat.not_lt.2 (b1 a ha))

theorem allocates_copyFlat : Allocates copyFlat (fun _ r => r.toList) := by
  intro h r h1 y hr
  cases r with
  | none =>
    cases hr
    exact ⟨List.prefix_refl _, fun _ _ => rfl, List.nodup_nil, by simp⟩
  | some a =>
    simp only [copyFlat] at hr
    cases hc : h[a]? with
    | none => rw [hc] at hr; cases hr
    | some c =>
      rw [hc] at hr
      simp only at hr
      split at hr
      · cases hr
        refine ⟨List.prefix_append _ _, fun _ _ => rfl, by simp, ?_⟩
        intro b hb
        simp only [Option.toList, List.mem_singleton] at hb
        subst hb
        simp
      · cases hr

theorem allocates_copyEach {α : Type} (f : Heap → α → Option (Heap × α))
    (fp : Heap → α → List Addr) (hf : Allocates f fp) :
    Allocates (copyEach f) (fun h ys => ys.flatMap (fp h)) := by
  intro h xs
  induction xs generalizing h with
  | nil =>
    intro h1 ys hr
    cases hr
    exact ⟨List.prefix_refl _, fun _ _ => rfl, List.nodup_nil, by simp⟩
  | cons x xs ih =>
    intro h2 ys hr
    simp only [copyEach] at hr
    cases hx : f h x with
    | none => rw [hx] at hr; cases hr
    | some p =>
      obtain ⟨h1, y⟩ := p
      rw [hx] at hr
      simp only at hr
      obtain ⟨hp1, hs1, hn1, hb1⟩ := hf h x h1 y hx
      cases hxs : copyEach f h1 xs with
      | none => rw [hxs] at hr; cases hr
      | some q =>
        obtain ⟨h3, zs⟩ := q
        rw [hxs] at hr
        cases hr
        obtain ⟨hp2, hs2, hn2, hb2⟩ := ih h1 h2 zs hxs
        have hy2 : fp h2 y = fp h1 y := hs1 h2 hp2
        refine ⟨hp1.trans hp2, ?_, ?_, ?_⟩
        · intro h4 hp4
          simp only [List.flatMap_cons]
          rw [hs1 h4 (hp2.trans hp4), hy2]
          have := hs2 h4 hp4
          simp only at this
          rw [this]
        · simp only [List.flatMap_cons]
          rw [hy2]
          exact nodup_append_of_bounds hn1 hn2 (fun a ha => (hb1 a ha).2)
            (fun a ha => (hb2 a ha).1)
        · intro a ha
          simp only [List.flatMap_cons, List.mem_append] at ha
          rcases ha with ha | ha
          · rw [hy2] at ha
            exact ⟨(hb1 a ha).1, Nat.lt_of_lt_of_le (hb1 a ha).2 hp2.length_le⟩
          · exact ⟨Nat.le_trans hp1.length_le (hb2 a ha).1, (hb2 a ha).2⟩

/-- The clone of a backing array of structs: the elements are cloned, then a new
cell is pushed for the array. -/
theorem allocates_push {α : Type} {f : Heap → α → Option (Heap × α)}
    {fp : Heap → α → List Addr} (hf : Allocates f fp) (K : List α → Cell)
    (fps : Heap → Ref → List Addr)
    (hfps : ∀ (h : Heap) (a : Addr) (ys : List α), h[a]? = some (K ys) →
      fps h (some a) = a :: ys.flatMap (fp h))
    {h h1 : Heap} {xs ys : List α} (he : copyEach f h xs = some (h1, ys)) :
    h <+: h1 ++ [K ys] ∧
      (∀ h2, h1 ++ [K ys] <+: h2 → fps h2 (some h1.length) = fps (h1 ++ [K ys]) (some h1.length)) ∧
      (fps (h1 ++ [K ys]) (some h1.length)).Nodup ∧
      ∀ a : Nat, a ∈ fps (h1 ++ [K ys]) (some h1.length) →
        h.length ≤ a ∧ a < (h1 ++ [K ys]).length := by
  obtain ⟨hp, hs, hn, hb⟩ := allocates_copyEach f fp hf h xs h1 ys he
  simp only at hs hn hb
  have e0 : fps (h1 ++ [K ys]) (some h1.length) = h1.length :: ys.flatMap (fp h1) := by
    rw [hfps _ _ ys (by simp), hs _ (List.prefix_append _ _)]
  refine ⟨hp.trans (List.prefix_append _ _), ?_, ?_, ?_⟩
  · intro h2 hp2
    rw [e0, hfps _ _ ys (getElem?_push_extends _ hp2),
      hs h2 ((List.prefix_append _ _).trans hp2)]
  · rw [e0, List.nodup_cons]
    exact ⟨fun hh => Nat.lt_irrefl _ (hb _ hh).2, hn⟩
  · intro a ha
    rw [e0, List.mem_cons] at ha
    rcases ha with ha | ha
    · subst ha
      exact ⟨hp.length_le, by simp⟩
    · exact ⟨(hb a ha).1, by simp only [List.length_append, List.length_singleton]
                             exact Nat.lt_succ_of_lt (hb a ha).2⟩

theorem allocates_copyEnvVarSource : Allocates copyEnvVarSource fpEnvVarSource := by
  intro h r h1 y hr
  cases r with
  | none =>
    cases hr
    exact ⟨List.prefix_refl _, fun _ _ => rfl, List.nodup_nil, by simp [fpEnvVarSource]⟩
  | some a =>
    simp only [copyEnvVarSource] at hr
    cases hc : h[a]? with
    | none => rw [hc] at hr; cases hr
    | some c =>
      rw [hc] at hr
      cases c <;> try cases hr
      next x =>
        simp only at hr
        cases e1 : copyFlat h x.ConfigMapKeyRef with
        | none => rw [e1] at hr; cases hr
        | some p1 =>
          obtain ⟨h2, c1⟩ := p1
          rw [e1] at hr
          simp only at hr
          obtain ⟨p1, _, n1, b1⟩ := allocates_copyFlat h _ h2 c1 e1
          cases e2 : copyFlat h2 x.SecretKeyRef with
          | none => rw [e2] at hr; cases hr
          | some p2 =>
            obtain ⟨h3, s1⟩ := p2
            rw [e2] at hr
            obtain ⟨p2, _, n2, b2⟩ := allocates_copyFlat h2 _ h3 s1 e2
            cases hr
            simp only at n1 b1 n2 b2
            have e0 : ∀ h4, h3 ++ [Cell.envVarSource
                { x with ConfigMapKeyRef := c1, SecretKeyRef := s1 }] <+: h4 →
                fpEnvVarSource h4 (some h3.length) = h3.length :: (s1.toList ++ c1.toList) := by
              intro h4 hp4
              simp only [fpEnvVarSource, getElem?_push_extends _ hp4]
            refine ⟨(p1.trans p2).trans (List.prefix_append _ _), ?_, ?_, ?_⟩
            · intro h4 hp4
              rw [e0 h4 hp4, e0 _ (List.prefix_refl _)]
            · rw [e0 _ (List.prefix_refl _), List.nodup_cons]
              refine ⟨?_, nodup_append_of_bounds_rev n2 n1 (fun a ha => (b2 a ha).1)
                (fun a ha => (b1 a ha).2)⟩
              intro hh
              rcases List.mem_append.1 hh with hh | hh
              · exact Nat.lt_irrefl _ (b2 _ hh).2
              · exact Nat.lt_irrefl _ (Nat.lt_of_lt_of_le (b1 _ hh).2 p2.length_le)
            · intro b hb
              rw [e0 _ (List.prefix_refl _), List.mem_cons, List.mem_append] at hb
              simp only [List.length_append, List.length_singleton]
              rcases hb with hb | hb | hb
              · subst hb
                exact ⟨(p1.trans p2).length_le, Nat.lt_succ_self _⟩
              · exact ⟨Nat.le_trans p1.length_le (b2 b hb).1, Nat.lt_succ_of_lt (b2 b hb).2⟩
              · exact ⟨(b1 b hb).1,
                  Nat.lt_succ_of_lt (Nat.lt_of_lt_of_le (b1 b hb).2 p2.length_le)⟩

theorem allocates_copyEnvVar :
    Allocates copyEnvVar (fun h e => fpEnvVarSource h e.ValueFrom) := by
  intro h e h1 y hr
  simp only [copyEnvVar] at hr
  cases e1 : copyEnvVarSource h e.ValueFrom with
  | none => rw [e1] at hr; cases hr
  | some p =>
    obtain ⟨h2, vf⟩ := p
    rw [e1] at hr
    cases hr
    exact allocates_copyEnvVarSource h _ _ _ e1

theorem allocates_copyEnvVars : Allocates copyEnvVars fpEnvVars := by
  intro h r h1 y hr
  cases r with
  | none =>
    cases hr
    exact ⟨List.prefix_refl _, fun _ _ => rfl, List.nodup_nil, by simp [fpEnvVars]⟩
  | some a =>
    simp only [copyEnvVars] at hr
    cases hc : h[a]? with
    | none => rw [hc] at hr; cases hr
    | some c =>
      rw [hc] at hr
      cases c <;> try cases hr
      next xs =>
        simp only at hr
        cases he : copyEach copyEnvVar h xs with
        | none => rw [he] at hr; cases hr
        | some p =>
          obtain ⟨h2, ys⟩ := p
          rw [he] at hr
          cases hr
          exact allocates_push allocates_copyEnvVar Cell.envVars fpEnvVars
            (fun h a ys hc => by simp only [fpEnvVars, hc]) he

theorem allocates_copyEnvFrom : Allocates copyEnvFrom (fun _ e => fpEnvFrom e) := by
  intro h e h1 y hr
  simp only [copyEnvFrom] at hr
  cases e1 : copyFlat h e.ConfigMapRef with
  | none => rw [e1] at hr; cases hr
  | some p1 =>
    obtain ⟨h2, c1⟩ := p1
    rw [e1] at hr
    simp only at hr
    obtain ⟨p1, _, n1, b1⟩ := allocates_copyFlat h _ h2 c1 e1
    cases e2 : copyFlat h2 e.SecretRef with
    | none => rw [e2] at hr; cases hr
    | some p2 =>
      obtain ⟨h3, s1⟩ := p2
      rw [e2] at hr
      obtain ⟨p2, _, n2, b2⟩ := allocates_copyFlat h2 _ h3 s1 e2
      cases hr
      simp only at n1 b1 n2 b2
      refine ⟨p1.trans p2, fun _ _ => rfl, ?_, ?_⟩
      · exact nodup_append_of_bounds n1 n2 (fun a ha => (b1 a ha).2) (fun a ha => (b2 a ha).1)
      · intro b hb
        simp only [fpEnvFrom, List.mem_append] at hb
        rcases hb with hb | hb
        · exact ⟨(b1 b hb).1, Nat.lt_of_lt_of_le (b1 b hb).2 p2.length_le⟩
        · exact ⟨Nat.le_trans p1.length_le (b2 b hb).1, (b2 b hb).2⟩

theorem allocates_copyEnvFroms : Allocates copyEnvFroms fpEnvFroms := by
  intro h r h1 y hr
  cases r with
  | none =>
    cases hr
    exact ⟨List.prefix_refl _, fun _ _ => rfl, List.nodup_nil, by simp [fpEnvFroms]⟩
  | some a =>
    simp only [copyEnvFroms] at hr
    cases hc : h[a]? with
    | none => rw [hc] at hr; cases hr
    | some c =>
      rw [hc] at hr
      cases c <;> try cases hr
      next xs =>
        simp only at hr
        cases he : copyEach copyEnvFrom h xs with
        | none => rw [he] at hr; cases hr
        | some p =>
          obtain ⟨h2, ys⟩ := p
          rw [he] at hr
          cases hr
          exact allocates_push allocates_copyEnvFrom Cell.envFroms fpEnvFroms
            (fun h a ys hc => by simp only [fpEnvFroms, hc]) he

theorem allocates_copyContainer : Allocates copyContainer fpContainer := by
  intro h c h6 y hr
  simp only [copyContainer] at hr
  cases e1 : copyFlat h c.Command with
  | none => rw [e1] at hr; cases hr
  | some q1 =>
    obtain ⟨h1, cmd⟩ := q1
    rw [e1] at hr
    simp only at hr
    obtain ⟨p1, _, n1, b1⟩ := allocates_copyFlat h _ h1 cmd e1
    cases e2 : copyFlat h1 c.Args with
    | none => rw [e2] at hr; cases hr
    | some q2 =>
      obtain ⟨h2, args⟩ := q2
      rw [e2] at hr
      simp only at hr
      obtain ⟨p2, _, n2, b2⟩ := allocates_copyFlat h1 _ h2 args e2
      cases e3 : copyEnvFroms h2 c.EnvFrom with
      | none => rw [e3] at hr; cases hr
      | some q3 =>
        obtain ⟨h3, ef⟩ := q3
        rw [e3] at hr
        simp only at hr
        obtain ⟨p3, s3, n3, b3⟩ := allocates_copyEnvFroms h2 _ h3 ef e3
        cases e4 : copyEnvVars h3 c.Env with
        | none => rw [e4] at hr; cases hr
        | some q4 =>
          obtain ⟨h4, env⟩ := q4
          rw [e4] at hr
          simp only at hr
          obtain ⟨p4, s4, n4, b4⟩ := allocates_copyEnvVars h3 _ h4 env e4
          cases e5 : copyFlat h4 c.VolumeMounts with
          | none => rw [e5] at hr; cases hr
          | some q5 =>
            obtain ⟨h5, vm⟩ := q5
            rw [e5] at hr
            obtain ⟨p5, _, n5, b5⟩ := allocates_copyFlat h4 _ h5 vm e5
            cases hr
            simp only at n1 b1 n2 b2 n5 b5
            have l1 := p1.length_le
            have l2 := p2.length_le
            have l3 := p3.length_le
            have l4 := p4.length_le
            have l5 := p5.length_le
            have f3 : ∀ h7, h6 <+: h7 → fpEnvFroms h7 ef = fpEnvFroms h3 ef :=
              fun h7 hp7 => s3 h7 ((p4.trans p5).trans hp7)
            have f4 : ∀ h7, h6 <+: h7 → fpEnvVars h7 env = fpEnvVars h4 env :=
              fun h7 hp7 => s4 h7 (p5.trans hp7)
            have e0 : ∀ h7, h6 <+: h7 →
                fpContainer h7 { c with Command := cmd, Args := args, EnvFrom := ef, Env := env,
                                        VolumeMounts := vm } =
                  args.toList ++ (fpEnvVars h4 env ++ (fpEnvFroms h3 ef ++
                    (cmd.toList ++ vm.toList))) := by
              intro h7 hp7
              simp only [fpContainer, f3 h7 hp7, f4 h7 hp7]
            refine ⟨(((p1.trans p2).trans p3).trans p4).trans p5, ?_, ?_, ?_⟩
            · intro h7 hp7
              rw [e0 h7 hp7, e0 _ (List.prefix_refl _)]
            · rw [e0 _ (List.prefix_refl _)]
              rw [List.nodup_append, List.nodup_append, List.nodup_append, List.nodup_append]
              refine ⟨n2, ⟨n4, ⟨n3, ⟨n1, n5, ?_⟩, ?_⟩, ?_⟩, ?_⟩
              · intro a ha hb
                have := b1 a ha
                have := b5 a hb
                omega
              · intro a ha hb
                have := b3 a ha
                rcases List.mem_append.1 hb with hb | hb
                · have := b1 a hb
                  omega
                · have := b5 a hb
                  omega
              · intro a ha hb
                have := b4 a ha
                rcases List.mem_append.1 hb with hb | hb
                · have := b3 a hb
                  omega
                · rcases List.mem_append.1 hb with hb | hb
                  · have := b1 a hb
                    omega
                  · have := b5 a hb
                    omega
              · intro a ha hb
                have := b2 a ha
                rcases List.mem_append.1 hb with hb | hb
                · have := b4 a hb
                  omega
                · rcases List.mem_append.1 hb with hb | hb
                  · have := b3 a hb
                    omega
                  · rcases List.mem_append.1 hb with hb | hb
                    · have := b1 a hb
                      omega
                    · have := b5 a hb
                      omega
            · intro a ha
              rw [e0 _ (List.prefix_refl _)] at ha
              simp only [List.mem_append] at ha
              rcases ha with ha | ha | ha | ha | ha
              · have := b2 a ha
                omega
              · have := b4 a ha
                omega
              · have := b3 a ha
                omega
              · have := b1 a ha
                omega
              · have := b5 a ha
                omega

theorem allocates_copyContainers : Allocates copyContainers fpContainers := by
  intro h r h1 y hr
  cases r with
  | none =>
    cases hr
    exact ⟨List.prefix_refl _, fun _ _ => rfl, List.nodup_nil, by simp [fpContainers]⟩
  | some a =>
    simp only [copyContainers] at hr
    cases hc : h[a]? with
    | none => rw [hc] at hr; cases hr
    | some c =>
      rw [hc] at hr
      cases c <;> try cases hr
      next xs =>
        simp only at hr
        cases he : copyEach copyContainer h xs with
        | none => rw [he] at hr; cases hr
        | some p =>
          obtain ⟨h2, ys⟩ := p
          rw [he] at hr
          cases hr
          exact allocates_push allocates_copyContainer Cell.containers fpContainers
            (fun h a ys hc => by simp only [fpContainers, hc]) he

theorem allocates_copyVolume : Allocates copyVolume (fun _ v => fpVolume v) := by
  intro h v h4 y hr
  simp only [copyVolume] at hr
  cases e1 : copyFlat h v.ConfigMap with
  | none => rw [e1] at hr; cases hr
  | some q1 =>
    obtain ⟨h1, c1⟩ := q1
    rw [e1] at hr
    simp only at hr
    obtain ⟨p1, _, n1, b1⟩ := allocates_copyFlat h _ h1 c1 e1
    cases e2 : copyFlat h1 v.Secret with
    | none => rw [e2] at hr; cases hr
    | some q2 =>
      obtain ⟨h2, s1⟩ := q2
      rw [e2] at hr
      simp only at hr
      obtain ⟨p2, _, n2, b2⟩ := allocates_copyFlat h1 _ h2 s1 e2
      cases e3 : copyFlat h2 v.PersistentVolumeClaim with
      | none => rw [e3] at hr; cases hr
      | some q3 =>
        obtain ⟨h3, k1⟩ := q3
        rw [e3] at hr
        obtain ⟨p3, _, n3, b3⟩ := allocates_copyFlat h2 _ h3 k1 e3
        cases hr
        simp only at n1 b1 n2 b2 n3 b3
        have l1 := p1.length_le
        have l2 := p2.length_le
        have l3 := p3.length_le
        refine ⟨(p1.trans p2).trans p3, fun _ _ => rfl, ?_, ?_⟩
        · simp only [fpVolume]
          rw [List.nodup_append, List.nodup_append]
          refine ⟨n1, ⟨n2, n3, ?_⟩, ?_⟩
          · intro a ha hb
            have := b2 a ha
            have := b3 a hb
            omega
          · intro a ha hb
            have := b1 a ha
            rcases List.mem_append.1 hb with hb | hb
            · have := b2 a hb
              omega
            · have := b3 a hb
              omega
        · intro a ha
          simp only [fpVolume, List.mem_append] at ha
          rcases ha with ha | ha | ha
          · have := b1 a ha
            omega
          · have := b2 a ha
            omega
          · have := b3 a ha
            omega

theorem allocates_copyVolumes : Allocates copyVolumes fpVolumes := by
  intro h r h1 y hr
  cases r with
  | none =>
    cases hr
    exact ⟨List.prefix_refl _, fun _ _ => rfl, List.nodup_nil, by simp [fpVolumes]⟩
  | some a =>
    simp only [copyVolumes] at hr
    cases hc : h[a]? with
    | none => rw [hc] at hr; cases hr
    | some c =>
      rw [hc] at hr
      cases c <;> try cases hr
      next xs =>
        simp only at hr
        cases he : copyEach copyVolume h xs with
        | none => rw [he] at hr; cases hr
        | some p =>
          obtain ⟨h2, ys⟩ := p
          rw [he] at hr
          cases hr
          exact allocates_push allocates_copyVolume Cell.volumes fpVolumes
            (fun h a ys hc => by simp only [fpVolumes, hc]) he

/-- The clone made by `DeepCopy` meets no cell twice: its footprint has no
repetition. -/
theorem DeepCopy_footprint (h : Heap) (spec : Addr) (h1 : Heap) (clone : Addr)
    (hr : DeepCopy h spec = some (h1, clone)) : (footprint h1 clone).Nodup := by
  simp only [DeepCopy] at hr
  cases hc : h[spec]? with
  | none => rw [hc] at hr; cases hr
  | some c =>
    rw [hc] at hr
    cases c <;> try cases hr
    next x =>
      simp only at hr
      cases e1 : copyContainers h x.Steps with
      | none => rw [e1] at hr; cases hr
      | some q1 =>
        obtain ⟨h2, r1⟩ := q1
        rw [e1] at hr
        simp only at hr
        obtain ⟨p1, s1, n1, b1⟩ := allocates_copyContainers h _ h2 r1 e1
        cases e2 : copyVolumes h2 x.Volumes with
        | none => rw [e2] at hr; cases hr
        | some q2 =>
          obtain ⟨h3, r2⟩ := q2
          rw [e2] at hr
          obtain ⟨p2, s2, n2, b2⟩ := allocates_copyVolumes h2 _ h3 r2 e2
          cases hr
          have l2 := p2.length_le
          simp only [footprint, List.getElem?_concat_length]
          rw [s1 _ (p2.trans (List.prefix_append _ _)), s2 _ (List.prefix_append _ _),
            List.nodup_cons]
          refine ⟨?_, nodup_append_of_bounds n1 n2 (fun a ha => (b1 a ha).2)
            (fun a ha => (b2 a ha).1)⟩
          intro hh
          rcases List.mem_append.1 hh with hh | hh
          · have := b1 _ hh
            omega
          · have := b2 _ hh
            omega

/-! ### The run on the heap computes the specification of the value view -/

/-- On a heap that holds a specification at `spec` and a map at `replacements`,
`ApplyReplacements` returns, and the heap it leaves holds, at the address
returned, the specification that `resources.ApplyReplacements` computes from the
specification and the map. -/
theorem ApplyReplacements_refines (subst : String → GoMap → String) (h : Heap)
    (spec replacements : Addr) (S : TaskSpec) (M : GoMap)
    (hS : load h spec = some S) (hm : h[replacements]? = some (Cell.map M)) :
    ∃ h2 out, ApplyReplacements subst h spec replacements = some (h2, out) ∧
      load h2 out = some (resources.ApplyReplacements subst S M) := by
  obtain ⟨h1, h2, out, hd, hl1, ht, _, hrun⟩ :=
    ApplyReplacements_runs subst h spec replacements S M hS hm
  obtain ⟨hp, _, _, _⟩ := DeepCopy_fresh h spec h1 out hd
  have hm1 : h1[replacements]? = some (Cell.map M) := Agree.of_prefix hp _ _ hm
  have hpass := passed_traverse subst hm1 (DeepCopy_footprint h spec h1 out hd) ht
  exact ⟨h2, out, hrun, load_applied subst M out (hpass.applied subst) S hl1⟩

/-- The outer loop of `ApplyResources` over a mapping without a nil value runs to
its end and builds the map of the value view. -/
theorem ApplyResources.build_resolved (replacementStr : String) (m : GoMap)
    (rs : List (String × PipelineResourceInterface)) :
    ApplyResources.build replacementStr m (rs.map (fun nr => (nr.1, some nr.2))) =
      some (rs.foldl
        (fun m nr => resources.ApplyResources.setExports replacementStr nr.1 m nr.2.Replacements)
        m) := by
  induction rs generalizing m with
  | nil => rfl
  | cons nr rs ih =>
    simp only [List.map_cons, ApplyResources.build, List.foldl_cons]
    exact ih _

/-- A mapping without a nil value is the mapping of its resources. -/
theorem map_some_of_ne_none (resolvedResources : List (String × Option PipelineResourceInterface))
    (hnil : ∀ nr ∈ resolvedResources, nr.2 ≠ none) :
    ∃ rs : List (String × PipelineResourceInterface),
      resolvedResources = rs.map (fun nr => (nr.1, some nr.2)) := by
  induction resolvedResources with
  | nil => exact ⟨[], rfl⟩
  | cons nr rest ih =>
    obtain ⟨rs, hrs⟩ := ih (fun x hx => hnil x (List.mem_cons_of_mem _ hx))
    obtain ⟨n, r⟩ := nr
    cases r with
    | none => exact absurd rfl (hnil (n, none) (List.mem_cons_self _ _))
    | some r => exact ⟨(n, r) :: rs, by rw [hrs]; rfl⟩

/-- C12, as stated, fails: on a heap that holds `exampleSpec`, `ApplyParameters`
given the nil TaskRun, and `ApplyResources` given a mapping whose value under
`workspace` is the nil interface value, do not return. -/
theorem ApplyParameters_nil_faults :
    load exampleHeap 17 = some exampleSpec ∧
    ApplyParameters templating.ApplyReplacements exampleHeap 17 none [⟨"greeting", "hi"⟩] =
      none ∧
    ApplyResources templating.ApplyReplacements exampleHeap 17
      [("image", some ⟨[("url", "i")]⟩), ("workspace", none)] "inputs" = none :=
  ⟨by decide!, rfl, rfl⟩

/-- C12, amended (totality for arguments that are not nil): on every heap that
holds a specification at `spec`, whatever the specification is, `ApplyReplacements`
with every map held on the heap, `ApplyParameters` with every TaskRun that is not
nil and every list of declarations, and `ApplyResources` with every mapping of
resolved resources that has no nil value and every scope, run to their end, where
a run that indexes out of range or follows nil does not, and return the address
of a `TaskSpec`: the one the function of the same name computes on values. -/
theorem ApplyReplacements_total (subst : String → GoMap → String) (h : Heap) (spec : Addr)
    (S : TaskSpec) (hS : load h spec = some S) :
    (∀ (replacements : Addr) (M : GoMap), loadMap h replacements = some M →
      ∃ h2 out, ApplyReplacements subst h spec replacements = some (h2, out) ∧
        load h2 out = some (resources.ApplyReplacements subst S M)) ∧
    (∀ (tr : Option TaskRun) (defaults : List TaskParam), tr ≠ none →
      ∃ t, tr = some t ∧
        ∃ h2 out, ApplyParameters subst h spec tr defaults = some (h2, out) ∧
          load h2 out = some (resources.ApplyParameters subst S t defaults)) ∧
    (∀ (resolvedResources : List (String × Option PipelineResourceInterface))
        (replacementStr : String), (∀ nr ∈ resolvedResources, nr.2 ≠ none) →
      ∃ rs : List (String × PipelineResourceInterface),
        resolvedResources = rs.map (fun nr => (nr.1, some nr.2)) ∧
        ∃ h2 out,
          ApplyResources subst h spec resolvedResources replacementStr = some (h2, out) ∧
          load h2 out = some (resources.ApplyResources subst S rs replacementStr)) := by
  refine ⟨?_, ?_, ?_⟩
  · intro replacements M hM
    exact ApplyReplacements_refines subst h spec replacements S M hS (cell_of_loadMap hM)
  · intro tr defaults hnil
    cases tr with
    | none => exact absurd rfl hnil
    | some t =>
      exact ⟨t, rfl, ApplyReplacements_refines subst _ spec h.length S _ (load_push hS _)
        (getElem?_push h _)⟩
  · intro resolvedResources replacementStr hnil
    obtain ⟨rs, rfl⟩ := map_some_of_ne_none resolvedResources hnil
    refine ⟨rs, rfl, ?_⟩
    simp only [ApplyResources, ApplyResources.build_resolved]
    exact ApplyReplacements_refines subst _ spec h.length S _ (load_push hS _)
      (getElem?_push h _)

/-- C12 amended, at concrete inputs: `exampleHeap`, whose specification has two
steps with shared arguments, every kind of reference present in some entry and
absent in another, and four volumes; and `emptyHeap`, whose specification has
no step and no volume. -/
theorem ApplyReplacements_total_witness :
    load exampleHeap 17 = some exampleSpec ∧ loadMap exampleHeap 0 = some exampleMap ∧
    (∃ h2 out, ApplyReplacements templating.ApplyReplacements exampleHeap 17 0 = some (h2, out) ∧
      load h2 out =
        some (resources.ApplyReplacements templating.ApplyReplacements exampleSpec
          exampleMap)) ∧
    (∃ t, some greetingRun = some t ∧
      ∃ h2 out, ApplyParameters templating.ApplyReplacements exampleHeap 17 (some greetingRun)
          [⟨"greeting", "hi"⟩] = some (h2, out) ∧
        load h2 out =
          some (resources.ApplyParameters templating.ApplyReplacements exampleSpec t
            [⟨"greeting", "hi"⟩])) ∧
    (∃ rs : List (String × PipelineResourceInterface),
      [("workspace", some (⟨[("url", "u"), ("revision", "r")]⟩ : PipelineResourceInterface)),
        ("image", some ⟨[("url", "i")]⟩)] = rs.map (fun nr => (nr.1, some nr.2)) ∧
      ∃ h2 out, ApplyResources templating.ApplyReplacements exampleHeap 17
          [("workspace", some ⟨[("url", "u"), ("revision", "r")]⟩),
            ("image", some ⟨[("url", "i")]⟩)] "inputs" = some (h2, out) ∧
        load h2 out =
          some (resources.ApplyResources templating.ApplyReplacements exampleSpec rs
            "inputs")) ∧
    load emptyHeap 1 = some { Steps := [], Volumes := [], Other := "" } ∧
    ∃ h2 out, ApplyReplacements templating.ApplyReplacements emptyHeap 1 0 = some (h2, out) ∧
      load h2 out = some { Steps := [], Volumes := [], Other := "" } :=
  ⟨by decide!, by decide!,
    (ApplyReplacements_total templating.ApplyReplacements exampleHeap 17 exampleSpec
      (by decide!)).1 0 exampleMap (by decide!),
    (ApplyReplacements_total templating.ApplyReplacements exampleHeap 17 exampleSpec
      (by decide!)).2.1 (some greetingRun) [⟨"greeting", "hi"⟩] (by decide),
    (ApplyReplacements_total templating.ApplyReplacements exampleHeap 17 exampleSpec
      (by decide!)).2.2
      [("workspace", some ⟨[("url", "u"), ("revision", "r")]⟩), ("image", some ⟨[("url", "i")]⟩)]
      "inputs" (by decide),
    by decide,
    (ApplyReplacements_total templating.ApplyReplacements emptyHeap 1
      { Steps := [], Volumes := [], Other := "" } (by decide)).1 0 [] (by decide)⟩

end mem

end resources
